import Mathlib

/-!
# CNF encoding of a structurally hashed AIG (abcSat.c)

A shallow embedding of `src/base/abci/abcSat.c` of ABC: the clause emitters
`Abc_NtkClauseTriv`, `Abc_NtkClauseTop`, `Abc_NtkClauseAnd`, `Abc_NtkClauseMux`, the
supergate collector, the structural encoding pass `Abc_NtkMiterSatCreateInt`, and the
solve orchestrator `Abc_NtkMiterSat`.

Conventions of the embedding.
* An object is named by its `Id`; a possibly complemented pointer is an `Abc_Ref`
  (object id and complement bit).
* The per-object scratch fields `pCopy`, `fMarkA`, `fMarkB` are maps from object ids.
* The SAT solver is the log of submitted clauses together with the answers of
  `sat_solver_addclause`; nothing is assumed about these answers, except where a theorem
  states the contract `RejectsOnlyConflicts` as a hypothesis.
* Recursion over the network is by fuel; `none` means the fuel ran out.
* `assert` statements do not change the control flow of the embedding; where a theorem
  needs an asserted condition it carries it as a hypothesis.
-/

namespace AbcSat

/-! ## Literals, clauses and the solver interface (satSolver.h) -/

/-- Modelled from the spec: the literal `toLitCond(v, c)` of satSolver.h, a signed literal
(variable index and polarity) packed as `v + v + (c != 0)`. -/
def toLitCond (v : Nat) (c : Bool) : Nat := v + v + (if c then 1 else 0)

/-- Modelled from the spec: `toLit` of satSolver.h, the positive literal of a variable. -/
def toLit (v : Nat) : Nat := v + v

/-- Modelled from the spec: `lit_neg` of satSolver.h, the literal of the opposite
polarity, `l ^ 1`. -/
def lit_neg (l : Nat) : Nat := l ^^^ 1

/-- Modelled from the spec: `lit_var` of satSolver.h, the variable index of a literal. -/
def lit_var (l : Nat) : Nat := l / 2

/-- Modelled from the spec: `lit_sign` of satSolver.h, true for a negative literal. -/
def lit_sign (l : Nat) : Bool := l % 2 == 1

/-- Truth value of a literal under an assignment of the solver variables. -/
def litVal (a : Nat → Bool) (l : Nat) : Bool := xor (a (lit_var l)) (lit_sign l)

/-- A clause is satisfied when one of its literals is true. -/
def clauseSat (a : Nat → Bool) (c : List Nat) : Bool := c.any (litVal a)

/-- A clause list is satisfied when every clause is. -/
def cnfSat (a : Nat → Bool) (cs : List (List Nat)) : Bool := cs.all (clauseSat a)

/-- Modelled from the spec: the SAT engine seen from the encoder ("append one clause,
returning failure if the clause is trivially conflicting"). `store` is every clause
submitted so far, oldest first; `answer` is what `sat_solver_addclause` reports for a
clause, given the clauses submitted before it. -/
structure sat_solver where
  store : List (List Nat)
  answer : List (List Nat) → List Nat → Bool

/-- Modelled from the spec: `sat_solver_addclause`: the clause is submitted and the
engine reports success (`true`) or failure (`false`). -/
def sat_solver_addclause (pSat : sat_solver) (c : List Nat) : Bool × sat_solver :=
  (pSat.answer pSat.store c, { pSat with store := pSat.store ++ [c] })

/-- Submitting a list of clauses one after the other, stopping at the first submission
that is reported as failing: the pattern of the emitters. -/
def sat_solver_addclauses : List (List Nat) → sat_solver → Bool × sat_solver
  | [], pSat => (true, pSat)
  | c :: cs, pSat =>
    let r := sat_solver_addclause pSat c
    if !r.1 then (false, r.2) else sat_solver_addclauses cs r.2

/-- The clauses submitted to `s2` after the state `s1`. -/
def newClauses (s1 s2 : sat_solver) : List (List Nat) := s2.store.drop s1.store.length

/-! ## Object references (abc.h) -/

/-- A possibly complemented pointer to an object. -/
structure Abc_Ref where
  Id : Nat
  fCompl : Bool
deriving DecidableEq, Repr

/-- Modelled from the spec: `Abc_ObjRegular`, the object a pointer refers to. -/
def Abc_ObjRegular (p : Abc_Ref) : Nat := p.Id

/-- Modelled from the spec: `Abc_ObjIsComplement`, the complement bit of a pointer. -/
def Abc_ObjIsComplement (p : Abc_Ref) : Bool := p.fCompl

/-- Modelled from the spec: `Abc_ObjNot`, the pointer with the complement bit flipped. -/
def Abc_ObjNot (p : Abc_Ref) : Abc_Ref := { p with fCompl := !p.fCompl }

/-- The solver literal of a reference: `toLitCond( Regular(p)->pCopy, IsComplement(p) )`. -/
def refLit (pCopy : Nat → Nat) (p : Abc_Ref) : Nat :=
  toLitCond (pCopy (Abc_ObjRegular p)) (Abc_ObjIsComplement p)

/-- Truth value of a reference when object `x` has value `v x`. -/
def refVal (v : Nat → Bool) (p : Abc_Ref) : Bool := xor (v p.Id) p.fCompl

/-! ## Clause emitters -/

/-- Source: `Abc_NtkClauseTriv` (abcSat.c 167-174): the unit clause of a reference. -/
def Abc_NtkClauseTriv (pSat : sat_solver) (pCopy : Nat → Nat) (pNode : Abc_Ref) :
    Bool × sat_solver :=
  sat_solver_addclause pSat
    [toLitCond (pCopy (Abc_ObjRegular pNode)) (Abc_ObjIsComplement pNode)]

/-- Source: `Abc_NtkClauseTop` (abcSat.c 187-197): one clause with one literal for each
entry of `vNodes`, in order. -/
def Abc_NtkClauseTop (pSat : sat_solver) (pCopy : Nat → Nat) (vNodes : List Abc_Ref) :
    Bool × sat_solver :=
  sat_solver_addclause pSat
    (vNodes.map fun pNode =>
      toLitCond (pCopy (Abc_ObjRegular pNode)) (Abc_ObjIsComplement pNode))

/-- Source: the first loop of `Abc_NtkClauseAnd` (abcSat.c 223-243): for each leaf the
clause `(leaf, !root)`; stops at the first failing submission. -/
def Abc_NtkClauseAnd_loop (pCopy : Nat → Nat) (Var : Nat) :
    List Abc_Ref → sat_solver → Bool × sat_solver
  | [], pSat => (true, pSat)
  | p :: rest, pSat =>
    let fComp1 := Abc_ObjIsComplement p
    let Var1 := pCopy (Abc_ObjRegular p)
    let r := sat_solver_addclause pSat [toLitCond Var1 fComp1, toLitCond Var true]
    if !r.1 then (false, r.2) else Abc_NtkClauseAnd_loop pCopy Var rest r.2

/-- Source: `Abc_NtkClauseAnd` (abcSat.c 210-261). -/
def Abc_NtkClauseAnd (pSat : sat_solver) (pCopy : Nat → Nat) (pNode : Nat)
    (vSuper : List Abc_Ref) : Bool × sat_solver :=
  let Var := pCopy pNode
  let r := Abc_NtkClauseAnd_loop pCopy Var vSuper pSat
  if !r.1 then (false, r.2)
  else
    sat_solver_addclause r.2
      ((vSuper.map fun p =>
          toLitCond (pCopy (Abc_ObjRegular p)) (!Abc_ObjIsComplement p))
        ++ [toLitCond Var false])

/-- Source: `Abc_NtkClauseMux` (abcSat.c 274-346). -/
def Abc_NtkClauseMux (pSat : sat_solver) (pCopy : Nat → Nat) (pNode pNodeC : Nat)
    (pNodeT pNodeE : Abc_Ref) : Bool × sat_solver :=
  let VarF := pCopy pNode
  let VarI := pCopy pNodeC
  let VarT := pCopy (Abc_ObjRegular pNodeT)
  let VarE := pCopy (Abc_ObjRegular pNodeE)
  let fCompT := Abc_ObjIsComplement pNodeT
  let fCompE := Abc_ObjIsComplement pNodeE
  let r1 := sat_solver_addclause pSat
    [toLitCond VarI true, toLitCond VarT (xor true fCompT), toLitCond VarF false]
  if !r1.1 then (false, r1.2) else
  let r2 := sat_solver_addclause r1.2
    [toLitCond VarI true, toLitCond VarT (xor false fCompT), toLitCond VarF true]
  if !r2.1 then (false, r2.2) else
  let r3 := sat_solver_addclause r2.2
    [toLitCond VarI false, toLitCond VarE (xor true fCompE), toLitCond VarF false]
  if !r3.1 then (false, r3.2) else
  let r4 := sat_solver_addclause r3.2
    [toLitCond VarI false, toLitCond VarE (xor false fCompE), toLitCond VarF true]
  if !r4.1 then (false, r4.2) else
  if VarT == VarE then (true, r4.2) else
  let r5 := sat_solver_addclause r4.2
    [toLitCond VarT (xor false fCompT), toLitCond VarE (xor false fCompE), toLitCond VarF true]
  if !r5.1 then (false, r5.2) else
  sat_solver_addclause r5.2
    [toLitCond VarT (xor true fCompT), toLitCond VarE (xor true fCompE), toLitCond VarF false]

/-- The six clauses of the multiplexer template of `Abc_NtkClauseMux`, in the order of
submission. -/
def muxClauses (pCopy : Nat → Nat) (pNode pNodeC : Nat) (pNodeT pNodeE : Abc_Ref) :
    List (List Nat) :=
  let VarF := pCopy pNode
  let VarI := pCopy pNodeC
  let VarT := pCopy (Abc_ObjRegular pNodeT)
  let VarE := pCopy (Abc_ObjRegular pNodeE)
  let fCompT := Abc_ObjIsComplement pNodeT
  let fCompE := Abc_ObjIsComplement pNodeE
  [ [toLitCond VarI true, toLitCond VarT (xor true fCompT), toLitCond VarF false],
    [toLitCond VarI true, toLitCond VarT (xor false fCompT), toLitCond VarF true],
    [toLitCond VarI false, toLitCond VarE (xor true fCompE), toLitCond VarF false],
    [toLitCond VarI false, toLitCond VarE (xor false fCompE), toLitCond VarF true],
    [toLitCond VarT (xor false fCompT), toLitCond VarE (xor false fCompE), toLitCond VarF true],
    [toLitCond VarT (xor true fCompT), toLitCond VarE (xor true fCompE), toLitCond VarF false] ]

/-! ## The network (abc.h) -/

/-- Modelled from the spec: the kinds of object of a structurally hashed network ("a
two-input AND gate, a primary input, or the constant-true node"), together with the
combinational outputs the encoder iterates over. -/
inductive Abc_ObjType where
  | ABC_OBJ_CONST1
  | ABC_OBJ_PI
  | ABC_OBJ_PO
  | ABC_OBJ_NODE
deriving DecidableEq, Repr

/-- Modelled from the spec: the fields of `Abc_Obj_t` the encoder reads ("two ordered
fanins each carrying an independent polarity (inversion) bit, fanout count"), and the
logic level that ABC keeps for every object of an AIG. The scratch fields `pCopy`,
`fMarkA` and `fMarkB` are kept apart, as maps from object ids. -/
structure Abc_Obj where
  ObjType : Abc_ObjType
  Fanin0 : Nat
  fCompl0 : Bool
  Fanin1 : Nat
  fCompl1 : Bool
  nFanouts : Nat
  Level : Nat
deriving DecidableEq, Repr

/-- Modelled from the spec: the network collaborator: objects by id, combinational inputs
and outputs in declaration order, the constant-1 node, and the multiplexer-shape queries
`Abc_NodeIsMuxType` and `Abc_NodeRecognizeMux` (condition node, then-literal,
else-literal), whose code is not part of abcSat.c. -/
structure Abc_Ntk where
  vObjs : List Abc_Obj
  vCis : List Nat
  vCos : List Nat
  pConst1 : Nat
  muxType : Nat → Bool
  muxOperands : Nat → Nat × Abc_Ref × Abc_Ref

/-- The object read through an id that names no object of the network. -/
def Abc_ObjNone : Abc_Obj :=
  { ObjType := .ABC_OBJ_PI, Fanin0 := 0, fCompl0 := false, Fanin1 := 0, fCompl1 := false,
    nFanouts := 0, Level := 0 }

/-- Modelled from the spec: `Abc_NtkObj`, the object with a given id. -/
def Abc_NtkObj (ntk : Abc_Ntk) (id : Nat) : Abc_Obj := ntk.vObjs.getD id Abc_ObjNone

/-- Modelled from the spec: `Abc_NtkObjNumMax`, the number of object ids in use. -/
def Abc_NtkObjNumMax (ntk : Abc_Ntk) : Nat := ntk.vObjs.length

/-- Modelled from the spec: `Abc_ObjIsNode`, the object is an internal (AND) node. -/
def Abc_ObjIsNode (ntk : Abc_Ntk) (id : Nat) : Bool :=
  (Abc_NtkObj ntk id).ObjType == .ABC_OBJ_NODE

/-- Modelled from the spec: `Abc_AigNodeIsAnd`, the AND-node type query; in a
structurally hashed network the internal nodes are exactly the two-input AND gates. -/
def Abc_AigNodeIsAnd (ntk : Abc_Ntk) (id : Nat) : Bool :=
  (Abc_NtkObj ntk id).ObjType == .ABC_OBJ_NODE

/-- Modelled from the spec: `Abc_ObjFanoutNum`, the fanout count of an object. -/
def Abc_ObjFanoutNum (ntk : Abc_Ntk) (id : Nat) : Nat := (Abc_NtkObj ntk id).nFanouts

/-- Modelled from the spec: `Abc_ObjFanin0`, the first fanin object. -/
def Abc_ObjFanin0 (ntk : Abc_Ntk) (id : Nat) : Nat := (Abc_NtkObj ntk id).Fanin0

/-- Source: `Abc_ObjFaninC0` (abc.h): the complement bit of the first fanin edge. -/
def Abc_ObjFaninC0 (ntk : Abc_Ntk) (id : Nat) : Bool := (Abc_NtkObj ntk id).fCompl0

/-- Modelled from the spec: `Abc_ObjChild0`, the first fanin with its polarity. -/
def Abc_ObjChild0 (ntk : Abc_Ntk) (id : Nat) : Abc_Ref :=
  { Id := (Abc_NtkObj ntk id).Fanin0, fCompl := (Abc_NtkObj ntk id).fCompl0 }

/-- Modelled from the spec: `Abc_ObjChild1`, the second fanin with its polarity. -/
def Abc_ObjChild1 (ntk : Abc_Ntk) (id : Nat) : Abc_Ref :=
  { Id := (Abc_NtkObj ntk id).Fanin1, fCompl := (Abc_NtkObj ntk id).fCompl1 }

/-- Modelled from the spec: `Abc_AigConst1`, the constant-1 node of the network. -/
def Abc_AigConst1 (ntk : Abc_Ntk) : Nat := ntk.pConst1

/-- Modelled from the spec: `Abc_NodeIsMuxType`, the multiplexer-shape query. -/
def Abc_NodeIsMuxType (ntk : Abc_Ntk) (id : Nat) : Bool := ntk.muxType id

/-- Modelled from the spec: `Abc_NodeRecognizeMux`: the condition node (in positive
polarity), the then-literal and the else-literal of a multiplexer-shaped node. -/
def Abc_NodeRecognizeMux (ntk : Abc_Ntk) (id : Nat) : Nat × Abc_Ref × Abc_Ref :=
  ntk.muxOperands id

/-- Writing one entry of a per-object flag. -/
def setFlag (f : Nat → Bool) (id : Nat) (b : Bool) : Nat → Bool :=
  fun j => if j = id then b else f j

/-- Writing one entry of the per-object `pCopy` slot. -/
def setCopy (f : Nat → Nat) (id : Nat) (x : Nat) : Nat → Nat :=
  fun j => if j = id then x else f j

/-- No object is marked. -/
def noMarks : Nat → Bool := fun _ => false

/-! ## Circuit semantics -/

/-- Direct simulation of the circuit: the value of object `id` when the combinational
inputs have the values `inp`. An AND node is the conjunction of its two fanin literals,
the constant node is true, every other object is an input. The recursion is bounded by
`fuel`; `Level + 1` is enough in an acyclic network. -/
def simFuel (ntk : Abc_Ntk) (inp : Nat → Bool) : Nat → Nat → Bool
  | 0, _ => false
  | fuel + 1, id =>
    match (Abc_NtkObj ntk id).ObjType with
    | .ABC_OBJ_NODE =>
      (xor (simFuel ntk inp fuel (Abc_NtkObj ntk id).Fanin0) (Abc_NtkObj ntk id).fCompl0) &&
      (xor (simFuel ntk inp fuel (Abc_NtkObj ntk id).Fanin1) (Abc_NtkObj ntk id).fCompl1)
    | .ABC_OBJ_CONST1 => true
    | _ => inp id

/-- The circuit value of an object under an input assignment. -/
def nodeValue (ntk : Abc_Ntk) (inp : Nat → Bool) (id : Nat) : Bool :=
  simFuel ntk inp ((Abc_NtkObj ntk id).Level + 1) id

/-- The network is acyclic: the logic level strictly decreases from every AND node to
its two fanins. -/
def Acyclic (ntk : Abc_Ntk) : Prop :=
  ∀ id, Abc_ObjIsNode ntk id = true →
    (Abc_NtkObj ntk (Abc_NtkObj ntk id).Fanin0).Level < (Abc_NtkObj ntk id).Level ∧
    (Abc_NtkObj ntk (Abc_NtkObj ntk id).Fanin1).Level < (Abc_NtkObj ntk id).Level

/-- A valuation of the objects that respects the gates: every AND node has the
conjunction of its fanin literals and constant-type objects are true. -/
def Consistent (ntk : Abc_Ntk) (v : Nat → Bool) : Prop :=
  (∀ id, Abc_ObjIsNode ntk id = true →
    v id = (refVal v (Abc_ObjChild0 ntk id) && refVal v (Abc_ObjChild1 ntk id))) ∧
  (∀ id, (Abc_NtkObj ntk id).ObjType = .ABC_OBJ_CONST1 → v id = true)

/-! ## Supergate collector -/

/-- The leaf list under construction and the `fMarkB` flags. -/
structure SuperState where
  vSuper : List Abc_Ref
  fMarkB : Nat → Bool

/-- Source: the two searches of `Abc_NtkCollectSupergate_rec` for a node that is already
marked (abcSat.c 365-372): `some 1` when the reference is in the list in the same
polarity, `some (-1)` when it is there in the opposite polarity, `none` when neither
search returns (the `assert( 0 )` of line 373). -/
def Abc_NtkCollectSupergate_find (vSuper : List Abc_Ref) (pNode : Abc_Ref) : Option Int :=
  if pNode ∈ vSuper then some 1
  else if Abc_ObjNot pNode ∈ vSuper then some (-1)
  else none

/-- Source: `Abc_NtkCollectSupergate_rec` (abcSat.c 359-393). The result is the return
value and the updated leaf list and marks. After the `assert( 0 )` of line 373 the code
returns 0. -/
def Abc_NtkCollectSupergate_rec (ntk : Abc_Ntk) (fStopAtMux : Bool) :
    Nat → Abc_Ref → Bool → SuperState → Option (Int × SuperState)
  | 0, _, _, _ => none
  | fuel + 1, pNode, fFirst, st =>
    if st.fMarkB (Abc_ObjRegular pNode) then
      some ((Abc_NtkCollectSupergate_find st.vSuper pNode).getD 0, st)
    else if !fFirst &&
        (Abc_ObjIsComplement pNode || !Abc_ObjIsNode ntk pNode.Id ||
          decide (Abc_ObjFanoutNum ntk pNode.Id > 1) ||
          (fStopAtMux && Abc_NodeIsMuxType ntk pNode.Id)) then
      some (0, { vSuper := st.vSuper ++ [pNode],
                 fMarkB := setFlag st.fMarkB (Abc_ObjRegular pNode) true })
    else
      match Abc_NtkCollectSupergate_rec ntk fStopAtMux fuel
          (Abc_ObjChild0 ntk pNode.Id) false st with
      | none => none
      | some (RetValue1, st1) =>
        match Abc_NtkCollectSupergate_rec ntk fStopAtMux fuel
            (Abc_ObjChild1 ntk pNode.Id) false st1 with
        | none => none
        | some (RetValue2, st2) =>
          if RetValue1 = -1 ∨ RetValue2 = -1 then some (-1, st2)
          else some (if RetValue1 ≠ 0 ∨ RetValue2 ≠ 0 then 1 else 0, st2)

/-- Source: the unmarking loop of `Abc_NtkCollectSupergate` (abcSat.c 415-416). -/
def Abc_NtkCollectSupergate_unmark (vNodes : List Abc_Ref) (fMarkB : Nat → Bool) :
    Nat → Bool :=
  vNodes.foldl (fun m p => setFlag m (Abc_ObjRegular p) false) fMarkB

/-- Source: `Abc_NtkCollectSupergate` (abcSat.c 406-421): the collected leaves, or the
empty list on the contradiction path, and the marks after unmarking. The recursion
depth is bounded by the level of the root. -/
def Abc_NtkCollectSupergate (ntk : Abc_Ntk) (pNode : Abc_Ref) (fStopAtMux : Bool)
    (fMarkB : Nat → Bool) : Option SuperState :=
  match Abc_NtkCollectSupergate_rec ntk fStopAtMux ((Abc_NtkObj ntk pNode.Id).Level + 1)
      pNode true { vSuper := [], fMarkB := fMarkB } with
  | none => none
  | some (RetValue, st) =>
    some { vSuper := if RetValue = -1 then [] else st.vSuper,
           fMarkB := Abc_NtkCollectSupergate_unmark st.vSuper st.fMarkB }

/-- Source: the test `RetValue == -1` of `Abc_NtkCollectSupergate` (abcSat.c 419): the
recursive collection met a node in both polarities, the contradiction path. -/
def Abc_NtkCollectSupergate_contradiction (ntk : Abc_Ntk) (pNode : Abc_Ref)
    (fStopAtMux : Bool) (fMarkB : Nat → Bool) : Bool :=
  match Abc_NtkCollectSupergate_rec ntk fStopAtMux ((Abc_NtkObj ntk pNode.Id).Level + 1)
      pNode true { vSuper := [], fMarkB := fMarkB } with
  | none => false
  | some (RetValue, _) => RetValue == -1

/-- Source: `Abc_NtkCollectSupergate_rec` (abcSat.c 359-393) with a ghost list: the same
recursion, which also returns the references that it expands, that is, those for which
it goes through the branches (lines 387-388), in the order of the calls. -/
def Abc_NtkCollectSupergate_rec_expanded (ntk : Abc_Ntk) (fStopAtMux : Bool) :
    Nat → Abc_Ref → Bool → SuperState → Option (Int × SuperState × List Abc_Ref)
  | 0, _, _, _ => none
  | fuel + 1, pNode, fFirst, st =>
    if st.fMarkB (Abc_ObjRegular pNode) then
      some ((Abc_NtkCollectSupergate_find st.vSuper pNode).getD 0, st, [])
    else if !fFirst &&
        (Abc_ObjIsComplement pNode || !Abc_ObjIsNode ntk pNode.Id ||
          decide (Abc_ObjFanoutNum ntk pNode.Id > 1) ||
          (fStopAtMux && Abc_NodeIsMuxType ntk pNode.Id)) then
      some (0, { vSuper := st.vSuper ++ [pNode],
                 fMarkB := setFlag st.fMarkB (Abc_ObjRegular pNode) true }, [])
    else
      match Abc_NtkCollectSupergate_rec_expanded ntk fStopAtMux fuel
          (Abc_ObjChild0 ntk pNode.Id) false st with
      | none => none
      | some (RetValue1, st1, ex1) =>
        match Abc_NtkCollectSupergate_rec_expanded ntk fStopAtMux fuel
            (Abc_ObjChild1 ntk pNode.Id) false st1 with
        | none => none
        | some (RetValue2, st2, ex2) =>
          if RetValue1 = -1 ∨ RetValue2 = -1 then some (-1, st2, pNode :: ex1 ++ ex2)
          else some (if RetValue1 ≠ 0 ∨ RetValue2 ≠ 0 then 1 else 0, st2, pNode :: ex1 ++ ex2)

/-- Source: `Abc_NtkCollectSupergate_rec` (abcSat.c 359-393) with a ghost flag: the same
recursion, which also returns whether some call reached the `assert( 0 )` of line 373,
that is, met a marked node that neither of the two searches finds in the leaf list. -/
def Abc_NtkCollectSupergate_rec_checked (ntk : Abc_Ntk) (fStopAtMux : Bool) :
    Nat → Abc_Ref → Bool → SuperState → Option (Int × SuperState × Bool)
  | 0, _, _, _ => none
  | fuel + 1, pNode, fFirst, st =>
    if st.fMarkB (Abc_ObjRegular pNode) then
      some ((Abc_NtkCollectSupergate_find st.vSuper pNode).getD 0, st,
        (Abc_NtkCollectSupergate_find st.vSuper pNode).isNone)
    else if !fFirst &&
        (Abc_ObjIsComplement pNode || !Abc_ObjIsNode ntk pNode.Id ||
          decide (Abc_ObjFanoutNum ntk pNode.Id > 1) ||
          (fStopAtMux && Abc_NodeIsMuxType ntk pNode.Id)) then
      some (0, { vSuper := st.vSuper ++ [pNode],
                 fMarkB := setFlag st.fMarkB (Abc_ObjRegular pNode) true }, false)
    else
      match Abc_NtkCollectSupergate_rec_checked ntk fStopAtMux fuel
          (Abc_ObjChild0 ntk pNode.Id) false st with
      | none => none
      | some (RetValue1, st1, b1) =>
        match Abc_NtkCollectSupergate_rec_checked ntk fStopAtMux fuel
            (Abc_ObjChild1 ntk pNode.Id) false st1 with
        | none => none
        | some (RetValue2, st2, b2) =>
          if RetValue1 = -1 ∨ RetValue2 = -1 then some (-1, st2, b1 || b2)
          else some (if RetValue1 ≠ 0 ∨ RetValue2 ≠ 0 then 1 else 0, st2, b1 || b2)

/-! ## The structural encoding pass -/

/-- The state of `Abc_NtkMiterSatCreateInt`: the solver, the list `vNodes` of the nodes
that have a variable, and the scratch fields of the objects. -/
structure MiterState where
  pSat : sat_solver
  vNodes : List Nat
  pCopy : Nat → Nat
  fMarkA : Nat → Bool
  fMarkB : Nat → Bool

/-- Source: the allocation step of `Abc_NtkMiterSatCreateInt` (abcSat.c 499-504, 534-539
and 553-558): an object without `fMarkA` is marked, gets the next variable and is
appended to `vNodes`. -/
def Abc_NtkMiterSatCreateInt_addVar (st : MiterState) (pFanin : Nat) : MiterState :=
  if st.fMarkA pFanin = false then
    { st with
      fMarkA := setFlag st.fMarkA pFanin true
      pCopy := setCopy st.pCopy pFanin st.vNodes.length
      vNodes := st.vNodes ++ [pFanin] }
  else st

/-- Source: the loops "add the fanin nodes to explore" (abcSat.c 531-540 and 550-559). -/
def Abc_NtkMiterSatCreateInt_addVars (st : MiterState) (vSuper : List Abc_Ref) : MiterState :=
  vSuper.foldl (fun s pFanin => Abc_NtkMiterSatCreateInt_addVar s (Abc_ObjRegular pFanin)) st

/-- Source: the beginning of `Abc_NtkMiterSatCreateInt` (abcSat.c 468-482): the `pCopy`
of the combinational inputs is cleared, the constant node is marked, gets variable 0 and
is the first entry of `vNodes`, and its unit clause is submitted; the result of this
submission is not looked at. -/
def Abc_NtkMiterSatCreateInt_const (ntk : Abc_Ntk) (pSat : sat_solver) (pCopy : Nat → Nat)
    (fMarkA fMarkB : Nat → Bool) : MiterState :=
  let pCopy0 : Nat → Nat := fun id => if id ∈ ntk.vCis then 0 else pCopy id
  let pNode := Abc_AigConst1 ntk
  let fMarkA1 := setFlag fMarkA pNode true
  let pCopy1 := setCopy pCopy0 pNode 0
  let r := Abc_NtkClauseTriv pSat pCopy1 { Id := pNode, fCompl := false }
  { pSat := r.2, vNodes := [pNode], pCopy := pCopy1, fMarkA := fMarkA1, fMarkB := fMarkB }

/-- Source: the top-level part of `Abc_NtkMiterSatCreateInt` (abcSat.c 492-509), after
the constant node: the driver of every combinational output gets a variable, and the
top-level clause over the output literals is submitted. The result is the answer to the
top-level clause and the state after it. -/
def Abc_NtkMiterSatCreateInt_top (ntk : Abc_Ntk) (pSat : sat_solver) (pCopy : Nat → Nat)
    (fMarkA fMarkB : Nat → Bool) : Bool × MiterState :=
  let st1 := Abc_NtkMiterSatCreateInt_const ntk pSat pCopy fMarkA fMarkB
  let st2 := ntk.vCos.foldl
    (fun s pNode => Abc_NtkMiterSatCreateInt_addVar s (Abc_ObjFanin0 ntk pNode)) st1
  let vSuper := ntk.vCos.map fun pNode => Abc_ObjChild0 ntk pNode
  let t := Abc_NtkClauseTop st2.pSat st2.pCopy vSuper
  (t.1, { st2 with pSat := t.2 })

/-- Source: the body of the loop "add the clauses" of `Abc_NtkMiterSatCreateInt` for an
AND node (abcSat.c 520-572). The Boolean is `false` when a clause submission failed
(`goto Quits`); `none` only when the supergate collection ran out of fuel. -/
def Abc_NtkMiterSatCreateInt_node (ntk : Abc_Ntk) (fUseMuxes : Bool) (st : MiterState)
    (pNode : Nat) : Option (Bool × MiterState) :=
  if fUseMuxes && Abc_NodeIsMuxType ntk pNode then
    let pNodeC := (Abc_NodeRecognizeMux ntk pNode).1
    let pNodeT := (Abc_NodeRecognizeMux ntk pNode).2.1
    let pNodeE := (Abc_NodeRecognizeMux ntk pNode).2.2
    let vSuper : List Abc_Ref := [{ Id := pNodeC, fCompl := false }, pNodeT, pNodeE]
    let st1 := Abc_NtkMiterSatCreateInt_addVars st vSuper
    let r := Abc_NtkClauseMux st1.pSat st1.pCopy pNode pNodeC pNodeT pNodeE
    some (r.1, { st1 with pSat := r.2 })
  else
    match Abc_NtkCollectSupergate ntk { Id := pNode, fCompl := false } fUseMuxes st.fMarkB with
    | none => none
    | some sup =>
      let st1 := Abc_NtkMiterSatCreateInt_addVars { st with fMarkB := sup.fMarkB } sup.vSuper
      if sup.vSuper.length = 0 then
        let r := Abc_NtkClauseTriv st1.pSat st1.pCopy (Abc_ObjNot { Id := pNode, fCompl := false })
        some (r.1, { st1 with pSat := r.2 })
      else
        let r := Abc_NtkClauseAnd st1.pSat st1.pCopy pNode sup.vSuper
        some (r.1, { st1 with pSat := r.2 })

/-- Source: the loop "add the clauses" of `Abc_NtkMiterSatCreateInt` (abcSat.c 513-573)
over the growing list `vNodes`, from position `i`; the result is `RetValue` and the
final state. `none` only when the fuel ran out. -/
def Abc_NtkMiterSatCreateInt_loop (ntk : Abc_Ntk) (fUseMuxes : Bool) :
    Nat → Nat → MiterState → Option (Int × MiterState)
  | 0, _, _ => none
  | fuel + 1, i, st =>
    match st.vNodes.get? i with
    | none => some (1, st)
    | some pNode =>
      if !Abc_AigNodeIsAnd ntk pNode then
        Abc_NtkMiterSatCreateInt_loop ntk fUseMuxes fuel (i + 1) st
      else
        match Abc_NtkMiterSatCreateInt_node ntk fUseMuxes st pNode with
        | none => none
        | some (false, st1) => some (0, st1)
        | some (true, st1) => Abc_NtkMiterSatCreateInt_loop ntk fUseMuxes fuel (i + 1) st1

/-- Source: `Abc_NtkMiterSatCreateInt` (abcSat.c 455-597), with `fUseMuxes = 1`. The
result is `RetValue` and the state at `Quits`. Every iteration of the main loop handles
one entry of `vNodes`, so one more than the number of objects bounds the iterations. -/
def Abc_NtkMiterSatCreateInt (ntk : Abc_Ntk) (pSat : sat_solver) (pCopy : Nat → Nat)
    (fMarkA fMarkB : Nat → Bool) : Option (Int × MiterState) :=
  let fUseMuxes := true
  let t := Abc_NtkMiterSatCreateInt_top ntk pSat pCopy fMarkA fMarkB
  if !t.1 then some (0, t.2)
  else Abc_NtkMiterSatCreateInt_loop ntk fUseMuxes (Abc_NtkObjNumMax ntk + 1) 0 t.2

/-! ## Solver creation and the solve orchestrator -/

/-- Modelled from the spec: the three results of the bounded search ("satisfiable,
unsatisfiable, or resource-limit-exceeded"): the `lbool` constants of satSolver.h. -/
inductive lbool where
  | l_Undef
  | l_True
  | l_False
deriving DecidableEq, Repr

/-- Modelled from the spec: the SAT engine collaborator: the answers of
`sat_solver_addclause`, the status of `sat_solver_simplify`, the result of
`sat_solver_solve` under a conflict limit and an inspection limit, the satisfying
assignment read back after a search, and the conflict and inspection counters. Each is a
function of the clauses submitted so far. -/
structure SatEngine where
  answer : List (List Nat) → List Nat → Bool
  simplify : List (List Nat) → Bool
  solve : List (List Nat) → Int → Int → lbool
  model : List (List Nat) → Int → Int → Nat → Bool
  conflicts : List (List Nat) → Int → Int → Int
  inspects : List (List Nat) → Int → Int → Int

/-- Modelled from the spec: `sat_solver_new`, a solver instance without clauses. -/
def sat_solver_new (E : SatEngine) : sat_solver := { store := [], answer := E.answer }

/-- The scratch fields of the objects of a network. -/
structure NtkMarks where
  pCopy : Nat → Nat
  fMarkA : Nat → Bool
  fMarkB : Nat → Bool

/-- Source: `Abc_NtkMiterSatCreate` (abcSat.c 610-637) on a structurally hashed network
(the branch for BDD logic networks, lines 617-618, concerns another kind of network).
The result is the solver, `none` standing for `NULL`, and the scratch fields after the
call: `fMarkA` is cleared on every object of the network. -/
def Abc_NtkMiterSatCreate (E : SatEngine) (ntk : Abc_Ntk) (m : NtkMarks) :
    Option (Option sat_solver × NtkMarks) :=
  let pSat := sat_solver_new E
  match Abc_NtkMiterSatCreateInt ntk pSat m.pCopy m.fMarkA m.fMarkB with
  | none => none
  | some (RetValue, st) =>
    let m1 : NtkMarks :=
      { pCopy := st.pCopy
        fMarkA := fun id => if id < Abc_NtkObjNumMax ntk then false else st.fMarkA id
        fMarkB := st.fMarkB }
    if RetValue = 0 then some (none, m1) else some (some st.pSat, m1)

/-- Source: `Abc_NtkGetCiSatVarNums` (abcSat.c 143-152): the `pCopy` of every
combinational input, in the order of the inputs. -/
def Abc_NtkGetCiSatVarNums (ntk : Abc_Ntk) (pCopy : Nat → Nat) : List Nat :=
  ntk.vCis.foldl (fun vCiIds pObj => vCiIds ++ [pCopy pObj]) []

/-- Modelled from the spec: `Sat_SolverGetModel`: the values the satisfying assignment
gives to the listed variables, in the order of the list. -/
def Sat_SolverGetModel (model : Nat → Bool) (pVars : List Nat) : List Bool :=
  pVars.map model

/-- The calls to the SAT engine that `Abc_NtkMiterSat` makes after the clauses are
loaded. -/
inductive SatCall where
  | simplify
  | solve
deriving DecidableEq, Repr

/-- What `Abc_NtkMiterSat` leaves behind: the return value, the counterexample
`pNtk->pModel` when one was stored, the two statistics the caller may ask for, and the
engine calls made, in order. -/
structure MiterSatResult where
  RetValue : Int
  pModel : Option (List Bool)
  NumConfs : Int
  NumInspects : Int
  calls : List SatCall

/-- Source: `Abc_NtkMiterSat` (abcSat.c 47-130). `sat_solver_solve` returns one of the
three `lbool` constants, so the final `else assert( 0 )` of the classification has no
counterpart. `none` only when clause creation ran out of fuel. -/
def Abc_NtkMiterSat (E : SatEngine) (ntk : Abc_Ntk) (m : NtkMarks)
    (nConfLimit nInsLimit : Int) : Option MiterSatResult :=
  match Abc_NtkMiterSatCreate E ntk m with
  | none => none
  | some (none, _) =>
    some { RetValue := 1, pModel := none, NumConfs := 0, NumInspects := 0, calls := [] }
  | some (some pSat, m1) =>
    if E.simplify pSat.store = false then
      some { RetValue := 1, pModel := none, NumConfs := 0, NumInspects := 0,
             calls := [.simplify] }
    else
      let status := E.solve pSat.store nConfLimit nInsLimit
      let RetValue : Int :=
        match status with
        | .l_Undef => -1
        | .l_True => 0
        | .l_False => 1
      let pModel :=
        if status = .l_True then
          let vCiIds := Abc_NtkGetCiSatVarNums ntk m1.pCopy
          some (Sat_SolverGetModel (E.model pSat.store nConfLimit nInsLimit) vCiIds)
        else none
      some { RetValue := RetValue, pModel := pModel,
             NumConfs := E.conflicts pSat.store nConfLimit nInsLimit,
             NumInspects := E.inspects pSat.store nConfLimit nInsLimit,
             calls := [.simplify, .solve] }

/-! ## Cover-based encoding of a logic network -/

/-- Modelled from the spec: what `Abc_NodeAddClauses` looks at in the BDD `pNode->pData` of
a node: whether the regular pointer is the constant-one node of the manager
(`Cudd_Regular(p) == Cudd_ReadOne(dd)`), and whether the pointer is complemented
(`Cudd_IsComplement(p)`). -/
structure DdNode where
  regularIsOne : Bool
  isComplement : Bool
deriving DecidableEq, Repr

/-- The character at position `i` of a C string: the characters of the list, then the
terminating zero. -/
def Abc_SopChar (pSop : List Char) (i : Nat) : Char := pSop.getD i (Char.ofNat 0)

/-- Source: the loop over the fanins that fills `vVars` for one cube (abcSat.c 690-696
and 715-721): the fanin at position `i` contributes its positive literal when the cube
has `'0'` at `i`, its negative literal when the cube has `'1'`, and nothing otherwise. -/
def Abc_NodeAddClauses_lits (pCube : Nat → Char) : Nat → List Nat → List Nat
  | _, [] => []
  | i, pFanin :: rest =>
    (if pCube i = '0' then [toLit pFanin]
     else if pCube i = '1' then [lit_neg (toLit pFanin)]
     else []) ++ Abc_NodeAddClauses_lits pCube (i + 1) rest

/-- Source: one of the two loops over the cubes of `Abc_NodeAddClauses` (abcSat.c 682-704
and 707-729), from cube number `c`: the cube starts at position `c * (nFanins + 3)` of
the string, the loop ends at a cube that starts with the terminating zero, and every
cube gives one clause, closed by the literal `nodeLit` of the node. The Boolean is
`false` when a submission failed; `none` only when the fuel ran out. -/
def Abc_NodeAddClauses_phase (pSop : List Char) (vFanins : List Nat) (nodeLit : Nat) :
    Nat → Nat → sat_solver → Option (Bool × sat_solver)
  | 0, _, _ => none
  | fuel + 1, c, pSat =>
    let nFanins := vFanins.length
    let pCube := c * (nFanins + 3)
    if Abc_SopChar pSop pCube = Char.ofNat 0 then some (true, pSat)
    else
      let vVars :=
        Abc_NodeAddClauses_lits (fun i => Abc_SopChar pSop (pCube + i)) 0 vFanins ++ [nodeLit]
      let r := sat_solver_addclause pSat vVars
      if !r.1 then some (false, r.2)
      else Abc_NodeAddClauses_phase pSop vFanins nodeLit fuel (c + 1) r.2

/-- Source: `Abc_NodeAddClauses` (abcSat.c 653-731) for a node with the identifier
`pNode`, the fanins `vFanins` and the BDD `pData`; the variable of an object is its
identifier. The Boolean is the return value. Every cube has at least three characters,
so a loop over the cubes of a string makes at most one more iteration than the string
has characters. -/
def Abc_NodeAddClauses (pSat : sat_solver) (pSop0 pSop1 : List Char) (pNode : Nat)
    (vFanins : List Nat) (pData : DdNode) : Option (Bool × sat_solver) :=
  if pData.regularIsOne then
    let vVars := if !pData.isComplement then [toLit pNode] else [lit_neg (toLit pNode)]
    let r := sat_solver_addclause pSat vVars
    if !r.1 then some (false, r.2) else some (true, r.2)
  else
    match Abc_NodeAddClauses_phase pSop0 vFanins (lit_neg (toLit pNode))
        (pSop0.length + 1) 0 pSat with
    | none => none
    | some (false, pSat1) => some (false, pSat1)
    | some (true, pSat1) =>
      Abc_NodeAddClauses_phase pSop1 vFanins (toLit pNode) (pSop1.length + 1) 0 pSat1

/-- Source: `Abc_NodeAddClausesTop` (abcSat.c 744-804) for the output `pNode`; the
variable of an object is its identifier. -/
def Abc_NodeAddClausesTop (ntk : Abc_Ntk) (pSat : sat_solver) (pNode : Nat) :
    Bool × sat_solver :=
  let pFanin := Abc_ObjFanin0 ntk pNode
  let c1 := if Abc_ObjFaninC0 ntk pNode then [toLit pFanin, toLit pNode]
    else [lit_neg (toLit pFanin), toLit pNode]
  let c2 := if Abc_ObjFaninC0 ntk pNode then [lit_neg (toLit pFanin), lit_neg (toLit pNode)]
    else [toLit pFanin, lit_neg (toLit pNode)]
  let r1 := sat_solver_addclause pSat c1
  if !r1.1 then (false, r1.2) else
  let r2 := sat_solver_addclause r1.2 c2
  if !r2.1 then (false, r2.2) else
  let r3 := sat_solver_addclause r2.2 [toLit pNode]
  if !r3.1 then (false, r3.2) else (true, r3.2)

/-- The cover in the string format that `Abc_NodeAddClauses` reads: every cube is
followed by a blank, the output character and a newline, so that a cube of `n`
characters takes `n + 3` characters of the string. -/
def Abc_SopString : List (List Char) → Char → List Char
  | [], _ => []
  | cube :: rest, out => cube ++ [' ', out, '\n'] ++ Abc_SopString rest out

/-- An input vector lies in a cube: an input with `'0'` in the cube is false, an input
with `'1'` is true, and an input with `'-'` is free. -/
def cubeContains : List Char → List Bool → Bool
  | ch :: cube, b :: x =>
    (if ch = '0' then !b else if ch = '1' then b else true) && cubeContains cube x
  | _, _ => true

/-- An input vector lies in a cover when it lies in one of its cubes. -/
def coverContains (cubes : List (List Char)) (x : List Bool) : Bool :=
  cubes.any fun cube => cubeContains cube x

/-- A cover of width `n`: every cube has `n` characters, each `'0'`, `'1'` or `'-'`. -/
def IsCover (n : Nat) (cubes : List (List Char)) : Prop :=
  ∀ cube ∈ cubes, cube.length = n ∧ ∀ ch ∈ cube, ch = '0' ∨ ch = '1' ∨ ch = '-'

/-- The clause of one cube: for every input, in order, the positive literal of the
variable when the cube has `'0'`, the negative literal when it has `'1'`. -/
def cubeLits : List Char → List Nat → List Nat
  | ch :: cube, v :: vs =>
    (if ch = '0' then [toLit v] else if ch = '1' then [lit_neg (toLit v)] else [])
      ++ cubeLits cube vs
  | _, _ => []

/-! ## Well-formed networks -/

/-- The well-formedness of a structurally hashed AIG that the encoding relies on: the
network is acyclic; the fanins of AND nodes, the drivers of the outputs and the
constant node are objects of the network; the constant-1 node is the only object of
constant type; and the multiplexer recognizer returns, for every multiplexer-shaped AND
node, operands of the network below the node with `node = condition ? then : else`
under every valuation that respects the gates. -/
structure Abc_NtkIsStrash (ntk : Abc_Ntk) : Prop where
  acyclic : Acyclic ntk
  faninsInRange : ∀ id, Abc_ObjIsNode ntk id = true →
    (Abc_NtkObj ntk id).Fanin0 < Abc_NtkObjNumMax ntk ∧
    (Abc_NtkObj ntk id).Fanin1 < Abc_NtkObjNumMax ntk
  const1InRange : Abc_AigConst1 ntk < Abc_NtkObjNumMax ntk
  const1Type : (Abc_NtkObj ntk (Abc_AigConst1 ntk)).ObjType = .ABC_OBJ_CONST1
  const1Unique : ∀ id, (Abc_NtkObj ntk id).ObjType = .ABC_OBJ_CONST1 → id = Abc_AigConst1 ntk
  cosInRange : ∀ co ∈ ntk.vCos, Abc_ObjFanin0 ntk co < Abc_NtkObjNumMax ntk
  muxInRange : ∀ id, Abc_ObjIsNode ntk id = true → Abc_NodeIsMuxType ntk id = true →
    (Abc_NodeRecognizeMux ntk id).1 < Abc_NtkObjNumMax ntk ∧
    (Abc_NodeRecognizeMux ntk id).2.1.Id < Abc_NtkObjNumMax ntk ∧
    (Abc_NodeRecognizeMux ntk id).2.2.Id < Abc_NtkObjNumMax ntk
  muxBelow : ∀ id, Abc_ObjIsNode ntk id = true → Abc_NodeIsMuxType ntk id = true →
    (Abc_NtkObj ntk (Abc_NodeRecognizeMux ntk id).1).Level < (Abc_NtkObj ntk id).Level ∧
    (Abc_NtkObj ntk (Abc_NodeRecognizeMux ntk id).2.1.Id).Level < (Abc_NtkObj ntk id).Level ∧
    (Abc_NtkObj ntk (Abc_NodeRecognizeMux ntk id).2.2.Id).Level < (Abc_NtkObj ntk id).Level
  muxValue : ∀ id, Abc_ObjIsNode ntk id = true → Abc_NodeIsMuxType ntk id = true →
    ∀ v, Consistent ntk v →
      v id = if v (Abc_NodeRecognizeMux ntk id).1 then refVal v (Abc_NodeRecognizeMux ntk id).2.1
             else refVal v (Abc_NodeRecognizeMux ntk id).2.2

/-- The part of the well-formedness that makes the pass return: the network is acyclic,
and the fanins of AND nodes, the constant node, the drivers of the outputs and the
operands the multiplexer recognizer returns are objects of the network. -/
structure Abc_NtkInRange (ntk : Abc_Ntk) : Prop where
  acyclic : Acyclic ntk
  faninsInRange : ∀ id, Abc_ObjIsNode ntk id = true →
    (Abc_NtkObj ntk id).Fanin0 < Abc_NtkObjNumMax ntk ∧
    (Abc_NtkObj ntk id).Fanin1 < Abc_NtkObjNumMax ntk
  const1InRange : Abc_AigConst1 ntk < Abc_NtkObjNumMax ntk
  cosInRange : ∀ co ∈ ntk.vCos, Abc_ObjFanin0 ntk co < Abc_NtkObjNumMax ntk
  muxInRange : ∀ id, Abc_ObjIsNode ntk id = true → Abc_NodeIsMuxType ntk id = true →
    (Abc_NodeRecognizeMux ntk id).1 < Abc_NtkObjNumMax ntk ∧
    (Abc_NodeRecognizeMux ntk id).2.1.Id < Abc_NtkObjNumMax ntk ∧
    (Abc_NodeRecognizeMux ntk id).2.2.Id < Abc_NtkObjNumMax ntk

/-- A decidable test of `Acyclic`: objects outside `vObjs` are not AND nodes, so only
the listed objects have to be looked at. -/
def Abc_NtkCheckAcyclic (ntk : Abc_Ntk) : Bool :=
  (List.range (Abc_NtkObjNumMax ntk)).all fun id =>
    !Abc_ObjIsNode ntk id ||
      (decide ((Abc_NtkObj ntk (Abc_NtkObj ntk id).Fanin0).Level < (Abc_NtkObj ntk id).Level) &&
       decide ((Abc_NtkObj ntk (Abc_NtkObj ntk id).Fanin1).Level < (Abc_NtkObj ntk id).Level))

/-- A decidable test of the structural part of `Abc_NtkIsStrash`. -/
def Abc_NtkCheck (ntk : Abc_Ntk) : Bool :=
  Abc_NtkCheckAcyclic ntk &&
  ((List.range (Abc_NtkObjNumMax ntk)).all fun id =>
    (!Abc_ObjIsNode ntk id ||
      (decide ((Abc_NtkObj ntk id).Fanin0 < Abc_NtkObjNumMax ntk) &&
       decide ((Abc_NtkObj ntk id).Fanin1 < Abc_NtkObjNumMax ntk))) &&
    (decide ((Abc_NtkObj ntk id).ObjType = .ABC_OBJ_CONST1 → id = Abc_AigConst1 ntk))) &&
  decide (Abc_AigConst1 ntk < Abc_NtkObjNumMax ntk) &&
  decide ((Abc_NtkObj ntk (Abc_AigConst1 ntk)).ObjType = .ABC_OBJ_CONST1) &&
  ntk.vCos.all fun co => decide (Abc_ObjFanin0 ntk co < Abc_NtkObjNumMax ntk)

/-- A decidable test that the two fanins of every AND node are different nodes, as
structural hashing guarantees. -/
def Abc_NtkCheckFanins (ntk : Abc_Ntk) : Bool :=
  (List.range (Abc_NtkObjNumMax ntk)).all fun id =>
    !Abc_ObjIsNode ntk id ||
      decide ((Abc_NtkObj ntk id).Fanin0 ≠ (Abc_NtkObj ntk id).Fanin1)

/-! ## Invariants of the collector and of the encoding pass -/

/-- Every mark of `fMarkB` belongs to a node of the leaf list. -/
def MarkInv (st : SuperState) : Prop :=
  ∀ id, st.fMarkB id = true → ∃ p ∈ st.vSuper, p.Id = id

/-- The allocation invariant of the pass: `vNodes` has no node twice, the node at
position `i` has variable `i`, and `fMarkA` is set exactly on the nodes of `vNodes`. -/
def AllocInv (st : MiterState) : Prop :=
  st.vNodes.Nodup ∧
  (∀ (i : Nat) (h : i < st.vNodes.length), st.pCopy (st.vNodes[i]) = i) ∧
  (∀ x, st.fMarkA x = true ↔ x ∈ st.vNodes)

/-- What bounds the length of `vNodes`, whatever the marks were on entry: no node
occurs twice, every node of the list is marked and is an object of the network. -/
def VarsInv (ntk : Abc_Ntk) (st : MiterState) : Prop :=
  st.vNodes.Nodup ∧
  (∀ x ∈ st.vNodes, st.fMarkA x = true) ∧
  (∀ x ∈ st.vNodes, x < Abc_NtkObjNumMax ntk)

/-- The state `st2` comes after `st1` in a run of the pass: clauses and nodes are only
appended, the solver answers as before, and a node that has its variable keeps it. -/
def Extends (st1 st2 : MiterState) : Prop :=
  (∃ rest, st2.pSat.store = st1.pSat.store ++ rest) ∧
  st2.pSat.answer = st1.pSat.answer ∧
  (∃ more, st2.vNodes = st1.vNodes ++ more) ∧
  (∀ x, st1.fMarkA x = true → st2.fMarkA x = true ∧ st2.pCopy x = st1.pCopy x)

/-- Two states of the pass that differ only in the `pCopy` of nodes without a variable:
the solver, the list `vNodes` and the marks are the same, and every node that is marked
with `fMarkA` has the same `pCopy`. -/
def SamePass (st st2 : MiterState) : Prop :=
  st2.pSat = st.pSat ∧ st2.vNodes = st.vNodes ∧ st2.fMarkA = st.fMarkA ∧
  st2.fMarkB = st.fMarkB ∧ ∀ x, st.fMarkA x = true → st2.pCopy x = st.pCopy x

/-- The nodes whose variables occur in the clauses of an AND node: the operands of a
multiplexer, or the leaves of the supergate. -/
def encOperands (ntk : Abc_Ntk) (x : Nat) : List Nat :=
  if Abc_NodeIsMuxType ntk x = true then
    [(Abc_NodeRecognizeMux ntk x).1, (Abc_NodeRecognizeMux ntk x).2.1.Id,
      (Abc_NodeRecognizeMux ntk x).2.2.Id]
  else
    match Abc_NtkCollectSupergate ntk { Id := x, fCompl := false } true noMarks with
    | none => []
    | some sup => sup.vSuper.map fun p => p.Id

/-- The relation between the variable of an AND node and the variables of its operands
that the clauses of the node express under an assignment `a`: the if-then-else of the
multiplexer operands, or the conjunction of the supergate leaves, or constant false when
the collector returned the empty list. -/
def encRel (ntk : Abc_Ntk) (a : Nat → Bool) (pCopy : Nat → Nat) (x : Nat) : Prop :=
  if Abc_NodeIsMuxType ntk x = true then
    a (pCopy x) =
      if a (pCopy (Abc_NodeRecognizeMux ntk x).1) then
        xor (a (pCopy (Abc_NodeRecognizeMux ntk x).2.1.Id)) (Abc_NodeRecognizeMux ntk x).2.1.fCompl
      else
        xor (a (pCopy (Abc_NodeRecognizeMux ntk x).2.2.Id)) (Abc_NodeRecognizeMux ntk x).2.2.fCompl
  else
    match Abc_NtkCollectSupergate ntk { Id := x, fCompl := false } true noMarks with
    | none => True
    | some sup =>
      a (pCopy x) =
        if sup.vSuper = [] then false
        else sup.vSuper.all fun p => xor (a (pCopy p.Id)) p.fCompl

/-- The invariant of the main loop at position `i` of `vNodes`, the clauses submitted
before the loop being `base`: the allocation invariant holds, no `fMarkB` is set, every
node of `vNodes` is an object of the network, and the clauses submitted by the loop say
exactly that `encRel` holds of the AND nodes before position `i`, whose operands all
have variables. -/
def LoopInv (ntk : Abc_Ntk) (base : List (List Nat)) (st : MiterState) (i : Nat) : Prop :=
  AllocInv st ∧
  (∀ id, st.fMarkB id = false) ∧
  i ≤ st.vNodes.length ∧
  (∀ x ∈ st.vNodes, x < Abc_NtkObjNumMax ntk) ∧
  (∀ s c, st.pSat.answer s c = true) ∧
  ∃ cls, st.pSat.store = base ++ cls ∧
    (∀ a, cnfSat a cls = true ↔
      ∀ x ∈ st.vNodes.take i, Abc_AigNodeIsAnd ntk x = true → encRel ntk a st.pCopy x) ∧
    (∀ x ∈ st.vNodes.take i, Abc_AigNodeIsAnd ntk x = true →
      ∀ y ∈ encOperands ntk x, y ∈ st.vNodes)

/-- Every clause of the second list is accepted when the clauses are submitted in order
after the clauses of the first list. -/
def allAccepted (answer : List (List Nat) → List Nat → Bool) :
    List (List Nat) → List (List Nat) → Bool
  | _, [] => true
  | base, c :: cs => answer base c && allAccepted answer (base ++ [c]) cs

/-- A run of submissions after the clauses `base` that short-circuits: with result
`true` every submitted clause was accepted; with result `false` the last submitted
clause was rejected and every clause before it was accepted. -/
def SubmitRun (answer : List (List Nat) → List Nat → Bool) (base new : List (List Nat))
    (ok : Bool) : Prop :=
  if ok = true then allAccepted answer base new = true
  else ∃ init last, new = init ++ [last] ∧ allAccepted answer base init = true ∧
    answer (base ++ init) last = false

/-- Every variable of the clauses `cls` belongs to a node of the allocation list: it is
the stored variable of a node of `vNodes`, and so smaller than the length of `vNodes`. -/
def VarsAllocated (st : MiterState) (cls : List (List Nat)) : Prop :=
  ∀ c ∈ cls, ∀ l ∈ c, lit_var l < st.vNodes.length ∧ ∃ x ∈ st.vNodes, st.pCopy x = lit_var l

/-- What the pass reaches when the AND nodes `enc` are the encoded ones: the constant
node, the driver of a combinational output, and the operands (multiplexer operands or
collected supergate leaves) of the AND nodes of `enc`. -/
def Reached (ntk : Abc_Ntk) (enc : List Nat) (x : Nat) : Prop :=
  x = Abc_AigConst1 ntk ∨ (∃ co ∈ ntk.vCos, x = Abc_ObjFanin0 ntk co) ∨
    ∃ n ∈ enc, Abc_AigNodeIsAnd ntk n = true ∧ x ∈ encOperands ntk n

/-! ## Concrete inputs used by the witnesses and counterexamples -/

/-- A fresh solver that accepts every clause. -/
def satAccept : sat_solver := { store := [], answer := fun _ _ => true }

/-- A fresh solver that rejects the first clause it is given and accepts every later
one. -/
def satRejectFirst : sat_solver := { store := [], answer := fun s _ => !s.isEmpty }

/-- The variable map that gives object `i` the variable `i`. -/
def copyId : Nat → Nat := fun i => i

/-- The assignment that makes every variable true. -/
def allTrue : Nat → Bool := fun _ => true

/-- A multiplexer recognizer for networks without multiplexer-shaped nodes. -/
def noMuxOperands : Nat → Nat × Abc_Ref × Abc_Ref :=
  fun _ => (0, { Id := 0, fCompl := false }, { Id := 0, fCompl := false })

/-- A small miter-like network: inputs `a` (1) and `b` (2), the node `3 = a and b`, which
drives an output and feeds node 4, and the node `4 = 3 and not a`, which drives the other
output. Node 4 is false for every input, but its two operands are different nodes. -/
def netShared : Abc_Ntk :=
  { vObjs :=
      [ { ObjType := .ABC_OBJ_CONST1, Fanin0 := 0, fCompl0 := false, Fanin1 := 0,
          fCompl1 := false, nFanouts := 0, Level := 0 },
        { ObjType := .ABC_OBJ_PI, Fanin0 := 0, fCompl0 := false, Fanin1 := 0,
          fCompl1 := false, nFanouts := 2, Level := 0 },
        { ObjType := .ABC_OBJ_PI, Fanin0 := 0, fCompl0 := false, Fanin1 := 0,
          fCompl1 := false, nFanouts := 1, Level := 0 },
        { ObjType := .ABC_OBJ_NODE, Fanin0 := 1, fCompl0 := false, Fanin1 := 2,
          fCompl1 := false, nFanouts := 2, Level := 1 },
        { ObjType := .ABC_OBJ_NODE, Fanin0 := 3, fCompl0 := false, Fanin1 := 1,
          fCompl1 := true, nFanouts := 1, Level := 2 },
        { ObjType := .ABC_OBJ_PO, Fanin0 := 4, fCompl0 := false, Fanin1 := 0,
          fCompl1 := false, nFanouts := 0, Level := 3 },
        { ObjType := .ABC_OBJ_PO, Fanin0 := 3, fCompl0 := false, Fanin1 := 0,
          fCompl1 := false, nFanouts := 0, Level := 2 } ]
    vCis := [1, 2]
    vCos := [5, 6]
    pConst1 := 0
    muxType := fun _ => false
    muxOperands := noMuxOperands }

/-- The network `netShared` without the output on node 3: node 3 has a single fanout
and is merged into the supergate of node 4, where `a` then occurs in both polarities. -/
def netChain : Abc_Ntk :=
  { vObjs :=
      [ { ObjType := .ABC_OBJ_CONST1, Fanin0 := 0, fCompl0 := false, Fanin1 := 0,
          fCompl1 := false, nFanouts := 0, Level := 0 },
        { ObjType := .ABC_OBJ_PI, Fanin0 := 0, fCompl0 := false, Fanin1 := 0,
          fCompl1 := false, nFanouts := 2, Level := 0 },
        { ObjType := .ABC_OBJ_PI, Fanin0 := 0, fCompl0 := false, Fanin1 := 0,
          fCompl1 := false, nFanouts := 1, Level := 0 },
        { ObjType := .ABC_OBJ_NODE, Fanin0 := 1, fCompl0 := false, Fanin1 := 2,
          fCompl1 := false, nFanouts := 1, Level := 1 },
        { ObjType := .ABC_OBJ_NODE, Fanin0 := 3, fCompl0 := false, Fanin1 := 1,
          fCompl1 := true, nFanouts := 1, Level := 2 },
        { ObjType := .ABC_OBJ_PO, Fanin0 := 4, fCompl0 := false, Fanin1 := 0,
          fCompl1 := false, nFanouts := 0, Level := 3 } ]
    vCis := [1, 2]
    vCos := [5]
    pConst1 := 0
    muxType := fun _ => false
    muxOperands := noMuxOperands }

/-- A network with a multiplexer: inputs `c` (1), `x` (2), `y` (3), the nodes
`4 = c and x`, `5 = not c and y` and `6 = not 4 and not 5`, so that
`6 = c ? not x : not y`, and one output, the complement of node 6. Node 6 is
multiplexer-shaped with condition `c`, then-literal `not x` and else-literal `not y`. -/
def netMux : Abc_Ntk :=
  { vObjs :=
      [ { ObjType := .ABC_OBJ_CONST1, Fanin0 := 0, fCompl0 := false, Fanin1 := 0,
          fCompl1 := false, nFanouts := 0, Level := 0 },
        { ObjType := .ABC_OBJ_PI, Fanin0 := 0, fCompl0 := false, Fanin1 := 0,
          fCompl1 := false, nFanouts := 2, Level := 0 },
        { ObjType := .ABC_OBJ_PI, Fanin0 := 0, fCompl0 := false, Fanin1 := 0,
          fCompl1 := false, nFanouts := 1, Level := 0 },
        { ObjType := .ABC_OBJ_PI, Fanin0 := 0, fCompl0 := false, Fanin1 := 0,
          fCompl1 := false, nFanouts := 1, Level := 0 },
        { ObjType := .ABC_OBJ_NODE, Fanin0 := 1, fCompl0 := false, Fanin1 := 2,
          fCompl1 := false, nFanouts := 1, Level := 1 },
        { ObjType := .ABC_OBJ_NODE, Fanin0 := 1, fCompl0 := true, Fanin1 := 3,
          fCompl1 := false, nFanouts := 1, Level := 1 },
        { ObjType := .ABC_OBJ_NODE, Fanin0 := 4, fCompl0 := true, Fanin1 := 5,
          fCompl1 := true, nFanouts := 1, Level := 2 },
        { ObjType := .ABC_OBJ_PO, Fanin0 := 6, fCompl0 := true, Fanin1 := 0,
          fCompl1 := false, nFanouts := 0, Level := 3 } ]
    vCis := [1, 2, 3]
    vCos := [7]
    pConst1 := 0
    muxType := fun id => id == 6
    muxOperands := fun _ => (1, { Id := 2, fCompl := true }, { Id := 3, fCompl := true }) }

/-- Scratch fields as they are before any encoding: no mark set, every `pCopy` zero. -/
def cleanMarks : NtkMarks := { pCopy := fun _ => 0, fMarkA := noMarks, fMarkB := noMarks }

/-- An engine that accepts every clause and whose search finds the assignment that makes
the odd variables true. -/
def engineSat : SatEngine :=
  { answer := fun _ _ => true
    simplify := fun _ => true
    solve := fun _ _ _ => .l_True
    model := fun _ _ _ x => x % 2 == 1
    conflicts := fun _ _ _ => 0
    inspects := fun _ _ _ => 0 }

/-- An engine that accepts every clause and whose search always stops at the resource
limit. -/
def engineUndef : SatEngine :=
  { answer := fun _ _ => true
    simplify := fun _ => true
    solve := fun _ _ _ => .l_Undef
    model := fun _ _ _ _ => false
    conflicts := fun _ _ _ => 0
    inspects := fun _ _ _ => 0 }

/-- An engine whose `sat_solver_addclause` rejects the first clause it is given and
accepts every later one. -/
def engineRejectFirst : SatEngine :=
  { answer := fun s _ => !s.isEmpty
    simplify := fun _ => true
    solve := fun _ _ _ => .l_True
    model := fun _ _ _ _ => true
    conflicts := fun _ _ _ => 0
    inspects := fun _ _ _ => 0 }

theorem lit_var_toLitCond (v : Nat) (c : Bool) : lit_var (toLitCond v c) = v := by
  cases c <;> simp [lit_var, toLitCond] <;> omega

theorem lit_sign_toLitCond (v : Nat) (c : Bool) : lit_sign (toLitCond v c) = c := by
  cases c <;> simp [lit_sign, toLitCond] <;> omega

theorem litVal_toLitCond (a : Nat → Bool) (v : Nat) (c : Bool) :
    litVal a (toLitCond v c) = xor (a v) c := by
  simp [litVal, lit_var_toLitCond, lit_sign_toLitCond]

theorem clauseSat_cons (a : Nat → Bool) (l : Nat) (c : List Nat) :
    clauseSat a (l :: c) = (litVal a l || clauseSat a c) := by
  simp [clauseSat]

theorem cnfSat_append (a : Nat → Bool) (c1 c2 : List (List Nat)) :
    cnfSat a (c1 ++ c2) = (cnfSat a c1 && cnfSat a c2) := by
  simp [cnfSat]

theorem newClauses_of_store (s1 s2 : sat_solver) (cls : List (List Nat))
    (h : s2.store = s1.store ++ cls) : newClauses s1 s2 = cls := by
  simp [newClauses, h]

/-- The binary clauses of the first loop of `Abc_NtkClauseAnd`. -/
theorem Abc_NtkClauseAnd_loop_store (pCopy : Nat → Nat) (Var : Nat) (vSuper : List Abc_Ref) :
    ∀ pSat : sat_solver,
      (Abc_NtkClauseAnd_loop pCopy Var vSuper pSat).2.answer = pSat.answer ∧
      ∃ k, k ≤ vSuper.length ∧
        (Abc_NtkClauseAnd_loop pCopy Var vSuper pSat).2.store =
          pSat.store ++ (vSuper.take k).map
            (fun p => [refLit pCopy p, toLitCond Var true]) ∧
        ((Abc_NtkClauseAnd_loop pCopy Var vSuper pSat).1 = true → k = vSuper.length) := by
  induction vSuper with
  | nil => intro pSat; simp [Abc_NtkClauseAnd_loop]
  | cons p rest ih =>
    intro pSat
    simp only [Abc_NtkClauseAnd_loop]
    by_cases hacc : (sat_solver_addclause pSat
        [toLitCond (pCopy (Abc_ObjRegular p)) (Abc_ObjIsComplement p), toLitCond Var true]).1 = true
    · simp only [hacc, Bool.not_true, Bool.false_eq_true, if_false]
      obtain ⟨ha, k, hk, hst, hret⟩ := ih (sat_solver_addclause pSat
        [toLitCond (pCopy (Abc_ObjRegular p)) (Abc_ObjIsComplement p), toLitCond Var true]).2
      refine ⟨by simpa [sat_solver_addclause] using ha, k + 1, by simpa using hk, ?_, ?_⟩
      · rw [hst]; simp [sat_solver_addclause, refLit]
      · intro h; simpa using hret h
    · simp only [hacc, Bool.not_false, if_true]
      refine ⟨by simp [sat_solver_addclause], 1, by simp, ?_, by simp⟩
      simp [sat_solver_addclause, refLit]

theorem cnfSat_binary (a : Nat → Bool) (pCopy : Nat → Nat) (F : Nat) (vSuper : List Abc_Ref) :
    cnfSat a (vSuper.map fun p => [refLit pCopy p, toLitCond F true]) =
      (!a F || vSuper.all fun p =>
        xor (a (pCopy (Abc_ObjRegular p))) (Abc_ObjIsComplement p)) := by
  induction vSuper with
  | nil => simp [cnfSat]
  | cons p rest ih =>
    simp only [cnfSat] at ih
    simp only [cnfSat, List.map_cons, List.all_cons, ih]
    simp only [clauseSat, List.any_cons, List.any_nil, refLit, litVal_toLitCond]
    cases a F <;> simp

theorem clauseSat_negated (a : Nat → Bool) (pCopy : Nat → Nat) (F : Nat)
    (vSuper : List Abc_Ref) :
    clauseSat a ((vSuper.map fun p =>
        toLitCond (pCopy (Abc_ObjRegular p)) (!Abc_ObjIsComplement p)) ++ [toLitCond F false]) =
      (a F || !(vSuper.all fun p =>
        xor (a (pCopy (Abc_ObjRegular p))) (Abc_ObjIsComplement p))) := by
  induction vSuper with
  | nil => simp [clauseSat, litVal_toLitCond]
  | cons p rest ih =>
    simp only [clauseSat] at ih
    simp only [clauseSat, List.map_cons, List.cons_append, List.any_cons, ih, List.all_cons,
      litVal_toLitCond]
    cases a F <;> cases a (pCopy (Abc_ObjRegular p)) <;> cases Abc_ObjIsComplement p <;> simp

/-- C2: whenever `Abc_NtkClauseAnd` submits all of its clauses (the binary clause
`(Li or not F)` of every leaf and then `(not L1 or ... or not Ln or F)`), an assignment
satisfies all of them if and only if it gives the root variable `F` the conjunction of
the leaf literals, a leaf literal being the leaf's variable negated when the leaf
reference is complemented. -/
theorem C2_clauseAnd_iff (pSat : sat_solver) (pCopy : Nat → Nat) (pNode : Nat)
    (vSuper : List Abc_Ref) (a : Nat → Bool)
    (hall : (newClauses pSat (Abc_NtkClauseAnd pSat pCopy pNode vSuper).2).length
      = vSuper.length + 1) :
    cnfSat a (newClauses pSat (Abc_NtkClauseAnd pSat pCopy pNode vSuper).2) = true ↔
      a (pCopy pNode) = vSuper.all fun p =>
        xor (a (pCopy (Abc_ObjRegular p))) (Abc_ObjIsComplement p) := by
  obtain ⟨_, k, hk, hst, hret⟩ := Abc_NtkClauseAnd_loop_store pCopy (pCopy pNode) vSuper pSat
  by_cases hloop : (Abc_NtkClauseAnd_loop pCopy (pCopy pNode) vSuper pSat).1 = true
  · have hk2 := hret hloop
    subst hk2
    have hstore : (Abc_NtkClauseAnd pSat pCopy pNode vSuper).2.store = pSat.store ++
        (vSuper.map (fun p => [refLit pCopy p, toLitCond (pCopy pNode) true]) ++
          [vSuper.map (fun p => toLitCond (pCopy (Abc_ObjRegular p))
            (!Abc_ObjIsComplement p)) ++ [toLitCond (pCopy pNode) false]]) := by
      simp [Abc_NtkClauseAnd, hloop, sat_solver_addclause, hst]
    rw [newClauses_of_store _ _ _ hstore, cnfSat_append, cnfSat_binary]
    simp only [cnfSat, List.all_cons, List.all_nil, Bool.and_true, clauseSat_negated]
    cases a (pCopy pNode) <;>
      cases (vSuper.all fun p =>
        xor (a (pCopy (Abc_ObjRegular p))) (Abc_ObjIsComplement p)) <;> simp
  · exfalso
    have hstore : (Abc_NtkClauseAnd pSat pCopy pNode vSuper).2.store = pSat.store ++
        (vSuper.take k).map (fun p => [refLit pCopy p, toLitCond (pCopy pNode) true]) := by
      simp [Abc_NtkClauseAnd, hloop, hst]
    rw [newClauses_of_store _ _ _ hstore] at hall
    simp at hall
    omega

/-- Witness of C2: the two-leaf supergate `3 = 1 and not 2` on a solver that accepts
every clause. -/
theorem C2_clauseAnd_iff_witness :
    (newClauses satAccept (Abc_NtkClauseAnd satAccept copyId 3 [⟨1, false⟩, ⟨2, true⟩]).2).length
        = [(⟨1, false⟩ : Abc_Ref), ⟨2, true⟩].length + 1 ∧
    (cnfSat allTrue
        (newClauses satAccept (Abc_NtkClauseAnd satAccept copyId 3 [⟨1, false⟩, ⟨2, true⟩]).2)
        = true ↔
      allTrue (copyId 3) = [(⟨1, false⟩ : Abc_Ref), ⟨2, true⟩].all fun p =>
        xor (allTrue (copyId (Abc_ObjRegular p))) (Abc_ObjIsComplement p)) :=
  ⟨by decide, C2_clauseAnd_iff satAccept copyId 3 [⟨1, false⟩, ⟨2, true⟩] allTrue (by decide)⟩

/-- What `Abc_NtkClauseMux` submits is an initial segment of the six-clause template;
on success it is the first four clauses when the then- and else-variables coincide and
all six otherwise. -/
theorem Abc_NtkClauseMux_store (pSat : sat_solver) (pCopy : Nat → Nat) (pNode pNodeC : Nat)
    (pNodeT pNodeE : Abc_Ref) :
    (Abc_NtkClauseMux pSat pCopy pNode pNodeC pNodeT pNodeE).2.answer = pSat.answer ∧
    ∃ k, 1 ≤ k ∧ k ≤ 6 ∧
      (Abc_NtkClauseMux pSat pCopy pNode pNodeC pNodeT pNodeE).2.store =
        pSat.store ++ (muxClauses pCopy pNode pNodeC pNodeT pNodeE).take k ∧
      ((Abc_NtkClauseMux pSat pCopy pNode pNodeC pNodeT pNodeE).1 = true →
        (pCopy (Abc_ObjRegular pNodeT) = pCopy (Abc_ObjRegular pNodeE) ∧ k = 4) ∨
        (pCopy (Abc_ObjRegular pNodeT) ≠ pCopy (Abc_ObjRegular pNodeE) ∧ k = 6)) := by
  unfold Abc_NtkClauseMux
  simp only [sat_solver_addclause, muxClauses]
  split_ifs <;> refine ⟨rfl, ?_⟩
  · exact ⟨1, by simp⟩
  · exact ⟨2, by simp⟩
  · exact ⟨3, by simp⟩
  · exact ⟨4, by simp⟩
  · exact ⟨4, by simp_all⟩
  · exact ⟨5, by simp⟩
  · exact ⟨6, by simp_all⟩

/-- C3: whenever `Abc_NtkClauseMux` submits its first four clauses, an assignment
satisfies these four if and only if it gives the root variable `F` the value
`I ? T' : E'`, where `T'` and `E'` are the then/else variables negated when their
reference is complemented; this holds for every choice of the four variables and the
two polarities. -/
theorem C3_clauseMux_base_iff (pSat : sat_solver) (pCopy : Nat → Nat) (pNode pNodeC : Nat)
    (pNodeT pNodeE : Abc_Ref) (a : Nat → Bool)
    (h4 : 4 ≤ (newClauses pSat
      (Abc_NtkClauseMux pSat pCopy pNode pNodeC pNodeT pNodeE).2).length) :
    cnfSat a ((newClauses pSat
        (Abc_NtkClauseMux pSat pCopy pNode pNodeC pNodeT pNodeE).2).take 4) = true ↔
      a (pCopy pNode) =
        if a (pCopy pNodeC) then
          xor (a (pCopy (Abc_ObjRegular pNodeT))) (Abc_ObjIsComplement pNodeT)
        else xor (a (pCopy (Abc_ObjRegular pNodeE))) (Abc_ObjIsComplement pNodeE) := by
  obtain ⟨_, k, hk1, hk6, hst, _⟩ :=
    Abc_NtkClauseMux_store pSat pCopy pNode pNodeC pNodeT pNodeE
  rw [newClauses_of_store _ _ _ hst] at h4 ⊢
  have hk4 : 4 ≤ k := by
    simp only [List.length_take, muxClauses, List.length_cons, List.length_nil] at h4
    omega
  rw [List.take_take, Nat.min_eq_left hk4]
  simp only [muxClauses, List.take_succ_cons, List.take_zero, cnfSat, clauseSat, List.all_cons,
    List.all_nil, List.any_cons, List.any_nil, litVal_toLitCond]
  cases a (pCopy pNode) <;> cases a (pCopy pNodeC) <;>
    cases a (pCopy (Abc_ObjRegular pNodeT)) <;> cases a (pCopy (Abc_ObjRegular pNodeE)) <;>
    cases Abc_ObjIsComplement pNodeT <;> cases Abc_ObjIsComplement pNodeE <;> simp

/-- Witness of C3: the multiplexer `4 = 1 ? 2 : not 3` on a solver that accepts every
clause. -/
theorem C3_clauseMux_base_iff_witness :
    4 ≤ (newClauses satAccept
        (Abc_NtkClauseMux satAccept copyId 4 1 ⟨2, false⟩ ⟨3, true⟩).2).length ∧
    (cnfSat allTrue ((newClauses satAccept
        (Abc_NtkClauseMux satAccept copyId 4 1 ⟨2, false⟩ ⟨3, true⟩).2).take 4) = true ↔
      allTrue (copyId 4) =
        if allTrue (copyId 1) then
          xor (allTrue (copyId (Abc_ObjRegular ⟨2, false⟩))) (Abc_ObjIsComplement ⟨2, false⟩)
        else xor (allTrue (copyId (Abc_ObjRegular ⟨3, true⟩))) (Abc_ObjIsComplement ⟨3, true⟩)) :=
  ⟨by decide, C3_clauseMux_base_iff satAccept copyId 4 1 ⟨2, false⟩ ⟨3, true⟩ allTrue
    (by decide)⟩

/-! ### Circuit semantics -/

theorem refVal_not (v : Nat → Bool) (p : Abc_Ref) : refVal v (Abc_ObjNot p) = !refVal v p := by
  cases h1 : v p.Id <;> cases h2 : p.fCompl <;> simp [refVal, Abc_ObjNot, h1, h2]

/-- In an acyclic network the simulation does not depend on the fuel once the fuel
exceeds the level of the object. -/
theorem simFuel_stable (ntk : Abc_Ntk) (inp : Nat → Bool) (hac : Acyclic ntk) :
    ∀ fuel id, (Abc_NtkObj ntk id).Level < fuel →
      simFuel ntk inp fuel id = simFuel ntk inp ((Abc_NtkObj ntk id).Level + 1) id := by
  intro fuel
  induction fuel using Nat.strong_induction_on with
  | _ fuel ih =>
    intro id hlt
    cases fuel with
    | zero => omega
    | succ f =>
      by_cases hn : Abc_ObjIsNode ntk id = true
      · obtain ⟨h0, h1⟩ := hac id hn
        have hty : (Abc_NtkObj ntk id).ObjType = .ABC_OBJ_NODE := by
          simpa [Abc_ObjIsNode] using hn
        simp only [simFuel, hty]
        rw [ih f (Nat.lt_succ_self f) _ (by omega), ih f (Nat.lt_succ_self f) _ (by omega),
          ih (Abc_NtkObj ntk id).Level (by omega) _ h0,
          ih (Abc_NtkObj ntk id).Level (by omega) _ h1]
      · have hty : (Abc_NtkObj ntk id).ObjType ≠ .ABC_OBJ_NODE := by
          simpa [Abc_ObjIsNode] using hn
        simp only [simFuel]
        cases hk : (Abc_NtkObj ntk id).ObjType <;> simp_all

/-- The simulation of an acyclic network respects the gates. -/
theorem nodeValue_consistent (ntk : Abc_Ntk) (inp : Nat → Bool) (hac : Acyclic ntk) :
    Consistent ntk (nodeValue ntk inp) := by
  constructor
  · intro id hn
    obtain ⟨h0, h1⟩ := hac id hn
    have hty : (Abc_NtkObj ntk id).ObjType = .ABC_OBJ_NODE := by
      simpa [Abc_ObjIsNode] using hn
    simp only [nodeValue, refVal, Abc_ObjChild0, Abc_ObjChild1]
    rw [simFuel, hty]
    simp only
    rw [simFuel_stable ntk inp hac _ _ h0, simFuel_stable ntk inp hac _ _ h1]
  · intro id hty
    simp [nodeValue, simFuel, hty]

/-- The simulation gives an input object the value of the input assignment. -/
theorem nodeValue_input (ntk : Abc_Ntk) (inp : Nat → Bool) (id : Nat)
    (h1 : (Abc_NtkObj ntk id).ObjType ≠ .ABC_OBJ_NODE)
    (h2 : (Abc_NtkObj ntk id).ObjType ≠ .ABC_OBJ_CONST1) :
    nodeValue ntk inp id = inp id := by
  rw [nodeValue, simFuel]
  split <;> simp_all

/-! ### The supergate collector -/

theorem Abc_NtkCollectSupergate_rec_succ (ntk : Abc_Ntk) (fStopAtMux : Bool) (fuel : Nat)
    (pNode : Abc_Ref) (fFirst : Bool) (st : SuperState) :
    Abc_NtkCollectSupergate_rec ntk fStopAtMux (fuel + 1) pNode fFirst st =
      if st.fMarkB (Abc_ObjRegular pNode) then
        some ((Abc_NtkCollectSupergate_find st.vSuper pNode).getD 0, st)
      else if !fFirst &&
          (Abc_ObjIsComplement pNode || !Abc_ObjIsNode ntk pNode.Id ||
            decide (Abc_ObjFanoutNum ntk pNode.Id > 1) ||
            (fStopAtMux && Abc_NodeIsMuxType ntk pNode.Id)) then
        some (0, { vSuper := st.vSuper ++ [pNode],
                   fMarkB := setFlag st.fMarkB (Abc_ObjRegular pNode) true })
      else
        match Abc_NtkCollectSupergate_rec ntk fStopAtMux fuel
            (Abc_ObjChild0 ntk pNode.Id) false st with
        | none => none
        | some (RetValue1, st1) =>
          match Abc_NtkCollectSupergate_rec ntk fStopAtMux fuel
              (Abc_ObjChild1 ntk pNode.Id) false st1 with
          | none => none
          | some (RetValue2, st2) =>
            if RetValue1 = -1 ∨ RetValue2 = -1 then some (-1, st2)
            else some (if RetValue1 ≠ 0 ∨ RetValue2 ≠ 0 then 1 else 0, st2) := by
  rw [Abc_NtkCollectSupergate_rec]

theorem Abc_NtkCollectSupergate_find_cases (vSuper : List Abc_Ref) (pNode : Abc_Ref) :
    (Abc_NtkCollectSupergate_find vSuper pNode = some 1 ∧ pNode ∈ vSuper) ∨
    (Abc_NtkCollectSupergate_find vSuper pNode = some (-1) ∧ Abc_ObjNot pNode ∈ vSuper) ∨
    (Abc_NtkCollectSupergate_find vSuper pNode = none ∧ pNode ∉ vSuper ∧
      Abc_ObjNot pNode ∉ vSuper) := by
  unfold Abc_NtkCollectSupergate_find
  by_cases h1 : pNode ∈ vSuper
  · left; simp [h1]
  · by_cases h2 : Abc_ObjNot pNode ∈ vSuper
    · right; left; simp [h1, h2]
    · right; right; simp [h1, h2]

/-- The shape of a call of the recursive collector: the leaf list grows at its end, the
marks grow by exactly the nodes of the new leaves, and the result is -1, 0 or 1. -/
theorem Abc_NtkCollectSupergate_rec_shape (ntk : Abc_Ntk) (fStopAtMux : Bool) :
    ∀ (fuel : Nat) (pNode : Abc_Ref) (fFirst : Bool) (st : SuperState) (r : Int)
      (st2 : SuperState),
      Abc_NtkCollectSupergate_rec ntk fStopAtMux fuel pNode fFirst st = some (r, st2) →
      (r = -1 ∨ r = 0 ∨ r = 1) ∧
      ∃ new, st2.vSuper = st.vSuper ++ new ∧
        ∀ id, st2.fMarkB id = true ↔ (st.fMarkB id = true ∨ ∃ p ∈ new, p.Id = id) := by
  intro fuel
  induction fuel with
  | zero => intro pNode fFirst st r st2 h; simp [Abc_NtkCollectSupergate_rec] at h
  | succ fuel ih =>
    intro pNode fFirst st r st2 h
    rw [Abc_NtkCollectSupergate_rec_succ] at h
    by_cases hm : st.fMarkB (Abc_ObjRegular pNode) = true
    · rw [if_pos hm] at h
      simp only [Option.some.injEq, Prod.mk.injEq] at h
      obtain ⟨hr, hst⟩ := h
      subst hst
      refine ⟨?_, [], by simp, by simp⟩
      rcases Abc_NtkCollectSupergate_find_cases st.vSuper pNode with h1 | h1 | h1 <;>
        simp [h1.1] at hr <;> omega
    · rw [if_neg hm] at h
      split_ifs at h with hleaf
      · simp only [Option.some.injEq, Prod.mk.injEq] at h
        obtain ⟨hr, hst⟩ := h
        subst hst
        refine ⟨by omega, [pNode], rfl, ?_⟩
        intro id
        simp only [setFlag, Abc_ObjRegular, List.mem_singleton, exists_eq_left]
        by_cases hid : id = pNode.Id
        · simp [hid]
        · simp [hid, Ne.symm hid]
      · cases h1 : Abc_NtkCollectSupergate_rec ntk fStopAtMux fuel
            (Abc_ObjChild0 ntk pNode.Id) false st with
        | none => simp [h1] at h
        | some x1 =>
          obtain ⟨r1, st1⟩ := x1
          rw [h1] at h
          simp only at h
          cases h2 : Abc_NtkCollectSupergate_rec ntk fStopAtMux fuel
              (Abc_ObjChild1 ntk pNode.Id) false st1 with
          | none => simp [h2] at h
          | some x2 =>
            obtain ⟨r2, st3⟩ := x2
            rw [h2] at h
            simp only at h
            obtain ⟨_, new1, hn1, hm1⟩ := ih _ _ _ _ _ h1
            obtain ⟨_, new2, hn2, hm2⟩ := ih _ _ _ _ _ h2
            have hst : st2 = st3 := by
              split_ifs at h <;> simp only [Option.some.injEq, Prod.mk.injEq] at h <;>
                exact h.2.symm
            subst hst
            refine ⟨?_, new1 ++ new2, by rw [hn2, hn1, List.append_assoc], ?_⟩
            · split_ifs at h <;> simp only [Option.some.injEq, Prod.mk.injEq] at h <;> omega
            · intro id
              rw [hm2, hm1]
              simp only [List.mem_append]
              constructor
              · rintro ((h | ⟨p, hp, hpid⟩) | ⟨p, hp, hpid⟩)
                · exact Or.inl h
                · exact Or.inr ⟨p, Or.inl hp, hpid⟩
                · exact Or.inr ⟨p, Or.inr hp, hpid⟩
              · rintro (h | ⟨p, hp | hp, hpid⟩)
                · exact Or.inl (Or.inl h)
                · exact Or.inl (Or.inr ⟨p, hp, hpid⟩)
                · exact Or.inr ⟨p, hp, hpid⟩

theorem Abc_Ref_eq_or_not (p q : Abc_Ref) (h : p.Id = q.Id) : p = q ∨ p = Abc_ObjNot q := by
  obtain ⟨pi, pc⟩ := p
  obtain ⟨qi, qc⟩ := q
  simp only at h
  subst h
  cases pc <;> cases qc <;> simp [Abc_ObjNot]

/-- The marks stay within the leaf list during the collection. -/
theorem MarkInv_rec (ntk : Abc_Ntk) (fStopAtMux : Bool) (fuel : Nat) (pNode : Abc_Ref)
    (fFirst : Bool) (st : SuperState) (r : Int) (st2 : SuperState)
    (h : Abc_NtkCollectSupergate_rec ntk fStopAtMux fuel pNode fFirst st = some (r, st2))
    (hinv : MarkInv st) : MarkInv st2 := by
  obtain ⟨_, new, hn, hm⟩ := Abc_NtkCollectSupergate_rec_shape ntk fStopAtMux _ _ _ _ _ _ h
  intro id hid
  rw [hm] at hid
  rw [hn]
  rcases hid with hid | ⟨p, hp, hpid⟩
  · obtain ⟨p, hp, hpid⟩ := hinv id hid
    exact ⟨p, List.mem_append_left _ hp, hpid⟩
  · exact ⟨p, List.mem_append_right _ hp, hpid⟩

/-- What a call of the recursive collector means for a valuation that respects the
gates: the new leaves are implied by the visited reference; the result -1 means that the
visited reference contradicts the leaves collected before; and, when every mark belongs
to a leaf, any other result means that the leaves imply the visited reference, and the
list is not empty. -/
theorem Abc_NtkCollectSupergate_rec_sound (ntk : Abc_Ntk) (fStopAtMux : Bool)
    (v : Nat → Bool) (hv : Consistent ntk v) :
    ∀ (fuel : Nat) (pNode : Abc_Ref) (fFirst : Bool) (st : SuperState) (r : Int)
      (st2 : SuperState),
      Abc_NtkCollectSupergate_rec ntk fStopAtMux fuel pNode fFirst st = some (r, st2) →
      (fFirst = true → pNode.fCompl = false ∧ Abc_ObjIsNode ntk pNode.Id = true) →
      (∀ new, st2.vSuper = st.vSuper ++ new →
        ∀ p ∈ new, refVal v pNode = true → refVal v p = true) ∧
      (r = -1 → (∀ p ∈ st.vSuper, refVal v p = true) → refVal v pNode = false) ∧
      (MarkInv st → r ≠ -1 → (∀ p ∈ st2.vSuper, refVal v p = true) →
        refVal v pNode = true) ∧
      (MarkInv st → st2.vSuper ≠ []) := by
  intro fuel
  induction fuel with
  | zero => intro pNode fFirst st r st2 h; simp [Abc_NtkCollectSupergate_rec] at h
  | succ fuel ih =>
    intro pNode fFirst st r st2 h hfirst
    rw [Abc_NtkCollectSupergate_rec_succ] at h
    by_cases hm : st.fMarkB (Abc_ObjRegular pNode) = true
    · rw [if_pos hm] at h
      simp only [Option.some.injEq, Prod.mk.injEq] at h
      obtain ⟨hr, hst⟩ := h
      subst hst
      refine ⟨?_, ?_, ?_, ?_⟩
      · intro new hnew p hp
        have : new = [] := by simpa using hnew
        simp [this] at hp
      · intro hr1 hall
        rcases Abc_NtkCollectSupergate_find_cases st.vSuper pNode with h1 | h1 | h1 <;>
          simp [h1.1] at hr
        · omega
        · have := hall _ h1.2
          rw [refVal_not] at this
          simpa using this
        · omega
      · intro hinv hr1 hall
        obtain ⟨q, hq, hqid⟩ := hinv _ hm
        rcases Abc_NtkCollectSupergate_find_cases st.vSuper pNode with h1 | h1 | h1
        · exact hall _ h1.2
        · simp [h1.1] at hr; omega
        · exfalso
          rcases Abc_Ref_eq_or_not q pNode hqid with h3 | h3
          · exact h1.2.1 (h3 ▸ hq)
          · exact h1.2.2 (h3 ▸ hq)
      · intro hinv
        obtain ⟨q, hq, _⟩ := hinv _ hm
        exact List.ne_nil_of_mem hq
    · rw [if_neg hm] at h
      split_ifs at h with hleaf
      · simp only [Option.some.injEq, Prod.mk.injEq] at h
        obtain ⟨hr, hst⟩ := h
        subst hst
        refine ⟨?_, by omega, ?_, by simp⟩
        · intro new hnew p hp hval
          have : new = [pNode] := by simpa using hnew.symm
          simp only [this, List.mem_singleton] at hp
          rw [hp]; exact hval
        · intro _ _ hall
          exact hall pNode (by simp)
      · have hnode : pNode.fCompl = false ∧ Abc_ObjIsNode ntk pNode.Id = true := by
          cases hf : fFirst
          · rw [hf] at hleaf
            simp only [Bool.not_false, Bool.true_and, Abc_ObjIsComplement, Bool.or_eq_true,
              Bool.not_eq_true', decide_eq_true_eq, Bool.and_eq_true, not_or] at hleaf
            exact ⟨by simpa using hleaf.1.1.1, by simpa using hleaf.1.1.2⟩
          · exact hfirst hf
        have hval : refVal v pNode =
            (refVal v (Abc_ObjChild0 ntk pNode.Id) && refVal v (Abc_ObjChild1 ntk pNode.Id)) := by
          rw [← hv.1 _ hnode.2]
          simp [refVal, hnode.1]
        cases h1 : Abc_NtkCollectSupergate_rec ntk fStopAtMux fuel
            (Abc_ObjChild0 ntk pNode.Id) false st with
        | none => simp [h1] at h
        | some x1 =>
          obtain ⟨r1, st1⟩ := x1
          rw [h1] at h
          simp only at h
          cases h2 : Abc_NtkCollectSupergate_rec ntk fStopAtMux fuel
              (Abc_ObjChild1 ntk pNode.Id) false st1 with
          | none => simp [h2] at h
          | some x2 =>
            obtain ⟨r2, st3⟩ := x2
            rw [h2] at h
            simp only at h
            obtain ⟨_, new1, hn1, _⟩ :=
              Abc_NtkCollectSupergate_rec_shape ntk fStopAtMux _ _ _ _ _ _ h1
            obtain ⟨_, new2, hn2, _⟩ :=
              Abc_NtkCollectSupergate_rec_shape ntk fStopAtMux _ _ _ _ _ _ h2
            obtain ⟨ha1, hb1, hc1, hd1⟩ := ih _ _ _ _ _ h1 (by simp)
            obtain ⟨ha2, hb2, hc2, _⟩ := ih _ _ _ _ _ h2 (by simp)
            have hst : st2 = st3 := by
              split_ifs at h <;> simp only [Option.some.injEq, Prod.mk.injEq] at h <;>
                exact h.2.symm
            subst hst
            have hr : r = -1 ↔ (r1 = -1 ∨ r2 = -1) := by
              by_cases hc : r1 = -1 ∨ r2 = -1
              · rw [if_pos hc] at h
                simp only [Option.some.injEq, Prod.mk.injEq] at h
                exact ⟨fun _ => hc, fun _ => h.1.symm⟩
              · rw [if_neg hc] at h
                simp only [Option.some.injEq, Prod.mk.injEq] at h
                constructor
                · intro hh
                  exfalso
                  split_ifs at h <;> omega
                · intro hh
                  exact absurd hh hc
            refine ⟨?_, ?_, ?_, ?_⟩
            · intro new hnew p hp hpv
              rw [hn2, hn1, List.append_assoc] at hnew
              have hnew2 : new = new1 ++ new2 := (List.append_cancel_left hnew).symm
              rw [hval, Bool.and_eq_true] at hpv
              rw [hnew2, List.mem_append] at hp
              rcases hp with hp | hp
              · exact ha1 new1 hn1 p hp hpv.1
              · exact ha2 new2 hn2 p hp hpv.2
            · intro hr1 hall
              rw [hval]
              rcases hr.1 hr1 with hx | hx
              · simp [hb1 hx hall]
              · by_contra hcon
                have hboth : refVal v (Abc_ObjChild0 ntk pNode.Id) = true ∧
                    refVal v (Abc_ObjChild1 ntk pNode.Id) = true := by
                  simpa using hcon
                have hall1 : ∀ p ∈ st1.vSuper, refVal v p = true := by
                  intro p hp
                  rw [hn1, List.mem_append] at hp
                  rcases hp with hp | hp
                  · exact hall p hp
                  · exact ha1 new1 hn1 p hp hboth.1
                have := hb2 hx hall1
                rw [hboth.2] at this
                exact Bool.noConfusion this
            · intro hinv hr1 hall
              have hr12 : r1 ≠ -1 ∧ r2 ≠ -1 := by
                constructor <;> intro hh <;> exact hr1 (hr.2 (by simp [hh]))
              have hall1 : ∀ p ∈ st1.vSuper, refVal v p = true := by
                intro p hp
                exact hall p (by rw [hn2]; exact List.mem_append_left _ hp)
              rw [hval, Bool.and_eq_true]
              exact ⟨hc1 hinv hr12.1 hall1,
                hc2 (MarkInv_rec ntk fStopAtMux _ _ _ _ _ _ h1 hinv) hr12.2 hall⟩
            · intro hinv
              have := hd1 hinv
              rw [hn2]
              simp [this]

/-- Every leaf collected below a node lies in any set of objects that contains the
starting points and is closed under the fanins of AND nodes. -/
theorem Abc_NtkCollectSupergate_rec_closed (ntk : Abc_Ntk) (fStopAtMux : Bool)
    (Q : Nat → Prop)
    (hQ : ∀ id, Abc_ObjIsNode ntk id = true → Q id →
      Q (Abc_NtkObj ntk id).Fanin0 ∧ Q (Abc_NtkObj ntk id).Fanin1) :
    ∀ (fuel : Nat) (pNode : Abc_Ref) (fFirst : Bool) (st : SuperState) (r : Int)
      (st2 : SuperState),
      Abc_NtkCollectSupergate_rec ntk fStopAtMux fuel pNode fFirst st = some (r, st2) →
      (fFirst = false → Q pNode.Id) →
      (fFirst = true → Q (Abc_NtkObj ntk pNode.Id).Fanin0 ∧ Q (Abc_NtkObj ntk pNode.Id).Fanin1) →
      ∀ new, st2.vSuper = st.vSuper ++ new → ∀ p ∈ new, Q p.Id := by
  intro fuel
  induction fuel with
  | zero => intro pNode fFirst st r st2 h; simp [Abc_NtkCollectSupergate_rec] at h
  | succ fuel ih =>
    intro pNode fFirst st r st2 h hq0 hq1 new hnew p hp
    rw [Abc_NtkCollectSupergate_rec_succ] at h
    by_cases hm : st.fMarkB (Abc_ObjRegular pNode) = true
    · rw [if_pos hm] at h
      simp only [Option.some.injEq, Prod.mk.injEq] at h
      obtain ⟨_, hst⟩ := h
      subst hst
      have : new = [] := by simpa using hnew
      simp [this] at hp
    · rw [if_neg hm] at h
      split_ifs at h with hleaf
      · simp only [Option.some.injEq, Prod.mk.injEq] at h
        obtain ⟨_, hst⟩ := h
        subst hst
        have : new = [pNode] := by simpa using hnew.symm
        simp only [this, List.mem_singleton] at hp
        have hff : fFirst = false := by
          cases hf : fFirst
          · rfl
          · rw [hf] at hleaf; simp at hleaf
        rw [hp]
        exact hq0 hff
      · have hkids : Q (Abc_NtkObj ntk pNode.Id).Fanin0 ∧ Q (Abc_NtkObj ntk pNode.Id).Fanin1 := by
          cases hf : fFirst
          · rw [hf] at hleaf
            simp only [Bool.not_false, Bool.true_and, Abc_ObjIsComplement, Bool.or_eq_true,
              Bool.not_eq_true', decide_eq_true_eq, Bool.and_eq_true, not_or] at hleaf
            exact hQ _ (by simpa using hleaf.1.1.2) (hq0 hf)
          · exact hq1 hf
        cases h1 : Abc_NtkCollectSupergate_rec ntk fStopAtMux fuel
            (Abc_ObjChild0 ntk pNode.Id) false st with
        | none => simp [h1] at h
        | some x1 =>
          obtain ⟨r1, st1⟩ := x1
          rw [h1] at h
          simp only at h
          cases h2 : Abc_NtkCollectSupergate_rec ntk fStopAtMux fuel
              (Abc_ObjChild1 ntk pNode.Id) false st1 with
          | none => simp [h2] at h
          | some x2 =>
            obtain ⟨r2, st3⟩ := x2
            rw [h2] at h
            simp only at h
            obtain ⟨_, new1, hn1, _⟩ :=
              Abc_NtkCollectSupergate_rec_shape ntk fStopAtMux _ _ _ _ _ _ h1
            obtain ⟨_, new2, hn2, _⟩ :=
              Abc_NtkCollectSupergate_rec_shape ntk fStopAtMux _ _ _ _ _ _ h2
            have hst : st2 = st3 := by
              split_ifs at h <;> simp only [Option.some.injEq, Prod.mk.injEq] at h <;>
                exact h.2.symm
            subst hst
            rw [hn2, hn1, List.append_assoc] at hnew
            have hnew2 : new = new1 ++ new2 := (List.append_cancel_left hnew).symm
            rw [hnew2, List.mem_append] at hp
            rcases hp with hp | hp
            · exact ih _ _ _ _ _ h1 (fun _ => hkids.1) (by simp) new1 hn1 p hp
            · exact ih _ _ _ _ _ h2 (fun _ => hkids.2) (by simp) new2 hn2 p hp

/-- In an acyclic network the recursive collector returns as soon as the fuel exceeds
the level of the visited node. -/
theorem Abc_NtkCollectSupergate_rec_total (ntk : Abc_Ntk) (fStopAtMux : Bool)
    (hac : Acyclic ntk) :
    ∀ (fuel : Nat) (pNode : Abc_Ref) (fFirst : Bool) (st : SuperState),
      (Abc_NtkObj ntk pNode.Id).Level < fuel →
      (fFirst = true → Abc_ObjIsNode ntk pNode.Id = true) →
      ∃ r st2, Abc_NtkCollectSupergate_rec ntk fStopAtMux fuel pNode fFirst st = some (r, st2) := by
  intro fuel
  induction fuel with
  | zero => intro pNode fFirst st h; omega
  | succ fuel ih =>
    intro pNode fFirst st hlt hfirst
    rw [Abc_NtkCollectSupergate_rec_succ]
    by_cases hm : st.fMarkB (Abc_ObjRegular pNode) = true
    · rw [if_pos hm]; exact ⟨_, _, rfl⟩
    · rw [if_neg hm]
      split_ifs with hleaf
      · exact ⟨_, _, rfl⟩
      · have hnode : Abc_ObjIsNode ntk pNode.Id = true := by
          cases hf : fFirst
          · rw [hf] at hleaf
            simp only [Bool.not_false, Bool.true_and, Abc_ObjIsComplement, Bool.or_eq_true,
              Bool.not_eq_true', decide_eq_true_eq, Bool.and_eq_true, not_or] at hleaf
            simpa using hleaf.1.1.2
          · exact hfirst hf
        obtain ⟨hl0, hl1⟩ := hac _ hnode
        obtain ⟨r1, st1, h1⟩ := ih (Abc_ObjChild0 ntk pNode.Id) false st
          (by simp only [Abc_ObjChild0]; omega) (by simp)
        obtain ⟨r2, st3, h2⟩ := ih (Abc_ObjChild1 ntk pNode.Id) false st1
          (by simp only [Abc_ObjChild1]; omega) (by simp)
        rw [h1]
        simp only
        rw [h2]
        simp only
        split_ifs <;> exact ⟨_, _, rfl⟩

theorem Abc_NtkCollectSupergate_unmark_eq (vNodes : List Abc_Ref) :
    ∀ (fMarkB : Nat → Bool) (id : Nat),
      Abc_NtkCollectSupergate_unmark vNodes fMarkB id =
        if ∃ p ∈ vNodes, p.Id = id then false else fMarkB id := by
  induction vNodes with
  | nil => intro m id; simp [Abc_NtkCollectSupergate_unmark]
  | cons q rest ih =>
    intro m id
    have := ih (setFlag m (Abc_ObjRegular q) false) id
    simp only [Abc_NtkCollectSupergate_unmark, List.foldl_cons] at this ⊢
    rw [this]
    by_cases h1 : ∃ p ∈ rest, p.Id = id
    · have h2 : ∃ p ∈ q :: rest, p.Id = id := by
        obtain ⟨p, hp, hpid⟩ := h1
        exact ⟨p, List.mem_cons_of_mem _ hp, hpid⟩
      simp [h1, h2]
    · by_cases h3 : q.Id = id
      · have h2 : ∃ p ∈ q :: rest, p.Id = id := ⟨q, by simp, h3⟩
        simp [h1, h2, setFlag, Abc_ObjRegular, h3]
      · have h2 : ¬ ∃ p ∈ q :: rest, p.Id = id := by
          rintro ⟨p, hp, hpid⟩
          rcases List.mem_cons.1 hp with hp | hp
          · exact h3 (hp ▸ hpid)
          · exact h1 ⟨p, hp, hpid⟩
        rw [if_neg h1, if_neg h2]
        simp [setFlag, Abc_ObjRegular, Ne.symm h3]

/-- The contract of `Abc_NtkCollectSupergate` on an uncomplemented AND node when no
`fMarkB` is set: the marks are clear again afterwards; under every valuation that
respects the gates the node is false if the returned list is empty and the conjunction
of the returned leaf literals otherwise; and the leaves lie in every set of objects that
contains the fanins of the node and is closed under the fanins of AND nodes. -/
theorem Abc_NtkCollectSupergate_spec (ntk : Abc_Ntk) (fStopAtMux : Bool)
    (fMarkB : Nat → Bool) (pNode : Abc_Ref) (hclear : ∀ id, fMarkB id = false)
    (hreg : pNode.fCompl = false) (hand : Abc_ObjIsNode ntk pNode.Id = true)
    (sup : SuperState)
    (h : Abc_NtkCollectSupergate ntk pNode fStopAtMux fMarkB = some sup) :
    (∀ id, sup.fMarkB id = false) ∧
    (∀ v, Consistent ntk v →
      v pNode.Id = if sup.vSuper = [] then false else sup.vSuper.all (refVal v)) ∧
    (∀ Q : Nat → Prop,
      (∀ id, Abc_ObjIsNode ntk id = true → Q id →
        Q (Abc_NtkObj ntk id).Fanin0 ∧ Q (Abc_NtkObj ntk id).Fanin1) →
      Q (Abc_NtkObj ntk pNode.Id).Fanin0 → Q (Abc_NtkObj ntk pNode.Id).Fanin1 →
      ∀ p ∈ sup.vSuper, Q p.Id) := by
  unfold Abc_NtkCollectSupergate at h
  cases hrec : Abc_NtkCollectSupergate_rec ntk fStopAtMux ((Abc_NtkObj ntk pNode.Id).Level + 1)
      pNode true { vSuper := [], fMarkB := fMarkB } with
  | none => simp [hrec] at h
  | some x =>
    obtain ⟨r, st⟩ := x
    rw [hrec] at h
    simp only [Option.some.injEq] at h
    subst h
    obtain ⟨_, new, hn, hmk⟩ := Abc_NtkCollectSupergate_rec_shape ntk fStopAtMux _ _ _ _ _ _ hrec
    simp only [List.nil_append] at hn
    have hinv : MarkInv { vSuper := [], fMarkB := fMarkB } := by
      intro id hid
      simp [hclear id] at hid
    refine ⟨?_, ?_, ?_⟩
    · intro id
      simp only
      rw [Abc_NtkCollectSupergate_unmark_eq]
      split_ifs with hex
      · rfl
      · cases hb : st.fMarkB id
        · rfl
        · exfalso
          rcases (hmk id).1 hb with h1 | h1
          · simp [hclear id] at h1
          · exact hex (hn ▸ h1)
    · intro v hv
      obtain ⟨ha, hb, hc, hd⟩ := Abc_NtkCollectSupergate_rec_sound ntk fStopAtMux v hv
        _ _ _ _ _ _ hrec (fun _ => ⟨hreg, hand⟩)
      have hval : refVal v pNode = v pNode.Id := by simp [refVal, hreg]
      rw [hval] at ha hb hc
      by_cases hr : r = -1
      · simp only [hr, if_true]
        exact hb hr (by simp)
      · simp only [hr, if_false, hd hinv]
        cases hall : st.vSuper.all (refVal v)
        · cases hvp : v pNode.Id
          · rfl
          · exfalso
            have : st.vSuper.all (refVal v) = true := by
              rw [List.all_eq_true]
              intro p hp
              exact ha new (by simpa using hn) p (hn ▸ hp) hvp
            rw [hall] at this
            exact Bool.noConfusion this
        · rw [List.all_eq_true] at hall
          exact hc hinv hr hall
    · intro Q hQ hq0 hq1 p hp
      have hp2 : p ∈ st.vSuper := by
        simp only at hp
        split_ifs at hp
        · simp at hp
        · exact hp
      exact Abc_NtkCollectSupergate_rec_closed ntk fStopAtMux Q hQ _ _ _ _ _ _ hrec
        (by simp) (fun _ => ⟨hq0, hq1⟩) new (by simpa using hn) p (hn ▸ hp2)

/-- In an acyclic network `Abc_NtkCollectSupergate` returns on every AND node. -/
theorem Abc_NtkCollectSupergate_total (ntk : Abc_Ntk) (hac : Acyclic ntk)
    (fStopAtMux : Bool) (fMarkB : Nat → Bool) (pNode : Abc_Ref)
    (hand : Abc_ObjIsNode ntk pNode.Id = true) :
    ∃ sup, Abc_NtkCollectSupergate ntk pNode fStopAtMux fMarkB = some sup := by
  obtain ⟨r, st, h⟩ := Abc_NtkCollectSupergate_rec_total ntk fStopAtMux hac
    ((Abc_NtkObj ntk pNode.Id).Level + 1) pNode true { vSuper := [], fMarkB := fMarkB }
    (Nat.lt_succ_self _) (fun _ => hand)
  refine ⟨{ vSuper := if r = -1 then [] else st.vSuper,
            fMarkB := Abc_NtkCollectSupergate_unmark st.vSuper st.fMarkB }, ?_⟩
  simp [Abc_NtkCollectSupergate, h]

/-- C4: in an acyclic AIG with `fMarkB` clear on all nodes, `Abc_NtkCollectSupergate`
returns on every uncomplemented AND root, and when the returned leaf list is not empty
then, for every assignment to the primary inputs, the circuit value of the root equals
the conjunction of the circuit values of the returned leaf literals (the value of the
leaf's node, negated when the leaf reference is complemented). -/
theorem C4_supergate_conjunction (ntk : Abc_Ntk) (hac : Acyclic ntk) (fStopAtMux : Bool)
    (fMarkB : Nat → Bool) (hclear : ∀ id, fMarkB id = false) (pNode : Abc_Ref)
    (hreg : Abc_ObjIsComplement pNode = false)
    (hand : Abc_ObjIsNode ntk pNode.Id = true) :
    ∃ sup, Abc_NtkCollectSupergate ntk pNode fStopAtMux fMarkB = some sup ∧
      (sup.vSuper ≠ [] → ∀ inp : Nat → Bool,
        nodeValue ntk inp pNode.Id =
          sup.vSuper.all fun p => xor (nodeValue ntk inp p.Id) p.fCompl) := by
  obtain ⟨sup, hsup⟩ := Abc_NtkCollectSupergate_total ntk hac fStopAtMux fMarkB pNode hand
  refine ⟨sup, hsup, ?_⟩
  intro hne inp
  have := (Abc_NtkCollectSupergate_spec ntk fStopAtMux fMarkB pNode hclear hreg hand sup
    hsup).2.1 _ (nodeValue_consistent ntk inp hac)
  rw [if_neg hne] at this
  exact this

theorem Abc_ObjIsNode_lt (ntk : Abc_Ntk) (id : Nat) (h : Abc_ObjIsNode ntk id = true) :
    id < Abc_NtkObjNumMax ntk := by
  by_contra hge
  have hlen : ntk.vObjs.length ≤ id := by simpa [Abc_NtkObjNumMax] using hge
  have : Abc_NtkObj ntk id = Abc_ObjNone := by
    rw [Abc_NtkObj, List.getD_eq_default _ _ hlen]
  simp [Abc_ObjIsNode, this, Abc_ObjNone] at h

theorem Acyclic_of_check (ntk : Abc_Ntk) (h : Abc_NtkCheckAcyclic ntk = true) :
    Acyclic ntk := by
  intro id hn
  have hlt := Abc_ObjIsNode_lt ntk id hn
  simp only [Abc_NtkCheckAcyclic, List.all_eq_true, List.mem_range] at h
  have := h id hlt
  simpa [hn] using this

/-- Witness of C4: node 4 of `netShared`, whose supergate is `3 and not a`. -/
theorem C4_supergate_conjunction_witness :
    ∃ sup, Abc_NtkCollectSupergate netShared ⟨4, false⟩ true noMarks = some sup ∧
      (sup.vSuper ≠ [] → ∀ inp : Nat → Bool,
        nodeValue netShared inp (⟨4, false⟩ : Abc_Ref).Id =
          sup.vSuper.all fun p => xor (nodeValue netShared inp p.Id) p.fCompl) :=
  C4_supergate_conjunction netShared (Acyclic_of_check netShared (by decide)) true noMarks
    (fun _ => rfl) ⟨4, false⟩ rfl (by decide)

/-- Counterexample to C5: node 4 of `netShared` is `(a and b) and not a`, false under
every input assignment, but the collector stops at the shared node 3 and never meets
`a` in both polarities, so the contradiction path is not taken. -/
theorem C5_counterexample :
    ¬ (Abc_NtkCollectSupergate_contradiction netShared ⟨4, false⟩ true noMarks = true ↔
        ∀ inp : Nat → Bool, nodeValue netShared inp 4 = false) := by
  intro h
  have hfalse : ∀ inp : Nat → Bool, nodeValue netShared inp 4 = false := by
    intro inp
    simp only [nodeValue, simFuel, netShared, Abc_NtkObj, List.getD_cons_succ,
      List.getD_cons_zero]
    cases inp 1 <;> cases inp 2 <;> rfl
  have := h.2 hfalse
  revert this
  decide

/-- C5 (amended): in an acyclic AIG, for every uncomplemented AND root, when
`Abc_NtkCollectSupergate` takes the contradiction path (the recursive collection
returns -1) it returns the empty leaf list and the root is false under every assignment
to the primary inputs. -/
theorem C5_contradiction_sound (ntk : Abc_Ntk) (hac : Acyclic ntk) (fStopAtMux : Bool)
    (fMarkB : Nat → Bool) (pNode : Abc_Ref)
    (hreg : Abc_ObjIsComplement pNode = false)
    (hand : Abc_ObjIsNode ntk pNode.Id = true)
    (hcon : Abc_NtkCollectSupergate_contradiction ntk pNode fStopAtMux fMarkB = true) :
    (∃ sup, Abc_NtkCollectSupergate ntk pNode fStopAtMux fMarkB = some sup ∧
      sup.vSuper = []) ∧
    ∀ inp : Nat → Bool, nodeValue ntk inp pNode.Id = false := by
  unfold Abc_NtkCollectSupergate_contradiction at hcon
  cases hrec : Abc_NtkCollectSupergate_rec ntk fStopAtMux ((Abc_NtkObj ntk pNode.Id).Level + 1)
      pNode true { vSuper := [], fMarkB := fMarkB } with
  | none => simp [hrec] at hcon
  | some x =>
    obtain ⟨r, st⟩ := x
    rw [hrec] at hcon
    have hr : r = -1 := by simpa using hcon
    constructor
    · exact ⟨{ vSuper := if r = -1 then [] else st.vSuper,
               fMarkB := Abc_NtkCollectSupergate_unmark st.vSuper st.fMarkB },
        by simp [Abc_NtkCollectSupergate, hrec], by simp [hr]⟩
    · intro inp
      have hb := (Abc_NtkCollectSupergate_rec_sound ntk fStopAtMux _
        (nodeValue_consistent ntk inp hac) _ _ _ _ _ _ hrec (fun _ => ⟨hreg, hand⟩)).2.1
      have := hb hr (by simp)
      simpa [refVal, show pNode.fCompl = false from hreg] using this

/-- Witness of C5 (amended): node 4 of `netChain`, whose supergate contains `a` and
`not a`. -/
theorem C5_contradiction_sound_witness :
    (∃ sup, Abc_NtkCollectSupergate netChain ⟨4, false⟩ true noMarks = some sup ∧
      sup.vSuper = []) ∧
    ∀ inp : Nat → Bool, nodeValue netChain inp (⟨4, false⟩ : Abc_Ref).Id = false :=
  C5_contradiction_sound netChain (Acyclic_of_check netChain (by decide)) true noMarks
    ⟨4, false⟩ rfl (by decide) (by decide)

/-! ### Allocation of variables -/

theorem Extends_refl (st : MiterState) : Extends st st :=
  ⟨⟨[], by simp⟩, rfl, ⟨[], by simp⟩, fun _ h => ⟨h, rfl⟩⟩

theorem Extends_trans {st1 st2 st3 : MiterState} (h12 : Extends st1 st2)
    (h23 : Extends st2 st3) : Extends st1 st3 := by
  obtain ⟨⟨r1, hr1⟩, ha1, ⟨m1, hm1⟩, hk1⟩ := h12
  obtain ⟨⟨r2, hr2⟩, ha2, ⟨m2, hm2⟩, hk2⟩ := h23
  refine ⟨⟨r1 ++ r2, by rw [hr2, hr1, List.append_assoc]⟩, by rw [ha2, ha1],
    ⟨m1 ++ m2, by rw [hm2, hm1, List.append_assoc]⟩, ?_⟩
  intro x hx
  obtain ⟨h1, h2⟩ := hk1 x hx
  obtain ⟨h3, h4⟩ := hk2 x h1
  exact ⟨h3, by rw [h4, h2]⟩

theorem addVar_pSat (st : MiterState) (x : Nat) :
    (Abc_NtkMiterSatCreateInt_addVar st x).pSat = st.pSat ∧
    (Abc_NtkMiterSatCreateInt_addVar st x).fMarkB = st.fMarkB := by
  unfold Abc_NtkMiterSatCreateInt_addVar
  split_ifs <;> exact ⟨rfl, rfl⟩

theorem addVar_marked (st : MiterState) (x : Nat) :
    (Abc_NtkMiterSatCreateInt_addVar st x).fMarkA x = true := by
  unfold Abc_NtkMiterSatCreateInt_addVar
  split_ifs with h
  · simp [setFlag]
  · simpa using h

theorem addVar_extends (st : MiterState) (x : Nat) :
    Extends st (Abc_NtkMiterSatCreateInt_addVar st x) := by
  unfold Abc_NtkMiterSatCreateInt_addVar
  split_ifs with h
  · refine ⟨⟨[], by simp⟩, rfl, ⟨[x], rfl⟩, ?_⟩
    intro y hy
    have hne : y ≠ x := by
      rintro rfl
      rw [h] at hy
      exact Bool.noConfusion hy
    simp [setFlag, setCopy, hne, hy]
  · exact Extends_refl st

theorem addVar_allocInv (st : MiterState) (x : Nat) (h : AllocInv st) :
    AllocInv (Abc_NtkMiterSatCreateInt_addVar st x) := by
  unfold Abc_NtkMiterSatCreateInt_addVar
  split_ifs with hx
  · obtain ⟨hnd, hidx, hmk⟩ := h
    have hnot : x ∉ st.vNodes := by
      intro hin
      have := (hmk x).2 hin
      rw [hx] at this
      exact Bool.noConfusion this
    refine ⟨?_, ?_, ?_⟩
    · simp only
      rw [List.nodup_append]
      refine ⟨hnd, by simp, ?_⟩
      intro a ha hb
      simp only [List.mem_singleton] at hb
      exact hnot (hb ▸ ha)
    · intro i hi
      simp only [List.length_append, List.length_singleton] at hi
      simp only [setCopy]
      by_cases hlt : i < st.vNodes.length
      · rw [List.getElem_append_left hlt]
        have hne : st.vNodes[i] ≠ x := by
          intro heq
          exact hnot (heq ▸ List.getElem_mem hlt)
        rw [if_neg hne]
        exact hidx i hlt
      · have hi2 : i = st.vNodes.length := by omega
        subst hi2
        simp
    · intro y
      simp only [setFlag, List.mem_append, List.mem_singleton]
      by_cases hy : y = x
      · simp [hy]
      · simp [hy, hmk y]
  · exact h

theorem addVar_range (st : MiterState) (x N : Nat) (hx : x < N)
    (h : ∀ y ∈ st.vNodes, y < N) :
    ∀ y ∈ (Abc_NtkMiterSatCreateInt_addVar st x).vNodes, y < N := by
  unfold Abc_NtkMiterSatCreateInt_addVar
  split_ifs
  · intro y hy
    simp only [List.mem_append, List.mem_singleton] at hy
    rcases hy with hy | hy
    · exact h y hy
    · exact hy ▸ hx
  · exact h

/-- The loop that gives variables to a list of references. -/
theorem addVars_spec (vSuper : List Abc_Ref) :
    ∀ st : MiterState,
      Extends st (Abc_NtkMiterSatCreateInt_addVars st vSuper) ∧
      (Abc_NtkMiterSatCreateInt_addVars st vSuper).pSat = st.pSat ∧
      (Abc_NtkMiterSatCreateInt_addVars st vSuper).fMarkB = st.fMarkB ∧
      (AllocInv st → AllocInv (Abc_NtkMiterSatCreateInt_addVars st vSuper)) ∧
      (∀ p ∈ vSuper, (Abc_NtkMiterSatCreateInt_addVars st vSuper).fMarkA p.Id = true) ∧
      (∀ N, (∀ p ∈ vSuper, p.Id < N) → (∀ y ∈ st.vNodes, y < N) →
        ∀ y ∈ (Abc_NtkMiterSatCreateInt_addVars st vSuper).vNodes, y < N) := by
  induction vSuper with
  | nil =>
    intro st
    exact ⟨Extends_refl st, rfl, rfl, id, by simp, fun _ _ h => h⟩
  | cons q rest ih =>
    intro st
    obtain ⟨hext, hps, hmb, hal, hmk, hrg⟩ :=
      ih (Abc_NtkMiterSatCreateInt_addVar st (Abc_ObjRegular q))
    simp only [Abc_NtkMiterSatCreateInt_addVars, List.foldl_cons] at hext hps hmb hal hmk hrg ⊢
    refine ⟨Extends_trans (addVar_extends st _) hext, by rw [hps, (addVar_pSat st _).1],
      by rw [hmb, (addVar_pSat st _).2], fun h => hal (addVar_allocInv st _ h), ?_, ?_⟩
    · intro p hp
      rcases List.mem_cons.1 hp with hp | hp
      · subst hp
        exact (hext.2.2.2 _ (addVar_marked st _)).1
      · exact hmk p hp
    · intro N hN hst
      exact hrg N (fun p hp => hN p (List.mem_cons_of_mem _ hp))
        (addVar_range st _ N (hN q (by simp)) hst)

/-! ### The emitters on a solver that accepts every clause -/

/-- The clauses of the AND template hold exactly when the root variable is the
conjunction of the leaf literals. -/
theorem andClauses_sat_iff (a : Nat → Bool) (pCopy : Nat → Nat) (F : Nat)
    (vSuper : List Abc_Ref) :
    cnfSat a ((vSuper.map fun p => [refLit pCopy p, toLitCond F true]) ++
        [(vSuper.map fun p => toLitCond (pCopy (Abc_ObjRegular p)) (!Abc_ObjIsComplement p))
          ++ [toLitCond F false]]) = true ↔
      a F = vSuper.all fun p => xor (a (pCopy p.Id)) p.fCompl := by
  rw [cnfSat_append, cnfSat_binary]
  simp only [cnfSat, List.all_cons, List.all_nil, Bool.and_true, clauseSat_negated]
  simp only [Abc_ObjRegular, Abc_ObjIsComplement]
  cases a F <;>
    cases (vSuper.all fun p => xor (a (pCopy p.Id)) p.fCompl) <;> simp

/-- The first four clauses of the multiplexer template, and all six of them, hold
exactly when the root variable is the if-then-else of the operand literals. -/
theorem muxClauses_sat_iff (a : Nat → Bool) (pCopy : Nat → Nat) (pNode pNodeC : Nat)
    (pNodeT pNodeE : Abc_Ref) (k : Nat) (hk : k = 4 ∨ k = 6) :
    cnfSat a ((muxClauses pCopy pNode pNodeC pNodeT pNodeE).take k) = true ↔
      a (pCopy pNode) =
        if a (pCopy pNodeC) then xor (a (pCopy pNodeT.Id)) pNodeT.fCompl
        else xor (a (pCopy pNodeE.Id)) pNodeE.fCompl := by
  rcases hk with hk | hk <;> subst hk <;>
    simp only [muxClauses, List.take_succ_cons, List.take_zero, cnfSat, clauseSat,
      List.all_cons, List.all_nil, List.any_cons, List.any_nil, litVal_toLitCond,
      Abc_ObjRegular, Abc_ObjIsComplement] <;>
    cases a (pCopy pNode) <;> cases a (pCopy pNodeC) <;>
    cases a (pCopy pNodeT.Id) <;> cases a (pCopy pNodeE.Id) <;>
    cases pNodeT.fCompl <;> cases pNodeE.fCompl <;> simp

theorem Abc_NtkClauseAnd_loop_accept (pCopy : Nat → Nat) (Var : Nat) (vSuper : List Abc_Ref) :
    ∀ pSat : sat_solver, (∀ s c, pSat.answer s c = true) →
      (Abc_NtkClauseAnd_loop pCopy Var vSuper pSat).1 = true := by
  induction vSuper with
  | nil => intro pSat _; rfl
  | cons p rest ih =>
    intro pSat hacc
    simp only [Abc_NtkClauseAnd_loop, sat_solver_addclause, hacc, Bool.not_true,
      Bool.false_eq_true, if_false]
    exact ih _ hacc

/-- On a solver that accepts every clause `Abc_NtkClauseAnd` succeeds, and the clauses
it submits hold exactly when the root variable is the conjunction of the leaf
literals. -/
theorem Abc_NtkClauseAnd_accept (pSat : sat_solver) (pCopy : Nat → Nat) (pNode : Nat)
    (vSuper : List Abc_Ref) (hacc : ∀ s c, pSat.answer s c = true) :
    (Abc_NtkClauseAnd pSat pCopy pNode vSuper).1 = true ∧
    (Abc_NtkClauseAnd pSat pCopy pNode vSuper).2.answer = pSat.answer ∧
    ∃ cls, (Abc_NtkClauseAnd pSat pCopy pNode vSuper).2.store = pSat.store ++ cls ∧
      ∀ a, cnfSat a cls = true ↔
        a (pCopy pNode) = vSuper.all fun p => xor (a (pCopy p.Id)) p.fCompl := by
  have hloop := Abc_NtkClauseAnd_loop_accept pCopy (pCopy pNode) vSuper pSat hacc
  obtain ⟨hans, k, _, hst, hret⟩ := Abc_NtkClauseAnd_loop_store pCopy (pCopy pNode) vSuper pSat
  have hk := hret hloop
  subst hk
  refine ⟨?_, ?_, _, ?_, fun a => andClauses_sat_iff a pCopy (pCopy pNode) vSuper⟩
  · simp [Abc_NtkClauseAnd, hloop, sat_solver_addclause, hans, hacc]
  · simp [Abc_NtkClauseAnd, hloop, sat_solver_addclause, hans]
  · simp [Abc_NtkClauseAnd, hloop, sat_solver_addclause, hst]

/-- On a solver that accepts every clause `Abc_NtkClauseMux` succeeds, and the clauses
it submits hold exactly when the root variable is the if-then-else of the operand
literals. -/
theorem Abc_NtkClauseMux_accept (pSat : sat_solver) (pCopy : Nat → Nat) (pNode pNodeC : Nat)
    (pNodeT pNodeE : Abc_Ref) (hacc : ∀ s c, pSat.answer s c = true) :
    (Abc_NtkClauseMux pSat pCopy pNode pNodeC pNodeT pNodeE).1 = true ∧
    (Abc_NtkClauseMux pSat pCopy pNode pNodeC pNodeT pNodeE).2.answer = pSat.answer ∧
    ∃ cls, (Abc_NtkClauseMux pSat pCopy pNode pNodeC pNodeT pNodeE).2.store =
        pSat.store ++ cls ∧
      ∀ a, cnfSat a cls = true ↔
        (a (pCopy pNode) =
          if a (pCopy pNodeC) then xor (a (pCopy pNodeT.Id)) pNodeT.fCompl
          else xor (a (pCopy pNodeE.Id)) pNodeE.fCompl) := by
  have hret : (Abc_NtkClauseMux pSat pCopy pNode pNodeC pNodeT pNodeE).1 = true := by
    unfold Abc_NtkClauseMux
    simp only [sat_solver_addclause, hacc, Bool.not_true, Bool.false_eq_true, if_false]
    split_ifs <;> rfl
  obtain ⟨hans, k, _, _, hst, hk⟩ := Abc_NtkClauseMux_store pSat pCopy pNode pNodeC pNodeT pNodeE
  refine ⟨hret, hans, _, hst, fun a => ?_⟩
  apply muxClauses_sat_iff
  rcases hk hret with h | h
  · exact Or.inl h.2
  · exact Or.inr h.2

theorem all_congr_mem {α : Type} (l : List α) (f g : α → Bool)
    (h : ∀ p ∈ l, f p = g p) : l.all f = l.all g := by
  induction l with
  | nil => rfl
  | cons q rest ih =>
    simp only [List.all_cons]
    rw [h q (by simp), ih (fun p hp => h p (List.mem_cons_of_mem _ hp))]

/-- The constraint of a node depends on the variable map only at the node and at its
operands. -/
theorem encRel_congr (ntk : Abc_Ntk) (a : Nat → Bool) (pc1 pc2 : Nat → Nat) (x : Nat)
    (hx : pc1 x = pc2 x) (hops : ∀ y ∈ encOperands ntk x, pc1 y = pc2 y) :
    encRel ntk a pc1 x ↔ encRel ntk a pc2 x := by
  by_cases hmux : Abc_NodeIsMuxType ntk x = true
  · have h1 := hops (Abc_NodeRecognizeMux ntk x).1 (by simp [encOperands, hmux])
    have h2 := hops (Abc_NodeRecognizeMux ntk x).2.1.Id (by simp [encOperands, hmux])
    have h3 := hops (Abc_NodeRecognizeMux ntk x).2.2.Id (by simp [encOperands, hmux])
    simp only [encRel, if_pos hmux, hx, h1, h2, h3]
  · rw [encRel, encRel, if_neg hmux, if_neg hmux]
    rw [encOperands, if_neg hmux] at hops
    cases hsup : Abc_NtkCollectSupergate ntk { Id := x, fCompl := false } true noMarks with
    | none => simp
    | some sup =>
      rw [hsup] at hops
      have hall : (sup.vSuper.all fun p => xor (a (pc1 p.Id)) p.fCompl) =
          (sup.vSuper.all fun p => xor (a (pc2 p.Id)) p.fCompl) := by
        apply all_congr_mem
        intro p hp
        rw [hops p.Id (List.mem_map.2 ⟨p, hp, rfl⟩)]
      simp only [hx, hall]

/-! ### The main loop -/

theorem take_succ_append (l more : List Nat) (i : Nat) (h : i < l.length) :
    (l ++ more).take (i + 1) = l.take i ++ [l[i]] := by
  rw [List.take_append_of_le_length (by omega), List.take_succ]
  simp [List.getElem?_eq_getElem h]

/-- One step of the main loop keeps the loop invariant: the state after the step extends
the state before it, and the clauses submitted in the step express `encRel` of the node
at position `i`, whose operands now have variables. -/
theorem LoopInv_step (ntk : Abc_Ntk) (base : List (List Nat)) (st : MiterState) (i : Nat)
    (hinv : LoopInv ntk base st i) (hi : i < st.vNodes.length)
    (handi : Abc_AigNodeIsAnd ntk st.vNodes[i] = true) (st1 : MiterState)
    (hext : Extends st st1) (hal1 : AllocInv st1) (hmb1 : ∀ id, st1.fMarkB id = false)
    (hrange1 : ∀ y ∈ st1.vNodes, y < Abc_NtkObjNumMax ntk)
    (newcls : List (List Nat)) (hstore1 : st1.pSat.store = st.pSat.store ++ newcls)
    (hnew : ∀ a, cnfSat a newcls = true ↔ encRel ntk a st1.pCopy st.vNodes[i])
    (hops1 : ∀ y ∈ encOperands ntk st.vNodes[i], y ∈ st1.vNodes) :
    LoopInv ntk base st1 (i + 1) := by
  obtain ⟨hal, hmb, hile, hrange, hacc, cls, hstore, hsem, hops⟩ := hinv
  obtain ⟨_, hans, ⟨more, hmore⟩, hkeep⟩ := hext
  have htake : st1.vNodes.take (i + 1) = st.vNodes.take i ++ [st.vNodes[i]] := by
    rw [hmore]; exact take_succ_append _ _ _ hi
  have hsame : ∀ y ∈ st.vNodes, st1.pCopy y = st.pCopy y :=
    fun y hy => (hkeep y ((hal.2.2 y).2 hy)).2
  have hold : ∀ y ∈ st.vNodes.take i, Abc_AigNodeIsAnd ntk y = true →
      ∀ a, encRel ntk a st.pCopy y ↔ encRel ntk a st1.pCopy y := by
    intro y hy hand a
    apply encRel_congr
    · exact (hsame y (List.mem_of_mem_take hy)).symm
    · intro z hz
      exact (hsame z (hops y hy hand z hz)).symm
  refine ⟨hal1, hmb1, ?_, hrange1, ?_, cls ++ newcls, ?_, ?_, ?_⟩
  · rw [hmore, List.length_append]; omega
  · intro s c; rw [hans]; exact hacc s c
  · rw [hstore1, hstore, List.append_assoc]
  · intro a
    rw [cnfSat_append, Bool.and_eq_true, hsem a, hnew a, htake]
    constructor
    · rintro ⟨h1, h2⟩ y hy hand
      rcases List.mem_append.1 hy with hy | hy
      · exact (hold y hy hand a).1 (h1 y hy hand)
      · simp only [List.mem_singleton] at hy
        rw [hy]; exact h2
    · intro h
      refine ⟨?_, ?_⟩
      · intro y hy hand
        exact (hold y hy hand a).2 (h y (List.mem_append_left _ hy) hand)
      · exact h _ (List.mem_append_right _ (by simp)) handi
  · intro y hy hand z hz
    rw [htake] at hy
    rcases List.mem_append.1 hy with hy | hy
    · rw [hmore]
      exact List.mem_append_left _ (hops y hy hand z hz)
    · simp only [List.mem_singleton] at hy
      rw [hy] at hz
      exact hops1 z hz

theorem cnfSat_unit_neg (a : Nat → Bool) (v : Nat) :
    cnfSat a [[toLitCond v true]] = true ↔ a v = false := by
  simp [cnfSat, clauseSat, litVal_toLitCond]

/-- The end of a step of the main loop: after the operands got their variables (state
`st1`) an emitter submitted clauses that express `encRel` of the node. -/
theorem LoopInv_emit (ntk : Abc_Ntk) (base : List (List Nat)) (st : MiterState) (i : Nat)
    (hinv : LoopInv ntk base st i) (hi : i < st.vNodes.length)
    (handi : Abc_AigNodeIsAnd ntk st.vNodes[i] = true) (st1 : MiterState) (pSat2 : sat_solver)
    (hext : Extends st st1) (hps : st1.pSat = st.pSat) (hal1 : AllocInv st1)
    (hmb1 : ∀ id, st1.fMarkB id = false)
    (hrange1 : ∀ y ∈ st1.vNodes, y < Abc_NtkObjNumMax ntk)
    (hops1 : ∀ y ∈ encOperands ntk st.vNodes[i], y ∈ st1.vNodes)
    (hans : pSat2.answer = st1.pSat.answer)
    (newcls : List (List Nat)) (hst : pSat2.store = st1.pSat.store ++ newcls)
    (hnew : ∀ a, cnfSat a newcls = true ↔ encRel ntk a st1.pCopy st.vNodes[i]) :
    LoopInv ntk base { st1 with pSat := pSat2 } (i + 1) ∧
    Extends st { st1 with pSat := pSat2 } := by
  have hext2 : Extends st { st1 with pSat := pSat2 } :=
    ⟨⟨newcls, by rw [hst, hps]⟩, by rw [hans, hps], hext.2.2.1, hext.2.2.2⟩
  exact ⟨LoopInv_step ntk base st i hinv hi handi { st1 with pSat := pSat2 } hext2 hal1 hmb1
    hrange1 newcls (by rw [hst, hps]) hnew hops1, hext2⟩

/-- On a well-formed network and a solver that accepts every clause, the body of the
main loop succeeds on an AND node and keeps the loop invariant. -/
theorem Abc_NtkMiterSatCreateInt_node_spec (ntk : Abc_Ntk) (hwf : Abc_NtkIsStrash ntk)
    (base : List (List Nat)) (st : MiterState) (i : Nat)
    (hinv : LoopInv ntk base st i) (hi : i < st.vNodes.length)
    (hand : Abc_AigNodeIsAnd ntk st.vNodes[i] = true) :
    ∃ st1, Abc_NtkMiterSatCreateInt_node ntk true st st.vNodes[i] = some (true, st1) ∧
      LoopInv ntk base st1 (i + 1) ∧ Extends st st1 := by
  have hinv0 := hinv
  obtain ⟨hal, hmb, hile, hrange, hacc, cls, hstore, hsem, hops⟩ := hinv
  have hnode : Abc_ObjIsNode ntk st.vNodes[i] = true := hand
  by_cases hmux : Abc_NodeIsMuxType ntk st.vNodes[i] = true
  · -- the multiplexer branch
    obtain ⟨hext, hps, hmbs, hals, hmk, hrg⟩ := addVars_spec
      [{ Id := (Abc_NodeRecognizeMux ntk st.vNodes[i]).1, fCompl := false },
        (Abc_NodeRecognizeMux ntk st.vNodes[i]).2.1,
        (Abc_NodeRecognizeMux ntk st.vNodes[i]).2.2] st
    obtain ⟨hr1, hr2, hr3⟩ := hwf.muxInRange _ hnode hmux
    have hacc1 : ∀ s c, (Abc_NtkMiterSatCreateInt_addVars st
        [{ Id := (Abc_NodeRecognizeMux ntk st.vNodes[i]).1, fCompl := false },
          (Abc_NodeRecognizeMux ntk st.vNodes[i]).2.1,
          (Abc_NodeRecognizeMux ntk st.vNodes[i]).2.2]).pSat.answer s c = true := by
      intro s c; rw [hps]; exact hacc s c
    obtain ⟨hret, hans, newcls, hst, hsat⟩ := Abc_NtkClauseMux_accept _
      (Abc_NtkMiterSatCreateInt_addVars st
        [{ Id := (Abc_NodeRecognizeMux ntk st.vNodes[i]).1, fCompl := false },
          (Abc_NodeRecognizeMux ntk st.vNodes[i]).2.1,
          (Abc_NodeRecognizeMux ntk st.vNodes[i]).2.2]).pCopy st.vNodes[i]
      (Abc_NodeRecognizeMux ntk st.vNodes[i]).1 (Abc_NodeRecognizeMux ntk st.vNodes[i]).2.1
      (Abc_NodeRecognizeMux ntk st.vNodes[i]).2.2 hacc1
    refine ⟨_, by
      simp only [Abc_NtkMiterSatCreateInt_node, hmux, Bool.and_self, if_true, hret]; rfl, ?_⟩
    refine LoopInv_emit ntk base st i hinv0 hi hand _ _ hext hps (hals hal)
      (fun id => by rw [hmbs]; exact hmb id) ?_ ?_ hans newcls hst ?_
    · apply hrg _ _ hrange
      intro p hp
      simp only [List.mem_cons, List.mem_singleton, List.not_mem_nil, or_false] at hp
      rcases hp with hp | hp | hp <;> subst hp <;> assumption
    · intro y hy
      simp only [encOperands, if_pos hmux, List.mem_cons, List.mem_singleton,
        List.not_mem_nil, or_false] at hy
      apply ((hals hal).2.2 y).1
      rcases hy with hy | hy | hy <;> subst hy
      · exact hmk { Id := (Abc_NodeRecognizeMux ntk st.vNodes[i]).1, fCompl := false }
          (by simp)
      · exact hmk _ (by simp)
      · exact hmk _ (by simp)
    · intro a
      rw [hsat a]
      simp only [encRel, if_pos hmux]
  · -- the supergate branch
    have hmuxf : Abc_NodeIsMuxType ntk st.vNodes[i] = false := by simpa using hmux
    have hmarks : st.fMarkB = noMarks := funext hmb
    obtain ⟨sup, hsup⟩ := Abc_NtkCollectSupergate_total ntk hwf.acyclic true noMarks
      { Id := st.vNodes[i], fCompl := false } hnode
    obtain ⟨hclr, hval, hclosed⟩ := Abc_NtkCollectSupergate_spec ntk true noMarks
      { Id := st.vNodes[i], fCompl := false } (fun _ => rfl) rfl hnode sup hsup
    obtain ⟨hext, hps, hmbs, hals, hmk, hrg⟩ :=
      addVars_spec sup.vSuper { st with fMarkB := sup.fMarkB }
    have hext0 : Extends st { st with fMarkB := sup.fMarkB } :=
      ⟨⟨[], by simp⟩, rfl, ⟨[], by simp⟩, fun _ h => ⟨h, rfl⟩⟩
    have hleaves : ∀ p ∈ sup.vSuper, p.Id < Abc_NtkObjNumMax ntk :=
      hclosed (fun y => y < Abc_NtkObjNumMax ntk) (fun id hid _ => hwf.faninsInRange id hid)
        (hwf.faninsInRange _ hnode).1 (hwf.faninsInRange _ hnode).2
    have hopsIn : ∀ y ∈ encOperands ntk st.vNodes[i],
        y ∈ (Abc_NtkMiterSatCreateInt_addVars { st with fMarkB := sup.fMarkB } sup.vSuper).vNodes := by
      intro y hy
      simp only [encOperands, hmuxf, Bool.false_eq_true, if_false, hsup, List.mem_map] at hy
      obtain ⟨p, hp, hpy⟩ := hy
      apply ((hals hal).2.2 y).1
      rw [← hpy]
      exact hmk p hp
    have hacc1 : ∀ s c, (Abc_NtkMiterSatCreateInt_addVars { st with fMarkB := sup.fMarkB }
        sup.vSuper).pSat.answer s c = true := by
      intro s c; rw [hps]; exact hacc s c
    by_cases hempty : sup.vSuper.length = 0
    · have hnil : sup.vSuper = [] := List.length_eq_zero.1 hempty
      refine ⟨_, by
        simp only [Abc_NtkMiterSatCreateInt_node, hmuxf, Bool.and_false, Bool.false_eq_true,
          if_false, hmarks, hsup, hempty, if_true, Abc_NtkClauseTriv, sat_solver_addclause,
          hacc1]; rfl, ?_⟩
      refine LoopInv_emit ntk base st i hinv0 hi hand _ _ (Extends_trans hext0 hext) hps
        (hals hal) (fun id => by rw [hmbs]; exact hclr id) (hrg _ hleaves hrange) hopsIn rfl
        [[toLitCond ((Abc_NtkMiterSatCreateInt_addVars { st with fMarkB := sup.fMarkB }
          sup.vSuper).pCopy st.vNodes[i]) true]] rfl ?_
      intro a
      rw [cnfSat_unit_neg]
      simp only [encRel, hmuxf, Bool.false_eq_true, if_false, hsup, hnil, if_true]
    · have hne : sup.vSuper ≠ [] := fun h => hempty (by simp [h])
      obtain ⟨hret, hans, newcls, hst, hsat⟩ := Abc_NtkClauseAnd_accept _
        (Abc_NtkMiterSatCreateInt_addVars { st with fMarkB := sup.fMarkB } sup.vSuper).pCopy
        st.vNodes[i] sup.vSuper hacc1
      refine ⟨_, by
        simp only [Abc_NtkMiterSatCreateInt_node, hmuxf, Bool.and_false, Bool.false_eq_true,
          if_false, hmarks, hsup, hempty, hret]; rfl, ?_⟩
      refine LoopInv_emit ntk base st i hinv0 hi hand _ _ (Extends_trans hext0 hext) hps
        (hals hal) (fun id => by rw [hmbs]; exact hclr id) (hrg _ hleaves hrange) hopsIn hans
        newcls hst ?_
      intro a
      rw [hsat a]
      simp only [encRel, hmuxf, Bool.false_eq_true, if_false, hsup, hne]

/-- A position of `vNodes` that holds no AND node is passed without any clause. -/
theorem LoopInv_skip (ntk : Abc_Ntk) (base : List (List Nat)) (st : MiterState) (i : Nat)
    (hinv : LoopInv ntk base st i) (hi : i < st.vNodes.length)
    (hand : Abc_AigNodeIsAnd ntk st.vNodes[i] ≠ true) :
    LoopInv ntk base st (i + 1) := by
  obtain ⟨hal, hmb, hile, hrange, hacc, cls, hstore, hsem, hops⟩ := hinv
  have htake : st.vNodes.take (i + 1) = st.vNodes.take i ++ [st.vNodes[i]] := by
    simp
  refine ⟨hal, hmb, hi, hrange, hacc, cls, hstore, ?_, ?_⟩
  · intro a
    rw [hsem a, htake]
    constructor
    · intro h y hy hy2
      rcases List.mem_append.1 hy with hy | hy
      · exact h y hy hy2
      · simp only [List.mem_singleton] at hy
        rw [hy] at hy2
        exact absurd hy2 hand
    · intro h y hy hy2
      exact h y (List.mem_append_left _ hy) hy2
  · intro y hy hy2
    rw [htake] at hy
    rcases List.mem_append.1 hy with hy | hy
    · exact hops y hy hy2
    · simp only [List.mem_singleton] at hy
      rw [hy] at hy2
      exact absurd hy2 hand

theorem LoopInv_length_le (ntk : Abc_Ntk) (base : List (List Nat)) (st : MiterState) (i : Nat)
    (hinv : LoopInv ntk base st i) : st.vNodes.length ≤ Abc_NtkObjNumMax ntk := by
  obtain ⟨hal, _, _, hrange, _⟩ := hinv
  have hsub : st.vNodes ⊆ List.range (Abc_NtkObjNumMax ntk) :=
    fun x hx => List.mem_range.2 (hrange x hx)
  have := (List.Nodup.subperm hal.1 hsub).length_le
  simpa using this

/-- On a well-formed network and a solver that accepts every clause, the main loop
returns 1 as soon as the fuel covers the positions that are left, and the loop invariant
then holds at the end of `vNodes`. -/
theorem Abc_NtkMiterSatCreateInt_loop_spec (ntk : Abc_Ntk) (hwf : Abc_NtkIsStrash ntk)
    (base : List (List Nat)) :
    ∀ (fuel i : Nat) (st : MiterState), LoopInv ntk base st i →
      Abc_NtkObjNumMax ntk + 1 ≤ fuel + i →
      ∃ st2, Abc_NtkMiterSatCreateInt_loop ntk true fuel i st = some (1, st2) ∧
        LoopInv ntk base st2 st2.vNodes.length ∧ Extends st st2 := by
  intro fuel
  induction fuel with
  | zero =>
    intro i st hinv hfuel
    have h1 := LoopInv_length_le ntk base st i hinv
    have h2 := hinv.2.2.1
    omega
  | succ fuel ih =>
    intro i st hinv hfuel
    rw [Abc_NtkMiterSatCreateInt_loop]
    by_cases hi : i < st.vNodes.length
    · rw [List.get?_eq_get hi]
      simp only [List.get_eq_getElem]
      by_cases hand : Abc_AigNodeIsAnd ntk st.vNodes[i] = true
      · obtain ⟨st1, hnode, hinv1, hext1⟩ :=
          Abc_NtkMiterSatCreateInt_node_spec ntk hwf base st i hinv hi hand
        obtain ⟨st2, hloop, hinv2, hext2⟩ := ih (i + 1) st1 hinv1 (by omega)
        refine ⟨st2, ?_, hinv2, Extends_trans hext1 hext2⟩
        simp only [hand, Bool.not_true, Bool.false_eq_true, if_false, hnode]
        exact hloop
      · obtain ⟨st2, hloop, hinv2, hext2⟩ :=
          ih (i + 1) st (LoopInv_skip ntk base st i hinv hi hand) (by omega)
        refine ⟨st2, ?_, hinv2, hext2⟩
        have hf : Abc_AigNodeIsAnd ntk st.vNodes[i] = false := by simpa using hand
        simp only [hf, Bool.not_false, if_true]
        exact hloop
    · have hlen : st.vNodes.length ≤ i := by omega
      rw [List.get?_eq_none.2 hlen]
      have hile := hinv.2.2.1
      have heq : i = st.vNodes.length := by omega
      exact ⟨st, rfl, heq ▸ hinv, Extends_refl st⟩

/-! ### The beginning of the pass -/

theorem cos_fold_eq_addVars (ntk : Abc_Ntk) (st : MiterState) :
    ntk.vCos.foldl (fun s pNode => Abc_NtkMiterSatCreateInt_addVar s (Abc_ObjFanin0 ntk pNode)) st
      = Abc_NtkMiterSatCreateInt_addVars st (ntk.vCos.map fun pNode => Abc_ObjChild0 ntk pNode) := by
  simp only [Abc_NtkMiterSatCreateInt_addVars, List.foldl_map]
  rfl

theorem Abc_NtkMiterSatCreateInt_top_eq (ntk : Abc_Ntk) (pSat : sat_solver)
    (pCopy : Nat → Nat) (fMarkA fMarkB : Nat → Bool) :
    Abc_NtkMiterSatCreateInt_top ntk pSat pCopy fMarkA fMarkB =
      ((Abc_NtkClauseTop
          (Abc_NtkMiterSatCreateInt_addVars
            (Abc_NtkMiterSatCreateInt_const ntk pSat pCopy fMarkA fMarkB)
            (ntk.vCos.map fun pNode => Abc_ObjChild0 ntk pNode)).pSat
          (Abc_NtkMiterSatCreateInt_addVars
            (Abc_NtkMiterSatCreateInt_const ntk pSat pCopy fMarkA fMarkB)
            (ntk.vCos.map fun pNode => Abc_ObjChild0 ntk pNode)).pCopy
          (ntk.vCos.map fun pNode => Abc_ObjChild0 ntk pNode)).1,
       { Abc_NtkMiterSatCreateInt_addVars
            (Abc_NtkMiterSatCreateInt_const ntk pSat pCopy fMarkA fMarkB)
            (ntk.vCos.map fun pNode => Abc_ObjChild0 ntk pNode) with
         pSat := (Abc_NtkClauseTop
          (Abc_NtkMiterSatCreateInt_addVars
            (Abc_NtkMiterSatCreateInt_const ntk pSat pCopy fMarkA fMarkB)
            (ntk.vCos.map fun pNode => Abc_ObjChild0 ntk pNode)).pSat
          (Abc_NtkMiterSatCreateInt_addVars
            (Abc_NtkMiterSatCreateInt_const ntk pSat pCopy fMarkA fMarkB)
            (ntk.vCos.map fun pNode => Abc_ObjChild0 ntk pNode)).pCopy
          (ntk.vCos.map fun pNode => Abc_ObjChild0 ntk pNode)).2 }) := by
  rw [Abc_NtkMiterSatCreateInt_top]
  simp only [cos_fold_eq_addVars]

/-- The clauses submitted before the main loop: the unit clause of the constant node and
the top-level clause, which has one literal for every combinational output, in order:
the variable of the driver, negated when the fanin edge of the output is complemented.
The drivers and the constant node are marked afterwards. -/
theorem Abc_NtkMiterSatCreateInt_top_shape (ntk : Abc_Ntk) (pSat : sat_solver)
    (pCopy : Nat → Nat) (fMarkA fMarkB : Nat → Bool) :
    (Abc_NtkMiterSatCreateInt_top ntk pSat pCopy fMarkA fMarkB).2.pSat.store =
      pSat.store ++ [[toLitCond 0 false],
        ntk.vCos.map fun co =>
          toLitCond ((Abc_NtkMiterSatCreateInt_top ntk pSat pCopy fMarkA fMarkB).2.pCopy
            (Abc_ObjFanin0 ntk co)) (Abc_NtkObj ntk co).fCompl0] ∧
    (Abc_NtkMiterSatCreateInt_top ntk pSat pCopy fMarkA fMarkB).2.pSat.answer = pSat.answer ∧
    (Abc_NtkMiterSatCreateInt_top ntk pSat pCopy fMarkA fMarkB).1 =
      pSat.answer (pSat.store ++ [[toLitCond 0 false]])
        (ntk.vCos.map fun co =>
          toLitCond ((Abc_NtkMiterSatCreateInt_top ntk pSat pCopy fMarkA fMarkB).2.pCopy
            (Abc_ObjFanin0 ntk co)) (Abc_NtkObj ntk co).fCompl0) ∧
    (∀ co ∈ ntk.vCos,
      (Abc_NtkMiterSatCreateInt_top ntk pSat pCopy fMarkA fMarkB).2.fMarkA
        (Abc_ObjFanin0 ntk co) = true) ∧
    (Abc_NtkMiterSatCreateInt_top ntk pSat pCopy fMarkA fMarkB).2.fMarkA (Abc_AigConst1 ntk)
      = true ∧
    (Abc_NtkMiterSatCreateInt_top ntk pSat pCopy fMarkA fMarkB).2.pCopy (Abc_AigConst1 ntk)
      = 0 ∧
    (Abc_NtkMiterSatCreateInt_top ntk pSat pCopy fMarkA fMarkB).2.fMarkB = fMarkB := by
  obtain ⟨hext, hps, hmb, _, hmk, _⟩ := addVars_spec
    (ntk.vCos.map fun pNode => Abc_ObjChild0 ntk pNode)
    (Abc_NtkMiterSatCreateInt_const ntk pSat pCopy fMarkA fMarkB)
  have hc1 : (Abc_NtkMiterSatCreateInt_const ntk pSat pCopy fMarkA fMarkB).fMarkA
      (Abc_AigConst1 ntk) = true := by
    simp [Abc_NtkMiterSatCreateInt_const, setFlag]
  have hc2 : (Abc_NtkMiterSatCreateInt_const ntk pSat pCopy fMarkA fMarkB).pCopy
      (Abc_AigConst1 ntk) = 0 := by
    simp [Abc_NtkMiterSatCreateInt_const, setCopy]
  have hc3 : (Abc_NtkMiterSatCreateInt_const ntk pSat pCopy fMarkA fMarkB).pSat.store =
      pSat.store ++ [[toLitCond 0 false]] := by
    simp [Abc_NtkMiterSatCreateInt_const, Abc_NtkClauseTriv, sat_solver_addclause, setCopy,
      Abc_ObjRegular, Abc_ObjIsComplement]
  have hc4 : (Abc_NtkMiterSatCreateInt_const ntk pSat pCopy fMarkA fMarkB).pSat.answer =
      pSat.answer := by
    simp [Abc_NtkMiterSatCreateInt_const, Abc_NtkClauseTriv, sat_solver_addclause]
  have hc5 : (Abc_NtkMiterSatCreateInt_const ntk pSat pCopy fMarkA fMarkB).fMarkB = fMarkB := by
    simp [Abc_NtkMiterSatCreateInt_const]
  rw [Abc_NtkMiterSatCreateInt_top_eq]
  simp only [Abc_NtkClauseTop, sat_solver_addclause, hps, hc3, hc4, List.map_map,
    Function.comp_def]
  refine ⟨?_, ?_, ?_, ?_, ?_, ?_, ?_⟩
  · simp [Abc_ObjChild0, Abc_ObjRegular, Abc_ObjIsComplement, Abc_ObjFanin0]
  · trivial
  · trivial
  · intro co hco
    exact hmk (Abc_ObjChild0 ntk co) (List.mem_map.2 ⟨co, hco, rfl⟩)
  · exact (hext.2.2.2 _ hc1).1
  · rw [(hext.2.2.2 _ hc1).2]; exact hc2
  · rw [hmb, hc5]

/-! ### From the constraints of the nodes to the circuit values -/

/-- The operands of an AND node lie strictly below it. -/
theorem encOperands_below (ntk : Abc_Ntk) (hwf : Abc_NtkIsStrash ntk) (x : Nat)
    (hand : Abc_AigNodeIsAnd ntk x = true) :
    ∀ y ∈ encOperands ntk x, (Abc_NtkObj ntk y).Level < (Abc_NtkObj ntk x).Level := by
  have hnode : Abc_ObjIsNode ntk x = true := hand
  intro y hy
  by_cases hmux : Abc_NodeIsMuxType ntk x = true
  · obtain ⟨h1, h2, h3⟩ := hwf.muxBelow x hnode hmux
    simp only [encOperands, if_pos hmux, List.mem_cons, List.mem_singleton,
      List.not_mem_nil, or_false] at hy
    rcases hy with hy | hy | hy <;> subst hy <;> assumption
  · rw [encOperands, if_neg hmux] at hy
    cases hsup : Abc_NtkCollectSupergate ntk { Id := x, fCompl := false } true noMarks with
    | none => simp [hsup] at hy
    | some sup =>
      rw [hsup] at hy
      simp only [List.mem_map] at hy
      obtain ⟨p, hp, hpy⟩ := hy
      have hcl := (Abc_NtkCollectSupergate_spec ntk true noMarks { Id := x, fCompl := false }
        (fun _ => rfl) rfl hnode sup hsup).2.2
      have := hcl (fun z => (Abc_NtkObj ntk z).Level < (Abc_NtkObj ntk x).Level)
        (fun id hid hq => ⟨lt_trans (hwf.acyclic id hid).1 hq,
          lt_trans (hwf.acyclic id hid).2 hq⟩)
        (hwf.acyclic x hnode).1 (hwf.acyclic x hnode).2 p hp
      rw [← hpy]
      exact this

/-- When the operands of an AND node have their circuit values, the constraint of the
node says that the node has its circuit value. -/
theorem encRel_iff_value (ntk : Abc_Ntk) (hwf : Abc_NtkIsStrash ntk) (pc : Nat → Nat)
    (a v : Nat → Bool) (hv : Consistent ntk v) (x : Nat)
    (hand : Abc_AigNodeIsAnd ntk x = true)
    (hopv : ∀ y ∈ encOperands ntk x, a (pc y) = v y) :
    encRel ntk a pc x ↔ a (pc x) = v x := by
  have hnode : Abc_ObjIsNode ntk x = true := hand
  by_cases hmux : Abc_NodeIsMuxType ntk x = true
  · have h1 := hopv (Abc_NodeRecognizeMux ntk x).1 (by simp [encOperands, hmux])
    have h2 := hopv (Abc_NodeRecognizeMux ntk x).2.1.Id (by simp [encOperands, hmux])
    have h3 := hopv (Abc_NodeRecognizeMux ntk x).2.2.Id (by simp [encOperands, hmux])
    have hval := hwf.muxValue x hnode hmux v hv
    simp only [encRel, if_pos hmux, h1, h2, h3]
    simp only [refVal] at hval
    rw [hval]
  · obtain ⟨sup, hsup⟩ := Abc_NtkCollectSupergate_total ntk hwf.acyclic true noMarks
      { Id := x, fCompl := false } hnode
    have hval := (Abc_NtkCollectSupergate_spec ntk true noMarks { Id := x, fCompl := false }
      (fun _ => rfl) rfl hnode sup hsup).2.1 v hv
    have hall : (sup.vSuper.all fun p => xor (a (pc p.Id)) p.fCompl) =
        sup.vSuper.all (refVal v) := by
      apply all_congr_mem
      intro p hp
      have := hopv p.Id (by
        simp only [encOperands, if_neg hmux, hsup, List.mem_map]
        exact ⟨p, hp, rfl⟩)
      simp [refVal, this]
    simp only [encRel, if_neg hmux, hsup, hall]
    simp only at hval
    rw [hval]

/-- The constraints of all nodes that have a variable hold exactly when every such AND
node has its circuit value, provided the other nodes that have a variable (constant and
inputs) have theirs. -/
theorem enc_values (ntk : Abc_Ntk) (hwf : Abc_NtkIsStrash ntk) (vNodes : List Nat)
    (pc : Nat → Nat) (a v : Nat → Bool) (hv : Consistent ntk v)
    (hops : ∀ x ∈ vNodes, Abc_AigNodeIsAnd ntk x = true → ∀ y ∈ encOperands ntk x, y ∈ vNodes)
    (hleaf : ∀ x ∈ vNodes, Abc_AigNodeIsAnd ntk x = false → a (pc x) = v x) :
    (∀ x ∈ vNodes, Abc_AigNodeIsAnd ntk x = true → encRel ntk a pc x) ↔
      (∀ x ∈ vNodes, Abc_AigNodeIsAnd ntk x = true → a (pc x) = v x) := by
  constructor
  · intro hrel
    have key : ∀ L x, (Abc_NtkObj ntk x).Level < L → x ∈ vNodes → a (pc x) = v x := by
      intro L
      induction L with
      | zero => intro x hx; omega
      | succ L ih =>
        intro x hx hmem
        cases hand : Abc_AigNodeIsAnd ntk x
        · exact hleaf x hmem hand
        · apply (encRel_iff_value ntk hwf pc a v hv x hand ?_).1 (hrel x hmem hand)
          intro y hy
          have hlt := encOperands_below ntk hwf x hand y hy
          exact ih y (by omega) (hops x hmem hand y hy)
    intro x hmem _
    exact key _ x (Nat.lt_succ_self _) hmem
  · intro hval x hmem hand
    apply (encRel_iff_value ntk hwf pc a v hv x hand ?_).2 (hval x hmem hand)
    intro y hy
    have hy2 := hops x hmem hand y hy
    cases hand2 : Abc_AigNodeIsAnd ntk y
    · exact hleaf y hy2 hand2
    · exact hval y hy2 hand2

theorem Abc_NtkMiterSatCreateInt_const_allocInv (ntk : Abc_Ntk) (pSat : sat_solver)
    (pCopy : Nat → Nat) (fMarkA fMarkB : Nat → Bool) (hA : ∀ id, fMarkA id = false) :
    AllocInv (Abc_NtkMiterSatCreateInt_const ntk pSat pCopy fMarkA fMarkB) := by
  refine ⟨by simp [Abc_NtkMiterSatCreateInt_const], ?_, ?_⟩
  · intro i hi
    simp only [Abc_NtkMiterSatCreateInt_const, List.length_singleton] at hi
    have : i = 0 := by omega
    subst this
    simp [Abc_NtkMiterSatCreateInt_const, setCopy]
  · intro x
    simp only [Abc_NtkMiterSatCreateInt_const, setFlag, List.mem_singleton]
    by_cases hx : x = Abc_AigConst1 ntk
    · simp [hx]
    · simp [hx, hA x]

/-- With no `fMarkA` and no `fMarkB` set on entry and a solver that accepts every clause,
the top-level clause is accepted and the loop invariant holds when the main loop
starts. -/
theorem Abc_NtkMiterSatCreateInt_top_inv (ntk : Abc_Ntk) (hwf : Abc_NtkIsStrash ntk)
    (pSat : sat_solver) (pCopy : Nat → Nat) (fMarkA fMarkB : Nat → Bool)
    (hA : ∀ id, fMarkA id = false) (hB : ∀ id, fMarkB id = false)
    (hacc : ∀ s c, pSat.answer s c = true) :
    (Abc_NtkMiterSatCreateInt_top ntk pSat pCopy fMarkA fMarkB).1 = true ∧
    LoopInv ntk (Abc_NtkMiterSatCreateInt_top ntk pSat pCopy fMarkA fMarkB).2.pSat.store
      (Abc_NtkMiterSatCreateInt_top ntk pSat pCopy fMarkA fMarkB).2 0 := by
  obtain ⟨hstore, hans, hret, hdrv, hc1, hc0, hmb⟩ :=
    Abc_NtkMiterSatCreateInt_top_shape ntk pSat pCopy fMarkA fMarkB
  obtain ⟨hext, hps, _, hals, hmk, hrg⟩ := addVars_spec
    (ntk.vCos.map fun pNode => Abc_ObjChild0 ntk pNode)
    (Abc_NtkMiterSatCreateInt_const ntk pSat pCopy fMarkA fMarkB)
  have hal : AllocInv (Abc_NtkMiterSatCreateInt_top ntk pSat pCopy fMarkA fMarkB).2 := by
    rw [Abc_NtkMiterSatCreateInt_top_eq]
    exact hals (Abc_NtkMiterSatCreateInt_const_allocInv ntk pSat pCopy fMarkA fMarkB hA)
  have hrange : ∀ x ∈ (Abc_NtkMiterSatCreateInt_top ntk pSat pCopy fMarkA fMarkB).2.vNodes,
      x < Abc_NtkObjNumMax ntk := by
    rw [Abc_NtkMiterSatCreateInt_top_eq]
    apply hrg
    · intro p hp
      obtain ⟨co, hco, hp2⟩ := List.mem_map.1 hp
      rw [← hp2]
      exact hwf.cosInRange co hco
    · intro y hy
      simp only [Abc_NtkMiterSatCreateInt_const, List.mem_singleton] at hy
      rw [hy]
      exact hwf.const1InRange
  refine ⟨by rw [hret]; exact hacc _ _, hal, ?_, Nat.zero_le _, hrange, ?_, [], by simp, ?_, ?_⟩
  · intro id; rw [hmb]; exact hB id
  · intro s c; rw [hans]; exact hacc s c
  · intro a; simp [cnfSat]
  · intro x hx; simp at hx

/-- The state in which the pass ends on a well-formed network with clear marks and a
solver that accepts every clause: the pass returns 1, the clauses are the unit clause of
the constant node, the top-level clause and the clauses of the nodes, and the loop
invariant holds at the end of `vNodes`. -/
theorem Abc_NtkMiterSatCreateInt_final (ntk : Abc_Ntk) (hwf : Abc_NtkIsStrash ntk)
    (pSat : sat_solver) (pCopy : Nat → Nat) (fMarkA fMarkB : Nat → Bool)
    (hA : ∀ id, fMarkA id = false) (hB : ∀ id, fMarkB id = false)
    (hacc : ∀ s c, pSat.answer s c = true) :
    ∃ st, Abc_NtkMiterSatCreateInt ntk pSat pCopy fMarkA fMarkB = some (1, st) ∧
      LoopInv ntk (pSat.store ++ [[toLitCond 0 false],
        ntk.vCos.map fun co =>
          toLitCond (st.pCopy (Abc_ObjFanin0 ntk co)) (Abc_NtkObj ntk co).fCompl0])
        st st.vNodes.length ∧
      st.pCopy (Abc_AigConst1 ntk) = 0 ∧
      Abc_AigConst1 ntk ∈ st.vNodes ∧
      ∀ co ∈ ntk.vCos, Abc_ObjFanin0 ntk co ∈ st.vNodes := by
  obtain ⟨hstore, _, _, hdrv, hc1, hc0, _⟩ :=
    Abc_NtkMiterSatCreateInt_top_shape ntk pSat pCopy fMarkA fMarkB
  obtain ⟨htop, hinv0⟩ :=
    Abc_NtkMiterSatCreateInt_top_inv ntk hwf pSat pCopy fMarkA fMarkB hA hB hacc
  obtain ⟨st, hloop, hinv, hext⟩ := Abc_NtkMiterSatCreateInt_loop_spec ntk hwf _
    (Abc_NtkObjNumMax ntk + 1) 0 _ hinv0 (by omega)
  have hkeep := hext.2.2.2
  have hdrv2 : ∀ co ∈ ntk.vCos, st.pCopy (Abc_ObjFanin0 ntk co) =
      (Abc_NtkMiterSatCreateInt_top ntk pSat pCopy fMarkA fMarkB).2.pCopy
        (Abc_ObjFanin0 ntk co) := fun co hco => (hkeep _ (hdrv co hco)).2
  have hbase : (Abc_NtkMiterSatCreateInt_top ntk pSat pCopy fMarkA fMarkB).2.pSat.store =
      pSat.store ++ [[toLitCond 0 false],
        ntk.vCos.map fun co =>
          toLitCond (st.pCopy (Abc_ObjFanin0 ntk co)) (Abc_NtkObj ntk co).fCompl0] := by
    rw [hstore]
    congr 2
    congr 1
    apply List.map_congr_left
    intro co hco
    rw [hdrv2 co hco]
  refine ⟨st, ?_, hbase ▸ hinv, ?_, ?_, ?_⟩
  · simp only [Abc_NtkMiterSatCreateInt, htop, Bool.not_true, Bool.false_eq_true, if_false]
    exact hloop
  · rw [(hkeep _ hc1).2]; exact hc0
  · exact (hinv.1.2.2 _).1 (hkeep _ hc1).1
  · intro co hco
    exact (hinv.1.2.2 _).1 (hkeep _ (hdrv co hco)).1

/-- The other nodes that have a variable, the constant node and the inputs, have their
circuit values as soon as the constant variable is true and the input assignment is the
one read off the solver assignment. -/
theorem leaf_values (ntk : Abc_Ntk) (hwf : Abc_NtkIsStrash ntk) (vNodes : List Nat)
    (pc : Nat → Nat) (a inp : Nat → Bool)
    (hconst : a (pc (Abc_AigConst1 ntk)) = true)
    (hagree : ∀ x ∈ vNodes, Abc_AigNodeIsAnd ntk x = false →
      (Abc_NtkObj ntk x).ObjType ≠ .ABC_OBJ_CONST1 → inp x = a (pc x)) :
    ∀ x ∈ vNodes, Abc_AigNodeIsAnd ntk x = false → a (pc x) = nodeValue ntk inp x := by
  intro x hx hand
  by_cases hty : (Abc_NtkObj ntk x).ObjType = .ABC_OBJ_CONST1
  · have hx1 := hwf.const1Unique x hty
    rw [hx1, hconst]
    exact ((nodeValue_consistent ntk inp hwf.acyclic).2 _ hwf.const1Type).symm
  · rw [nodeValue_input ntk inp x (by simpa [Abc_AigNodeIsAnd] using hand) hty]
    exact (hagree x hx hand hty).symm

/-- C1: on an acyclic, well-formed structurally hashed AIG whose marks are clear on
entry, with a multiplexer recognizer whose operands satisfy
`node = condition ? then : else`, and a solver that accepts every clause,
`Abc_NtkMiterSatCreateInt` returns 1 and submits the unit clause of the constant node,
the top-level clause and the clauses of the nodes. An assignment satisfies all clauses
other than the top-level clause if and only if the constant-1 variable is true and the
variable of every AND node that has a variable equals the circuit value of the node
under the input values that the assignment gives to the inputs that have a variable.
Consequently the whole formula is satisfiable if and only if some input assignment makes
at least one output literal true. -/
theorem C1_structural_encoding (ntk : Abc_Ntk) (hwf : Abc_NtkIsStrash ntk)
    (pSat : sat_solver) (pCopy : Nat → Nat) (fMarkA fMarkB : Nat → Bool)
    (hA : ∀ id, fMarkA id = false) (hB : ∀ id, fMarkB id = false)
    (hacc : ∀ s c, pSat.answer s c = true) :
    ∃ st nodeCls,
      Abc_NtkMiterSatCreateInt ntk pSat pCopy fMarkA fMarkB = some (1, st) ∧
      newClauses pSat st.pSat =
        [[toLitCond (st.pCopy (Abc_AigConst1 ntk)) false],
          ntk.vCos.map fun co =>
            toLitCond (st.pCopy (Abc_ObjFanin0 ntk co)) (Abc_NtkObj ntk co).fCompl0]
        ++ nodeCls ∧
      (∀ a inp : Nat → Bool,
        (∀ x ∈ st.vNodes, Abc_AigNodeIsAnd ntk x = false →
          (Abc_NtkObj ntk x).ObjType ≠ .ABC_OBJ_CONST1 → inp x = a (st.pCopy x)) →
        (cnfSat a ([toLitCond (st.pCopy (Abc_AigConst1 ntk)) false] :: nodeCls) = true ↔
          (a (st.pCopy (Abc_AigConst1 ntk)) = true ∧
            ∀ x ∈ st.vNodes, Abc_AigNodeIsAnd ntk x = true →
              a (st.pCopy x) = nodeValue ntk inp x))) ∧
      ((∃ a, cnfSat a (newClauses pSat st.pSat) = true) ↔
        ∃ inp : Nat → Bool, ∃ co ∈ ntk.vCos,
          xor (nodeValue ntk inp (Abc_ObjFanin0 ntk co)) (Abc_NtkObj ntk co).fCompl0 = true) := by
  obtain ⟨st, hpass, hinv, hc0, hc1mem, hdrv⟩ :=
    Abc_NtkMiterSatCreateInt_final ntk hwf pSat pCopy fMarkA fMarkB hA hB hacc
  obtain ⟨hal, _, _, _, _, cls, hstore, hsem, hops⟩ := hinv
  rw [List.take_length] at hsem hops
  have hnew : newClauses pSat st.pSat =
      [[toLitCond (st.pCopy (Abc_AigConst1 ntk)) false],
        ntk.vCos.map fun co =>
          toLitCond (st.pCopy (Abc_ObjFanin0 ntk co)) (Abc_NtkObj ntk co).fCompl0] ++ cls := by
    apply newClauses_of_store
    rw [hstore, hc0, List.append_assoc]
  have hunit : ∀ a : Nat → Bool,
      clauseSat a [toLitCond (st.pCopy (Abc_AigConst1 ntk)) false] = true ↔
        a (st.pCopy (Abc_AigConst1 ntk)) = true := by
    intro a; simp [clauseSat, litVal_toLitCond]
  -- the clauses other than the top-level clause
  have hmain : ∀ a inp : Nat → Bool,
      (∀ x ∈ st.vNodes, Abc_AigNodeIsAnd ntk x = false →
        (Abc_NtkObj ntk x).ObjType ≠ .ABC_OBJ_CONST1 → inp x = a (st.pCopy x)) →
      (cnfSat a ([toLitCond (st.pCopy (Abc_AigConst1 ntk)) false] :: cls) = true ↔
        (a (st.pCopy (Abc_AigConst1 ntk)) = true ∧
          ∀ x ∈ st.vNodes, Abc_AigNodeIsAnd ntk x = true →
            a (st.pCopy x) = nodeValue ntk inp x)) := by
    intro a inp hagree
    have hsplit : cnfSat a ([toLitCond (st.pCopy (Abc_AigConst1 ntk)) false] :: cls) = true ↔
        (a (st.pCopy (Abc_AigConst1 ntk)) = true ∧ cnfSat a cls = true) := by
      rw [← hunit a]
      simp [cnfSat]
    rw [hsplit, hsem a]
    constructor
    · rintro ⟨hconst, hrel⟩
      exact ⟨hconst, (enc_values ntk hwf st.vNodes st.pCopy a _
        (nodeValue_consistent ntk inp hwf.acyclic) hops
        (leaf_values ntk hwf st.vNodes st.pCopy a inp hconst hagree)).1 hrel⟩
    · rintro ⟨hconst, hval⟩
      exact ⟨hconst, (enc_values ntk hwf st.vNodes st.pCopy a _
        (nodeValue_consistent ntk inp hwf.acyclic) hops
        (leaf_values ntk hwf st.vNodes st.pCopy a inp hconst hagree)).2 hval⟩
  have htopsat : ∀ a : Nat → Bool,
      clauseSat a (ntk.vCos.map fun co =>
        toLitCond (st.pCopy (Abc_ObjFanin0 ntk co)) (Abc_NtkObj ntk co).fCompl0) = true ↔
      ∃ co ∈ ntk.vCos,
        xor (a (st.pCopy (Abc_ObjFanin0 ntk co))) (Abc_NtkObj ntk co).fCompl0 = true := by
    intro a
    simp only [clauseSat, List.any_map, List.any_eq_true, Function.comp_def, litVal_toLitCond]
  have hwhole : ∀ a : Nat → Bool, cnfSat a (newClauses pSat st.pSat) = true ↔
      (cnfSat a ([toLitCond (st.pCopy (Abc_AigConst1 ntk)) false] :: cls) = true ∧
        ∃ co ∈ ntk.vCos,
          xor (a (st.pCopy (Abc_ObjFanin0 ntk co))) (Abc_NtkObj ntk co).fCompl0 = true) := by
    intro a
    rw [hnew, ← htopsat a]
    simp only [cnfSat, List.cons_append, List.nil_append, List.all_cons, Bool.and_eq_true]
    tauto
  refine ⟨st, cls, hpass, hnew, hmain, ?_⟩
  constructor
  · rintro ⟨a, hsat⟩
    obtain ⟨hrest, co, hco, hout⟩ := (hwhole a).1 hsat
    have hagree : ∀ x ∈ st.vNodes, Abc_AigNodeIsAnd ntk x = false →
        (Abc_NtkObj ntk x).ObjType ≠ .ABC_OBJ_CONST1 →
        (fun y => a (st.pCopy y)) x = a (st.pCopy x) := fun _ _ _ _ => rfl
    obtain ⟨hconst, hval⟩ := (hmain a (fun y => a (st.pCopy y)) hagree).1 hrest
    refine ⟨fun y => a (st.pCopy y), co, hco, ?_⟩
    have hd : a (st.pCopy (Abc_ObjFanin0 ntk co)) =
        nodeValue ntk (fun y => a (st.pCopy y)) (Abc_ObjFanin0 ntk co) := by
      cases hand : Abc_AigNodeIsAnd ntk (Abc_ObjFanin0 ntk co)
      · exact leaf_values ntk hwf st.vNodes st.pCopy a _ hconst hagree _ (hdrv co hco) hand
      · exact hval _ (hdrv co hco) hand
    rw [← hd]; exact hout
  · rintro ⟨inp, co, hco, hout⟩
    have hpos : ∀ x ∈ st.vNodes,
        nodeValue ntk inp (st.vNodes.getD (st.pCopy x) 0) = nodeValue ntk inp x := by
      intro x hx
      obtain ⟨k, hk, hkx⟩ := List.getElem_of_mem hx
      have hpc := hal.2.1 k hk
      rw [hkx] at hpc
      rw [hpc, List.getD_eq_getElem _ _ hk, hkx]
    refine ⟨fun k => nodeValue ntk inp (st.vNodes.getD k 0), (hwhole _).2 ⟨?_, co, hco, ?_⟩⟩
    · apply (hmain _ inp ?_).2
      · refine ⟨?_, fun x hx _ => hpos x hx⟩
        rw [hpos _ hc1mem]
        exact (nodeValue_consistent ntk inp hwf.acyclic).2 _ hwf.const1Type
      · intro x hx hand hty
        rw [hpos x hx]
        exact (nodeValue_input ntk inp x (by simpa [Abc_AigNodeIsAnd] using hand) hty).symm
    · rw [hpos _ (hdrv co hco)]
      exact hout

/-- The decidable test establishes the structural part of `Abc_NtkIsStrash`. -/
theorem Abc_NtkIsStrash_of_check (ntk : Abc_Ntk) (hc : Abc_NtkCheck ntk = true)
    (hr : ∀ id, Abc_ObjIsNode ntk id = true → Abc_NodeIsMuxType ntk id = true →
      (Abc_NodeRecognizeMux ntk id).1 < Abc_NtkObjNumMax ntk ∧
      (Abc_NodeRecognizeMux ntk id).2.1.Id < Abc_NtkObjNumMax ntk ∧
      (Abc_NodeRecognizeMux ntk id).2.2.Id < Abc_NtkObjNumMax ntk)
    (hb : ∀ id, Abc_ObjIsNode ntk id = true → Abc_NodeIsMuxType ntk id = true →
      (Abc_NtkObj ntk (Abc_NodeRecognizeMux ntk id).1).Level < (Abc_NtkObj ntk id).Level ∧
      (Abc_NtkObj ntk (Abc_NodeRecognizeMux ntk id).2.1.Id).Level < (Abc_NtkObj ntk id).Level ∧
      (Abc_NtkObj ntk (Abc_NodeRecognizeMux ntk id).2.2.Id).Level < (Abc_NtkObj ntk id).Level)
    (hv : ∀ id, Abc_ObjIsNode ntk id = true → Abc_NodeIsMuxType ntk id = true →
      ∀ v, Consistent ntk v →
        v id = if v (Abc_NodeRecognizeMux ntk id).1 then
            refVal v (Abc_NodeRecognizeMux ntk id).2.1
          else refVal v (Abc_NodeRecognizeMux ntk id).2.2) :
    Abc_NtkIsStrash ntk := by
  simp only [Abc_NtkCheck, Bool.and_eq_true, List.all_eq_true, List.mem_range,
    decide_eq_true_eq] at hc
  obtain ⟨⟨⟨⟨hac, hobj⟩, hc1⟩, hc2⟩, hcos⟩ := hc
  have hconstlt : ∀ id, (Abc_NtkObj ntk id).ObjType = .ABC_OBJ_CONST1 →
      id < Abc_NtkObjNumMax ntk := by
    intro id hty
    by_contra hge
    have hlen : ntk.vObjs.length ≤ id := by simpa [Abc_NtkObjNumMax] using hge
    have : Abc_NtkObj ntk id = Abc_ObjNone := by
      rw [Abc_NtkObj, List.getD_eq_default _ _ hlen]
    simp [this, Abc_ObjNone] at hty
  refine ⟨Acyclic_of_check ntk hac, ?_, hc1, hc2, ?_, hcos, hr, hb, hv⟩
  · intro id hn
    have := (hobj id (Abc_ObjIsNode_lt ntk id hn)).1
    simpa [hn] using this
  · intro id hty
    exact (hobj id (hconstlt id hty)).2 hty

/-- The network `netMux` is well formed, and its recognizer is right about node 6. -/
theorem netMux_isStrash : Abc_NtkIsStrash netMux := by
  have h6 : ∀ id, Abc_NodeIsMuxType netMux id = true → id = 6 := by
    intro id h
    simpa [Abc_NodeIsMuxType, netMux] using h
  apply Abc_NtkIsStrash_of_check netMux (by decide)
  · intro id _ h
    rw [h6 id h]
    decide
  · intro id _ h
    rw [h6 id h]
    decide
  · intro id _ h v hv
    rw [h6 id h]
    have e6 := hv.1 6 (by decide)
    have e4 := hv.1 4 (by decide)
    have e5 := hv.1 5 (by decide)
    simp only [refVal, Abc_ObjChild0, Abc_ObjChild1, Abc_NtkObj, netMux, List.getD_cons_succ,
      List.getD_cons_zero] at e6 e4 e5
    simp only [Abc_NodeRecognizeMux, netMux, refVal]
    rw [e6, e4, e5]
    cases v 1 <;> cases v 2 <;> cases v 3 <;> rfl

/-- Witness of C1: the network `netMux` on a fresh solver that accepts every clause. -/
theorem C1_structural_encoding_witness :
    ∃ st nodeCls,
      Abc_NtkMiterSatCreateInt netMux satAccept copyId noMarks noMarks = some (1, st) ∧
      newClauses satAccept st.pSat =
        [[toLitCond (st.pCopy (Abc_AigConst1 netMux)) false],
          netMux.vCos.map fun co =>
            toLitCond (st.pCopy (Abc_ObjFanin0 netMux co)) (Abc_NtkObj netMux co).fCompl0]
        ++ nodeCls ∧
      (∀ a inp : Nat → Bool,
        (∀ x ∈ st.vNodes, Abc_AigNodeIsAnd netMux x = false →
          (Abc_NtkObj netMux x).ObjType ≠ .ABC_OBJ_CONST1 → inp x = a (st.pCopy x)) →
        (cnfSat a ([toLitCond (st.pCopy (Abc_AigConst1 netMux)) false] :: nodeCls) = true ↔
          (a (st.pCopy (Abc_AigConst1 netMux)) = true ∧
            ∀ x ∈ st.vNodes, Abc_AigNodeIsAnd netMux x = true →
              a (st.pCopy x) = nodeValue netMux inp x))) ∧
      ((∃ a, cnfSat a (newClauses satAccept st.pSat) = true) ↔
        ∃ inp : Nat → Bool, ∃ co ∈ netMux.vCos,
          xor (nodeValue netMux inp (Abc_ObjFanin0 netMux co)) (Abc_NtkObj netMux co).fCompl0
            = true) :=
  C1_structural_encoding netMux netMux_isStrash satAccept copyId noMarks noMarks
    (fun _ => rfl) (fun _ => rfl) (fun _ _ => rfl)

/-- The clauses that the pass submits for `netMux`: the constant clause, the top-level
clause with the complemented literal of node 6 (variable 1), and the six multiplexer
clauses of node 6 over the variables 2 (`c`), 3 (`x`) and 4 (`y`). -/
theorem netMux_clauses :
    (Abc_NtkMiterSatCreateInt netMux satAccept copyId noMarks noMarks).map
        (fun r => (r.1, r.2.vNodes, r.2.pSat.store)) =
      some (1, [0, 6, 1, 2, 3],
        [[0], [3], [5, 6, 2], [5, 7, 3], [4, 8, 2], [4, 9, 3], [7, 9, 3], [6, 8, 2]]) := by
  decide

/-! ### Single steps of the pass on an arbitrary solver -/

theorem Abc_NtkClauseAnd_extends (pSat : sat_solver) (pCopy : Nat → Nat) (pNode : Nat)
    (vSuper : List Abc_Ref) :
    (Abc_NtkClauseAnd pSat pCopy pNode vSuper).2.answer = pSat.answer ∧
    ∃ rest, (Abc_NtkClauseAnd pSat pCopy pNode vSuper).2.store = pSat.store ++ rest ∧
      (vSuper ≠ [] → ∃ l1 l2 more, rest = [l1, l2] :: more) ∧
      (vSuper = [] → rest = [[toLitCond (pCopy pNode) false]]) := by
  obtain ⟨hans, k, hk, hst, hret⟩ := Abc_NtkClauseAnd_loop_store pCopy (pCopy pNode) vSuper pSat
  cases vSuper with
  | nil =>
    refine ⟨by simp [Abc_NtkClauseAnd, Abc_NtkClauseAnd_loop, sat_solver_addclause],
      [[toLitCond (pCopy pNode) false]],
      by simp [Abc_NtkClauseAnd, Abc_NtkClauseAnd_loop, sat_solver_addclause], by simp, by simp⟩
  | cons p rest =>
    have hfirst : ∀ s : sat_solver, ∃ more,
        (Abc_NtkClauseAnd_loop pCopy (pCopy pNode) (p :: rest) s).2.store =
          s.store ++ ([refLit pCopy p, toLitCond (pCopy pNode) true] :: more) := by
      intro s
      obtain ⟨_, k2, _, hst2, _⟩ := Abc_NtkClauseAnd_loop_store pCopy (pCopy pNode) rest
        (sat_solver_addclause s [refLit pCopy p, toLitCond (pCopy pNode) true]).2
      simp only [Abc_NtkClauseAnd_loop]
      split_ifs
      · exact ⟨[], by simp [sat_solver_addclause, refLit]⟩
      · refine ⟨(rest.take k2).map fun p => [refLit pCopy p, toLitCond (pCopy pNode) true], ?_⟩
        simp only [refLit] at hst2
        rw [hst2]
        simp [sat_solver_addclause, refLit]
    obtain ⟨more, hmore⟩ := hfirst pSat
    by_cases hloop : (Abc_NtkClauseAnd_loop pCopy (pCopy pNode) (p :: rest) pSat).1 = true
    · refine ⟨by simp [Abc_NtkClauseAnd, hloop, sat_solver_addclause, hans],
        [refLit pCopy p, toLitCond (pCopy pNode) true] :: (more ++
          [((p :: rest).map fun q =>
              toLitCond (pCopy (Abc_ObjRegular q)) (!Abc_ObjIsComplement q))
            ++ [toLitCond (pCopy pNode) false]]), ?_, ?_, by simp⟩
      · simp only [Abc_NtkClauseAnd, hloop, Bool.not_true, Bool.false_eq_true, if_false,
          sat_solver_addclause, hmore, List.append_assoc, List.cons_append]
      · intro _
        exact ⟨_, _, _, rfl⟩
    · refine ⟨by simp [Abc_NtkClauseAnd, hloop, hans],
        [refLit pCopy p, toLitCond (pCopy pNode) true] :: more, ?_, ?_, by simp⟩
      · simp only [Abc_NtkClauseAnd, hloop, Bool.not_false, if_true, hmore]
      · intro _
        exact ⟨_, _, _, rfl⟩

/-- C6: in the loop body of `Abc_NtkMiterSatCreateInt`, for every node that is not
multiplexer-shaped and whose supergate collection takes the contradiction path (it meets
a node in both polarities, so the collector returns the empty list), exactly one clause
is submitted, the unit clause with the negative literal of the node's variable; no node
gets a variable; and the solver is not left as any call of `Abc_NtkClauseAnd` for the
node would leave it. -/
theorem C6_contradiction_unit_clause (ntk : Abc_Ntk) (st : MiterState) (pNode : Nat)
    (hmux : Abc_NodeIsMuxType ntk pNode = false)
    (hcon : Abc_NtkCollectSupergate_contradiction ntk { Id := pNode, fCompl := false } true
      st.fMarkB = true) :
    ∃ st1, Abc_NtkMiterSatCreateInt_node ntk true st pNode =
        some (st.pSat.answer st.pSat.store [toLitCond (st.pCopy pNode) true], st1) ∧
      newClauses st.pSat st1.pSat = [[toLitCond (st.pCopy pNode) true]] ∧
      st1.vNodes = st.vNodes ∧
      ∀ vSuper, (Abc_NtkClauseAnd st.pSat st.pCopy pNode vSuper).2.store ≠ st1.pSat.store := by
  unfold Abc_NtkCollectSupergate_contradiction at hcon
  cases hrec : Abc_NtkCollectSupergate_rec ntk true
      ((Abc_NtkObj ntk pNode).Level + 1) { Id := pNode, fCompl := false } true
      { vSuper := [], fMarkB := st.fMarkB } with
  | none => simp [hrec] at hcon
  | some x =>
    obtain ⟨r, sst⟩ := x
    simp only [hrec] at hcon
    have hr : r = -1 := by simpa using hcon
    have hcol : Abc_NtkCollectSupergate ntk { Id := pNode, fCompl := false } true st.fMarkB =
        some { vSuper := [], fMarkB := Abc_NtkCollectSupergate_unmark sst.vSuper sst.fMarkB } := by
      simp [Abc_NtkCollectSupergate, hrec, hr]
    refine ⟨{ pSat := { store := st.pSat.store ++ [[toLitCond (st.pCopy pNode) true]],
                        answer := st.pSat.answer },
              vNodes := st.vNodes, pCopy := st.pCopy, fMarkA := st.fMarkA,
              fMarkB := Abc_NtkCollectSupergate_unmark sst.vSuper sst.fMarkB }, by
      simp only [Abc_NtkMiterSatCreateInt_node, hmux, Bool.and_false, Bool.false_eq_true,
        if_false, hcol, List.length_nil, if_true, Abc_NtkMiterSatCreateInt_addVars,
        List.foldl_nil, Abc_NtkClauseTriv, sat_solver_addclause, Abc_ObjNot, Abc_ObjRegular,
        Abc_ObjIsComplement, Bool.not_false], ?_, rfl, ?_⟩
    · simp [newClauses]
    · intro vSuper heq
      obtain ⟨_, rest, hst, hne, hnil⟩ := Abc_NtkClauseAnd_extends st.pSat st.pCopy pNode vSuper
      rw [hst] at heq
      simp only at heq
      have hrest := List.append_cancel_left heq
      by_cases hv : vSuper = []
      · rw [hnil hv] at hrest
        have : toLitCond (st.pCopy pNode) false = toLitCond (st.pCopy pNode) true := by
          simpa using hrest
        simp [toLitCond] at this
      · obtain ⟨l1, l2, more, hm⟩ := hne hv
        rw [hm] at hrest
        simp at hrest

/-- Witness of C6: node 4 of `netChain` in the state in which the main loop starts. -/
theorem C6_contradiction_unit_clause_witness :
    ∃ st1, Abc_NtkMiterSatCreateInt_node netChain true
        (Abc_NtkMiterSatCreateInt_top netChain satAccept copyId noMarks noMarks).2 4 =
        some ((Abc_NtkMiterSatCreateInt_top netChain satAccept copyId noMarks noMarks).2.pSat.answer
          (Abc_NtkMiterSatCreateInt_top netChain satAccept copyId noMarks noMarks).2.pSat.store
          [toLitCond ((Abc_NtkMiterSatCreateInt_top netChain satAccept copyId noMarks
            noMarks).2.pCopy 4) true], st1) ∧
      newClauses (Abc_NtkMiterSatCreateInt_top netChain satAccept copyId noMarks noMarks).2.pSat
        st1.pSat =
        [[toLitCond ((Abc_NtkMiterSatCreateInt_top netChain satAccept copyId noMarks
          noMarks).2.pCopy 4) true]] ∧
      st1.vNodes = (Abc_NtkMiterSatCreateInt_top netChain satAccept copyId noMarks noMarks).2.vNodes ∧
      ∀ vSuper, (Abc_NtkClauseAnd
          (Abc_NtkMiterSatCreateInt_top netChain satAccept copyId noMarks noMarks).2.pSat
          (Abc_NtkMiterSatCreateInt_top netChain satAccept copyId noMarks noMarks).2.pCopy 4
          vSuper).2.store ≠ st1.pSat.store :=
  C6_contradiction_unit_clause netChain
    (Abc_NtkMiterSatCreateInt_top netChain satAccept copyId noMarks noMarks).2 4 rfl (by decide)

/-- The clauses that the whole pass submits for `netChain`: the constant clause, the
top-level clause, and for node 4 (variable 1) only the unit clause `not 4`. -/
theorem netChain_clauses :
    (Abc_NtkMiterSatCreateInt netChain satAccept copyId noMarks noMarks).map
        (fun r => (r.1, r.2.vNodes, r.2.pSat.store)) =
      some (1, [0, 4], [[0], [2], [3]]) := by
  decide

/-- Whatever the solver answers, the body of the main loop only appends clauses and
nodes, and a node that has its variable keeps it. -/
theorem Abc_NtkMiterSatCreateInt_node_extends (ntk : Abc_Ntk) (fUseMuxes : Bool)
    (st : MiterState) (pNode : Nat) (ok : Bool) (st1 : MiterState)
    (h : Abc_NtkMiterSatCreateInt_node ntk fUseMuxes st pNode = some (ok, st1)) :
    Extends st st1 := by
  unfold Abc_NtkMiterSatCreateInt_node at h
  split_ifs at h with hmux
  · simp only [Option.some.injEq, Prod.mk.injEq] at h
    obtain ⟨_, hst1⟩ := h
    subst hst1
    obtain ⟨hext, hps, _⟩ := addVars_spec
      [{ Id := (Abc_NodeRecognizeMux ntk pNode).1, fCompl := false },
        (Abc_NodeRecognizeMux ntk pNode).2.1, (Abc_NodeRecognizeMux ntk pNode).2.2] st
    obtain ⟨hans, k, _, _, hstore, _⟩ := Abc_NtkClauseMux_store
      (Abc_NtkMiterSatCreateInt_addVars st
        [{ Id := (Abc_NodeRecognizeMux ntk pNode).1, fCompl := false },
          (Abc_NodeRecognizeMux ntk pNode).2.1, (Abc_NodeRecognizeMux ntk pNode).2.2]).pSat
      (Abc_NtkMiterSatCreateInt_addVars st
        [{ Id := (Abc_NodeRecognizeMux ntk pNode).1, fCompl := false },
          (Abc_NodeRecognizeMux ntk pNode).2.1, (Abc_NodeRecognizeMux ntk pNode).2.2]).pCopy
      pNode (Abc_NodeRecognizeMux ntk pNode).1 (Abc_NodeRecognizeMux ntk pNode).2.1
      (Abc_NodeRecognizeMux ntk pNode).2.2
    exact ⟨⟨_, hstore.trans (by rw [hps])⟩, hans.trans (by rw [hps]), hext.2.2.1, hext.2.2.2⟩
  · cases hsup : Abc_NtkCollectSupergate ntk { Id := pNode, fCompl := false } fUseMuxes
        st.fMarkB with
    | none => simp [hsup] at h
    | some sup =>
      rw [hsup] at h
      simp only at h
      obtain ⟨hext, hps, _⟩ := addVars_spec sup.vSuper { st with fMarkB := sup.fMarkB }
      have hext0 : Extends st { st with fMarkB := sup.fMarkB } :=
        ⟨⟨[], by simp⟩, rfl, ⟨[], by simp⟩, fun _ h => ⟨h, rfl⟩⟩
      have hext1 := Extends_trans hext0 hext
      split_ifs at h with hlen
      · simp only [Option.some.injEq, Prod.mk.injEq] at h
        obtain ⟨_, hst1⟩ := h
        subst hst1
        exact ⟨⟨_, by simp only [Abc_NtkClauseTriv, sat_solver_addclause, hps]; rfl⟩,
          by simp only [Abc_NtkClauseTriv, sat_solver_addclause, hps],
          hext1.2.2.1, hext1.2.2.2⟩
      · simp only [Option.some.injEq, Prod.mk.injEq] at h
        obtain ⟨_, hst1⟩ := h
        subst hst1
        obtain ⟨hans, rest, hstore, _⟩ := Abc_NtkClauseAnd_extends
          (Abc_NtkMiterSatCreateInt_addVars { st with fMarkB := sup.fMarkB } sup.vSuper).pSat
          (Abc_NtkMiterSatCreateInt_addVars { st with fMarkB := sup.fMarkB } sup.vSuper).pCopy
          pNode sup.vSuper
        exact ⟨⟨rest, hstore.trans (by rw [hps])⟩, hans.trans (by rw [hps]),
          hext1.2.2.1, hext1.2.2.2⟩

/-- Whatever the solver answers, the main loop only appends clauses and nodes, and a
node that has its variable keeps it. -/
theorem Abc_NtkMiterSatCreateInt_loop_extends (ntk : Abc_Ntk) (fUseMuxes : Bool) :
    ∀ (fuel i : Nat) (st : MiterState) (r : Int) (st2 : MiterState),
      Abc_NtkMiterSatCreateInt_loop ntk fUseMuxes fuel i st = some (r, st2) →
      Extends st st2 := by
  intro fuel
  induction fuel with
  | zero => intro i st r st2 h; simp [Abc_NtkMiterSatCreateInt_loop] at h
  | succ fuel ih =>
    intro i st r st2 h
    rw [Abc_NtkMiterSatCreateInt_loop] at h
    cases hget : st.vNodes.get? i with
    | none =>
      rw [hget] at h
      simp only [Option.some.injEq, Prod.mk.injEq] at h
      rw [← h.2]
      exact Extends_refl st
    | some pNode =>
      rw [hget] at h
      simp only at h
      split_ifs at h with hand
      · exact ih _ _ _ _ h
      · cases hnode : Abc_NtkMiterSatCreateInt_node ntk fUseMuxes st pNode with
        | none => simp [hnode] at h
        | some x =>
          obtain ⟨ok, st1⟩ := x
          have hext1 := Abc_NtkMiterSatCreateInt_node_extends ntk fUseMuxes st pNode ok st1 hnode
          rw [hnode] at h
          cases ok with
          | false =>
            simp only [Option.some.injEq, Prod.mk.injEq] at h
            rw [← h.2]
            exact hext1
          | true =>
            simp only at h
            exact Extends_trans hext1 (ih _ _ _ _ h)

/-! ### The pass returns on every well-formed network -/

theorem Abc_NtkIsStrash.inRange {ntk : Abc_Ntk} (h : Abc_NtkIsStrash ntk) :
    Abc_NtkInRange ntk :=
  ⟨h.acyclic, h.faninsInRange, h.const1InRange, h.cosInRange, h.muxInRange⟩

theorem addVar_varsInv (ntk : Abc_Ntk) (st : MiterState) (x : Nat)
    (hx : x < Abc_NtkObjNumMax ntk) (h : VarsInv ntk st) :
    VarsInv ntk (Abc_NtkMiterSatCreateInt_addVar st x) := by
  obtain ⟨hnd, hmk, hrg⟩ := h
  have hext := addVar_extends st x
  refine ⟨?_, ?_, addVar_range st x _ hx hrg⟩
  · unfold Abc_NtkMiterSatCreateInt_addVar
    split_ifs with hf
    · simp only
      rw [List.nodup_append]
      refine ⟨hnd, by simp, ?_⟩
      intro a ha hb
      simp only [List.mem_singleton] at hb
      have := hmk a ha
      rw [hb, hf] at this
      exact Bool.noConfusion this
    · exact hnd
  · intro y hy
    by_cases hyx : y = x
    · rw [hyx]; exact addVar_marked st x
    · have hy2 : y ∈ st.vNodes := by
        unfold Abc_NtkMiterSatCreateInt_addVar at hy
        split_ifs at hy
        · simp only [List.mem_append, List.mem_singleton] at hy
          rcases hy with hy | hy
          · exact hy
          · exact absurd hy hyx
        · exact hy
      exact (hext.2.2.2 y (hmk y hy2)).1

theorem addVars_varsInv (ntk : Abc_Ntk) (vSuper : List Abc_Ref) :
    ∀ st : MiterState, (∀ p ∈ vSuper, p.Id < Abc_NtkObjNumMax ntk) → VarsInv ntk st →
      VarsInv ntk (Abc_NtkMiterSatCreateInt_addVars st vSuper) := by
  induction vSuper with
  | nil => intro st _ h; exact h
  | cons q rest ih =>
    intro st hr h
    simp only [Abc_NtkMiterSatCreateInt_addVars, List.foldl_cons]
    exact ih _ (fun p hp => hr p (List.mem_cons_of_mem _ hp))
      (addVar_varsInv ntk st _ (hr q (by simp)) h)

/-- The leaves returned by `Abc_NtkCollectSupergate` lie in every set of objects that
contains the fanins of the root and is closed under the fanins of AND nodes. -/
theorem Abc_NtkCollectSupergate_closed (ntk : Abc_Ntk) (fStopAtMux : Bool)
    (fMarkB : Nat → Bool) (pNode : Abc_Ref) (sup : SuperState)
    (h : Abc_NtkCollectSupergate ntk pNode fStopAtMux fMarkB = some sup)
    (Q : Nat → Prop)
    (hQ : ∀ id, Abc_ObjIsNode ntk id = true → Q id →
      Q (Abc_NtkObj ntk id).Fanin0 ∧ Q (Abc_NtkObj ntk id).Fanin1)
    (hq0 : Q (Abc_NtkObj ntk pNode.Id).Fanin0) (hq1 : Q (Abc_NtkObj ntk pNode.Id).Fanin1) :
    ∀ p ∈ sup.vSuper, Q p.Id := by
  unfold Abc_NtkCollectSupergate at h
  cases hrec : Abc_NtkCollectSupergate_rec ntk fStopAtMux ((Abc_NtkObj ntk pNode.Id).Level + 1)
      pNode true { vSuper := [], fMarkB := fMarkB } with
  | none => simp [hrec] at h
  | some x =>
    obtain ⟨r, st⟩ := x
    rw [hrec] at h
    simp only [Option.some.injEq] at h
    subst h
    intro p hp
    have hp2 : p ∈ st.vSuper := by
      simp only at hp
      split_ifs at hp
      · simp at hp
      · exact hp
    exact Abc_NtkCollectSupergate_rec_closed ntk fStopAtMux Q hQ _ _ _ _ _ _ hrec
      (by simp) (fun _ => ⟨hq0, hq1⟩) st.vSuper (by simp) p hp2

/-- On a well-formed network the body of the main loop returns on every AND node,
whatever the solver answers and whatever the marks are. -/
theorem Abc_NtkMiterSatCreateInt_node_total (ntk : Abc_Ntk) (hwf : Abc_NtkInRange ntk)
    (st : MiterState) (pNode : Nat) (hand : Abc_AigNodeIsAnd ntk pNode = true)
    (hinv : VarsInv ntk st) :
    ∃ ok st1, Abc_NtkMiterSatCreateInt_node ntk true st pNode = some (ok, st1) ∧
      VarsInv ntk st1 := by
  have hnode : Abc_ObjIsNode ntk pNode = true := hand
  by_cases hmux : Abc_NodeIsMuxType ntk pNode = true
  · obtain ⟨hr1, hr2, hr3⟩ := hwf.muxInRange _ hnode hmux
    refine ⟨_, _, by
      simp only [Abc_NtkMiterSatCreateInt_node, hmux, Bool.and_self, if_true]; rfl, ?_⟩
    apply addVars_varsInv ntk _ st _ hinv
    intro p hp
    simp only [List.mem_cons, List.mem_singleton, List.not_mem_nil, or_false] at hp
    rcases hp with hp | hp | hp <;> subst hp <;> assumption
  · have hmuxf : Abc_NodeIsMuxType ntk pNode = false := by simpa using hmux
    obtain ⟨sup, hsup⟩ := Abc_NtkCollectSupergate_total ntk hwf.acyclic true st.fMarkB
      { Id := pNode, fCompl := false } hnode
    have hleaves : ∀ p ∈ sup.vSuper, p.Id < Abc_NtkObjNumMax ntk :=
      Abc_NtkCollectSupergate_closed ntk true st.fMarkB _ sup hsup
        (fun y => y < Abc_NtkObjNumMax ntk) (fun id hid _ => hwf.faninsInRange id hid)
        (hwf.faninsInRange _ hnode).1 (hwf.faninsInRange _ hnode).2
    have hinv1 : VarsInv ntk
        (Abc_NtkMiterSatCreateInt_addVars { st with fMarkB := sup.fMarkB } sup.vSuper) :=
      addVars_varsInv ntk _ _ hleaves hinv
    by_cases hempty : sup.vSuper.length = 0
    · refine ⟨_, _, by
        simp only [Abc_NtkMiterSatCreateInt_node, hmuxf, Bool.and_false, Bool.false_eq_true,
          if_false, hsup, hempty, if_true]; rfl, ?_⟩
      exact hinv1
    · refine ⟨_, _, by
        simp only [Abc_NtkMiterSatCreateInt_node, hmuxf, Bool.and_false, Bool.false_eq_true,
          if_false, hsup, hempty]; rfl, ?_⟩
      exact hinv1

/-- On a well-formed network the main loop returns 0 or 1 as soon as the fuel covers the
positions that are left, whatever the solver answers. -/
theorem Abc_NtkMiterSatCreateInt_loop_total (ntk : Abc_Ntk) (hwf : Abc_NtkInRange ntk) :
    ∀ (fuel i : Nat) (st : MiterState), VarsInv ntk st → i ≤ st.vNodes.length →
      Abc_NtkObjNumMax ntk + 1 ≤ fuel + i →
      ∃ r st2, Abc_NtkMiterSatCreateInt_loop ntk true fuel i st = some (r, st2) ∧
        (r = 0 ∨ r = 1) := by
  intro fuel
  induction fuel with
  | zero =>
    intro i st hinv hile hfuel
    have hsub : st.vNodes ⊆ List.range (Abc_NtkObjNumMax ntk) :=
      fun x hx => List.mem_range.2 (hinv.2.2 x hx)
    have := (List.Nodup.subperm hinv.1 hsub).length_le
    simp only [List.length_range] at this
    omega
  | succ fuel ih =>
    intro i st hinv hile hfuel
    rw [Abc_NtkMiterSatCreateInt_loop]
    by_cases hi : i < st.vNodes.length
    · rw [List.get?_eq_get hi]
      simp only [List.get_eq_getElem]
      by_cases hand : Abc_AigNodeIsAnd ntk st.vNodes[i] = true
      · obtain ⟨ok, st1, hnode, hinv1⟩ :=
          Abc_NtkMiterSatCreateInt_node_total ntk hwf st _ hand hinv
        have hext := Abc_NtkMiterSatCreateInt_node_extends ntk true st _ ok st1 hnode
        obtain ⟨more, hmore⟩ := hext.2.2.1
        simp only [hand, Bool.not_true, Bool.false_eq_true, if_false, hnode]
        cases ok with
        | false => exact ⟨0, st1, rfl, Or.inl rfl⟩
        | true =>
          exact ih (i + 1) st1 hinv1 (by rw [hmore, List.length_append]; omega) (by omega)
      · have hf : Abc_AigNodeIsAnd ntk st.vNodes[i] = false := by simpa using hand
        simp only [hf, Bool.not_false, if_true]
        exact ih (i + 1) st hinv hi (by omega)
    · have hlen : st.vNodes.length ≤ i := by omega
      rw [List.get?_eq_none.2 hlen]
      exact ⟨1, st, rfl, Or.inr rfl⟩

/-- On a well-formed network `Abc_NtkMiterSatCreateInt` returns 0 or 1, whatever the
solver answers and whatever the marks are on entry. -/
theorem Abc_NtkMiterSatCreateInt_total (ntk : Abc_Ntk) (hwf : Abc_NtkInRange ntk)
    (pSat : sat_solver) (pCopy : Nat → Nat) (fMarkA fMarkB : Nat → Bool) :
    ∃ r st, Abc_NtkMiterSatCreateInt ntk pSat pCopy fMarkA fMarkB = some (r, st) ∧
      (r = 0 ∨ r = 1) := by
  have hconst : VarsInv ntk (Abc_NtkMiterSatCreateInt_const ntk pSat pCopy fMarkA fMarkB) := by
    refine ⟨by simp [Abc_NtkMiterSatCreateInt_const], ?_, ?_⟩
    · intro x hx
      simp only [Abc_NtkMiterSatCreateInt_const, List.mem_singleton] at hx
      simp [Abc_NtkMiterSatCreateInt_const, setFlag, hx]
    · intro x hx
      simp only [Abc_NtkMiterSatCreateInt_const, List.mem_singleton] at hx
      rw [hx]; exact hwf.const1InRange
  have htop : VarsInv ntk (Abc_NtkMiterSatCreateInt_top ntk pSat pCopy fMarkA fMarkB).2 := by
    rw [Abc_NtkMiterSatCreateInt_top_eq]
    apply addVars_varsInv ntk _ _ _ hconst
    intro p hp
    obtain ⟨co, hco, hp2⟩ := List.mem_map.1 hp
    rw [← hp2]
    exact hwf.cosInRange co hco
  unfold Abc_NtkMiterSatCreateInt
  simp only
  split_ifs
  · exact ⟨0, _, rfl, Or.inl rfl⟩
  · exact Abc_NtkMiterSatCreateInt_loop_total ntk hwf _ 0 _ htop (Nat.zero_le _) (by omega)

/-- Well-formedness in the sense of `Abc_NtkInRange` follows from the decidable test
when no node is taken for a multiplexer. -/
theorem Abc_NtkInRange_of_check (ntk : Abc_Ntk) (hc : Abc_NtkCheck ntk = true)
    (hm : ∀ id, Abc_NodeIsMuxType ntk id = false) : Abc_NtkInRange ntk := by
  simp only [Abc_NtkCheck, Bool.and_eq_true, List.all_eq_true, List.mem_range,
    decide_eq_true_eq] at hc
  obtain ⟨⟨⟨⟨hac, hobj⟩, hc1⟩, _⟩, hcos⟩ := hc
  refine ⟨Acyclic_of_check ntk hac, ?_, hc1, hcos, ?_⟩
  · intro id hn
    have := (hobj id (Abc_ObjIsNode_lt ntk id hn)).1
    simpa [hn] using this
  · intro id _ h
    rw [hm id] at h
    exact absurd h (by simp)

/-- C7: on every well-formed network, with any solver and any marks,
`Abc_NtkMiterSatCreateInt` returns; and whenever it returns, on any network, the clauses
it submitted begin with the unit clause of the constant node followed by the one
top-level clause, built by `Abc_NtkClauseTop`; this clause has one literal for every
combinational output, in output order, the literal of an output being the variable of
its driver, negated exactly when the fanin edge of the output is complemented. Hence the
clause is satisfied by an assignment if and only if at least one output literal is true.
When the top-level clause is rejected no further clause is submitted and the pass
returns 0. -/
theorem C7_top_clause (ntk : Abc_Ntk) (pSat : sat_solver) (pCopy : Nat → Nat)
    (fMarkA fMarkB : Nat → Bool) :
    (Abc_NtkInRange ntk →
      ∃ r st, Abc_NtkMiterSatCreateInt ntk pSat pCopy fMarkA fMarkB = some (r, st)) ∧
    ∀ r st, Abc_NtkMiterSatCreateInt ntk pSat pCopy fMarkA fMarkB = some (r, st) →
      (∃ rest, newClauses pSat st.pSat =
          [[toLitCond 0 false],
            ntk.vCos.map fun co =>
              toLitCond (st.pCopy (Abc_ObjFanin0 ntk co)) (Abc_NtkObj ntk co).fCompl0] ++ rest ∧
        (pSat.answer (pSat.store ++ [[toLitCond 0 false]])
            (ntk.vCos.map fun co =>
              toLitCond (st.pCopy (Abc_ObjFanin0 ntk co)) (Abc_NtkObj ntk co).fCompl0) = false →
          rest = [] ∧ r = 0)) ∧
      (∀ i (hi : i < ntk.vCos.length),
        (ntk.vCos.map fun co =>
            toLitCond (st.pCopy (Abc_ObjFanin0 ntk co)) (Abc_NtkObj ntk co).fCompl0)[i]? =
          some (toLitCond (st.pCopy (Abc_ObjFanin0 ntk ntk.vCos[i]))
            (Abc_NtkObj ntk ntk.vCos[i]).fCompl0)) ∧
      (∀ a : Nat → Bool,
        clauseSat a (ntk.vCos.map fun co =>
            toLitCond (st.pCopy (Abc_ObjFanin0 ntk co)) (Abc_NtkObj ntk co).fCompl0) = true ↔
          ∃ co ∈ ntk.vCos,
            xor (a (st.pCopy (Abc_ObjFanin0 ntk co))) (Abc_NtkObj ntk co).fCompl0 = true) := by
  refine ⟨fun hwf => ?_, ?_⟩
  · obtain ⟨r, st, h, _⟩ := Abc_NtkMiterSatCreateInt_total ntk hwf pSat pCopy fMarkA fMarkB
    exact ⟨r, st, h⟩
  · intro r st h
    obtain ⟨hstore, _, hret, hdrv, _, _, _⟩ :=
      Abc_NtkMiterSatCreateInt_top_shape ntk pSat pCopy fMarkA fMarkB
    have hext : Extends (Abc_NtkMiterSatCreateInt_top ntk pSat pCopy fMarkA fMarkB).2 st ∧
        ((Abc_NtkMiterSatCreateInt_top ntk pSat pCopy fMarkA fMarkB).1 = false →
          st = (Abc_NtkMiterSatCreateInt_top ntk pSat pCopy fMarkA fMarkB).2 ∧ r = 0) := by
      unfold Abc_NtkMiterSatCreateInt at h
      simp only at h
      split_ifs at h with htop
      · simp only [Option.some.injEq, Prod.mk.injEq] at h
        rw [← h.2]
        exact ⟨Extends_refl _, fun _ => ⟨rfl, h.1.symm⟩⟩
      · refine ⟨Abc_NtkMiterSatCreateInt_loop_extends ntk true _ _ _ _ _ h, ?_⟩
        intro hf
        rw [hf] at htop
        simp at htop
    obtain ⟨⟨⟨rest, hrest⟩, _, _, hkeep⟩, hfail⟩ := hext
    have htopeq : (ntk.vCos.map fun co =>
        toLitCond ((Abc_NtkMiterSatCreateInt_top ntk pSat pCopy fMarkA fMarkB).2.pCopy
          (Abc_ObjFanin0 ntk co)) (Abc_NtkObj ntk co).fCompl0) =
        ntk.vCos.map fun co =>
          toLitCond (st.pCopy (Abc_ObjFanin0 ntk co)) (Abc_NtkObj ntk co).fCompl0 := by
      apply List.map_congr_left
      intro co hco
      rw [(hkeep _ (hdrv co hco)).2]
    rw [htopeq] at hstore hret
    refine ⟨⟨rest, ?_, ?_⟩, ?_, ?_⟩
    · apply newClauses_of_store
      rw [hrest, hstore, List.append_assoc]
    · intro hrej
      rw [← hret] at hrej
      obtain ⟨hst, hr⟩ := hfail hrej
      rw [hst] at hrest
      have : rest = [] := by
        have := List.append_cancel_left (hrest.symm.trans (List.append_nil _).symm)
        exact this.symm ▸ rfl
      exact ⟨this, hr⟩
    · intro i hi
      simp [hi]
    · intro a
      simp only [clauseSat, List.any_map, List.any_eq_true, Function.comp_def, litVal_toLitCond]

/-- Witness of C7: the network `netShared`, which has two outputs, is well formed, and
the pass on it returns, with a solver that accepts every clause. -/
theorem C7_top_clause_witness :
    Abc_NtkInRange netShared ∧
    ∃ r st, Abc_NtkMiterSatCreateInt netShared satAccept copyId noMarks noMarks = some (r, st) ∧
      ((∃ rest, newClauses satAccept st.pSat =
          [[toLitCond 0 false],
            netShared.vCos.map fun co =>
              toLitCond (st.pCopy (Abc_ObjFanin0 netShared co)) (Abc_NtkObj netShared co).fCompl0]
            ++ rest ∧
        (satAccept.answer (satAccept.store ++ [[toLitCond 0 false]])
            (netShared.vCos.map fun co =>
              toLitCond (st.pCopy (Abc_ObjFanin0 netShared co))
                (Abc_NtkObj netShared co).fCompl0) = false →
          rest = [] ∧ r = 0)) ∧
      (∀ i (hi : i < netShared.vCos.length),
        (netShared.vCos.map fun co =>
            toLitCond (st.pCopy (Abc_ObjFanin0 netShared co))
              (Abc_NtkObj netShared co).fCompl0)[i]? =
          some (toLitCond (st.pCopy (Abc_ObjFanin0 netShared netShared.vCos[i]))
            (Abc_NtkObj netShared netShared.vCos[i]).fCompl0)) ∧
      (∀ a : Nat → Bool,
        clauseSat a (netShared.vCos.map fun co =>
            toLitCond (st.pCopy (Abc_ObjFanin0 netShared co))
              (Abc_NtkObj netShared co).fCompl0) = true ↔
          ∃ co ∈ netShared.vCos,
            xor (a (st.pCopy (Abc_ObjFanin0 netShared co))) (Abc_NtkObj netShared co).fCompl0
              = true)) := by
  have hwf : Abc_NtkInRange netShared :=
    Abc_NtkInRange_of_check netShared (by decide) (fun _ => rfl)
  obtain ⟨r, st, h⟩ := (C7_top_clause netShared satAccept copyId noMarks noMarks).1 hwf
  exact ⟨hwf, r, st, h, (C7_top_clause netShared satAccept copyId noMarks noMarks).2 r st h⟩

/-! ### Short-circuit of the pass at a failing submission -/

theorem allAccepted_append (answer : List (List Nat) → List Nat → Bool)
    (n1 n2 : List (List Nat)) :
    ∀ base, allAccepted answer base (n1 ++ n2) =
      (allAccepted answer base n1 && allAccepted answer (base ++ n1) n2) := by
  induction n1 with
  | nil => intro base; simp [allAccepted]
  | cons c cs ih =>
    intro base
    rw [List.cons_append, allAccepted, allAccepted, ih, Bool.and_assoc]
    simp

theorem SubmitRun_append (answer : List (List Nat) → List Nat → Bool)
    (base n1 n2 : List (List Nat)) (ok : Bool)
    (h1 : allAccepted answer base n1 = true) (h2 : SubmitRun answer (base ++ n1) n2 ok) :
    SubmitRun answer base (n1 ++ n2) ok := by
  unfold SubmitRun at h2 ⊢
  split_ifs at h2 ⊢ with hok
  · rw [allAccepted_append, h1, h2]; rfl
  · obtain ⟨init, last, hn, hacc, hrej⟩ := h2
    refine ⟨n1 ++ init, last, by rw [hn, List.append_assoc], ?_, ?_⟩
    · rw [allAccepted_append, h1, hacc]; rfl
    · rw [← List.append_assoc]; exact hrej

theorem SubmitRun_single (answer : List (List Nat) → List Nat → Bool)
    (base : List (List Nat)) (c : List Nat) :
    SubmitRun answer base [c] (answer base c) := by
  unfold SubmitRun
  split_ifs with h
  · simp [allAccepted, h]
  · exact ⟨[], c, rfl, rfl, by simpa using h⟩

/-- Submissions that stop at the first failure form a short-circuiting run. -/
theorem sat_solver_addclauses_run (cs : List (List Nat)) :
    ∀ pSat : sat_solver,
      (sat_solver_addclauses cs pSat).2.answer = pSat.answer ∧
      ∃ new, (sat_solver_addclauses cs pSat).2.store = pSat.store ++ new ∧
        SubmitRun pSat.answer pSat.store new (sat_solver_addclauses cs pSat).1 := by
  induction cs with
  | nil =>
    intro pSat
    exact ⟨rfl, [], by simp [sat_solver_addclauses], by simp [SubmitRun, sat_solver_addclauses,
      allAccepted]⟩
  | cons c cs ih =>
    intro pSat
    simp only [sat_solver_addclauses]
    by_cases hacc : pSat.answer pSat.store c = true
    · obtain ⟨hans, new, hst, hrun⟩ := ih (sat_solver_addclause pSat c).2
      simp only [sat_solver_addclause, hacc, Bool.not_true, Bool.false_eq_true, if_false]
        at hans hst hrun ⊢
      refine ⟨hans, c :: new, by rw [hst]; simp, ?_⟩
      exact SubmitRun_append pSat.answer pSat.store [c] new _ (by simp [allAccepted, hacc]) hrun
    · have hf : pSat.answer pSat.store c = false := by simpa using hacc
      simp only [sat_solver_addclause, hf, Bool.not_false, if_true]
      exact ⟨trivial, [c], rfl, by
        have := SubmitRun_single pSat.answer pSat.store c
        rw [hf] at this
        exact this⟩

theorem sat_solver_addclauses_append (l1 l2 : List (List Nat)) :
    ∀ pSat : sat_solver,
      sat_solver_addclauses (l1 ++ l2) pSat =
        if !(sat_solver_addclauses l1 pSat).1 then
          (false, (sat_solver_addclauses l1 pSat).2)
        else sat_solver_addclauses l2 (sat_solver_addclauses l1 pSat).2 := by
  induction l1 with
  | nil => intro pSat; simp [sat_solver_addclauses]
  | cons c cs ih =>
    intro pSat
    simp only [List.cons_append, sat_solver_addclauses]
    split_ifs with h1 <;> simp_all

theorem sat_solver_addclauses_single (c : List Nat) (pSat : sat_solver) :
    sat_solver_addclauses [c] pSat = sat_solver_addclause pSat c := by
  simp only [sat_solver_addclauses]
  split_ifs with h
  · have hf : (sat_solver_addclause pSat c).1 = false := by simpa using h
    rw [← hf]
  · have ht : (sat_solver_addclause pSat c).1 = true := by simpa using h
    rw [← ht]

/-- `Abc_NtkClauseAnd` submits the clauses of the AND template in order and stops at the
first failure. -/
theorem Abc_NtkClauseAnd_eq_addclauses (pSat : sat_solver) (pCopy : Nat → Nat) (pNode : Nat)
    (vSuper : List Abc_Ref) :
    Abc_NtkClauseAnd pSat pCopy pNode vSuper =
      sat_solver_addclauses
        ((vSuper.map fun p => [refLit pCopy p, toLitCond (pCopy pNode) true]) ++
          [(vSuper.map fun p =>
              toLitCond (pCopy (Abc_ObjRegular p)) (!Abc_ObjIsComplement p))
            ++ [toLitCond (pCopy pNode) false]]) pSat := by
  have hloop : ∀ (vs : List Abc_Ref) (s : sat_solver),
      Abc_NtkClauseAnd_loop pCopy (pCopy pNode) vs s =
        sat_solver_addclauses (vs.map fun p => [refLit pCopy p, toLitCond (pCopy pNode) true])
          s := by
    intro vs
    induction vs with
    | nil => intro s; rfl
    | cons p rest ih =>
      intro s
      simp only [Abc_NtkClauseAnd_loop, List.map_cons, sat_solver_addclauses, refLit, ih]
  rw [sat_solver_addclauses_append, sat_solver_addclauses_single, ← hloop]
  rfl

/-- `Abc_NtkClauseMux` submits the first four or all six clauses of the multiplexer
template in order and stops at the first failure. -/
theorem Abc_NtkClauseMux_eq_addclauses (pSat : sat_solver) (pCopy : Nat → Nat)
    (pNode pNodeC : Nat) (pNodeT pNodeE : Abc_Ref) :
    Abc_NtkClauseMux pSat pCopy pNode pNodeC pNodeT pNodeE =
      sat_solver_addclauses
        ((muxClauses pCopy pNode pNodeC pNodeT pNodeE).take
          (if pCopy (Abc_ObjRegular pNodeT) = pCopy (Abc_ObjRegular pNodeE) then 4 else 6))
        pSat := by
  have key : ∀ r : Bool × sat_solver,
      (if (!r.1) = true then (false, r.2) else (true, r.2)) = r := by
    rintro ⟨b, s⟩; cases b <;> rfl
  unfold Abc_NtkClauseMux
  by_cases hTE : pCopy (Abc_ObjRegular pNodeT) = pCopy (Abc_ObjRegular pNodeE)
  · simp only [hTE, if_true, muxClauses, List.take_succ_cons, List.take_zero,
      sat_solver_addclauses, beq_self_eq_true]
  · simp only [hTE, if_false, muxClauses, List.take_succ_cons, List.take_zero,
      sat_solver_addclauses, beq_iff_eq, Bool.true_xor, Bool.false_xor, key]

/-- One step of the main loop submits a short-circuiting run of clauses. -/
theorem Abc_NtkMiterSatCreateInt_node_run (ntk : Abc_Ntk) (fUseMuxes : Bool)
    (st : MiterState) (pNode : Nat) (ok : Bool) (st1 : MiterState)
    (h : Abc_NtkMiterSatCreateInt_node ntk fUseMuxes st pNode = some (ok, st1)) :
    st1.pSat.answer = st.pSat.answer ∧
    ∃ new, st1.pSat.store = st.pSat.store ++ new ∧
      SubmitRun st.pSat.answer st.pSat.store new ok := by
  unfold Abc_NtkMiterSatCreateInt_node at h
  split_ifs at h with hmux
  · simp only [Option.some.injEq, Prod.mk.injEq] at h
    obtain ⟨rfl, rfl⟩ := h
    have hp := (addVars_spec [{ Id := (Abc_NodeRecognizeMux ntk pNode).1, fCompl := false },
      (Abc_NodeRecognizeMux ntk pNode).2.1, (Abc_NodeRecognizeMux ntk pNode).2.2] st).2.1
    have hrun := sat_solver_addclauses_run
      ((muxClauses (Abc_NtkMiterSatCreateInt_addVars st
          [{ Id := (Abc_NodeRecognizeMux ntk pNode).1, fCompl := false },
            (Abc_NodeRecognizeMux ntk pNode).2.1, (Abc_NodeRecognizeMux ntk pNode).2.2]).pCopy
        pNode (Abc_NodeRecognizeMux ntk pNode).1 (Abc_NodeRecognizeMux ntk pNode).2.1
        (Abc_NodeRecognizeMux ntk pNode).2.2).take
        (if (Abc_NtkMiterSatCreateInt_addVars st
          [{ Id := (Abc_NodeRecognizeMux ntk pNode).1, fCompl := false },
            (Abc_NodeRecognizeMux ntk pNode).2.1, (Abc_NodeRecognizeMux ntk pNode).2.2]).pCopy
            (Abc_ObjRegular (Abc_NodeRecognizeMux ntk pNode).2.1) =
          (Abc_NtkMiterSatCreateInt_addVars st
          [{ Id := (Abc_NodeRecognizeMux ntk pNode).1, fCompl := false },
            (Abc_NodeRecognizeMux ntk pNode).2.1, (Abc_NodeRecognizeMux ntk pNode).2.2]).pCopy
            (Abc_ObjRegular (Abc_NodeRecognizeMux ntk pNode).2.2) then 4 else 6))
      (Abc_NtkMiterSatCreateInt_addVars st
          [{ Id := (Abc_NodeRecognizeMux ntk pNode).1, fCompl := false },
            (Abc_NodeRecognizeMux ntk pNode).2.1, (Abc_NodeRecognizeMux ntk pNode).2.2]).pSat
    rw [← Abc_NtkClauseMux_eq_addclauses, hp] at hrun
    rw [hp]
    exact hrun
  · cases hsup : Abc_NtkCollectSupergate ntk { Id := pNode, fCompl := false } fUseMuxes
        st.fMarkB with
    | none => rw [hsup] at h; exact absurd h (by simp)
    | some sup =>
      rw [hsup] at h
      have hp := (addVars_spec sup.vSuper { st with fMarkB := sup.fMarkB }).2.1
      simp only at h hp
      split_ifs at h with hlen
      · simp only [Option.some.injEq, Prod.mk.injEq] at h
        obtain ⟨rfl, rfl⟩ := h
        have hrun := sat_solver_addclauses_run
          [[toLitCond ((Abc_NtkMiterSatCreateInt_addVars { st with fMarkB := sup.fMarkB }
              sup.vSuper).pCopy
              (Abc_ObjRegular (Abc_ObjNot { Id := pNode, fCompl := false })))
            (Abc_ObjIsComplement (Abc_ObjNot { Id := pNode, fCompl := false }))]]
          (Abc_NtkMiterSatCreateInt_addVars { st with fMarkB := sup.fMarkB } sup.vSuper).pSat
        rw [sat_solver_addclauses_single, hp] at hrun
        unfold Abc_NtkClauseTriv
        rw [hp]
        exact hrun
      · simp only [Option.some.injEq, Prod.mk.injEq] at h
        obtain ⟨rfl, rfl⟩ := h
        rw [Abc_NtkClauseAnd_eq_addclauses, hp]
        exact sat_solver_addclauses_run _ st.pSat

/-- The main loop submits a short-circuiting run of clauses: it returns 1 after a run in
which every submission was accepted, and 0 right after the first rejected one. -/
theorem Abc_NtkMiterSatCreateInt_loop_run (ntk : Abc_Ntk) (fUseMuxes : Bool) :
    ∀ (fuel i : Nat) (st : MiterState) (r : Int) (st2 : MiterState),
      Abc_NtkMiterSatCreateInt_loop ntk fUseMuxes fuel i st = some (r, st2) →
      (r = 0 ∨ r = 1) ∧ st2.pSat.answer = st.pSat.answer ∧
      ∃ new, st2.pSat.store = st.pSat.store ++ new ∧
        SubmitRun st.pSat.answer st.pSat.store new (decide (r = 1)) := by
  intro fuel
  induction fuel with
  | zero => intro i st r st2 h; exact absurd h (by simp [Abc_NtkMiterSatCreateInt_loop])
  | succ fuel ih =>
    intro i st r st2 h
    rw [Abc_NtkMiterSatCreateInt_loop] at h
    cases hget : st.vNodes.get? i with
    | none =>
      rw [hget] at h
      simp only [Option.some.injEq, Prod.mk.injEq] at h
      obtain ⟨rfl, rfl⟩ := h
      exact ⟨Or.inr rfl, rfl, [], by simp, by simp [SubmitRun, allAccepted]⟩
    | some pNode =>
      rw [hget] at h
      simp only at h
      split_ifs at h with hand
      · exact ih _ _ _ _ h
      · cases hnode : Abc_NtkMiterSatCreateInt_node ntk fUseMuxes st pNode with
        | none => rw [hnode] at h; exact absurd h (by simp)
        | some p =>
          obtain ⟨ok, st1⟩ := p
          obtain ⟨hans1, new1, hst1, hrun1⟩ :=
            Abc_NtkMiterSatCreateInt_node_run ntk fUseMuxes st pNode ok st1 hnode
          rw [hnode] at h
          cases ok with
          | false =>
            simp only [Option.some.injEq, Prod.mk.injEq] at h
            obtain ⟨rfl, rfl⟩ := h
            exact ⟨Or.inl rfl, hans1, new1, hst1, by simpa using hrun1⟩
          | true =>
            simp only at h
            obtain ⟨hr, hans2, new2, hst2, hrun2⟩ := ih _ _ _ _ h
            refine ⟨hr, hans2.trans hans1, new1 ++ new2, by rw [hst2, hst1, List.append_assoc],
              ?_⟩
            rw [hans1, hst1] at hrun2
            exact SubmitRun_append _ _ _ _ _ (by simpa [SubmitRun] using hrun1) hrun2

/-- The pass short-circuits at every failing submission but the first: after the unit
clause of the constant, whose answer is not looked at, the pass returns 1 when every
later submission was accepted, and returns 0 right after the first rejected one, which
is then the last clause submitted. -/
theorem Abc_NtkMiterSatCreateInt_short_circuit (ntk : Abc_Ntk) (pSat : sat_solver)
    (pCopy : Nat → Nat) (fMarkA fMarkB : Nat → Bool) (r : Int) (st : MiterState)
    (h : Abc_NtkMiterSatCreateInt ntk pSat pCopy fMarkA fMarkB = some (r, st)) :
    (r = 0 ∨ r = 1) ∧
    ∃ rest, newClauses pSat st.pSat = [toLitCond 0 false] :: rest ∧
      SubmitRun pSat.answer (pSat.store ++ [[toLitCond 0 false]]) rest (decide (r = 1)) := by
  obtain ⟨hstore, hans, htop, -⟩ := Abc_NtkMiterSatCreateInt_top_shape ntk pSat pCopy fMarkA fMarkB
  unfold Abc_NtkMiterSatCreateInt at h
  simp only at h
  split_ifs at h with ht
  · simp only [Option.some.injEq, Prod.mk.injEq] at h
    obtain ⟨rfl, rfl⟩ := h
    refine ⟨Or.inl rfl, _, newClauses_of_store _ _ _ hstore, ?_⟩
    have hf : (Abc_NtkMiterSatCreateInt_top ntk pSat pCopy fMarkA fMarkB).1 = false := by
      simpa using ht
    rw [htop] at hf
    simp only [SubmitRun]
    exact ⟨[], _, rfl, rfl, by simpa using hf⟩
  · have htrue : (Abc_NtkMiterSatCreateInt_top ntk pSat pCopy fMarkA fMarkB).1 = true := by
      simpa using ht
    rw [htop] at htrue
    obtain ⟨hr, hans2, new2, hst2, hrun2⟩ :=
      Abc_NtkMiterSatCreateInt_loop_run ntk true _ _ _ _ _ h
    refine ⟨hr, (ntk.vCos.map fun co =>
        toLitCond ((Abc_NtkMiterSatCreateInt_top ntk pSat pCopy fMarkA fMarkB).2.pCopy
          (Abc_ObjFanin0 ntk co)) (Abc_NtkObj ntk co).fCompl0) :: new2,
      newClauses_of_store _ _ _ (by rw [hst2, hstore]; simp), ?_⟩
    rw [hans, hstore] at hrun2
    have := SubmitRun_append pSat.answer (pSat.store ++ [[toLitCond 0 false]])
      [ntk.vCos.map fun co =>
        toLitCond ((Abc_NtkMiterSatCreateInt_top ntk pSat pCopy fMarkA fMarkB).2.pCopy
          (Abc_ObjFanin0 ntk co)) (Abc_NtkObj ntk co).fCompl0] new2 _
      (by simp only [allAccepted, htrue]; rfl)
      (by simpa using hrun2)
    simpa using this

/-- The clauses that the pass submits for `netShared`: the constant clause, the
top-level clause `4 or 3` (variables 1 and 2), the AND clauses of node 4 with the leaves
`3` and `not a` (variable 3), and the AND clauses of node 3 with the leaves `a` and `b`
(variable 4). -/
theorem netShared_clauses :
    (Abc_NtkMiterSatCreateInt netShared satAccept copyId noMarks noMarks).map
        (fun r => (r.1, r.2.vNodes, r.2.pSat.store)) =
      some (1, [0, 4, 3, 1, 2],
        [[0], [2, 4], [4, 3], [7, 3], [5, 6, 2], [6, 5], [8, 5], [7, 9, 4]]) := by
  decide

/-- The answer to the first submission is not looked at (abcSat.c line 482): on
`netShared`, with an engine that reports the unit clause of the constant node as failing
on a solver without clauses, `Abc_NtkMiterSatCreateInt` goes on, submits seven more
clauses and returns 1, and `Abc_NtkMiterSatCreate` returns a solver. Such an engine
rejects a satisfiable clause; an engine that rejects only conflicting clauses accepts
this submission (`RejectsOnlyConflicts_first`). -/
theorem netShared_first_answer_unchecked :
    (sat_solver_addclause (sat_solver_new engineRejectFirst) [toLitCond 0 false]).1 = false ∧
    (Abc_NtkMiterSatCreateInt netShared (sat_solver_new engineRejectFirst) copyId noMarks
        noMarks).map (fun r => (r.1, r.2.pSat.store)) =
      some (1, [[0], [2, 4], [4, 3], [7, 3], [5, 6, 2], [6, 5], [8, 5], [7, 9, 4]]) ∧
    (Abc_NtkMiterSatCreate engineRejectFirst netShared cleanMarks).map (fun x => x.1.isSome)
      = some true := by
  decide

/-! ### A failing submission stops the pass -/

/-- On a well-formed network `Abc_NtkMiterSatCreate` returns, with a solver or with
NULL, whatever the engine answers and whatever the scratch fields hold on entry. -/
theorem Abc_NtkMiterSatCreate_total (E : SatEngine) (ntk : Abc_Ntk)
    (hwf : Abc_NtkInRange ntk) (m : NtkMarks) :
    ∃ x, Abc_NtkMiterSatCreate E ntk m = some x := by
  obtain ⟨r, st, h, _⟩ :=
    Abc_NtkMiterSatCreateInt_total ntk hwf (sat_solver_new E) m.pCopy m.fMarkA m.fMarkB
  simp only [Abc_NtkMiterSatCreate, h]
  split_ifs <;> exact ⟨_, rfl⟩

/-- C9: the return value of `Abc_NtkMiterSat` is a function of the pipeline outcomes.
When clause creation returns NULL it returns 1 without calling simplify or solve; when
simplification reports 0 it returns 1 without calling solve; otherwise it calls both and
returns -1 when the search returns undefined, 0 when it returns true and 1 when it
returns false. In particular a resource-limited search yields neither 0 nor 1. On a
well-formed network the orchestrator does return, with one of the values -1, 0 and 1. -/
theorem C9_miterSat_return (E : SatEngine) (ntk : Abc_Ntk) (m : NtkMarks)
    (nConfLimit nInsLimit : Int) :
    (∀ m1, Abc_NtkMiterSatCreate E ntk m = some (none, m1) →
      ∃ res, Abc_NtkMiterSat E ntk m nConfLimit nInsLimit = some res ∧
        res.RetValue = 1 ∧ res.calls = []) ∧
    (∀ pSat m1, Abc_NtkMiterSatCreate E ntk m = some (some pSat, m1) →
      E.simplify pSat.store = false →
      ∃ res, Abc_NtkMiterSat E ntk m nConfLimit nInsLimit = some res ∧
        res.RetValue = 1 ∧ res.calls = [SatCall.simplify]) ∧
    (∀ pSat m1, Abc_NtkMiterSatCreate E ntk m = some (some pSat, m1) →
      E.simplify pSat.store = true →
      ∃ res, Abc_NtkMiterSat E ntk m nConfLimit nInsLimit = some res ∧
        res.calls = [SatCall.simplify, SatCall.solve] ∧
        (E.solve pSat.store nConfLimit nInsLimit = lbool.l_Undef →
          res.RetValue = -1 ∧ res.RetValue ≠ 0 ∧ res.RetValue ≠ 1) ∧
        (E.solve pSat.store nConfLimit nInsLimit = lbool.l_True → res.RetValue = 0) ∧
        (E.solve pSat.store nConfLimit nInsLimit = lbool.l_False → res.RetValue = 1)) ∧
    (Abc_NtkInRange ntk →
      ∃ res, Abc_NtkMiterSat E ntk m nConfLimit nInsLimit = some res ∧
        (res.RetValue = -1 ∨ res.RetValue = 0 ∨ res.RetValue = 1)) := by
  refine ⟨?_, ?_, ?_, ?_⟩
  · intro m1 h
    simp only [Abc_NtkMiterSat, h]
    exact ⟨_, rfl, rfl, rfl⟩
  · intro pSat m1 h hs
    simp only [Abc_NtkMiterSat, h, hs, if_true]
    exact ⟨_, rfl, rfl, rfl⟩
  · intro pSat m1 h hs
    simp only [Abc_NtkMiterSat, h, hs, Bool.true_eq_false, if_false]
    refine ⟨_, rfl, rfl, ?_, ?_, ?_⟩ <;> intro hst <;> simp [hst]
  · intro hwf
    obtain ⟨x, h⟩ := Abc_NtkMiterSatCreate_total E ntk hwf m
    obtain ⟨o, m1⟩ := x
    cases o with
    | none =>
      simp only [Abc_NtkMiterSat, h]
      exact ⟨_, rfl, Or.inr (Or.inr rfl)⟩
    | some pSat =>
      simp only [Abc_NtkMiterSat, h]
      by_cases hs : E.simplify pSat.store = false
      · simp only [hs, if_true]
        exact ⟨_, rfl, Or.inr (Or.inr rfl)⟩
      · simp only [hs, if_false]
        refine ⟨_, rfl, ?_⟩
        cases E.solve pSat.store nConfLimit nInsLimit <;> simp

/-- Witness of C9: on `netShared`, with an engine whose search stops at its resource
limit, the orchestrator calls simplify and solve and returns -1. -/
theorem C9_miterSat_return_witness :
    ∃ res, Abc_NtkMiterSat engineUndef netShared cleanMarks 0 0 = some res ∧
      res.RetValue = -1 ∧ res.calls = [SatCall.simplify, SatCall.solve] := by
  cases h : Abc_NtkMiterSatCreate engineUndef netShared cleanMarks with
  | none =>
    have : (Abc_NtkMiterSatCreate engineUndef netShared cleanMarks).isSome = true := by decide
    simp [h] at this
  | some x =>
    obtain ⟨o, m1⟩ := x
    cases o with
    | none =>
      have : ((Abc_NtkMiterSatCreate engineUndef netShared cleanMarks).map
          fun x => x.1.isSome) = some true := by decide
      simp [h] at this
    | some pSat =>
      obtain ⟨res, hres, hcalls, hu, _, _⟩ :=
        (C9_miterSat_return engineUndef netShared cleanMarks 0 0).2.2.1 pSat m1 h rfl
      exact ⟨res, hres, (hu rfl).1, hcalls⟩

theorem Abc_NtkGetCiSatVarNums_eq (ntk : Abc_Ntk) (pCopy : Nat → Nat) :
    Abc_NtkGetCiSatVarNums ntk pCopy = ntk.vCis.map pCopy := by
  have key : ∀ (l : List Nat) (acc : List Nat),
      l.foldl (fun vCiIds pObj => vCiIds ++ [pCopy pObj]) acc = acc ++ l.map pCopy := by
    intro l
    induction l with
    | nil => intro acc; simp
    | cons x rest ih => intro acc; simp [ih]
  simpa [Abc_NtkGetCiSatVarNums] using key ntk.vCis []

/-- C10: `Abc_NtkGetCiSatVarNums` returns a vector with one entry for every
combinational input, the i-th entry being the `pCopy` (solver variable) stored for the
i-th input in declaration order; and when the search returns true, `Abc_NtkMiterSat`
returns 0 and stores a counterexample with exactly one value for every input, the i-th
value being the solver's value of the variable stored for the i-th input. -/
theorem C10_ci_var_nums (E : SatEngine) (ntk : Abc_Ntk) (m : NtkMarks)
    (nConfLimit nInsLimit : Int) (pSat : sat_solver) (m1 : NtkMarks)
    (hcreate : Abc_NtkMiterSatCreate E ntk m = some (some pSat, m1))
    (hsimp : E.simplify pSat.store = true)
    (hsat : E.solve pSat.store nConfLimit nInsLimit = lbool.l_True) :
    ((Abc_NtkGetCiSatVarNums ntk m1.pCopy).length = ntk.vCis.length ∧
      ∀ (i : Nat) (h : i < ntk.vCis.length),
        (Abc_NtkGetCiSatVarNums ntk m1.pCopy)[i]? = some (m1.pCopy ntk.vCis[i])) ∧
    ∃ res model, Abc_NtkMiterSat E ntk m nConfLimit nInsLimit = some res ∧
      res.RetValue = 0 ∧ res.pModel = some model ∧
      model.length = ntk.vCis.length ∧
      ∀ (i : Nat) (h : i < ntk.vCis.length),
        model[i]? = some (E.model pSat.store nConfLimit nInsLimit (m1.pCopy ntk.vCis[i])) := by
  refine ⟨⟨by simp [Abc_NtkGetCiSatVarNums_eq], ?_⟩, ?_⟩
  · intro i h
    simp [Abc_NtkGetCiSatVarNums_eq, h]
  · simp only [Abc_NtkMiterSat, hcreate, hsimp, Bool.true_eq_false, if_false]
    refine ⟨_, ntk.vCis.map fun x => E.model pSat.store nConfLimit nInsLimit (m1.pCopy x),
      rfl, ?_, ?_, by simp, ?_⟩
    · simp [hsat]
    · simp [hsat, Abc_NtkGetCiSatVarNums_eq, Sat_SolverGetModel]
    · intro i h
      simp [h]

/-- Witness of C10: `netShared` with an engine that reports a satisfying assignment. -/
theorem C10_ci_var_nums_witness :
    ∃ pSat m1, Abc_NtkMiterSatCreate engineSat netShared cleanMarks = some (some pSat, m1) ∧
      (((Abc_NtkGetCiSatVarNums netShared m1.pCopy).length = netShared.vCis.length ∧
        ∀ (i : Nat) (h : i < netShared.vCis.length),
          (Abc_NtkGetCiSatVarNums netShared m1.pCopy)[i]? =
            some (m1.pCopy netShared.vCis[i])) ∧
      ∃ res model, Abc_NtkMiterSat engineSat netShared cleanMarks 0 0 = some res ∧
        res.RetValue = 0 ∧ res.pModel = some model ∧
        model.length = netShared.vCis.length ∧
        ∀ (i : Nat) (h : i < netShared.vCis.length),
          model[i]? = some (engineSat.model pSat.store 0 0 (m1.pCopy netShared.vCis[i]))) := by
  cases h : Abc_NtkMiterSatCreate engineSat netShared cleanMarks with
  | none =>
    have : (Abc_NtkMiterSatCreate engineSat netShared cleanMarks).isSome = true := by decide
    simp [h] at this
  | some x =>
    obtain ⟨o, m1⟩ := x
    cases o with
    | none =>
      have : ((Abc_NtkMiterSatCreate engineSat netShared cleanMarks).map
          fun x => x.1.isSome) = some true := by decide
      simp [h] at this
    | some pSat =>
      exact ⟨pSat, m1, rfl, C10_ci_var_nums engineSat netShared cleanMarks 0 0 pSat m1 h rfl rfl⟩

/-! ### The clauses of the emitters when every submission succeeds -/

/-- Submissions that stop at the first failure leave a prefix of the clauses in the
solver, and all of them when every submission succeeded. -/
theorem sat_solver_addclauses_store (cs : List (List Nat)) :
    ∀ pSat : sat_solver,
      ∃ k, k ≤ cs.length ∧
        (sat_solver_addclauses cs pSat).2.store = pSat.store ++ cs.take k ∧
        ((sat_solver_addclauses cs pSat).1 = true → k = cs.length) := by
  induction cs with
  | nil => intro pSat; exact ⟨0, le_refl _, by simp [sat_solver_addclauses], fun _ => rfl⟩
  | cons c cs ih =>
    intro pSat
    simp only [sat_solver_addclauses]
    by_cases hacc : (sat_solver_addclause pSat c).1 = true
    · obtain ⟨k, hk, hst, hall⟩ := ih (sat_solver_addclause pSat c).2
      simp only [hacc, Bool.not_true, Bool.false_eq_true, if_false]
      refine ⟨k + 1, by simpa using hk, ?_, fun h => by simp [hall h]⟩
      rw [hst]
      simp [sat_solver_addclause]
    · simp only [hacc, Bool.not_eq_true, Bool.not_false, if_true]
      refine ⟨1, by simp, by simp [sat_solver_addclause], fun h => absurd h (by simp)⟩

theorem sat_solver_addclauses_all (cs : List (List Nat)) (pSat : sat_solver)
    (h : (sat_solver_addclauses cs pSat).1 = true) :
    newClauses pSat (sat_solver_addclauses cs pSat).2 = cs := by
  obtain ⟨k, _, hst, hall⟩ := sat_solver_addclauses_store cs pSat
  apply newClauses_of_store
  rw [hst, hall h, List.take_length]

/-- C14: when every submission succeeds, `Abc_NtkClauseAnd` submits exactly n+1 clauses
for a supergate of n leaves: for every leaf, in leaf order, the two-literal clause of the
leaf literal and the negated root, and then one clause of n+1 literals, the negation of
every leaf literal in leaf order followed by the positive root literal. -/
theorem C14_clauseAnd_shape (pSat : sat_solver) (pCopy : Nat → Nat) (pNode : Nat)
    (vSuper : List Abc_Ref)
    (h : (Abc_NtkClauseAnd pSat pCopy pNode vSuper).1 = true) :
    (newClauses pSat (Abc_NtkClauseAnd pSat pCopy pNode vSuper).2).length
      = vSuper.length + 1 ∧
    (∀ i (hi : i < vSuper.length),
      (newClauses pSat (Abc_NtkClauseAnd pSat pCopy pNode vSuper).2)[i]? =
        some [toLitCond (pCopy (Abc_ObjRegular vSuper[i])) (Abc_ObjIsComplement vSuper[i]),
              toLitCond (pCopy pNode) true]) ∧
    (newClauses pSat (Abc_NtkClauseAnd pSat pCopy pNode vSuper).2)[vSuper.length]? =
      some ((vSuper.map fun p =>
          toLitCond (pCopy (Abc_ObjRegular p)) (!Abc_ObjIsComplement p))
        ++ [toLitCond (pCopy pNode) false]) := by
  rw [Abc_NtkClauseAnd_eq_addclauses] at h ⊢
  rw [sat_solver_addclauses_all _ _ h]
  refine ⟨by simp, ?_, ?_⟩
  · intro i hi
    rw [List.getElem?_append_left (by simpa using hi)]
    simp [hi, refLit]
  · rw [List.getElem?_append_right (by simp)]
    simp

/-- Witness of C14: a supergate of two leaves, the second one complemented, on a solver
that accepts every clause. -/
theorem C14_clauseAnd_shape_witness :
    (newClauses satAccept
        (Abc_NtkClauseAnd satAccept copyId 4 [⟨3, false⟩, ⟨1, true⟩]).2).length = 2 + 1 ∧
    (∀ i (hi : i < ([⟨3, false⟩, ⟨1, true⟩] : List Abc_Ref).length),
      (newClauses satAccept
          (Abc_NtkClauseAnd satAccept copyId 4 [⟨3, false⟩, ⟨1, true⟩]).2)[i]? =
        some [toLitCond (copyId (Abc_ObjRegular ([⟨3, false⟩, ⟨1, true⟩] : List Abc_Ref)[i]))
                (Abc_ObjIsComplement ([⟨3, false⟩, ⟨1, true⟩] : List Abc_Ref)[i]),
              toLitCond (copyId 4) true]) ∧
    (newClauses satAccept
        (Abc_NtkClauseAnd satAccept copyId 4 [⟨3, false⟩, ⟨1, true⟩]).2)[2]? =
      some ((([⟨3, false⟩, ⟨1, true⟩] : List Abc_Ref).map fun p =>
          toLitCond (copyId (Abc_ObjRegular p)) (!Abc_ObjIsComplement p))
        ++ [toLitCond (copyId 4) false]) :=
  C14_clauseAnd_shape satAccept copyId 4 [⟨3, false⟩, ⟨1, true⟩] (by decide)

/-- C15: when every submission succeeds, `Abc_NtkClauseMux` submits exactly the four
base clauses if the then- and else-operands have the same variable, whatever their
polarities, and exactly six clauses otherwise, the fifth being `(T' or E' or not F)` and
the sixth `(not T' or not E' or F)`, where `T'` and `E'` are the then/else variables
negated when their reference is complemented. -/
theorem C15_clauseMux_count (pSat : sat_solver) (pCopy : Nat → Nat) (pNode pNodeC : Nat)
    (pNodeT pNodeE : Abc_Ref)
    (h : (Abc_NtkClauseMux pSat pCopy pNode pNodeC pNodeT pNodeE).1 = true) :
    (pCopy (Abc_ObjRegular pNodeT) = pCopy (Abc_ObjRegular pNodeE) →
      newClauses pSat (Abc_NtkClauseMux pSat pCopy pNode pNodeC pNodeT pNodeE).2 =
        [[toLitCond (pCopy pNodeC) true,
            toLitCond (pCopy (Abc_ObjRegular pNodeT)) (!Abc_ObjIsComplement pNodeT),
            toLitCond (pCopy pNode) false],
         [toLitCond (pCopy pNodeC) true,
            toLitCond (pCopy (Abc_ObjRegular pNodeT)) (Abc_ObjIsComplement pNodeT),
            toLitCond (pCopy pNode) true],
         [toLitCond (pCopy pNodeC) false,
            toLitCond (pCopy (Abc_ObjRegular pNodeE)) (!Abc_ObjIsComplement pNodeE),
            toLitCond (pCopy pNode) false],
         [toLitCond (pCopy pNodeC) false,
            toLitCond (pCopy (Abc_ObjRegular pNodeE)) (Abc_ObjIsComplement pNodeE),
            toLitCond (pCopy pNode) true]]) ∧
    (pCopy (Abc_ObjRegular pNodeT) ≠ pCopy (Abc_ObjRegular pNodeE) →
      newClauses pSat (Abc_NtkClauseMux pSat pCopy pNode pNodeC pNodeT pNodeE).2 =
        [[toLitCond (pCopy pNodeC) true,
            toLitCond (pCopy (Abc_ObjRegular pNodeT)) (!Abc_ObjIsComplement pNodeT),
            toLitCond (pCopy pNode) false],
         [toLitCond (pCopy pNodeC) true,
            toLitCond (pCopy (Abc_ObjRegular pNodeT)) (Abc_ObjIsComplement pNodeT),
            toLitCond (pCopy pNode) true],
         [toLitCond (pCopy pNodeC) false,
            toLitCond (pCopy (Abc_ObjRegular pNodeE)) (!Abc_ObjIsComplement pNodeE),
            toLitCond (pCopy pNode) false],
         [toLitCond (pCopy pNodeC) false,
            toLitCond (pCopy (Abc_ObjRegular pNodeE)) (Abc_ObjIsComplement pNodeE),
            toLitCond (pCopy pNode) true],
         [toLitCond (pCopy (Abc_ObjRegular pNodeT)) (Abc_ObjIsComplement pNodeT),
            toLitCond (pCopy (Abc_ObjRegular pNodeE)) (Abc_ObjIsComplement pNodeE),
            toLitCond (pCopy pNode) true],
         [toLitCond (pCopy (Abc_ObjRegular pNodeT)) (!Abc_ObjIsComplement pNodeT),
            toLitCond (pCopy (Abc_ObjRegular pNodeE)) (!Abc_ObjIsComplement pNodeE),
            toLitCond (pCopy pNode) false]]) := by
  rw [Abc_NtkClauseMux_eq_addclauses] at h ⊢
  rw [sat_solver_addclauses_all _ _ h]
  constructor
  · intro hTE
    simp [hTE, muxClauses]
  · intro hTE
    simp [hTE, muxClauses]

/-- Witness of C15: the then- and else-operands are the two polarities of node 2, so
they have the same variable and four clauses are submitted. -/
theorem C15_clauseMux_count_witness :
    (newClauses satAccept (Abc_NtkClauseMux satAccept copyId 6 1 ⟨2, false⟩ ⟨2, true⟩).2).length
        = 4 ∧
    (newClauses satAccept (Abc_NtkClauseMux satAccept copyId 6 1 ⟨2, false⟩ ⟨3, true⟩).2).length
        = 6 := by
  have h1 := (C15_clauseMux_count satAccept copyId 6 1 ⟨2, false⟩ ⟨2, true⟩ (by decide)).1 rfl
  have h2 := (C15_clauseMux_count satAccept copyId 6 1 ⟨2, false⟩ ⟨3, true⟩ (by decide)).2
    (by decide)
  rw [h1, h2]
  exact ⟨rfl, rfl⟩

/-- C20: for every choice of the variables and polarities, including then- and
else-operands with the same variable, and for every assignment, the six clauses of the
multiplexer template are satisfied if and only if the four base clauses are; each of the
two confirmatory clauses `(T' or E' or not F)` and `(not T' or not E' or F)` follows from
the base clauses. So whether `Abc_NtkClauseMux` submits four or six clauses, when every
submission succeeds the submitted clauses have the solutions of the six-clause set. -/
theorem C20_mux_confirmatory_redundant (pSat : sat_solver) (pCopy : Nat → Nat)
    (pNode pNodeC : Nat) (pNodeT pNodeE : Abc_Ref) (a : Nat → Bool) :
    (cnfSat a (muxClauses pCopy pNode pNodeC pNodeT pNodeE) =
      cnfSat a ((muxClauses pCopy pNode pNodeC pNodeT pNodeE).take 4)) ∧
    (muxClauses pCopy pNode pNodeC pNodeT pNodeE).drop 4 =
      [[toLitCond (pCopy (Abc_ObjRegular pNodeT)) (Abc_ObjIsComplement pNodeT),
          toLitCond (pCopy (Abc_ObjRegular pNodeE)) (Abc_ObjIsComplement pNodeE),
          toLitCond (pCopy pNode) true],
       [toLitCond (pCopy (Abc_ObjRegular pNodeT)) (!Abc_ObjIsComplement pNodeT),
          toLitCond (pCopy (Abc_ObjRegular pNodeE)) (!Abc_ObjIsComplement pNodeE),
          toLitCond (pCopy pNode) false]] ∧
    (cnfSat a ((muxClauses pCopy pNode pNodeC pNodeT pNodeE).take 4) = true →
      ∀ c ∈ (muxClauses pCopy pNode pNodeC pNodeT pNodeE).drop 4, clauseSat a c = true) ∧
    ((Abc_NtkClauseMux pSat pCopy pNode pNodeC pNodeT pNodeE).1 = true →
      cnfSat a (newClauses pSat (Abc_NtkClauseMux pSat pCopy pNode pNodeC pNodeT pNodeE).2) =
        cnfSat a (muxClauses pCopy pNode pNodeC pNodeT pNodeE)) := by
  have h6 := muxClauses_sat_iff a pCopy pNode pNodeC pNodeT pNodeE 6 (Or.inr rfl)
  have h4 := muxClauses_sat_iff a pCopy pNode pNodeC pNodeT pNodeE 4 (Or.inl rfl)
  have hlen : (muxClauses pCopy pNode pNodeC pNodeT pNodeE).length = 6 := by
    simp [muxClauses]
  have htake : (muxClauses pCopy pNode pNodeC pNodeT pNodeE).take 6 =
      muxClauses pCopy pNode pNodeC pNodeT pNodeE := by
    rw [← hlen, List.take_length]
  rw [htake] at h6
  have heq : cnfSat a (muxClauses pCopy pNode pNodeC pNodeT pNodeE) =
      cnfSat a ((muxClauses pCopy pNode pNodeC pNodeT pNodeE).take 4) := by
    rw [Bool.eq_iff_iff, h6, h4]
  refine ⟨heq, by simp [muxClauses], ?_, ?_⟩
  · intro hbase c hc
    rw [← heq] at hbase
    have hall : ∀ c ∈ muxClauses pCopy pNode pNodeC pNodeT pNodeE, clauseSat a c = true := by
      simpa [cnfSat, List.all_eq_true] using hbase
    exact hall c (List.mem_of_mem_drop hc)
  · intro h
    rw [Abc_NtkClauseMux_eq_addclauses] at h ⊢
    rw [sat_solver_addclauses_all _ _ h]
    split_ifs
    · exact heq.symm
    · rw [htake]

/-! ### The cover-based encoding -/

theorem toLit_eq (v : Nat) : toLit v = toLitCond v false := by
  simp [toLit, toLitCond]

theorem lit_neg_toLit (v : Nat) : lit_neg (toLit v) = toLitCond v true := by
  unfold lit_neg toLit toLitCond
  have h1 : ((v + v) ^^^ 1) / 2 = v := by
    rw [Nat.xor_div_two]
    have : (v + v) / 2 = v := by omega
    simp [this]
  have h2 : ((v + v) ^^^ 1) % 2 = 1 := by
    rw [Nat.xor_mod_two_eq]
    omega
  simp only [if_true]
  omega

theorem litVal_toLit (a : Nat → Bool) (v : Nat) : litVal a (toLit v) = a v := by
  rw [toLit_eq, litVal_toLitCond]; simp

theorem litVal_lit_neg (a : Nat → Bool) (v : Nat) : litVal a (lit_neg (toLit v)) = !a v := by
  rw [lit_neg_toLit, litVal_toLitCond]; simp

/-- `Abc_NodeAddClausesTop` submits its three clauses in order and stops at the first
failure. -/
theorem Abc_NodeAddClausesTop_eq_addclauses (ntk : Abc_Ntk) (pSat : sat_solver)
    (pNode : Nat) :
    Abc_NodeAddClausesTop ntk pSat pNode =
      sat_solver_addclauses
        [if Abc_ObjFaninC0 ntk pNode then [toLit (Abc_ObjFanin0 ntk pNode), toLit pNode]
          else [lit_neg (toLit (Abc_ObjFanin0 ntk pNode)), toLit pNode],
         if Abc_ObjFaninC0 ntk pNode then
            [lit_neg (toLit (Abc_ObjFanin0 ntk pNode)), lit_neg (toLit pNode)]
          else [toLit (Abc_ObjFanin0 ntk pNode), lit_neg (toLit pNode)],
         [toLit pNode]] pSat := by
  simp only [Abc_NodeAddClausesTop, sat_solver_addclauses]

/-- C12: when all submissions succeed, `Abc_NodeAddClausesTop` submits exactly three
clauses for the output `p` with the driver `x`: the two binary clauses of the
equivalence of `p` with `x`, or with `not x` when the fanin edge of the output is
complemented, and the unit clause `p`. An assignment satisfies the three clauses if and
only if `p` is true and `p` equals `x`, respectively `not x`. -/
theorem C12_addClausesTop (ntk : Abc_Ntk) (pSat : sat_solver) (pNode : Nat)
    (h : (Abc_NodeAddClausesTop ntk pSat pNode).1 = true) :
    newClauses pSat (Abc_NodeAddClausesTop ntk pSat pNode).2 =
      [if Abc_ObjFaninC0 ntk pNode then [toLit (Abc_ObjFanin0 ntk pNode), toLit pNode]
        else [lit_neg (toLit (Abc_ObjFanin0 ntk pNode)), toLit pNode],
       if Abc_ObjFaninC0 ntk pNode then
          [lit_neg (toLit (Abc_ObjFanin0 ntk pNode)), lit_neg (toLit pNode)]
        else [toLit (Abc_ObjFanin0 ntk pNode), lit_neg (toLit pNode)],
       [toLit pNode]] ∧
    ∀ a : Nat → Bool,
      cnfSat a (newClauses pSat (Abc_NodeAddClausesTop ntk pSat pNode).2) = true ↔
        (a pNode = true ∧
          (Abc_ObjFaninC0 ntk pNode = false → a pNode = a (Abc_ObjFanin0 ntk pNode)) ∧
          (Abc_ObjFaninC0 ntk pNode = true → a pNode = !a (Abc_ObjFanin0 ntk pNode))) := by
  rw [Abc_NodeAddClausesTop_eq_addclauses] at h ⊢
  rw [sat_solver_addclauses_all _ _ h]
  refine ⟨rfl, ?_⟩
  intro a
  cases hc : Abc_ObjFaninC0 ntk pNode <;>
    simp only [cnfSat, clauseSat, List.all_cons, List.any_cons, List.all_nil, List.any_nil,
      litVal_toLit, litVal_lit_neg, if_true, if_false, Bool.false_eq_true] <;>
    cases a pNode <;> cases a (Abc_ObjFanin0 ntk pNode) <;> simp

/-- Witness of C12: the output 7 of `netMux`, whose fanin edge is complemented, on a
solver that accepts every clause. -/
theorem C12_addClausesTop_witness :
    newClauses satAccept (Abc_NodeAddClausesTop netMux satAccept 7).2 =
      [if Abc_ObjFaninC0 netMux 7 then [toLit (Abc_ObjFanin0 netMux 7), toLit 7]
        else [lit_neg (toLit (Abc_ObjFanin0 netMux 7)), toLit 7],
       if Abc_ObjFaninC0 netMux 7 then
          [lit_neg (toLit (Abc_ObjFanin0 netMux 7)), lit_neg (toLit 7)]
        else [toLit (Abc_ObjFanin0 netMux 7), lit_neg (toLit 7)],
       [toLit 7]] ∧
    ∀ a : Nat → Bool,
      cnfSat a (newClauses satAccept (Abc_NodeAddClausesTop netMux satAccept 7).2) = true ↔
        (a 7 = true ∧
          (Abc_ObjFaninC0 netMux 7 = false → a 7 = a (Abc_ObjFanin0 netMux 7)) ∧
          (Abc_ObjFaninC0 netMux 7 = true → a 7 = !a (Abc_ObjFanin0 netMux 7))) :=
  C12_addClausesTop netMux satAccept 7 (by decide)

theorem Abc_NodeAddClauses_lits_eq_cubeLits (f : Nat → Char) :
    ∀ (cube : List Char) (vFanins : List Nat) (k : Nat),
      cube.length = vFanins.length →
      (∀ i (h : i < cube.length), f (k + i) = cube[i]) →
      Abc_NodeAddClauses_lits f k vFanins = cubeLits cube vFanins := by
  intro cube
  induction cube with
  | nil =>
    intro vFanins k hlen _
    cases vFanins with
    | nil => rfl
    | cons v vs => simp at hlen
  | cons ch cube ih =>
    intro vFanins k hlen hf
    cases vFanins with
    | nil => simp at hlen
    | cons v vs =>
      have h0 : f k = ch := by simpa using hf 0 (by simp)
      have hrest : Abc_NodeAddClauses_lits f (k + 1) vs = cubeLits cube vs := by
        apply ih vs (k + 1) (by simpa using hlen)
        intro i hi
        have := hf (i + 1) (by simpa using hi)
        simpa [Nat.add_assoc, Nat.add_comm 1 i] using this
      simp only [Abc_NodeAddClauses_lits, cubeLits, h0, hrest]

theorem Abc_SopString_length_ge (cubes : List (List Char)) (out : Char) :
    cubes.length ≤ (Abc_SopString cubes out).length := by
  induction cubes with
  | nil => simp
  | cons cube rest ih =>
    simp only [Abc_SopString, List.length_append, List.length_cons, List.length_nil]
    omega

/-- On the string of a cover, a loop over the cubes of `Abc_NodeAddClauses` submits the
clause of every cube, in order, and stops at the first failure. -/
theorem Abc_NodeAddClauses_phase_eq (vFanins : List Nat) (nodeLit : Nat) (out : Char) :
    ∀ (cubes : List (List Char)) (pre : List Char) (fuel c : Nat) (pSat : sat_solver),
      IsCover vFanins.length cubes →
      pre.length = c * (vFanins.length + 3) →
      cubes.length < fuel →
      Abc_NodeAddClauses_phase (pre ++ Abc_SopString cubes out) vFanins nodeLit fuel c pSat =
        some (sat_solver_addclauses
          (cubes.map fun cube => cubeLits cube vFanins ++ [nodeLit]) pSat) := by
  intro cubes
  induction cubes with
  | nil =>
    intro pre fuel c pSat _ hpre hfuel
    cases fuel with
    | zero => simp at hfuel
    | succ fuel =>
      have hch : Abc_SopChar (pre ++ Abc_SopString [] out) (c * (vFanins.length + 3)) =
          Char.ofNat 0 := by
        simp [Abc_SopChar, Abc_SopString, ← hpre]
      simp only [Abc_NodeAddClauses_phase, hch, if_true, List.map_nil, sat_solver_addclauses]
  | cons cube cubes ih =>
    intro pre fuel c pSat hcov hpre hfuel
    cases fuel with
    | zero => simp at hfuel
    | succ fuel =>
      obtain ⟨hlen, hchars⟩ := hcov cube (List.mem_cons_self _ _)
      have hcov2 : IsCover vFanins.length cubes :=
        fun q hq => hcov q (List.mem_cons_of_mem _ hq)
      have hstr : pre ++ Abc_SopString (cube :: cubes) out =
          (pre ++ (cube ++ [' ', out, '\n'])) ++ Abc_SopString cubes out := by
        simp [Abc_SopString]
      have hget : ∀ i, i < cube.length + 3 →
          Abc_SopChar (pre ++ Abc_SopString (cube :: cubes) out)
              (c * (vFanins.length + 3) + i) =
            (cube ++ [' ', out, '\n']).getD i (Char.ofNat 0) := by
        intro i hi
        rw [hstr, Abc_SopChar, ← hpre, List.getD_eq_getElem?_getD, List.getD_eq_getElem?_getD,
          List.getElem?_append_left (by simp; omega),
          List.getElem?_append_right (by omega)]
        simp
      have hne : Abc_SopChar (pre ++ Abc_SopString (cube :: cubes) out)
          (c * (vFanins.length + 3)) ≠ Char.ofNat 0 := by
        have := hget 0 (by omega)
        rw [Nat.add_zero] at this
        rw [this]
        cases cube with
        | nil =>
          simp only [List.nil_append, List.getD_cons_zero]
          decide
        | cons ch rest =>
          simp only [List.cons_append, List.getD_cons_zero]
          rcases hchars ch (List.mem_cons_self _ _) with h | h | h <;> rw [h] <;> decide
      have hlits : Abc_NodeAddClauses_lits
          (fun i => Abc_SopChar (pre ++ Abc_SopString (cube :: cubes) out)
            (c * (vFanins.length + 3) + i)) 0 vFanins = cubeLits cube vFanins := by
        apply Abc_NodeAddClauses_lits_eq_cubeLits _ cube vFanins 0 hlen
        intro i hi
        rw [Nat.zero_add, hget i (by omega), List.getD_eq_getElem?_getD,
          List.getElem?_append_left hi, List.getElem?_eq_getElem hi]
        rfl
      have hrec := ih (pre ++ (cube ++ [' ', out, '\n'])) fuel (c + 1)
        (sat_solver_addclause pSat (cubeLits cube vFanins ++ [nodeLit])).2 hcov2
        (by simp [hpre, hlen]; ring) (by simpa using hfuel)
      rw [← hstr] at hrec
      simp only [Abc_NodeAddClauses_phase, hne, if_false, hlits, List.map_cons,
        sat_solver_addclauses, hrec]
      split_ifs <;> rfl

theorem clauseSat_cubeLits (a : Nat → Bool) (l : Nat) :
    ∀ (cube : List Char) (vs : List Nat),
      clauseSat a (cubeLits cube vs ++ [l]) =
        (!cubeContains cube (vs.map a) || litVal a l) := by
  intro cube
  induction cube with
  | nil => intro vs; simp [cubeLits, cubeContains, clauseSat]
  | cons ch cube ih =>
    intro vs
    cases vs with
    | nil => simp [cubeLits, cubeContains, clauseSat]
    | cons v vs =>
      have := ih vs
      simp only [clauseSat] at this
      simp only [cubeLits, cubeContains, clauseSat, List.map_cons, List.append_assoc,
        List.any_append, this]
      split_ifs <;>
        simp [litVal_toLit, litVal_lit_neg] <;>
        cases a v <;> simp

theorem cnfSat_cubeClauses (a : Nat → Bool) (l : Nat) (vs : List Nat)
    (cubes : List (List Char)) :
    cnfSat a (cubes.map fun cube => cubeLits cube vs ++ [l]) =
      (!coverContains cubes (vs.map a) || litVal a l) := by
  induction cubes with
  | nil => simp [cnfSat, coverContains]
  | cons cube rest ih =>
    simp only [cnfSat] at ih
    simp only [cnfSat, List.map_cons, List.all_cons, ih, clauseSat_cubeLits, coverContains,
      List.any_cons]
    cases cubeContains cube (vs.map a) <;> cases litVal a l <;> simp

/-- In the non-constant case, on the strings of two covers, `Abc_NodeAddClauses` submits
the clauses of the false-cover and then the clauses of the true-cover, in order, and
stops at the first failure. -/
theorem Abc_NodeAddClauses_eq_addclauses (pSat : sat_solver) (pNode : Nat)
    (vFanins : List Nat) (pData : DdNode) (cubes0 cubes1 : List (List Char))
    (out0 out1 : Char) (hconst : pData.regularIsOne = false)
    (h0 : IsCover vFanins.length cubes0) (h1 : IsCover vFanins.length cubes1) :
    Abc_NodeAddClauses pSat (Abc_SopString cubes0 out0) (Abc_SopString cubes1 out1) pNode
        vFanins pData =
      some (sat_solver_addclauses
        ((cubes0.map fun cube => cubeLits cube vFanins ++ [lit_neg (toLit pNode)]) ++
          (cubes1.map fun cube => cubeLits cube vFanins ++ [toLit pNode])) pSat) := by
  have e0 := Abc_NodeAddClauses_phase_eq vFanins (lit_neg (toLit pNode)) out0 cubes0 []
    ((Abc_SopString cubes0 out0).length + 1) 0 pSat h0 (by simp)
    (Nat.lt_succ_of_le (Abc_SopString_length_ge cubes0 out0))
  have e1 := fun s => Abc_NodeAddClauses_phase_eq vFanins (toLit pNode) out1 cubes1 []
    ((Abc_SopString cubes1 out1).length + 1) 0 s h1 (by simp)
    (Nat.lt_succ_of_le (Abc_SopString_length_ge cubes1 out1))
  simp only [List.nil_append] at e0 e1
  simp only [Abc_NodeAddClauses, hconst, Bool.false_eq_true, if_false, e0,
    sat_solver_addclauses_append]
  cases hr : sat_solver_addclauses
      (cubes0.map fun cube => cubeLits cube vFanins ++ [lit_neg (toLit pNode)]) pSat with
  | mk ok s =>
    cases ok with
    | false => simp
    | true => simp [e1]

/-- A loop over the cubes returns on every string: the fuel of `Abc_NodeAddClauses` is
enough. -/
theorem Abc_NodeAddClauses_phase_total (pSop : List Char) (vFanins : List Nat)
    (nodeLit : Nat) :
    ∀ (fuel c : Nat) (pSat : sat_solver), pSop.length + 1 ≤ fuel + c → c ≤ pSop.length →
      ∃ r, Abc_NodeAddClauses_phase pSop vFanins nodeLit fuel c pSat = some r := by
  intro fuel
  induction fuel with
  | zero => intro c pSat h1 h2; omega
  | succ fuel ih =>
    intro c pSat h1 h2
    simp only [Abc_NodeAddClauses_phase]
    split_ifs with hz hfail
    · exact ⟨_, rfl⟩
    · exact ⟨_, rfl⟩
    · have hlt : c * (vFanins.length + 3) < pSop.length := by
        by_contra hge
        apply hz
        rw [Abc_SopChar, List.getD_eq_default _ _ (by omega)]
      have hc : c < pSop.length := by
        have : c ≤ c * (vFanins.length + 3) := Nat.le_mul_of_pos_right c (by omega)
        omega
      exact ih (c + 1) _ (by omega) (by omega)

/-- `Abc_NodeAddClauses` returns on all strings. -/
theorem Abc_NodeAddClauses_total (pSat : sat_solver) (pSop0 pSop1 : List Char) (pNode : Nat)
    (vFanins : List Nat) (pData : DdNode) :
    ∃ r, Abc_NodeAddClauses pSat pSop0 pSop1 pNode vFanins pData = some r := by
  unfold Abc_NodeAddClauses
  by_cases hc : pData.regularIsOne = true
  · simp only [hc, if_true]
    split_ifs <;> exact ⟨_, rfl⟩
  · simp only [hc, Bool.false_eq_true, if_false]
    obtain ⟨r0, h0⟩ := Abc_NodeAddClauses_phase_total pSop0 vFanins (lit_neg (toLit pNode))
      (pSop0.length + 1) 0 pSat (by omega) (by omega)
    rw [h0]
    obtain ⟨ok, s⟩ := r0
    cases ok with
    | false => exact ⟨_, rfl⟩
    | true =>
      exact Abc_NodeAddClauses_phase_total pSop1 vFanins (toLit pNode) (pSop1.length + 1) 0 s
        (by omega) (by omega)

/-- When every clause of the list is accepted, the submission of the list succeeds and
puts all the clauses into the solver. -/
theorem sat_solver_addclauses_accept (cs : List (List Nat)) :
    ∀ pSat : sat_solver, allAccepted pSat.answer pSat.store cs = true →
      (sat_solver_addclauses cs pSat).1 = true := by
  induction cs with
  | nil => intro pSat _; rfl
  | cons c rest ih =>
    intro pSat h
    simp only [allAccepted, Bool.and_eq_true] at h
    simp only [sat_solver_addclauses, sat_solver_addclause, h.1, Bool.not_true,
      Bool.false_eq_true, if_false]
    exact ih { pSat with store := pSat.store ++ [c] } h.2

/-- C11: in the non-constant case, for a node with the fanins `vFanins` and two covers
of the width of the fanin list that partition the fanin space (every input vector lies
in exactly one of them), `Abc_NodeAddClauses` returns, and what it submits is an initial
part of the list that has one clause for every cube of the false-cover (the literals of
the cube negated, and the negative literal of the node) followed by one clause for every
cube of the true-cover (with the positive literal of the node): the submissions stop
only right after a rejected clause, with result 0; when the solver accepts every clause
of the list the result is 1; and when the result is 1 the submitted clauses are the whole
list, one clause per cube. An assignment satisfies the clauses of the list if and only if
the node is true exactly when the fanin values lie in the true-cover, equivalently false
exactly when they lie in the false-cover; so this holds of the submitted clauses whenever
the result is 1. -/
theorem C11_cover_encoding (pSat : sat_solver) (pNode : Nat) (vFanins : List Nat)
    (pData : DdNode) (cubes0 cubes1 : List (List Char)) (out0 out1 : Char)
    (hconst : pData.regularIsOne = false)
    (h0 : IsCover vFanins.length cubes0) (h1 : IsCover vFanins.length cubes1)
    (hpart : ∀ x : List Bool, x.length = vFanins.length →
      coverContains cubes1 x = !coverContains cubes0 x) :
    ∃ r, Abc_NodeAddClauses pSat (Abc_SopString cubes0 out0) (Abc_SopString cubes1 out1)
        pNode vFanins pData = some r ∧
      (∃ k, k ≤ cubes0.length + cubes1.length ∧
        newClauses pSat r.2 =
          ((cubes0.map fun cube => cubeLits cube vFanins ++ [lit_neg (toLit pNode)]) ++
            (cubes1.map fun cube => cubeLits cube vFanins ++ [toLit pNode])).take k) ∧
      SubmitRun pSat.answer pSat.store (newClauses pSat r.2) r.1 ∧
      (allAccepted pSat.answer pSat.store
          ((cubes0.map fun cube => cubeLits cube vFanins ++ [lit_neg (toLit pNode)]) ++
            (cubes1.map fun cube => cubeLits cube vFanins ++ [toLit pNode])) = true →
        r.1 = true) ∧
      (r.1 = true →
        newClauses pSat r.2 =
          (cubes0.map fun cube => cubeLits cube vFanins ++ [lit_neg (toLit pNode)]) ++
            (cubes1.map fun cube => cubeLits cube vFanins ++ [toLit pNode]) ∧
        (newClauses pSat r.2).length = cubes0.length + cubes1.length ∧
        ∀ a : Nat → Bool,
          cnfSat a (newClauses pSat r.2) = true ↔
            ((a pNode = true ↔ coverContains cubes1 (vFanins.map a) = true) ∧
             (a pNode = false ↔ coverContains cubes0 (vFanins.map a) = true))) ∧
      (∀ a : Nat → Bool,
        cnfSat a
          ((cubes0.map fun cube => cubeLits cube vFanins ++ [lit_neg (toLit pNode)]) ++
            (cubes1.map fun cube => cubeLits cube vFanins ++ [toLit pNode])) = true ↔
          ((a pNode = true ↔ coverContains cubes1 (vFanins.map a) = true) ∧
           (a pNode = false ↔ coverContains cubes0 (vFanins.map a) = true))) := by
  have hiff : ∀ a : Nat → Bool,
      cnfSat a
        ((cubes0.map fun cube => cubeLits cube vFanins ++ [lit_neg (toLit pNode)]) ++
          (cubes1.map fun cube => cubeLits cube vFanins ++ [toLit pNode])) = true ↔
        ((a pNode = true ↔ coverContains cubes1 (vFanins.map a) = true) ∧
         (a pNode = false ↔ coverContains cubes0 (vFanins.map a) = true)) := by
    intro a
    rw [cnfSat_append, cnfSat_cubeClauses, cnfSat_cubeClauses, litVal_toLit, litVal_lit_neg,
      hpart (vFanins.map a) (by simp)]
    cases a pNode <;> cases coverContains cubes0 (vFanins.map a) <;> simp
  obtain ⟨k, hk, hst, _⟩ := sat_solver_addclauses_store
    ((cubes0.map fun cube => cubeLits cube vFanins ++ [lit_neg (toLit pNode)]) ++
      (cubes1.map fun cube => cubeLits cube vFanins ++ [toLit pNode])) pSat
  obtain ⟨_, new, hnew, hrun⟩ := sat_solver_addclauses_run
    ((cubes0.map fun cube => cubeLits cube vFanins ++ [lit_neg (toLit pNode)]) ++
      (cubes1.map fun cube => cubeLits cube vFanins ++ [toLit pNode])) pSat
  refine ⟨_, Abc_NodeAddClauses_eq_addclauses pSat pNode vFanins pData cubes0 cubes1 out0 out1
    hconst h0 h1, ⟨k, by simpa using hk, newClauses_of_store _ _ _ hst⟩, ?_,
    sat_solver_addclauses_accept _ pSat, ?_, hiff⟩
  · rw [newClauses_of_store _ _ _ hnew]
    exact hrun
  · intro h
    have hall := sat_solver_addclauses_all _ _ h
    refine ⟨hall, by rw [hall]; simp, ?_⟩
    intro a
    rw [hall]
    exact hiff a

/-- Witness of C11: a node 3 with the fanins 1 and 2 and the function `1 and 2`: the
true-cover is the cube `11`, the false-cover has the cubes `0-` and `-0`. With a solver
that accepts every clause the function returns 1 and submits the three clauses
`(1 or not 3)`, `(2 or not 3)` and `(not 1 or not 2 or 3)`, which hold exactly when
variable 3 is the conjunction of the variables 1 and 2. -/
theorem C11_cover_encoding_witness :
    ∃ r, Abc_NodeAddClauses satAccept
        (Abc_SopString [['0', '-'], ['-', '0']] '0') (Abc_SopString [['1', '1']] '1')
        3 [1, 2] ⟨false, false⟩ = some r ∧
      r.1 = true ∧
      newClauses satAccept r.2 = [[2, 7], [4, 7], [3, 5, 6]] ∧
      (newClauses satAccept r.2).length = 3 ∧
      ∀ a : Nat → Bool,
        cnfSat a (newClauses satAccept r.2) = true ↔
          ((a 3 = true ↔ coverContains [['1', '1']] (([1, 2] : List Nat).map a) = true) ∧
           (a 3 = false ↔
              coverContains [['0', '-'], ['-', '0']] (([1, 2] : List Nat).map a) = true)) := by
  obtain ⟨r, hr, _, _, hacc, hall, _⟩ :=
    C11_cover_encoding satAccept 3 [1, 2] ⟨false, false⟩ [['0', '-'], ['-', '0']] [['1', '1']]
      '0' '1' rfl (by unfold IsCover; decide) (by unfold IsCover; decide)
      (by
        intro x hx
        rcases x with _ | ⟨b1, _ | ⟨b2, _ | ⟨b3, rest⟩⟩⟩
        · simp at hx
        · simp at hx
        · cases b1 <;> cases b2 <;> decide
        · simp at hx)
  have h1 : r.1 = true := hacc (by decide)
  obtain ⟨hnew, hlen, hiff⟩ := hall h1
  exact ⟨r, hr, h1, by rw [hnew]; decide, hlen, hiff⟩

/-- The clauses that `Abc_NodeAddClauses` submits for the node of the witness of C11:
`(1 or not 3)`, `(2 or not 3)` and `(not 1 or not 2 or 3)`. -/
theorem Abc_NodeAddClauses_and2 :
    (Abc_NodeAddClauses satAccept
        (Abc_SopString [['0', '-'], ['-', '0']] '0') (Abc_SopString [['1', '1']] '1')
        3 [1, 2] ⟨false, false⟩).map (fun r => (r.1, r.2.store)) =
      some (true, [[2, 7], [4, 7], [3, 5, 6]]) := by
  decide

/-! ### Frame and shape of the supergate collection -/

/-- The marks are as on entry after `Abc_NtkCollectSupergate`, on the nodes that are not
in the collected list, and clear on the nodes of the list. -/
theorem Abc_NtkCollectSupergate_marks (ntk : Abc_Ntk) (fStopAtMux : Bool)
    (fMarkB : Nat → Bool) (pNode : Abc_Ref) (sup : SuperState)
    (h : Abc_NtkCollectSupergate ntk pNode fStopAtMux fMarkB = some sup) :
    ∀ id, sup.fMarkB id = true → fMarkB id = true := by
  unfold Abc_NtkCollectSupergate at h
  cases hrec : Abc_NtkCollectSupergate_rec ntk fStopAtMux ((Abc_NtkObj ntk pNode.Id).Level + 1)
      pNode true { vSuper := [], fMarkB := fMarkB } with
  | none => rw [hrec] at h; exact absurd h (by simp)
  | some p =>
    obtain ⟨r, st⟩ := p
    rw [hrec] at h
    simp only [Option.some.injEq] at h
    obtain ⟨_, new, hnew, hmarks⟩ :=
      Abc_NtkCollectSupergate_rec_shape ntk fStopAtMux _ _ _ _ _ _ hrec
    simp only [List.nil_append] at hnew
    intro id hid
    rw [← h] at hid
    simp only [Abc_NtkCollectSupergate_unmark_eq] at hid
    split_ifs at hid with hin
    rcases (hmarks id).1 hid with h1 | h2
    · exact h1
    · rw [hnew] at hin
      exact absurd h2 hin

/-- C16: when `fMarkB` is clear on every node before a call of
`Abc_NtkCollectSupergate`, it is clear on every node after the call, on the normal and
on the contradiction path; and in an acyclic AIG the call returns on every AND root. -/
theorem C16_collect_marks_clear (ntk : Abc_Ntk) (hac : Acyclic ntk) (fStopAtMux : Bool)
    (fMarkB : Nat → Bool) (hclear : ∀ id, fMarkB id = false) (pNode : Abc_Ref) :
    (∀ sup, Abc_NtkCollectSupergate ntk pNode fStopAtMux fMarkB = some sup →
      ∀ id, sup.fMarkB id = false) ∧
    (Abc_ObjIsNode ntk pNode.Id = true →
      ∃ sup, Abc_NtkCollectSupergate ntk pNode fStopAtMux fMarkB = some sup ∧
        (∀ id, sup.fMarkB id = false) ∧
        (Abc_NtkCollectSupergate_contradiction ntk pNode fStopAtMux fMarkB = true →
          sup.vSuper = [])) := by
  have hcl : ∀ sup, Abc_NtkCollectSupergate ntk pNode fStopAtMux fMarkB = some sup →
      ∀ id, sup.fMarkB id = false := by
    intro sup h id
    by_contra hne
    have := Abc_NtkCollectSupergate_marks ntk fStopAtMux fMarkB pNode sup h id (by simpa using hne)
    rw [hclear id] at this
    exact absurd this (by simp)
  refine ⟨hcl, ?_⟩
  intro hand
  obtain ⟨sup, hsup⟩ := Abc_NtkCollectSupergate_total ntk hac fStopAtMux fMarkB pNode hand
  refine ⟨sup, hsup, hcl sup hsup, ?_⟩
  intro hcon
  unfold Abc_NtkCollectSupergate_contradiction at hcon
  unfold Abc_NtkCollectSupergate at hsup
  cases hrec : Abc_NtkCollectSupergate_rec ntk fStopAtMux ((Abc_NtkObj ntk pNode.Id).Level + 1)
      pNode true { vSuper := [], fMarkB := fMarkB } with
  | none => rw [hrec] at hsup; exact absurd hsup (by simp)
  | some p =>
    obtain ⟨r, st⟩ := p
    rw [hrec] at hsup hcon
    simp only [Option.some.injEq] at hsup
    have hr : r = -1 := by simpa using hcon
    rw [← hsup]
    simp [hr]

/-- Witness of C16: node 4 of `netChain`, whose collection takes the contradiction
path. -/
theorem C16_collect_marks_clear_witness :
    ∃ sup, Abc_NtkCollectSupergate netChain ⟨4, false⟩ true noMarks = some sup ∧
      (∀ id, sup.fMarkB id = false) ∧ sup.vSuper = [] := by
  obtain ⟨sup, h, hcl, hcon⟩ :=
    (C16_collect_marks_clear netChain (Acyclic_of_check netChain (by decide)) true noMarks
      (fun _ => rfl) ⟨4, false⟩).2 (by decide)
  exact ⟨sup, h, hcl, hcon (by decide)⟩

/-- The ghost list does not change the recursion. -/
theorem Abc_NtkCollectSupergate_rec_expanded_erase (ntk : Abc_Ntk) (fStopAtMux : Bool) :
    ∀ (fuel : Nat) (pNode : Abc_Ref) (fFirst : Bool) (st : SuperState),
      (Abc_NtkCollectSupergate_rec_expanded ntk fStopAtMux fuel pNode fFirst st).map
          (fun r => (r.1, r.2.1)) =
        Abc_NtkCollectSupergate_rec ntk fStopAtMux fuel pNode fFirst st := by
  intro fuel
  induction fuel with
  | zero => intro pNode fFirst st; rfl
  | succ fuel ih =>
    intro pNode fFirst st
    rw [Abc_NtkCollectSupergate_rec_succ, Abc_NtkCollectSupergate_rec_expanded]
    split_ifs with hm hleaf
    · rfl
    · rfl
    · rw [← ih (Abc_ObjChild0 ntk pNode.Id) false st]
      cases h1 : Abc_NtkCollectSupergate_rec_expanded ntk fStopAtMux fuel
          (Abc_ObjChild0 ntk pNode.Id) false st with
      | none => rfl
      | some p1 =>
        obtain ⟨r1, st1, ex1⟩ := p1
        simp only [Option.map_some']
        rw [← ih (Abc_ObjChild1 ntk pNode.Id) false st1]
        cases h2 : Abc_NtkCollectSupergate_rec_expanded ntk fStopAtMux fuel
            (Abc_ObjChild1 ntk pNode.Id) false st1 with
        | none => rfl
        | some p2 =>
          obtain ⟨r2, st2, ex2⟩ := p2
          simp only [Option.map_some']
          split_ifs <;> rfl

/-- What the recursion appends to the leaf list satisfies the condition of a leaf, and
what it expands is the reference of a first call or does not satisfy it. -/
theorem Abc_NtkCollectSupergate_rec_expanded_spec (ntk : Abc_Ntk) (fStopAtMux : Bool) :
    ∀ (fuel : Nat) (pNode : Abc_Ref) (fFirst : Bool) (st : SuperState) (r : Int)
      (st2 : SuperState) (ex : List Abc_Ref),
      Abc_NtkCollectSupergate_rec_expanded ntk fStopAtMux fuel pNode fFirst st =
        some (r, st2, ex) →
      (∃ new, st2.vSuper = st.vSuper ++ new ∧
        ∀ p ∈ new, p.fCompl = true ∨ Abc_ObjIsNode ntk p.Id = false ∨
          Abc_ObjFanoutNum ntk p.Id > 1 ∨
          (fStopAtMux = true ∧ Abc_NodeIsMuxType ntk p.Id = true)) ∧
      ∀ p ∈ ex, (fFirst = true ∧ p = pNode) ∨
        (p.fCompl = false ∧ Abc_ObjIsNode ntk p.Id = true ∧ Abc_ObjFanoutNum ntk p.Id ≤ 1 ∧
          ¬ (fStopAtMux = true ∧ Abc_NodeIsMuxType ntk p.Id = true)) := by
  intro fuel
  induction fuel with
  | zero =>
    intro pNode fFirst st r st2 ex h
    exact absurd h (by simp [Abc_NtkCollectSupergate_rec_expanded])
  | succ fuel ih =>
    intro pNode fFirst st r st2 ex h
    rw [Abc_NtkCollectSupergate_rec_expanded] at h
    split_ifs at h with hm hleaf
    · simp only [Option.some.injEq, Prod.mk.injEq] at h
      obtain ⟨_, rfl, rfl⟩ := h
      exact ⟨⟨[], by simp, by simp⟩, by simp⟩
    · simp only [Option.some.injEq, Prod.mk.injEq] at h
      obtain ⟨_, rfl, rfl⟩ := h
      refine ⟨⟨[pNode], rfl, ?_⟩, by simp⟩
      intro p hp
      rw [List.mem_singleton] at hp
      subst hp
      simp only [Bool.and_eq_true, Bool.not_eq_true', Bool.or_eq_true, decide_eq_true_eq,
        Abc_ObjIsComplement] at hleaf
      obtain ⟨_, hc⟩ := hleaf
      rcases hc with ((hc | hc) | hc) | hc
      · exact Or.inl hc
      · exact Or.inr (Or.inl hc)
      · exact Or.inr (Or.inr (Or.inl hc))
      · exact Or.inr (Or.inr (Or.inr hc))
    · have hroot : (fFirst = true ∧ pNode = pNode) ∨
          (pNode.fCompl = false ∧ Abc_ObjIsNode ntk pNode.Id = true ∧
            Abc_ObjFanoutNum ntk pNode.Id ≤ 1 ∧
            ¬ (fStopAtMux = true ∧ Abc_NodeIsMuxType ntk pNode.Id = true)) := by
        cases fFirst with
        | true => exact Or.inl ⟨rfl, rfl⟩
        | false =>
          right
          simp only [Bool.not_false, Bool.true_and, Bool.or_eq_true, Bool.not_eq_true',
            decide_eq_true_eq, Bool.and_eq_true, Abc_ObjIsComplement, not_or] at hleaf
          obtain ⟨⟨⟨h1, h2⟩, h3⟩, h4⟩ := hleaf
          exact ⟨by simpa using h1, by simpa using h2, by omega, h4⟩
      cases h1 : Abc_NtkCollectSupergate_rec_expanded ntk fStopAtMux fuel
          (Abc_ObjChild0 ntk pNode.Id) false st with
      | none => rw [h1] at h; exact absurd h (by simp)
      | some p1 =>
        obtain ⟨r1, st1, ex1⟩ := p1
        rw [h1] at h
        simp only at h
        cases h2 : Abc_NtkCollectSupergate_rec_expanded ntk fStopAtMux fuel
            (Abc_ObjChild1 ntk pNode.Id) false st1 with
        | none => rw [h2] at h; exact absurd h (by simp)
        | some p2 =>
          obtain ⟨r2, st3, ex2⟩ := p2
          rw [h2] at h
          simp only at h
          obtain ⟨⟨new1, hn1, hl1⟩, he1⟩ := ih _ _ _ _ _ _ h1
          obtain ⟨⟨new2, hn2, hl2⟩, he2⟩ := ih _ _ _ _ _ _ h2
          have hst : st2 = st3 ∧ ex = pNode :: ex1 ++ ex2 := by
            split_ifs at h <;>
              (simp only [Option.some.injEq, Prod.mk.injEq] at h
               exact ⟨h.2.1.symm, h.2.2.symm⟩)
          obtain ⟨rfl, rfl⟩ := hst
          refine ⟨⟨new1 ++ new2, by rw [hn2, hn1, List.append_assoc], ?_⟩, ?_⟩
          · intro p hp
            rcases List.mem_append.1 hp with hp | hp
            · exact hl1 p hp
            · exact hl2 p hp
          · intro p hp
            simp only [List.cons_append, List.mem_cons, List.mem_append] at hp
            rcases hp with rfl | hp | hp
            · exact hroot
            · rcases he1 p hp with ⟨hf, _⟩ | hq
              · exact absurd hf (by simp)
              · exact Or.inr hq
            · rcases he2 p hp with ⟨hf, _⟩ | hq
              · exact absurd hf (by simp)
              · exact Or.inr hq

/-- C17: in an acyclic AIG, for every AND root and either value of the
multiplexer-stop flag, the recursive collection returns, and every entry of the
collected leaf list is a reference that is complemented, or whose node is not an AND
node, or whose node has more than one fanout, or whose node is multiplexer-shaped when
the flag is set; and every reference that the traversal expands is the root, or is an
uncomplemented AND node with at most one fanout that is not multiplexer-shaped when the
flag is set. -/
theorem C17_supergate_leaf_condition (ntk : Abc_Ntk) (hac : Acyclic ntk) (fStopAtMux : Bool)
    (fMarkB : Nat → Bool) (pNode : Abc_Ref)
    (hand : Abc_ObjIsNode ntk pNode.Id = true) :
    ∃ r st ex,
      Abc_NtkCollectSupergate_rec_expanded ntk fStopAtMux ((Abc_NtkObj ntk pNode.Id).Level + 1)
        pNode true { vSuper := [], fMarkB := fMarkB } = some (r, st, ex) ∧
      Abc_NtkCollectSupergate_rec ntk fStopAtMux ((Abc_NtkObj ntk pNode.Id).Level + 1)
        pNode true { vSuper := [], fMarkB := fMarkB } = some (r, st) ∧
      (∀ p ∈ st.vSuper, p.fCompl = true ∨ Abc_ObjIsNode ntk p.Id = false ∨
        Abc_ObjFanoutNum ntk p.Id > 1 ∨
        (fStopAtMux = true ∧ Abc_NodeIsMuxType ntk p.Id = true)) ∧
      (∀ p ∈ ex, p = pNode ∨
        (p.fCompl = false ∧ Abc_ObjIsNode ntk p.Id = true ∧ Abc_ObjFanoutNum ntk p.Id ≤ 1 ∧
          ¬ (fStopAtMux = true ∧ Abc_NodeIsMuxType ntk p.Id = true))) := by
  obtain ⟨r, st, hrec⟩ := Abc_NtkCollectSupergate_rec_total ntk fStopAtMux hac
    ((Abc_NtkObj ntk pNode.Id).Level + 1) pNode true { vSuper := [], fMarkB := fMarkB }
    (Nat.lt_succ_self _) (fun _ => hand)
  have herase := Abc_NtkCollectSupergate_rec_expanded_erase ntk fStopAtMux
    ((Abc_NtkObj ntk pNode.Id).Level + 1) pNode true { vSuper := [], fMarkB := fMarkB }
  rw [hrec] at herase
  cases hx : Abc_NtkCollectSupergate_rec_expanded ntk fStopAtMux
      ((Abc_NtkObj ntk pNode.Id).Level + 1) pNode true { vSuper := [], fMarkB := fMarkB } with
  | none => rw [hx] at herase; exact absurd herase (by simp)
  | some q =>
    obtain ⟨r', st', ex⟩ := q
    rw [hx] at herase
    simp only [Option.map_some', Option.some.injEq, Prod.mk.injEq] at herase
    obtain ⟨rfl, rfl⟩ := herase
    obtain ⟨⟨new, hnew, hleaf⟩, hex⟩ :=
      Abc_NtkCollectSupergate_rec_expanded_spec ntk fStopAtMux _ _ _ _ _ _ _ hx
    simp only [List.nil_append] at hnew
    refine ⟨_, _, ex, rfl, hrec, ?_, ?_⟩
    · intro p hp
      rw [hnew] at hp
      exact hleaf p hp
    · intro p hp
      rcases hex p hp with ⟨_, h⟩ | h
      · exact Or.inl h
      · exact Or.inr h

/-- Witness of C17: node 4 of `netShared`: the traversal expands the root only and
collects the shared node 3 and the complemented input. -/
theorem C17_supergate_leaf_condition_witness :
    ∃ r st ex,
      Abc_NtkCollectSupergate_rec_expanded netShared true
        ((Abc_NtkObj netShared (⟨4, false⟩ : Abc_Ref).Id).Level + 1)
        ⟨4, false⟩ true { vSuper := [], fMarkB := noMarks } = some (r, st, ex) ∧
      Abc_NtkCollectSupergate_rec netShared true
        ((Abc_NtkObj netShared (⟨4, false⟩ : Abc_Ref).Id).Level + 1)
        ⟨4, false⟩ true { vSuper := [], fMarkB := noMarks } = some (r, st) ∧
      (∀ p ∈ st.vSuper, p.fCompl = true ∨ Abc_ObjIsNode netShared p.Id = false ∨
        Abc_ObjFanoutNum netShared p.Id > 1 ∨
        (true = true ∧ Abc_NodeIsMuxType netShared p.Id = true)) ∧
      (∀ p ∈ ex, p = ⟨4, false⟩ ∨
        (p.fCompl = false ∧ Abc_ObjIsNode netShared p.Id = true ∧
          Abc_ObjFanoutNum netShared p.Id ≤ 1 ∧
          ¬ (true = true ∧ Abc_NodeIsMuxType netShared p.Id = true))) :=
  C17_supergate_leaf_condition netShared (Acyclic_of_check netShared (by decide)) true
    noMarks ⟨4, false⟩ (by decide)

/-- The leaves and the expanded references of node 4 of `netChain`: the root and the
node 3, which has one fanout, are expanded; the inputs 1 and 2 are collected. -/
theorem netChain_expanded :
    (Abc_NtkCollectSupergate_rec_expanded netChain true 3 ⟨4, false⟩ true
        { vSuper := [], fMarkB := noMarks }).map (fun r => (r.1, r.2.1.vSuper, r.2.2)) =
      some (-1, [⟨1, false⟩, ⟨2, false⟩], [⟨4, false⟩, ⟨3, false⟩]) := by
  decide

/-- The recursion never appends a node that is in the leaf list already: when every
node of the list is marked and no node occurs twice, the same holds afterwards. -/
theorem Abc_NtkCollectSupergate_rec_nodup (ntk : Abc_Ntk) (fStopAtMux : Bool) :
    ∀ (fuel : Nat) (pNode : Abc_Ref) (fFirst : Bool) (st : SuperState) (r : Int)
      (st2 : SuperState),
      Abc_NtkCollectSupergate_rec ntk fStopAtMux fuel pNode fFirst st = some (r, st2) →
      (∀ p ∈ st.vSuper, st.fMarkB (Abc_ObjRegular p) = true) →
      (st.vSuper.map Abc_ObjRegular).Nodup →
      (∀ p ∈ st2.vSuper, st2.fMarkB (Abc_ObjRegular p) = true) ∧
      (st2.vSuper.map Abc_ObjRegular).Nodup := by
  intro fuel
  induction fuel with
  | zero =>
    intro pNode fFirst st r st2 h
    exact absurd h (by simp [Abc_NtkCollectSupergate_rec])
  | succ fuel ih =>
    intro pNode fFirst st r st2 h hmk hnd
    rw [Abc_NtkCollectSupergate_rec_succ] at h
    split_ifs at h with hm hleaf
    · simp only [Option.some.injEq, Prod.mk.injEq] at h
      obtain ⟨_, rfl⟩ := h
      exact ⟨hmk, hnd⟩
    · simp only [Option.some.injEq, Prod.mk.injEq] at h
      obtain ⟨_, rfl⟩ := h
      constructor
      · intro p hp
        simp only [List.mem_append, List.mem_singleton] at hp
        simp only [setFlag]
        rcases hp with hp | rfl
        · have := hmk p hp
          split_ifs <;> simp_all
        · simp
      · rw [List.map_append, List.nodup_append]
        refine ⟨hnd, by simp, ?_⟩
        intro x hx hx2
        simp only [List.map_cons, List.map_nil, List.mem_singleton] at hx2
        obtain ⟨p, hp, hpx⟩ := List.mem_map.1 hx
        have := hmk p hp
        rw [hpx, hx2] at this
        exact hm this
    · cases h1 : Abc_NtkCollectSupergate_rec ntk fStopAtMux fuel
          (Abc_ObjChild0 ntk pNode.Id) false st with
      | none => rw [h1] at h; exact absurd h (by simp)
      | some p1 =>
        obtain ⟨r1, st1⟩ := p1
        rw [h1] at h
        simp only at h
        cases h2 : Abc_NtkCollectSupergate_rec ntk fStopAtMux fuel
            (Abc_ObjChild1 ntk pNode.Id) false st1 with
        | none => rw [h2] at h; exact absurd h (by simp)
        | some p2 =>
          obtain ⟨r2, st3⟩ := p2
          rw [h2] at h
          simp only at h
          obtain ⟨hmk1, hnd1⟩ := ih _ _ _ _ _ h1 hmk hnd
          obtain ⟨hmk2, hnd2⟩ := ih _ _ _ _ _ h2 hmk1 hnd1
          have hst : st2 = st3 := by
            split_ifs at h <;>
              (simp only [Option.some.injEq, Prod.mk.injEq] at h
               exact h.2.symm)
          rw [hst]
          exact ⟨hmk2, hnd2⟩

/-- C18: in an acyclic AIG, for every AND root, whatever the marks on entry, the leaf
list that `Abc_NtkCollectSupergate` builds never has two entries with the same
underlying node: no reference occurs twice, and no reference occurs together with its
complement, in the list as collected by the recursion and in the list as returned. -/
theorem C18_supergate_no_duplicates (ntk : Abc_Ntk) (hac : Acyclic ntk) (fStopAtMux : Bool)
    (fMarkB : Nat → Bool) (pNode : Abc_Ref)
    (hand : Abc_ObjIsNode ntk pNode.Id = true) :
    ∃ r st sup,
      Abc_NtkCollectSupergate_rec ntk fStopAtMux ((Abc_NtkObj ntk pNode.Id).Level + 1)
        pNode true { vSuper := [], fMarkB := fMarkB } = some (r, st) ∧
      Abc_NtkCollectSupergate ntk pNode fStopAtMux fMarkB = some sup ∧
      (st.vSuper.map Abc_ObjRegular).Nodup ∧
      st.vSuper.Nodup ∧
      (∀ p ∈ st.vSuper, Abc_ObjNot p ∉ st.vSuper) ∧
      (sup.vSuper.map Abc_ObjRegular).Nodup ∧
      sup.vSuper.Nodup ∧
      (∀ p ∈ sup.vSuper, Abc_ObjNot p ∉ sup.vSuper) := by
  obtain ⟨r, st, hrec⟩ := Abc_NtkCollectSupergate_rec_total ntk fStopAtMux hac
    ((Abc_NtkObj ntk pNode.Id).Level + 1) pNode true { vSuper := [], fMarkB := fMarkB }
    (Nat.lt_succ_self _) (fun _ => hand)
  obtain ⟨_, hnd⟩ := Abc_NtkCollectSupergate_rec_nodup ntk fStopAtMux _ _ _ _ _ _ hrec
    (by simp) (by simp)
  have key : ∀ l : List Abc_Ref, (l.map Abc_ObjRegular).Nodup →
      l.Nodup ∧ ∀ p ∈ l, Abc_ObjNot p ∉ l := by
    intro l hl
    refine ⟨List.Nodup.of_map _ hl, ?_⟩
    intro p hp hnp
    have := List.inj_on_of_nodup_map hl hp hnp (by simp [Abc_ObjRegular, Abc_ObjNot])
    have h2 : p.fCompl = (Abc_ObjNot p).fCompl := by rw [← this]
    simp [Abc_ObjNot] at h2
  have hsup : Abc_NtkCollectSupergate ntk pNode fStopAtMux fMarkB =
      some { vSuper := if r = -1 then [] else st.vSuper,
             fMarkB := Abc_NtkCollectSupergate_unmark st.vSuper st.fMarkB } := by
    simp [Abc_NtkCollectSupergate, hrec]
  have hnd2 : ((if r = -1 then [] else st.vSuper).map Abc_ObjRegular).Nodup := by
    split_ifs
    · simp
    · exact hnd
  exact ⟨r, st, _, hrec, hsup, hnd, (key _ hnd).1, (key _ hnd).2, hnd2, (key _ hnd2).1,
    (key _ hnd2).2⟩

/-- Witness of C18: node 4 of `netChain`, where the input 1 is met in both polarities:
it is in the collected list once. -/
theorem C18_supergate_no_duplicates_witness :
    ∃ r st sup,
      Abc_NtkCollectSupergate_rec netChain true
        ((Abc_NtkObj netChain (⟨4, false⟩ : Abc_Ref).Id).Level + 1)
        ⟨4, false⟩ true { vSuper := [], fMarkB := noMarks } = some (r, st) ∧
      Abc_NtkCollectSupergate netChain ⟨4, false⟩ true noMarks = some sup ∧
      (st.vSuper.map Abc_ObjRegular).Nodup ∧
      st.vSuper.Nodup ∧
      (∀ p ∈ st.vSuper, Abc_ObjNot p ∉ st.vSuper) ∧
      (sup.vSuper.map Abc_ObjRegular).Nodup ∧
      sup.vSuper.Nodup ∧
      (∀ p ∈ sup.vSuper, Abc_ObjNot p ∉ sup.vSuper) :=
  C18_supergate_no_duplicates netChain (Acyclic_of_check netChain (by decide)) true noMarks
    ⟨4, false⟩ (by decide)

/-! ### The allocation invariant on an arbitrary solver -/

theorem AllocInv_of_eq (st st2 : MiterState) (h1 : st2.vNodes = st.vNodes)
    (h2 : st2.pCopy = st.pCopy) (h3 : st2.fMarkA = st.fMarkA) (h : AllocInv st) :
    AllocInv st2 := by
  obtain ⟨s, v, c, a, b⟩ := st
  obtain ⟨s2, v2, c2, a2, b2⟩ := st2
  simp only at h1 h2 h3
  subst h1 h2 h3
  exact h

theorem Abc_NtkMiterSatCreateInt_top_allocInv (ntk : Abc_Ntk) (pSat : sat_solver)
    (pCopy : Nat → Nat) (fMarkA fMarkB : Nat → Bool) (hA : ∀ id, fMarkA id = false) :
    AllocInv (Abc_NtkMiterSatCreateInt_top ntk pSat pCopy fMarkA fMarkB).2 := by
  rw [Abc_NtkMiterSatCreateInt_top_eq]
  exact AllocInv_of_eq _ _ rfl rfl rfl
    ((addVars_spec _ _).2.2.2.1
      (Abc_NtkMiterSatCreateInt_const_allocInv ntk pSat pCopy fMarkA fMarkB hA))

/-- One step of the main loop keeps the allocation invariant. -/
theorem Abc_NtkMiterSatCreateInt_node_allocInv (ntk : Abc_Ntk) (fUseMuxes : Bool)
    (st : MiterState) (pNode : Nat) (ok : Bool) (st1 : MiterState)
    (h : Abc_NtkMiterSatCreateInt_node ntk fUseMuxes st pNode = some (ok, st1))
    (hinv : AllocInv st) : AllocInv st1 := by
  unfold Abc_NtkMiterSatCreateInt_node at h
  split_ifs at h with hmux
  · simp only [Option.some.injEq, Prod.mk.injEq] at h
    obtain ⟨_, rfl⟩ := h
    exact AllocInv_of_eq _ _ rfl rfl rfl ((addVars_spec _ _).2.2.2.1 hinv)
  · cases hsup : Abc_NtkCollectSupergate ntk { Id := pNode, fCompl := false } fUseMuxes
        st.fMarkB with
    | none => rw [hsup] at h; exact absurd h (by simp)
    | some sup =>
      rw [hsup] at h
      simp only at h
      have hinv1 : AllocInv (Abc_NtkMiterSatCreateInt_addVars { st with fMarkB := sup.fMarkB }
          sup.vSuper) :=
        (addVars_spec _ _).2.2.2.1 (AllocInv_of_eq st _ rfl rfl rfl hinv)
      split_ifs at h <;>
        (simp only [Option.some.injEq, Prod.mk.injEq] at h
         obtain ⟨_, rfl⟩ := h
         exact AllocInv_of_eq _ _ rfl rfl rfl hinv1)

/-- The main loop keeps the allocation invariant. -/
theorem Abc_NtkMiterSatCreateInt_loop_allocInv (ntk : Abc_Ntk) (fUseMuxes : Bool) :
    ∀ (fuel i : Nat) (st : MiterState) (r : Int) (st2 : MiterState),
      Abc_NtkMiterSatCreateInt_loop ntk fUseMuxes fuel i st = some (r, st2) →
      AllocInv st → AllocInv st2 := by
  intro fuel
  induction fuel with
  | zero => intro i st r st2 h; exact absurd h (by simp [Abc_NtkMiterSatCreateInt_loop])
  | succ fuel ih =>
    intro i st r st2 h hinv
    rw [Abc_NtkMiterSatCreateInt_loop] at h
    cases hget : st.vNodes.get? i with
    | none =>
      rw [hget] at h
      simp only [Option.some.injEq, Prod.mk.injEq] at h
      rw [← h.2]; exact hinv
    | some pNode =>
      rw [hget] at h
      simp only at h
      split_ifs at h with hand
      · exact ih _ _ _ _ h hinv
      · cases hnode : Abc_NtkMiterSatCreateInt_node ntk fUseMuxes st pNode with
        | none => rw [hnode] at h; exact absurd h (by simp)
        | some p =>
          obtain ⟨ok, st1⟩ := p
          have hinv1 := Abc_NtkMiterSatCreateInt_node_allocInv ntk fUseMuxes st pNode ok st1
            hnode hinv
          rw [hnode] at h
          cases ok with
          | false =>
            simp only [Option.some.injEq, Prod.mk.injEq] at h
            rw [← h.2]; exact hinv1
          | true =>
            simp only at h
            exact ih _ _ _ _ h hinv1

/-- When `fMarkA` is clear on entry, the allocation invariant holds when the pass
returns. -/
theorem Abc_NtkMiterSatCreateInt_allocInv (ntk : Abc_Ntk) (pSat : sat_solver)
    (pCopy : Nat → Nat) (fMarkA fMarkB : Nat → Bool) (hA : ∀ id, fMarkA id = false)
    (r : Int) (st : MiterState)
    (h : Abc_NtkMiterSatCreateInt ntk pSat pCopy fMarkA fMarkB = some (r, st)) :
    AllocInv st := by
  have htop := Abc_NtkMiterSatCreateInt_top_allocInv ntk pSat pCopy fMarkA fMarkB hA
  unfold Abc_NtkMiterSatCreateInt at h
  simp only at h
  split_ifs at h
  · simp only [Option.some.injEq, Prod.mk.injEq] at h
    rw [← h.2]; exact htop
  · exact Abc_NtkMiterSatCreateInt_loop_allocInv ntk true _ _ _ _ _ h htop

/-- Under the allocation invariant distinct nodes of `vNodes` have distinct variables. -/
theorem AllocInv_injective (st : MiterState) (h : AllocInv st) :
    ∀ x ∈ st.vNodes, ∀ y ∈ st.vNodes, st.pCopy x = st.pCopy y → x = y := by
  intro x hx y hy hxy
  obtain ⟨i, hi, rfl⟩ := List.getElem_of_mem hx
  obtain ⟨j, hj, rfl⟩ := List.getElem_of_mem hy
  rw [h.2.1 i hi, h.2.1 j hj] at hxy
  subst hxy
  rfl

/-- C19: when `fMarkA` is clear on every node on entry, the allocation invariant of
`Abc_NtkMiterSatCreateInt` (the list `vNodes` has no node twice, the node at position
`i` has the variable `i`, and `fMarkA` is set exactly on the nodes of the list) holds
after the constant node is set up, with variable 0 for the constant node; it is kept by
every allocation of a variable, by the top-level part, by every step of the main loop
and by the main loop; so it holds when the pass returns, where distinct nodes of the
list have distinct variables. On a well-formed network the pass does return. -/
theorem C19_alloc_invariant (ntk : Abc_Ntk) (pSat : sat_solver) (pCopy : Nat → Nat)
    (fMarkA fMarkB : Nat → Bool) (hA : ∀ id, fMarkA id = false) :
    (AllocInv (Abc_NtkMiterSatCreateInt_const ntk pSat pCopy fMarkA fMarkB) ∧
      (Abc_NtkMiterSatCreateInt_const ntk pSat pCopy fMarkA fMarkB).vNodes =
        [Abc_AigConst1 ntk] ∧
      (Abc_NtkMiterSatCreateInt_const ntk pSat pCopy fMarkA fMarkB).pCopy
        (Abc_AigConst1 ntk) = 0) ∧
    (∀ st x, AllocInv st → AllocInv (Abc_NtkMiterSatCreateInt_addVar st x)) ∧
    AllocInv (Abc_NtkMiterSatCreateInt_top ntk pSat pCopy fMarkA fMarkB).2 ∧
    (∀ st pNode ok st1, AllocInv st →
      Abc_NtkMiterSatCreateInt_node ntk true st pNode = some (ok, st1) → AllocInv st1) ∧
    (∀ fuel i st r st2, AllocInv st →
      Abc_NtkMiterSatCreateInt_loop ntk true fuel i st = some (r, st2) → AllocInv st2) ∧
    (∀ r st, Abc_NtkMiterSatCreateInt ntk pSat pCopy fMarkA fMarkB = some (r, st) →
      st.vNodes.Nodup ∧
      (∀ (i : Nat) (h : i < st.vNodes.length), st.pCopy (st.vNodes[i]) = i) ∧
      (∀ x, st.fMarkA x = true ↔ x ∈ st.vNodes) ∧
      st.vNodes[0]? = some (Abc_AigConst1 ntk) ∧
      st.pCopy (Abc_AigConst1 ntk) = 0 ∧
      (∀ x ∈ st.vNodes, ∀ y ∈ st.vNodes, st.pCopy x = st.pCopy y → x = y)) ∧
    (Abc_NtkInRange ntk →
      ∃ r st, Abc_NtkMiterSatCreateInt ntk pSat pCopy fMarkA fMarkB = some (r, st)) := by
  refine ⟨⟨Abc_NtkMiterSatCreateInt_const_allocInv ntk pSat pCopy fMarkA fMarkB hA, rfl,
      by simp [Abc_NtkMiterSatCreateInt_const, setCopy]⟩,
    fun st x h => addVar_allocInv st x h,
    Abc_NtkMiterSatCreateInt_top_allocInv ntk pSat pCopy fMarkA fMarkB hA,
    fun st pNode ok st1 hinv h =>
      Abc_NtkMiterSatCreateInt_node_allocInv ntk true st pNode ok st1 h hinv,
    fun fuel i st r st2 hinv h =>
      Abc_NtkMiterSatCreateInt_loop_allocInv ntk true fuel i st r st2 h hinv, ?_, ?_⟩
  · intro r st h
    have hinv := Abc_NtkMiterSatCreateInt_allocInv ntk pSat pCopy fMarkA fMarkB hA r st h
    have hhead : st.vNodes[0]? = some (Abc_AigConst1 ntk) := by
      have h1 : ∃ more, (Abc_NtkMiterSatCreateInt_top ntk pSat pCopy fMarkA fMarkB).2.vNodes =
          [Abc_AigConst1 ntk] ++ more := by
        rw [Abc_NtkMiterSatCreateInt_top_eq]
        obtain ⟨⟨_, _, hv, _⟩, _⟩ := addVars_spec
          (ntk.vCos.map fun pNode => Abc_ObjChild0 ntk pNode)
          (Abc_NtkMiterSatCreateInt_const ntk pSat pCopy fMarkA fMarkB)
        exact hv
      have h2 : ∃ more, st.vNodes =
          (Abc_NtkMiterSatCreateInt_top ntk pSat pCopy fMarkA fMarkB).2.vNodes ++ more := by
        unfold Abc_NtkMiterSatCreateInt at h
        simp only at h
        split_ifs at h
        · simp only [Option.some.injEq, Prod.mk.injEq] at h
          exact ⟨[], by rw [← h.2]; simp⟩
        · exact (Abc_NtkMiterSatCreateInt_loop_extends ntk true _ _ _ _ _ h).2.2.1
      obtain ⟨m1, hm1⟩ := h1
      obtain ⟨m2, hm2⟩ := h2
      rw [hm2, hm1]
      simp
    obtain ⟨hlen, heq⟩ := List.getElem?_eq_some.1 hhead
    have h0 : st.pCopy (Abc_AigConst1 ntk) = 0 := by
      have := hinv.2.1 0 hlen
      rw [heq] at this
      exact this
    exact ⟨hinv.1, hinv.2.1, hinv.2.2, hhead, h0, AllocInv_injective st hinv⟩
  · intro hwf
    obtain ⟨r, st, h, _⟩ := Abc_NtkMiterSatCreateInt_total ntk hwf pSat pCopy fMarkA fMarkB
    exact ⟨r, st, h⟩

/-- Witness of C19: the pass on `netShared` with clear marks returns in a state in which
the allocation invariant holds. -/
theorem C19_alloc_invariant_witness :
    ∃ r st, Abc_NtkMiterSatCreateInt netShared satAccept copyId noMarks noMarks = some (r, st) ∧
      st.vNodes.Nodup ∧
      (∀ (i : Nat) (h : i < st.vNodes.length), st.pCopy (st.vNodes[i]) = i) ∧
      (∀ x, st.fMarkA x = true ↔ x ∈ st.vNodes) := by
  have hall := C19_alloc_invariant netShared satAccept copyId noMarks noMarks (fun _ => rfl)
  obtain ⟨r, st, h⟩ := hall.2.2.2.2.2.2
    (Abc_NtkInRange_of_check netShared (by decide) (fun _ => rfl))
  obtain ⟨h1, h2, h3, _⟩ := hall.2.2.2.2.2.1 r st h
  exact ⟨r, st, h, h1, h2, h3⟩

/-! ### The pass does not depend on the `pCopy` of nodes without a variable -/

theorem addVar_same (st st2 : MiterState) (x : Nat) (h : SamePass st st2) :
    SamePass (Abc_NtkMiterSatCreateInt_addVar st x) (Abc_NtkMiterSatCreateInt_addVar st2 x) := by
  obtain ⟨s, v, c, a, b⟩ := st
  obtain ⟨s2, v2, c2, a2, b2⟩ := st2
  obtain ⟨h1, h2, h3, h4, h5⟩ := h
  simp only at h1 h2 h3 h4 h5
  subst h1 h2 h3 h4
  unfold Abc_NtkMiterSatCreateInt_addVar
  by_cases hx : a2 x = false
  · simp only [hx, if_true]
    refine ⟨rfl, rfl, rfl, rfl, ?_⟩
    intro y hy
    simp only [setFlag, setCopy] at hy ⊢
    by_cases hyx : y = x
    · simp [hyx]
    · simp only [hyx, if_false] at hy ⊢
      exact h5 y hy
  · simp only [hx, if_false]
    exact ⟨rfl, rfl, rfl, rfl, h5⟩

theorem addVars_same (vSuper : List Abc_Ref) :
    ∀ st st2 : MiterState, SamePass st st2 →
      SamePass (Abc_NtkMiterSatCreateInt_addVars st vSuper)
        (Abc_NtkMiterSatCreateInt_addVars st2 vSuper) := by
  induction vSuper with
  | nil => intro st st2 h; exact h
  | cons q rest ih =>
    intro st st2 h
    simp only [Abc_NtkMiterSatCreateInt_addVars, List.foldl_cons]
    exact ih _ _ (addVar_same st st2 _ h)

theorem Abc_NtkClauseAnd_congr (pSat : sat_solver) (pCopy pCopy2 : Nat → Nat) (pNode : Nat)
    (vSuper : List Abc_Ref) (h0 : pCopy2 pNode = pCopy pNode)
    (h1 : ∀ p ∈ vSuper, pCopy2 p.Id = pCopy p.Id) :
    Abc_NtkClauseAnd pSat pCopy2 pNode vSuper = Abc_NtkClauseAnd pSat pCopy pNode vSuper := by
  rw [Abc_NtkClauseAnd_eq_addclauses, Abc_NtkClauseAnd_eq_addclauses, h0]
  congr 2
  · apply List.map_congr_left
    intro p hp
    have := h1 p hp
    simp only [refLit, Abc_ObjRegular, this]
  · congr 2
    apply List.map_congr_left
    intro p hp
    have := h1 p hp
    simp only [Abc_ObjRegular] at this ⊢
    rw [this]

theorem Abc_NtkClauseTriv_congr (pSat : sat_solver) (pCopy pCopy2 : Nat → Nat)
    (pNode : Abc_Ref) (h : pCopy2 pNode.Id = pCopy pNode.Id) :
    Abc_NtkClauseTriv pSat pCopy2 pNode = Abc_NtkClauseTriv pSat pCopy pNode := by
  simp only [Abc_NtkClauseTriv, Abc_ObjRegular, h]

theorem Abc_NtkClauseMux_congr (pSat : sat_solver) (pCopy pCopy2 : Nat → Nat)
    (pNode pNodeC : Nat) (pNodeT pNodeE : Abc_Ref) (h0 : pCopy2 pNode = pCopy pNode)
    (h1 : pCopy2 pNodeC = pCopy pNodeC) (h2 : pCopy2 pNodeT.Id = pCopy pNodeT.Id)
    (h3 : pCopy2 pNodeE.Id = pCopy pNodeE.Id) :
    Abc_NtkClauseMux pSat pCopy2 pNode pNodeC pNodeT pNodeE =
      Abc_NtkClauseMux pSat pCopy pNode pNodeC pNodeT pNodeE := by
  simp only [Abc_NtkClauseMux, Abc_ObjRegular, h0, h1, h2, h3]

/-- One step of the main loop does not depend on the `pCopy` of nodes without a
variable. -/
theorem Abc_NtkMiterSatCreateInt_node_same (ntk : Abc_Ntk) (fUseMuxes : Bool)
    (st st2 : MiterState) (pNode : Nat) (ok : Bool) (st1 : MiterState)
    (hsame : SamePass st st2) (hmk : st.fMarkA pNode = true)
    (h : Abc_NtkMiterSatCreateInt_node ntk fUseMuxes st pNode = some (ok, st1)) :
    ∃ st3, Abc_NtkMiterSatCreateInt_node ntk fUseMuxes st2 pNode = some (ok, st3) ∧
      SamePass st1 st3 := by
  unfold Abc_NtkMiterSatCreateInt_node at h ⊢
  by_cases hmux : (fUseMuxes && Abc_NodeIsMuxType ntk pNode) = true
  · simp only [hmux, if_true, Option.some.injEq, Prod.mk.injEq] at h ⊢
    obtain ⟨hext, _, _, _, hmarked, _⟩ := addVars_spec
      [{ Id := (Abc_NodeRecognizeMux ntk pNode).1, fCompl := false },
        (Abc_NodeRecognizeMux ntk pNode).2.1, (Abc_NodeRecognizeMux ntk pNode).2.2] st
    obtain ⟨e1, e2, e3, e4, e5⟩ := addVars_same
      [{ Id := (Abc_NodeRecognizeMux ntk pNode).1, fCompl := false },
        (Abc_NodeRecognizeMux ntk pNode).2.1, (Abc_NodeRecognizeMux ntk pNode).2.2] st st2 hsame
    have hcongr := Abc_NtkClauseMux_congr
      (Abc_NtkMiterSatCreateInt_addVars st
        [{ Id := (Abc_NodeRecognizeMux ntk pNode).1, fCompl := false },
          (Abc_NodeRecognizeMux ntk pNode).2.1, (Abc_NodeRecognizeMux ntk pNode).2.2]).pSat
      (Abc_NtkMiterSatCreateInt_addVars st
        [{ Id := (Abc_NodeRecognizeMux ntk pNode).1, fCompl := false },
          (Abc_NodeRecognizeMux ntk pNode).2.1, (Abc_NodeRecognizeMux ntk pNode).2.2]).pCopy
      (Abc_NtkMiterSatCreateInt_addVars st2
        [{ Id := (Abc_NodeRecognizeMux ntk pNode).1, fCompl := false },
          (Abc_NodeRecognizeMux ntk pNode).2.1, (Abc_NodeRecognizeMux ntk pNode).2.2]).pCopy
      pNode (Abc_NodeRecognizeMux ntk pNode).1 (Abc_NodeRecognizeMux ntk pNode).2.1
      (Abc_NodeRecognizeMux ntk pNode).2.2
      (e5 _ (hext.2.2.2 pNode hmk).1)
      (e5 _ (hmarked { Id := (Abc_NodeRecognizeMux ntk pNode).1, fCompl := false } (by simp)))
      (e5 _ (hmarked (Abc_NodeRecognizeMux ntk pNode).2.1 (by simp)))
      (e5 _ (hmarked (Abc_NodeRecognizeMux ntk pNode).2.2 (by simp)))
    obtain ⟨rfl, rfl⟩ := h
    rw [e1, hcongr]
    exact ⟨_, ⟨rfl, rfl⟩, rfl, e2, e3, e4, e5⟩
  · simp only [hmux, Bool.false_eq_true, if_false] at h ⊢
    rw [hsame.2.2.2.1]
    cases hsup : Abc_NtkCollectSupergate ntk { Id := pNode, fCompl := false } fUseMuxes
        st.fMarkB with
    | none => rw [hsup] at h; exact absurd h (by simp)
    | some sup =>
      rw [hsup] at h
      simp only at h ⊢
      have hsame1 : SamePass { st with fMarkB := sup.fMarkB } { st2 with fMarkB := sup.fMarkB } :=
        ⟨hsame.1, hsame.2.1, hsame.2.2.1, rfl, hsame.2.2.2.2⟩
      obtain ⟨hext, _, _, _, hmarked, _⟩ := addVars_spec sup.vSuper
        { st with fMarkB := sup.fMarkB }
      obtain ⟨e1, e2, e3, e4, e5⟩ := addVars_same sup.vSuper _ _ hsame1
      have hp : (Abc_NtkMiterSatCreateInt_addVars { st2 with fMarkB := sup.fMarkB }
            sup.vSuper).pCopy pNode =
          (Abc_NtkMiterSatCreateInt_addVars { st with fMarkB := sup.fMarkB }
            sup.vSuper).pCopy pNode := e5 _ (hext.2.2.2 pNode hmk).1
      by_cases hlen : sup.vSuper.length = 0
      · simp only [hlen, if_true, Option.some.injEq, Prod.mk.injEq] at h ⊢
        obtain ⟨rfl, rfl⟩ := h
        rw [e1, Abc_NtkClauseTriv_congr _ _ _ (Abc_ObjNot { Id := pNode, fCompl := false }) hp]
        exact ⟨_, ⟨rfl, rfl⟩, rfl, e2, e3, e4, e5⟩
      · simp only [hlen, if_false, Option.some.injEq, Prod.mk.injEq] at h ⊢
        obtain ⟨rfl, rfl⟩ := h
        rw [e1, Abc_NtkClauseAnd_congr _ _ _ pNode sup.vSuper hp
          (fun p hp2 => e5 _ (hmarked p hp2))]
        exact ⟨_, ⟨rfl, rfl⟩, rfl, e2, e3, e4, e5⟩

/-- The main loop does not depend on the `pCopy` of nodes without a variable. -/
theorem Abc_NtkMiterSatCreateInt_loop_same (ntk : Abc_Ntk) (fUseMuxes : Bool) :
    ∀ (fuel i : Nat) (st st2 : MiterState) (r : Int) (st1 : MiterState),
      SamePass st st2 → AllocInv st →
      Abc_NtkMiterSatCreateInt_loop ntk fUseMuxes fuel i st = some (r, st1) →
      ∃ st3, Abc_NtkMiterSatCreateInt_loop ntk fUseMuxes fuel i st2 = some (r, st3) ∧
        SamePass st1 st3 := by
  intro fuel
  induction fuel with
  | zero => intro i st st2 r st1 _ _ h; exact absurd h (by simp [Abc_NtkMiterSatCreateInt_loop])
  | succ fuel ih =>
    intro i st st2 r st1 hsame hinv h
    rw [Abc_NtkMiterSatCreateInt_loop] at h ⊢
    rw [hsame.2.1]
    cases hget : st.vNodes.get? i with
    | none =>
      rw [hget] at h
      simp only [Option.some.injEq, Prod.mk.injEq] at h ⊢
      obtain ⟨rfl, rfl⟩ := h
      exact ⟨st2, ⟨rfl, rfl⟩, hsame⟩
    | some pNode =>
      rw [hget] at h
      simp only at h ⊢
      by_cases hand : (!Abc_AigNodeIsAnd ntk pNode) = true
      · simp only [hand, if_true] at h ⊢
        exact ih _ _ _ _ _ hsame hinv h
      · simp only [hand, if_false] at h ⊢
        have hmem : pNode ∈ st.vNodes := List.mem_iff_get?.2 ⟨i, hget⟩
        have hmk : st.fMarkA pNode = true := (hinv.2.2 pNode).2 hmem
        cases hnode : Abc_NtkMiterSatCreateInt_node ntk fUseMuxes st pNode with
        | none => rw [hnode] at h; exact absurd h (by simp)
        | some p =>
          obtain ⟨ok, sta⟩ := p
          obtain ⟨stb, hnode2, hsame2⟩ :=
            Abc_NtkMiterSatCreateInt_node_same ntk fUseMuxes st st2 pNode ok sta hsame hmk hnode
          have hinv2 := Abc_NtkMiterSatCreateInt_node_allocInv ntk fUseMuxes st pNode ok sta
            hnode hinv
          rw [hnode] at h
          rw [hnode2]
          cases ok with
          | false =>
            simp only [Option.some.injEq, Prod.mk.injEq] at h ⊢
            obtain ⟨rfl, rfl⟩ := h
            exact ⟨stb, by simp, hsame2⟩
          | true =>
            simp only at h ⊢
            exact ih _ _ _ _ _ hsame2 hinv2 h

/-- When `fMarkA` is clear on entry, `Abc_NtkMiterSatCreateInt` does not depend on the
`pCopy` on entry: the return value, the solver, the list `vNodes` and the variables of
its nodes are the same. -/
theorem Abc_NtkMiterSatCreateInt_same (ntk : Abc_Ntk) (pSat : sat_solver)
    (pCopy pCopy2 : Nat → Nat) (fMarkA fMarkB : Nat → Bool) (hA : ∀ id, fMarkA id = false)
    (r : Int) (st : MiterState)
    (h : Abc_NtkMiterSatCreateInt ntk pSat pCopy fMarkA fMarkB = some (r, st)) :
    ∃ st2, Abc_NtkMiterSatCreateInt ntk pSat pCopy2 fMarkA fMarkB = some (r, st2) ∧
      SamePass st st2 := by
  have hconst : SamePass (Abc_NtkMiterSatCreateInt_const ntk pSat pCopy fMarkA fMarkB)
      (Abc_NtkMiterSatCreateInt_const ntk pSat pCopy2 fMarkA fMarkB) := by
    refine ⟨?_, rfl, rfl, rfl, ?_⟩
    · simp [Abc_NtkMiterSatCreateInt_const, Abc_NtkClauseTriv, Abc_ObjRegular, setCopy]
    · intro x hx
      simp only [Abc_NtkMiterSatCreateInt_const, setFlag, hA] at hx
      have hx2 : x = Abc_AigConst1 ntk := by
        by_contra hne
        simp [hne] at hx
      simp [Abc_NtkMiterSatCreateInt_const, setCopy, hx2]
  have htop : (Abc_NtkMiterSatCreateInt_top ntk pSat pCopy2 fMarkA fMarkB).1 =
        (Abc_NtkMiterSatCreateInt_top ntk pSat pCopy fMarkA fMarkB).1 ∧
      SamePass (Abc_NtkMiterSatCreateInt_top ntk pSat pCopy fMarkA fMarkB).2
        (Abc_NtkMiterSatCreateInt_top ntk pSat pCopy2 fMarkA fMarkB).2 := by
    rw [Abc_NtkMiterSatCreateInt_top_eq, Abc_NtkMiterSatCreateInt_top_eq]
    obtain ⟨_, _, _, _, hmarked, _⟩ := addVars_spec
      (ntk.vCos.map fun pNode => Abc_ObjChild0 ntk pNode)
      (Abc_NtkMiterSatCreateInt_const ntk pSat pCopy fMarkA fMarkB)
    obtain ⟨e1, e2, e3, e4, e5⟩ := addVars_same
      (ntk.vCos.map fun pNode => Abc_ObjChild0 ntk pNode) _ _ hconst
    have hcl : (ntk.vCos.map fun pNode => Abc_ObjChild0 ntk pNode).map (fun pNode =>
          toLitCond ((Abc_NtkMiterSatCreateInt_addVars
            (Abc_NtkMiterSatCreateInt_const ntk pSat pCopy2 fMarkA fMarkB)
            (ntk.vCos.map fun pNode => Abc_ObjChild0 ntk pNode)).pCopy (Abc_ObjRegular pNode))
            (Abc_ObjIsComplement pNode)) =
        (ntk.vCos.map fun pNode => Abc_ObjChild0 ntk pNode).map (fun pNode =>
          toLitCond ((Abc_NtkMiterSatCreateInt_addVars
            (Abc_NtkMiterSatCreateInt_const ntk pSat pCopy fMarkA fMarkB)
            (ntk.vCos.map fun pNode => Abc_ObjChild0 ntk pNode)).pCopy (Abc_ObjRegular pNode))
            (Abc_ObjIsComplement pNode)) := by
      apply List.map_congr_left
      intro p hp
      rw [Abc_ObjRegular, e5 _ (hmarked p hp)]
    simp only [Abc_NtkClauseTop, e1, hcl]
    exact ⟨trivial, rfl, e2, e3, e4, e5⟩
  have hinv := Abc_NtkMiterSatCreateInt_top_allocInv ntk pSat pCopy fMarkA fMarkB hA
  unfold Abc_NtkMiterSatCreateInt at h ⊢
  simp only at h ⊢
  rw [htop.1]
  by_cases ht : (!(Abc_NtkMiterSatCreateInt_top ntk pSat pCopy fMarkA fMarkB).1) = true
  · simp only [ht, if_true, Option.some.injEq, Prod.mk.injEq] at h ⊢
    obtain ⟨rfl, rfl⟩ := h
    exact ⟨_, ⟨rfl, rfl⟩, htop.2⟩
  · simp only [ht, if_false] at h ⊢
    exact Abc_NtkMiterSatCreateInt_loop_same ntk true _ _ _ _ _ _ htop.2 hinv h

/-! ### The marks after the pass -/

/-- One step of the main loop sets no mark `fMarkB`. -/
theorem Abc_NtkMiterSatCreateInt_node_markB (ntk : Abc_Ntk) (fUseMuxes : Bool)
    (st : MiterState) (pNode : Nat) (ok : Bool) (st1 : MiterState)
    (h : Abc_NtkMiterSatCreateInt_node ntk fUseMuxes st pNode = some (ok, st1)) :
    ∀ id, st1.fMarkB id = true → st.fMarkB id = true := by
  unfold Abc_NtkMiterSatCreateInt_node at h
  split_ifs at h with hmux
  · simp only [Option.some.injEq, Prod.mk.injEq] at h
    obtain ⟨_, rfl⟩ := h
    intro id hid
    have := (addVars_spec [{ Id := (Abc_NodeRecognizeMux ntk pNode).1, fCompl := false },
      (Abc_NodeRecognizeMux ntk pNode).2.1, (Abc_NodeRecognizeMux ntk pNode).2.2] st).2.2.1
    simp only at hid
    rw [this] at hid
    exact hid
  · cases hsup : Abc_NtkCollectSupergate ntk { Id := pNode, fCompl := false } fUseMuxes
        st.fMarkB with
    | none => rw [hsup] at h; exact absurd h (by simp)
    | some sup =>
      rw [hsup] at h
      simp only at h
      have hb := (addVars_spec sup.vSuper { st with fMarkB := sup.fMarkB }).2.2.1
      have hsub := Abc_NtkCollectSupergate_marks ntk fUseMuxes st.fMarkB
        { Id := pNode, fCompl := false } sup hsup
      intro id hid
      apply hsub
      split_ifs at h <;>
        (simp only [Option.some.injEq, Prod.mk.injEq] at h
         obtain ⟨_, rfl⟩ := h
         simp only at hid
         rw [hb] at hid
         exact hid)

/-- The main loop sets no mark `fMarkB`. -/
theorem Abc_NtkMiterSatCreateInt_loop_markB (ntk : Abc_Ntk) (fUseMuxes : Bool) :
    ∀ (fuel i : Nat) (st : MiterState) (r : Int) (st2 : MiterState),
      Abc_NtkMiterSatCreateInt_loop ntk fUseMuxes fuel i st = some (r, st2) →
      ∀ id, st2.fMarkB id = true → st.fMarkB id = true := by
  intro fuel
  induction fuel with
  | zero => intro i st r st2 h; exact absurd h (by simp [Abc_NtkMiterSatCreateInt_loop])
  | succ fuel ih =>
    intro i st r st2 h
    rw [Abc_NtkMiterSatCreateInt_loop] at h
    cases hget : st.vNodes.get? i with
    | none =>
      rw [hget] at h
      simp only [Option.some.injEq, Prod.mk.injEq] at h
      rw [← h.2]; exact fun _ hid => hid
    | some pNode =>
      rw [hget] at h
      simp only at h
      split_ifs at h with hand
      · exact ih _ _ _ _ h
      · cases hnode : Abc_NtkMiterSatCreateInt_node ntk fUseMuxes st pNode with
        | none => rw [hnode] at h; exact absurd h (by simp)
        | some p =>
          obtain ⟨ok, st1⟩ := p
          have h1 := Abc_NtkMiterSatCreateInt_node_markB ntk fUseMuxes st pNode ok st1 hnode
          rw [hnode] at h
          cases ok with
          | false =>
            simp only [Option.some.injEq, Prod.mk.injEq] at h
            rw [← h.2]; exact h1
          | true =>
            simp only at h
            exact fun id hid => h1 id (ih _ _ _ _ h id hid)

/-- The pass sets no mark `fMarkB`: a node that is marked when the pass returns was
marked on entry. -/
theorem Abc_NtkMiterSatCreateInt_markB (ntk : Abc_Ntk) (pSat : sat_solver)
    (pCopy : Nat → Nat) (fMarkA fMarkB : Nat → Bool) (r : Int) (st : MiterState)
    (h : Abc_NtkMiterSatCreateInt ntk pSat pCopy fMarkA fMarkB = some (r, st)) :
    ∀ id, st.fMarkB id = true → fMarkB id = true := by
  have htop : (Abc_NtkMiterSatCreateInt_top ntk pSat pCopy fMarkA fMarkB).2.fMarkB = fMarkB := by
    rw [Abc_NtkMiterSatCreateInt_top_eq]
    exact (addVars_spec _ _).2.2.1
  unfold Abc_NtkMiterSatCreateInt at h
  simp only at h
  split_ifs at h
  · simp only [Option.some.injEq, Prod.mk.injEq] at h
    rw [← h.2, htop]; exact fun _ hid => hid
  · intro id hid
    have := Abc_NtkMiterSatCreateInt_loop_markB ntk true _ _ _ _ _ h id hid
    rw [htop] at this
    exact this

/-- On a well-formed network the main loop keeps the nodes of `vNodes` distinct, marked
and in the network. -/
theorem Abc_NtkMiterSatCreateInt_loop_varsInv (ntk : Abc_Ntk) (hwf : Abc_NtkInRange ntk) :
    ∀ (fuel i : Nat) (st : MiterState) (r : Int) (st2 : MiterState),
      Abc_NtkMiterSatCreateInt_loop ntk true fuel i st = some (r, st2) →
      VarsInv ntk st → VarsInv ntk st2 := by
  intro fuel
  induction fuel with
  | zero => intro i st r st2 h; exact absurd h (by simp [Abc_NtkMiterSatCreateInt_loop])
  | succ fuel ih =>
    intro i st r st2 h hinv
    rw [Abc_NtkMiterSatCreateInt_loop] at h
    cases hget : st.vNodes.get? i with
    | none =>
      rw [hget] at h
      simp only [Option.some.injEq, Prod.mk.injEq] at h
      rw [← h.2]; exact hinv
    | some pNode =>
      rw [hget] at h
      simp only at h
      split_ifs at h with hand
      · exact ih _ _ _ _ h hinv
      · obtain ⟨ok, st1, hnode, hinv1⟩ :=
          Abc_NtkMiterSatCreateInt_node_total ntk hwf st pNode (by simpa using hand) hinv
        rw [hnode] at h
        cases ok with
        | false =>
          simp only [Option.some.injEq, Prod.mk.injEq] at h
          rw [← h.2]; exact hinv1
        | true =>
          simp only at h
          exact ih _ _ _ _ h hinv1

/-- On a well-formed network the nodes of `vNodes` are distinct, marked and in the
network when the pass returns. -/
theorem Abc_NtkMiterSatCreateInt_varsInv (ntk : Abc_Ntk) (hwf : Abc_NtkInRange ntk)
    (pSat : sat_solver) (pCopy : Nat → Nat) (fMarkA fMarkB : Nat → Bool) (r : Int)
    (st : MiterState)
    (h : Abc_NtkMiterSatCreateInt ntk pSat pCopy fMarkA fMarkB = some (r, st)) :
    VarsInv ntk st := by
  have hconst : VarsInv ntk (Abc_NtkMiterSatCreateInt_const ntk pSat pCopy fMarkA fMarkB) := by
    refine ⟨by simp [Abc_NtkMiterSatCreateInt_const], ?_, ?_⟩
    · intro x hx
      simp only [Abc_NtkMiterSatCreateInt_const, List.mem_singleton] at hx
      simp [Abc_NtkMiterSatCreateInt_const, setFlag, hx]
    · intro x hx
      simp only [Abc_NtkMiterSatCreateInt_const, List.mem_singleton] at hx
      rw [hx]; exact hwf.const1InRange
  have htop : VarsInv ntk (Abc_NtkMiterSatCreateInt_top ntk pSat pCopy fMarkA fMarkB).2 := by
    rw [Abc_NtkMiterSatCreateInt_top_eq]
    apply addVars_varsInv ntk _ _ _ hconst
    intro p hp
    obtain ⟨co, hco, hp2⟩ := List.mem_map.1 hp
    rw [← hp2]
    exact hwf.cosInRange co hco
  unfold Abc_NtkMiterSatCreateInt at h
  simp only at h
  split_ifs at h
  · simp only [Option.some.injEq, Prod.mk.injEq] at h
    rw [← h.2]; exact htop
  · exact Abc_NtkMiterSatCreateInt_loop_varsInv ntk hwf _ _ _ _ _ h htop

/-- C13: on a well-formed strashed network with `fMarkA` and `fMarkB` clear, a run of
`Abc_NtkMiterSatCreate` returns and leaves `fMarkA` and `fMarkB` clear on every node;
a second run on the network as the first run left it returns the same result: the pass
`Abc_NtkMiterSatCreateInt` returns the same value after submitting the same sequence of
clauses, with the same list of nodes and the same variable for every node of the list.
So the two clause databases have the same solutions. -/
theorem C13_create_twice (E : SatEngine) (ntk : Abc_Ntk) (hwf : Abc_NtkInRange ntk)
    (m : NtkMarks) (hA : ∀ id, m.fMarkA id = false) (hB : ∀ id, m.fMarkB id = false) :
    ∃ r st1 o m1,
      Abc_NtkMiterSatCreateInt ntk (sat_solver_new E) m.pCopy m.fMarkA m.fMarkB =
        some (r, st1) ∧
      Abc_NtkMiterSatCreate E ntk m = some (o, m1) ∧
      (∀ id, m1.fMarkA id = false) ∧ (∀ id, m1.fMarkB id = false) ∧
      ∃ st2 m2,
        Abc_NtkMiterSatCreateInt ntk (sat_solver_new E) m1.pCopy m1.fMarkA m1.fMarkB =
          some (r, st2) ∧
        Abc_NtkMiterSatCreate E ntk m1 = some (o, m2) ∧
        st2.pSat.store = st1.pSat.store ∧
        st2.vNodes = st1.vNodes ∧
        (∀ x ∈ st1.vNodes, st2.pCopy x = st1.pCopy x) ∧
        (∀ a, cnfSat a st2.pSat.store = cnfSat a st1.pSat.store) ∧
        (∀ id, m2.fMarkA id = false) ∧ (∀ id, m2.fMarkB id = false) := by
  obtain ⟨r, st1, h1, _⟩ := Abc_NtkMiterSatCreateInt_total ntk hwf (sat_solver_new E)
    m.pCopy m.fMarkA m.fMarkB
  have hinv1 := Abc_NtkMiterSatCreateInt_allocInv ntk _ _ _ _ hA r st1 h1
  have hvars1 := Abc_NtkMiterSatCreateInt_varsInv ntk hwf _ _ _ _ r st1 h1
  have hb1 : ∀ id, st1.fMarkB id = false := by
    intro id
    by_contra hne
    have := Abc_NtkMiterSatCreateInt_markB ntk _ _ _ _ r st1 h1 id (by simpa using hne)
    rw [hB id] at this
    exact absurd this (by simp)
  have ha1 : ∀ id, (if id < Abc_NtkObjNumMax ntk then false else st1.fMarkA id) = false := by
    intro id
    split_ifs with hlt
    · rfl
    · by_contra hne
      have hmem := (hinv1.2.2 id).1 (by simpa using hne)
      exact hlt (hvars1.2.2 id hmem)
  have hfa : (fun id => if id < Abc_NtkObjNumMax ntk then false else st1.fMarkA id) = m.fMarkA := by
    funext id; rw [ha1 id, hA id]
  have hfb : st1.fMarkB = m.fMarkB := by
    funext id; rw [hb1 id, hB id]
  obtain ⟨st2, h2, hs1, hs2, hs3, hs4, hs5⟩ := Abc_NtkMiterSatCreateInt_same ntk
    (sat_solver_new E) m.pCopy st1.pCopy m.fMarkA m.fMarkB hA r st1 h1
  have ha2 : ∀ id, (if id < Abc_NtkObjNumMax ntk then false else st2.fMarkA id) = false := by
    intro id; rw [hs3]; exact ha1 id
  have hc1 : Abc_NtkMiterSatCreate E ntk m =
      some (if r = 0 then none else some st1.pSat,
        { pCopy := st1.pCopy
          fMarkA := fun id => if id < Abc_NtkObjNumMax ntk then false else st1.fMarkA id
          fMarkB := st1.fMarkB }) := by
    simp only [Abc_NtkMiterSatCreate, h1]
    split_ifs <;> rfl
  have hc2 : Abc_NtkMiterSatCreate E ntk
        { pCopy := st1.pCopy
          fMarkA := fun id => if id < Abc_NtkObjNumMax ntk then false else st1.fMarkA id
          fMarkB := st1.fMarkB } =
      some (if r = 0 then none else some st1.pSat,
        { pCopy := st2.pCopy
          fMarkA := fun id => if id < Abc_NtkObjNumMax ntk then false else st2.fMarkA id
          fMarkB := st2.fMarkB }) := by
    simp only [Abc_NtkMiterSatCreate, hfa, hfb, h2, hs1]
    split_ifs <;> rfl
  refine ⟨r, st1, _, _, h1, hc1, ha1, hb1, st2, _, ?_, hc2, by rw [hs1], hs2, ?_, ?_, ha2, ?_⟩
  · simp only [hfa, hfb]
    exact h2
  · intro x hx
    exact hs5 x ((hinv1.2.2 x).2 hx)
  · intro a
    rw [hs1]
  · intro id
    simp only [hs4]
    exact hb1 id

/-- Witness of C13: two runs on `netMux` with an engine that accepts every clause. -/
theorem C13_create_twice_witness :
    ∃ r st1 o m1,
      Abc_NtkMiterSatCreateInt netMux (sat_solver_new engineSat) cleanMarks.pCopy
        cleanMarks.fMarkA cleanMarks.fMarkB = some (r, st1) ∧
      Abc_NtkMiterSatCreate engineSat netMux cleanMarks = some (o, m1) ∧
      (∀ id, m1.fMarkA id = false) ∧ (∀ id, m1.fMarkB id = false) ∧
      ∃ st2 m2,
        Abc_NtkMiterSatCreateInt netMux (sat_solver_new engineSat) m1.pCopy m1.fMarkA
          m1.fMarkB = some (r, st2) ∧
        Abc_NtkMiterSatCreate engineSat netMux m1 = some (o, m2) ∧
        st2.pSat.store = st1.pSat.store ∧
        st2.vNodes = st1.vNodes ∧
        (∀ x ∈ st1.vNodes, st2.pCopy x = st1.pCopy x) ∧
        (∀ a, cnfSat a st2.pSat.store = cnfSat a st1.pSat.store) ∧
        (∀ id, m2.fMarkA id = false) ∧ (∀ id, m2.fMarkB id = false) :=
  C13_create_twice engineSat netMux netMux_isStrash.inRange cleanMarks (fun _ => rfl)
    (fun _ => rfl)

/-- The second of two runs of `Abc_NtkMiterSatCreate` on `netMux` loads the clauses that
the first run loads (see `netMux_clauses`), although the second run starts from the
`pCopy` that the first run left. -/
theorem netMux_twice :
    ((Abc_NtkMiterSatCreate engineSat netMux cleanMarks).bind fun x =>
        Abc_NtkMiterSatCreate engineSat netMux x.2).map
        (fun y => y.1.map fun pSat => pSat.store) =
      some (some [[0], [3], [5, 6, 2], [5, 7, 3], [4, 8, 2], [4, 9, 3], [7, 9, 3], [6, 8, 2]]) := by
  decide

/-! ### The confirmatory clauses on operands with the same variable -/

/-- When the then- and else-operands have the same variable and different polarities,
each of the two confirmatory clauses of the multiplexer template has a variable in both
polarities, so every assignment satisfies it. -/
theorem muxClauses_confirm_taut (pCopy : Nat → Nat) (pNode pNodeC : Nat)
    (pNodeT pNodeE : Abc_Ref)
    (hvar : pCopy (Abc_ObjRegular pNodeT) = pCopy (Abc_ObjRegular pNodeE))
    (hpol : Abc_ObjIsComplement pNodeT ≠ Abc_ObjIsComplement pNodeE) (a : Nat → Bool) :
    ∀ c ∈ (muxClauses pCopy pNode pNodeC pNodeT pNodeE).drop 4, clauseSat a c = true := by
  intro c hc
  simp only [muxClauses, List.drop_succ_cons, List.drop_zero, List.mem_cons,
    List.mem_singleton, List.not_mem_nil, or_false] at hc
  rcases hc with rfl | rfl <;>
    simp only [clauseSat, List.any_cons, List.any_nil, litVal_toLitCond, hvar] <;>
    cases a (pCopy (Abc_ObjRegular pNodeE)) <;>
    cases hT : Abc_ObjIsComplement pNodeT <;>
    cases hE : Abc_ObjIsComplement pNodeE <;>
    simp_all

/-- Counterexample to C21: the then-operand is node 2 and the else-operand its
complement, so they have the same variable and different polarities; no assignment
satisfies the four base clauses and violates one of the two confirmatory clauses. -/
theorem C21_counterexample :
    ¬ ∃ a : Nat → Bool,
      cnfSat a ((muxClauses copyId 6 1 ⟨2, false⟩ ⟨2, true⟩).take 4) = true ∧
      ∃ c ∈ (muxClauses copyId 6 1 ⟨2, false⟩ ⟨2, true⟩).drop 4, clauseSat a c = false := by
  rintro ⟨a, _, c, hc, hviol⟩
  rw [muxClauses_confirm_taut copyId 6 1 ⟨2, false⟩ ⟨2, true⟩ rfl (by decide) a c hc] at hviol
  exact absurd hviol (by simp)

/-- C21 (amended): when the then- and else-operands of a multiplexer have the same
variable and different polarities, every assignment satisfies the two confirmatory
clauses `(T' or E' or not F)` and `(not T' or not E' or F)` of the template; no
assignment satisfies the four base clauses and violates a confirmatory clause; and
`Abc_NtkClauseMux` submits clauses of the four base clauses only. -/
theorem C21_confirmatory_tautologies (pSat : sat_solver) (pCopy : Nat → Nat)
    (pNode pNodeC : Nat) (pNodeT pNodeE : Abc_Ref)
    (hvar : pCopy (Abc_ObjRegular pNodeT) = pCopy (Abc_ObjRegular pNodeE))
    (hpol : Abc_ObjIsComplement pNodeT ≠ Abc_ObjIsComplement pNodeE) :
    (∀ a : Nat → Bool,
      ∀ c ∈ (muxClauses pCopy pNode pNodeC pNodeT pNodeE).drop 4, clauseSat a c = true) ∧
    (¬ ∃ a : Nat → Bool,
      cnfSat a ((muxClauses pCopy pNode pNodeC pNodeT pNodeE).take 4) = true ∧
      ∃ c ∈ (muxClauses pCopy pNode pNodeC pNodeT pNodeE).drop 4, clauseSat a c = false) ∧
    ∃ k, k ≤ 4 ∧
      newClauses pSat (Abc_NtkClauseMux pSat pCopy pNode pNodeC pNodeT pNodeE).2 =
        (muxClauses pCopy pNode pNodeC pNodeT pNodeE).take k := by
  refine ⟨fun a => muxClauses_confirm_taut pCopy pNode pNodeC pNodeT pNodeE hvar hpol a, ?_, ?_⟩
  · rintro ⟨a, _, c, hc, hviol⟩
    rw [muxClauses_confirm_taut pCopy pNode pNodeC pNodeT pNodeE hvar hpol a c hc] at hviol
    exact absurd hviol (by simp)
  · rw [Abc_NtkClauseMux_eq_addclauses]
    simp only [hvar, if_true]
    obtain ⟨k, hk, hst, _⟩ := sat_solver_addclauses_store
      ((muxClauses pCopy pNode pNodeC pNodeT pNodeE).take 4) pSat
    refine ⟨k, ?_, ?_⟩
    · have : ((muxClauses pCopy pNode pNodeC pNodeT pNodeE).take 4).length = 4 := by
        simp [muxClauses]
      omega
    · rw [newClauses_of_store _ _ _ hst, List.take_take]
      congr 1
      have : ((muxClauses pCopy pNode pNodeC pNodeT pNodeE).take 4).length = 4 := by
        simp [muxClauses]
      omega

/-- Witness of C21: the operands of the counterexample, on a solver that accepts every
clause. -/
theorem C21_confirmatory_tautologies_witness :
    (∀ a : Nat → Bool,
      ∀ c ∈ (muxClauses copyId 6 1 ⟨2, false⟩ ⟨2, true⟩).drop 4, clauseSat a c = true) ∧
    (¬ ∃ a : Nat → Bool,
      cnfSat a ((muxClauses copyId 6 1 ⟨2, false⟩ ⟨2, true⟩).take 4) = true ∧
      ∃ c ∈ (muxClauses copyId 6 1 ⟨2, false⟩ ⟨2, true⟩).drop 4, clauseSat a c = false) ∧
    ∃ k, k ≤ 4 ∧
      newClauses satAccept (Abc_NtkClauseMux satAccept copyId 6 1 ⟨2, false⟩ ⟨2, true⟩).2 =
        (muxClauses copyId 6 1 ⟨2, false⟩ ⟨2, true⟩).take k :=
  C21_confirmatory_tautologies satAccept copyId 6 1 ⟨2, false⟩ ⟨2, true⟩ rfl (by decide)

/-! ### The assertions of the supergate collection -/

/-- The ghost flag does not change the recursion. -/
theorem Abc_NtkCollectSupergate_rec_checked_erase (ntk : Abc_Ntk) (fStopAtMux : Bool) :
    ∀ (fuel : Nat) (pNode : Abc_Ref) (fFirst : Bool) (st : SuperState),
      (Abc_NtkCollectSupergate_rec_checked ntk fStopAtMux fuel pNode fFirst st).map
          (fun r => (r.1, r.2.1)) =
        Abc_NtkCollectSupergate_rec ntk fStopAtMux fuel pNode fFirst st := by
  intro fuel
  induction fuel with
  | zero => intro pNode fFirst st; rfl
  | succ fuel ih =>
    intro pNode fFirst st
    rw [Abc_NtkCollectSupergate_rec_succ, Abc_NtkCollectSupergate_rec_checked]
    split_ifs with hm hleaf
    · rfl
    · rfl
    · rw [← ih (Abc_ObjChild0 ntk pNode.Id) false st]
      cases h1 : Abc_NtkCollectSupergate_rec_checked ntk fStopAtMux fuel
          (Abc_ObjChild0 ntk pNode.Id) false st with
      | none => rfl
      | some p1 =>
        obtain ⟨r1, st1, b1⟩ := p1
        simp only [Option.map_some']
        rw [← ih (Abc_ObjChild1 ntk pNode.Id) false st1]
        cases h2 : Abc_NtkCollectSupergate_rec_checked ntk fStopAtMux fuel
            (Abc_ObjChild1 ntk pNode.Id) false st1 with
        | none => rfl
        | some p2 =>
          obtain ⟨r2, st2, b2⟩ := p2
          simp only [Option.map_some']
          split_ifs <;> rfl

/-- A result of the recursion with the ghost flag is a result of the recursion. -/
theorem Abc_NtkCollectSupergate_rec_of_checked (ntk : Abc_Ntk) (fStopAtMux : Bool)
    (fuel : Nat) (pNode : Abc_Ref) (fFirst : Bool) (st : SuperState) (r : Int)
    (st2 : SuperState) (b : Bool)
    (h : Abc_NtkCollectSupergate_rec_checked ntk fStopAtMux fuel pNode fFirst st =
      some (r, st2, b)) :
    Abc_NtkCollectSupergate_rec ntk fStopAtMux fuel pNode fFirst st = some (r, st2) := by
  rw [← Abc_NtkCollectSupergate_rec_checked_erase, h]
  rfl

/-- A result of the recursion comes with a value of the ghost flag. -/
theorem Abc_NtkCollectSupergate_rec_checked_of (ntk : Abc_Ntk) (fStopAtMux : Bool)
    (fuel : Nat) (pNode : Abc_Ref) (fFirst : Bool) (st : SuperState) (r : Int)
    (st2 : SuperState)
    (h : Abc_NtkCollectSupergate_rec ntk fStopAtMux fuel pNode fFirst st = some (r, st2)) :
    ∃ b, Abc_NtkCollectSupergate_rec_checked ntk fStopAtMux fuel pNode fFirst st =
      some (r, st2, b) := by
  have herase := Abc_NtkCollectSupergate_rec_checked_erase ntk fStopAtMux fuel pNode fFirst st
  rw [h] at herase
  cases hx : Abc_NtkCollectSupergate_rec_checked ntk fStopAtMux fuel pNode fFirst st with
  | none => rw [hx] at herase; exact absurd herase (by simp)
  | some q =>
    obtain ⟨r', st', b⟩ := q
    rw [hx] at herase
    simp only [Option.map_some', Option.some.injEq, Prod.mk.injEq] at herase
    obtain ⟨rfl, rfl⟩ := herase
    exact ⟨b, rfl⟩

/-- When every mark belongs to a node of the leaf list, a reference to a marked node is
in the list in the same or in the opposite polarity, so one of the two searches of
`Abc_NtkCollectSupergate_rec` finds it. -/
theorem Abc_NtkCollectSupergate_find_of_markInv (st : SuperState) (pNode : Abc_Ref)
    (hinv : MarkInv st) (hm : st.fMarkB (Abc_ObjRegular pNode) = true) :
    (pNode ∈ st.vSuper ∨ Abc_ObjNot pNode ∈ st.vSuper) ∧
    (Abc_NtkCollectSupergate_find st.vSuper pNode = some 1 ∨
      Abc_NtkCollectSupergate_find st.vSuper pNode = some (-1)) := by
  obtain ⟨q, hq, hqid⟩ := hinv _ hm
  have hmem : pNode ∈ st.vSuper ∨ Abc_ObjNot pNode ∈ st.vSuper := by
    rcases Abc_Ref_eq_or_not pNode q (by simpa [Abc_ObjRegular] using hqid.symm) with h | h
    · exact Or.inl (h ▸ hq)
    · right
      have : Abc_ObjNot pNode = q := by
        rw [h]
        obtain ⟨qi, qc⟩ := q
        simp [Abc_ObjNot]
      exact this ▸ hq
  refine ⟨hmem, ?_⟩
  rcases Abc_NtkCollectSupergate_find_cases st.vSuper pNode with h | h | h
  · exact Or.inl h.1
  · exact Or.inr h.1
  · rcases hmem with h1 | h1
    · exact absurd h1 h.2.1
    · exact absurd h1 h.2.2

/-- When every mark belongs to a node of the leaf list on entry, no call of the recursion
reaches the `assert( 0 )`, and every mark belongs to a node of the leaf list on return. -/
theorem Abc_NtkCollectSupergate_rec_checked_ok (ntk : Abc_Ntk) (fStopAtMux : Bool) :
    ∀ (fuel : Nat) (pNode : Abc_Ref) (fFirst : Bool) (st : SuperState) (r : Int)
      (st2 : SuperState) (b : Bool),
      Abc_NtkCollectSupergate_rec_checked ntk fStopAtMux fuel pNode fFirst st =
        some (r, st2, b) →
      MarkInv st → b = false ∧ MarkInv st2 := by
  intro fuel
  induction fuel with
  | zero =>
    intro pNode fFirst st r st2 b h
    exact absurd h (by simp [Abc_NtkCollectSupergate_rec_checked])
  | succ fuel ih =>
    intro pNode fFirst st r st2 b h hinv
    have hinv2 : MarkInv st2 := MarkInv_rec ntk fStopAtMux _ _ _ _ _ _
      (Abc_NtkCollectSupergate_rec_of_checked ntk fStopAtMux _ _ _ _ _ _ _ h) hinv
    refine ⟨?_, hinv2⟩
    rw [Abc_NtkCollectSupergate_rec_checked] at h
    split_ifs at h with hm hleaf
    · simp only [Option.some.injEq, Prod.mk.injEq] at h
      obtain ⟨_, _, rfl⟩ := h
      rcases (Abc_NtkCollectSupergate_find_of_markInv st pNode hinv hm).2 with hf | hf <;>
        simp [hf]
    · simp only [Option.some.injEq, Prod.mk.injEq] at h
      exact h.2.2.symm
    · cases h1 : Abc_NtkCollectSupergate_rec_checked ntk fStopAtMux fuel
          (Abc_ObjChild0 ntk pNode.Id) false st with
      | none => rw [h1] at h; exact absurd h (by simp)
      | some p1 =>
        obtain ⟨r1, st1, b1⟩ := p1
        rw [h1] at h
        simp only at h
        cases h2 : Abc_NtkCollectSupergate_rec_checked ntk fStopAtMux fuel
            (Abc_ObjChild1 ntk pNode.Id) false st1 with
        | none => rw [h2] at h; exact absurd h (by simp)
        | some p2 =>
          obtain ⟨r2, st3, b2⟩ := p2
          rw [h2] at h
          simp only at h
          obtain ⟨hb1, hinv1⟩ := ih _ _ _ _ _ _ h1 hinv
          obtain ⟨hb2, _⟩ := ih _ _ _ _ _ _ h2 hinv1
          have hb : b = (b1 || b2) := by
            split_ifs at h <;>
              (simp only [Option.some.injEq, Prod.mk.injEq] at h
               exact h.2.2.symm)
          rw [hb, hb1, hb2]
          rfl

/-- C23: when `fMarkB` is clear on every node at the start of the top-level collection,
no call of `Abc_NtkCollectSupergate_rec` reaches the `assert( 0 )`: at every call every
mark belongs to a node of the leaf list, so a reference to a marked node is in the list in
the same or in the opposite polarity and one of the two searches returns. The collection
of an AND root of an acyclic AIG does return, with the result of the recursion. -/
theorem C23_assert_unreachable (ntk : Abc_Ntk) (fStopAtMux : Bool) (fMarkB : Nat → Bool)
    (hclear : ∀ id, fMarkB id = false) (pNode : Abc_Ref) :
    (∀ r st b, Abc_NtkCollectSupergate_rec_checked ntk fStopAtMux
        ((Abc_NtkObj ntk pNode.Id).Level + 1) pNode true { vSuper := [], fMarkB := fMarkB } =
          some (r, st, b) → b = false) ∧
    (∀ fuel p fFirst st r st2 b, MarkInv st →
      Abc_NtkCollectSupergate_rec_checked ntk fStopAtMux fuel p fFirst st = some (r, st2, b) →
      b = false ∧ MarkInv st2) ∧
    (∀ st p, MarkInv st → st.fMarkB (Abc_ObjRegular p) = true →
      (p ∈ st.vSuper ∨ Abc_ObjNot p ∈ st.vSuper) ∧
      (Abc_NtkCollectSupergate_find st.vSuper p = some 1 ∨
        Abc_NtkCollectSupergate_find st.vSuper p = some (-1))) ∧
    (Acyclic ntk → Abc_ObjIsNode ntk pNode.Id = true →
      ∃ r st, Abc_NtkCollectSupergate_rec_checked ntk fStopAtMux
          ((Abc_NtkObj ntk pNode.Id).Level + 1) pNode true { vSuper := [], fMarkB := fMarkB } =
            some (r, st, false) ∧
        Abc_NtkCollectSupergate_rec ntk fStopAtMux ((Abc_NtkObj ntk pNode.Id).Level + 1)
          pNode true { vSuper := [], fMarkB := fMarkB } = some (r, st)) := by
  have h0 : MarkInv { vSuper := [], fMarkB := fMarkB } := by
    intro id hid
    simp only at hid
    rw [hclear id] at hid
    exact absurd hid (by simp)
  refine ⟨?_, ?_, ?_, ?_⟩
  · intro r st b h
    exact (Abc_NtkCollectSupergate_rec_checked_ok ntk fStopAtMux _ _ _ _ _ _ _ h h0).1
  · intro fuel p fFirst st r st2 b hinv h
    exact Abc_NtkCollectSupergate_rec_checked_ok ntk fStopAtMux _ _ _ _ _ _ _ h hinv
  · intro st p hinv hm
    exact Abc_NtkCollectSupergate_find_of_markInv st p hinv hm
  · intro hac hand
    obtain ⟨r, st, hrec⟩ := Abc_NtkCollectSupergate_rec_total ntk fStopAtMux hac
      ((Abc_NtkObj ntk pNode.Id).Level + 1) pNode true { vSuper := [], fMarkB := fMarkB }
      (Nat.lt_succ_self _) (fun _ => hand)
    obtain ⟨b, hb⟩ := Abc_NtkCollectSupergate_rec_checked_of ntk fStopAtMux _ _ _ _ _ _ hrec
    have := (Abc_NtkCollectSupergate_rec_checked_ok ntk fStopAtMux _ _ _ _ _ _ _ hb h0).1
    subst this
    exact ⟨r, st, hb, hrec⟩

/-- Witness of C23: node 4 of `netChain`, where the marked input 1 is met a second time
and is found in the opposite polarity. -/
theorem C23_assert_unreachable_witness :
    ∃ r st, Abc_NtkCollectSupergate_rec_checked netChain true
        ((Abc_NtkObj netChain (⟨4, false⟩ : Abc_Ref).Id).Level + 1) ⟨4, false⟩ true
        { vSuper := [], fMarkB := noMarks } = some (r, st, false) ∧
      Abc_NtkCollectSupergate_rec netChain true
        ((Abc_NtkObj netChain (⟨4, false⟩ : Abc_Ref).Id).Level + 1) ⟨4, false⟩ true
        { vSuper := [], fMarkB := noMarks } = some (r, st) :=
  (C23_assert_unreachable netChain true noMarks (fun _ => rfl) ⟨4, false⟩).2.2.2
    (Acyclic_of_check netChain (by decide)) (by decide)

theorem two_le_length_of_mem_ne {α : Type} (l : List α) (x y : α) (hx : x ∈ l) (hy : y ∈ l)
    (hne : x ≠ y) : 2 ≤ l.length := by
  match l, hx, hy with
  | [], hx, _ => simp at hx
  | [z], hx, hy =>
    simp only [List.mem_singleton] at hx hy
    exact absurd (hx.trans hy.symm) hne
  | _ :: _ :: _, _, _ => simp

/-- A call on a marked node that does not reach the `assert( 0 )` leaves the state as it
is, and the node is in the leaf list. -/
theorem Abc_NtkCollectSupergate_rec_checked_marked (ntk : Abc_Ntk) (fStopAtMux : Bool)
    (fuel : Nat) (pNode : Abc_Ref) (fFirst : Bool) (st : SuperState) (r : Int)
    (st2 : SuperState)
    (h : Abc_NtkCollectSupergate_rec_checked ntk fStopAtMux fuel pNode fFirst st =
      some (r, st2, false))
    (hm : st.fMarkB (Abc_ObjRegular pNode) = true) :
    st2 = st ∧ ∃ e ∈ st.vSuper, e.Id = pNode.Id := by
  cases fuel with
  | zero => exact absurd h (by simp [Abc_NtkCollectSupergate_rec_checked])
  | succ fuel =>
    rw [Abc_NtkCollectSupergate_rec_checked] at h
    simp only [hm, if_true, Option.some.injEq, Prod.mk.injEq] at h
    obtain ⟨_, hst, hnone⟩ := h
    refine ⟨hst.symm, ?_⟩
    rcases Abc_NtkCollectSupergate_find_cases st.vSuper pNode with hf | hf | hf
    · exact ⟨pNode, hf.2, rfl⟩
    · exact ⟨Abc_ObjNot pNode, hf.2, rfl⟩
    · rw [hf.1] at hnone
      simp at hnone

/-- In a network in which the two fanins of every AND node are different nodes, a call of
the recursion on an unmarked node that does not reach the `assert( 0 )` either appends
the reference as a leaf or, when it expands the node, returns with at least two leaves in
the list. -/
theorem Abc_NtkCollectSupergate_rec_checked_two (ntk : Abc_Ntk) (fStopAtMux : Bool)
    (hdist : ∀ id, Abc_ObjIsNode ntk id = true →
      (Abc_NtkObj ntk id).Fanin0 ≠ (Abc_NtkObj ntk id).Fanin1) :
    ∀ (fuel : Nat) (pNode : Abc_Ref) (fFirst : Bool) (st : SuperState) (r : Int)
      (st2 : SuperState),
      Abc_NtkCollectSupergate_rec_checked ntk fStopAtMux fuel pNode fFirst st =
        some (r, st2, false) →
      (fFirst = true → Abc_ObjIsNode ntk pNode.Id = true) →
      st.fMarkB (Abc_ObjRegular pNode) = false →
      (fFirst = false ∧ st2.vSuper = st.vSuper ++ [pNode]) ∨ 2 ≤ st2.vSuper.length := by
  intro fuel
  induction fuel with
  | zero =>
    intro pNode fFirst st r st2 h
    exact absurd h (by simp [Abc_NtkCollectSupergate_rec_checked])
  | succ fuel ih =>
    intro pNode fFirst st r st2 h hfirst hunm
    rw [Abc_NtkCollectSupergate_rec_checked] at h
    split_ifs at h with hm hleaf
    · rw [hunm] at hm
      exact absurd hm (by simp)
    · simp only [Option.some.injEq, Prod.mk.injEq] at h
      left
      refine ⟨?_, by rw [← h.2.1]⟩
      simp only [Bool.and_eq_true, Bool.not_eq_true'] at hleaf
      exact hleaf.1
    · have hnode : Abc_ObjIsNode ntk pNode.Id = true := by
        cases hf : fFirst with
        | true => exact hfirst hf
        | false =>
          rw [hf] at hleaf
          simp only [Bool.not_false, Bool.true_and, Bool.or_eq_true, Bool.not_eq_true',
            not_or] at hleaf
          simpa using hleaf.1.1.2
      have hne : (Abc_ObjChild0 ntk pNode.Id).Id ≠ (Abc_ObjChild1 ntk pNode.Id).Id :=
        hdist pNode.Id hnode
      cases h1 : Abc_NtkCollectSupergate_rec_checked ntk fStopAtMux fuel
          (Abc_ObjChild0 ntk pNode.Id) false st with
      | none => rw [h1] at h; exact absurd h (by simp)
      | some p1 =>
        obtain ⟨r1, st1, b1⟩ := p1
        rw [h1] at h
        simp only at h
        cases h2 : Abc_NtkCollectSupergate_rec_checked ntk fStopAtMux fuel
            (Abc_ObjChild1 ntk pNode.Id) false st1 with
        | none => rw [h2] at h; exact absurd h (by simp)
        | some p2 =>
          obtain ⟨r2, st3, b2⟩ := p2
          rw [h2] at h
          simp only at h
          have hst : st2 = st3 ∧ (b1 || b2) = false := by
            split_ifs at h <;>
              (simp only [Option.some.injEq, Prod.mk.injEq] at h
               exact ⟨h.2.1.symm, h.2.2⟩)
          obtain ⟨rfl, hb⟩ := hst
          simp only [Bool.or_eq_false_iff] at hb
          obtain ⟨rfl, rfl⟩ := hb
          obtain ⟨_, new2, hn2, _⟩ := Abc_NtkCollectSupergate_rec_shape ntk fStopAtMux _ _ _ _ _ _
            (Abc_NtkCollectSupergate_rec_of_checked ntk fStopAtMux _ _ _ _ _ _ _ h2)
          have hmono : st1.vSuper.length ≤ st2.vSuper.length := by
            rw [hn2, List.length_append]; omega
          right
          by_cases m0 : st.fMarkB (Abc_ObjRegular (Abc_ObjChild0 ntk pNode.Id)) = true
          · obtain ⟨hst1, e, he, heid⟩ :=
              Abc_NtkCollectSupergate_rec_checked_marked ntk fStopAtMux _ _ _ _ _ _ h1 m0
            subst hst1
            by_cases m1 : st1.fMarkB (Abc_ObjRegular (Abc_ObjChild1 ntk pNode.Id)) = true
            · obtain ⟨_, e2, he2, he2id⟩ :=
                Abc_NtkCollectSupergate_rec_checked_marked ntk fStopAtMux _ _ _ _ _ _ h2 m1
              have : e ≠ e2 := by
                intro heq
                rw [heq, he2id] at heid
                exact hne heid.symm
              have := two_le_length_of_mem_ne st1.vSuper e e2 he he2 this
              omega
            · rcases ih _ _ _ _ _ h2 (by simp) (by simpa using m1) with ⟨_, hl⟩ | hl
              · have hpos : 0 < st1.vSuper.length := List.length_pos_of_mem he
                rw [hl, List.length_append]
                simp only [List.length_cons, List.length_nil]
                omega
              · exact hl
          · rcases ih _ _ _ _ _ h1 (by simp) (by simpa using m0) with ⟨_, hl1⟩ | hl1
            · by_cases m1 : st1.fMarkB (Abc_ObjRegular (Abc_ObjChild1 ntk pNode.Id)) = true
              · obtain ⟨_, e2, he2, he2id⟩ :=
                  Abc_NtkCollectSupergate_rec_checked_marked ntk fStopAtMux _ _ _ _ _ _ h2 m1
                have hw0 : Abc_ObjChild0 ntk pNode.Id ∈ st1.vSuper := by
                  rw [hl1]; simp
                have : Abc_ObjChild0 ntk pNode.Id ≠ e2 := by
                  intro heq
                  rw [← heq] at he2id
                  exact hne he2id
                have := two_le_length_of_mem_ne st1.vSuper _ e2 hw0 he2 this
                omega
              · rcases ih _ _ _ _ _ h2 (by simp) (by simpa using m1) with ⟨_, hl⟩ | hl
                · rw [hl, hl1]
                  simp
                · exact hl
            · omega

theorem fanins_distinct_of_check (ntk : Abc_Ntk) (h : Abc_NtkCheckFanins ntk = true) :
    ∀ id, Abc_ObjIsNode ntk id = true →
      (Abc_NtkObj ntk id).Fanin0 ≠ (Abc_NtkObj ntk id).Fanin1 := by
  intro id hn
  simp only [Abc_NtkCheckFanins, List.all_eq_true, List.mem_range, Bool.or_eq_true,
    Bool.not_eq_true', decide_eq_true_eq] at h
  rcases h id (Abc_ObjIsNode_lt ntk id hn) with h1 | h1
  · rw [hn] at h1
    exact absurd h1 (by simp)
  · exact h1

/-- C24: in an acyclic AIG in which the two fanins of every AND node are different nodes,
for every AND root, every collection by `Abc_NtkCollectSupergate_rec` that returns without
reaching the `assert( 0 )` of line 373 leaves at least two entries in the leaf list,
whatever the return value is: with duplicates that are skipped and on the contradiction
path as well. When `fMarkB` is clear on entry the collection returns in this way, so the
condition of `assert( vNodes->nSize > 1 )` in `Abc_NtkCollectSupergate` holds. -/
theorem C24_supergate_two_leaves (ntk : Abc_Ntk) (hac : Acyclic ntk)
    (hdist : ∀ id, Abc_ObjIsNode ntk id = true →
      (Abc_NtkObj ntk id).Fanin0 ≠ (Abc_NtkObj ntk id).Fanin1)
    (fStopAtMux : Bool) (pNode : Abc_Ref) (hand : Abc_ObjIsNode ntk pNode.Id = true) :
    (∀ fMarkB r st, Abc_NtkCollectSupergate_rec_checked ntk fStopAtMux
        ((Abc_NtkObj ntk pNode.Id).Level + 1) pNode true { vSuper := [], fMarkB := fMarkB } =
          some (r, st, false) → 2 ≤ st.vSuper.length) ∧
    (∀ fMarkB, (∀ id, fMarkB id = false) →
      ∃ r st, Abc_NtkCollectSupergate_rec_checked ntk fStopAtMux
          ((Abc_NtkObj ntk pNode.Id).Level + 1) pNode true { vSuper := [], fMarkB := fMarkB } =
            some (r, st, false) ∧
        Abc_NtkCollectSupergate_rec ntk fStopAtMux ((Abc_NtkObj ntk pNode.Id).Level + 1)
          pNode true { vSuper := [], fMarkB := fMarkB } = some (r, st) ∧
        2 ≤ st.vSuper.length) := by
  have key : ∀ fMarkB r st, Abc_NtkCollectSupergate_rec_checked ntk fStopAtMux
      ((Abc_NtkObj ntk pNode.Id).Level + 1) pNode true { vSuper := [], fMarkB := fMarkB } =
        some (r, st, false) → 2 ≤ st.vSuper.length := by
    intro fMarkB r st h
    have hunm : fMarkB (Abc_ObjRegular pNode) = false := by
      by_contra hne
      obtain ⟨_, e, he, _⟩ := Abc_NtkCollectSupergate_rec_checked_marked ntk fStopAtMux _ _ _
        { vSuper := [], fMarkB := fMarkB } _ _ h (by simpa using hne)
      simp at he
    rcases Abc_NtkCollectSupergate_rec_checked_two ntk fStopAtMux hdist _ _ _ _ _ _ h
      (fun _ => hand) hunm with ⟨hf, _⟩ | hl
    · exact absurd hf (by simp)
    · exact hl
  refine ⟨key, ?_⟩
  intro fMarkB hclear
  have h0 : MarkInv { vSuper := [], fMarkB := fMarkB } := by
    intro id hid
    simp only at hid
    rw [hclear id] at hid
    exact absurd hid (by simp)
  obtain ⟨r, st, hrec⟩ := Abc_NtkCollectSupergate_rec_total ntk fStopAtMux hac
    ((Abc_NtkObj ntk pNode.Id).Level + 1) pNode true { vSuper := [], fMarkB := fMarkB }
    (Nat.lt_succ_self _) (fun _ => hand)
  obtain ⟨b, hb⟩ := Abc_NtkCollectSupergate_rec_checked_of ntk fStopAtMux _ _ _ _ _ _ hrec
  have := (Abc_NtkCollectSupergate_rec_checked_ok ntk fStopAtMux _ _ _ _ _ _ _ hb h0).1
  subst this
  exact ⟨r, st, hb, hrec, key fMarkB r st hb⟩

/-- Witness of C24: node 4 of `netChain` with clear marks: the collection takes the
contradiction path and the collected list has the two inputs. -/
theorem C24_supergate_two_leaves_witness :
    ∃ r st, Abc_NtkCollectSupergate_rec_checked netChain true
        ((Abc_NtkObj netChain (⟨4, false⟩ : Abc_Ref).Id).Level + 1) ⟨4, false⟩ true
        { vSuper := [], fMarkB := noMarks } = some (r, st, false) ∧
      Abc_NtkCollectSupergate_rec netChain true
        ((Abc_NtkObj netChain (⟨4, false⟩ : Abc_Ref).Id).Level + 1) ⟨4, false⟩ true
        { vSuper := [], fMarkB := noMarks } = some (r, st) ∧
      2 ≤ st.vSuper.length :=
  (C24_supergate_two_leaves netChain (Acyclic_of_check netChain (by decide))
    (fanins_distinct_of_check netChain (by decide)) true ⟨4, false⟩ (by decide)).2 noMarks
    (fun _ => rfl)

/-- What happens when marks are left on the fanins of the root: on node 3 of `netShared`
with `fMarkB` set on the inputs 1 and 2, both fanins are taken for visited, neither
search finds them, the `assert( 0 )` is reached twice, and the list stays empty. -/
theorem netShared_marked_fanins :
    (Abc_NtkCollectSupergate_rec_checked netShared true 2 ⟨3, false⟩ true
        { vSuper := [], fMarkB := fun id => id == 1 || id == 2 }).map
        (fun x => (x.1, x.2.1.vSuper, x.2.2)) = some (0, [], true) := by
  decide

/-! ### The variables of the submitted clauses -/

theorem AllocInv_var (st : MiterState) (h : AllocInv st) (x : Nat)
    (hx : st.fMarkA x = true) : st.pCopy x < st.vNodes.length ∧ x ∈ st.vNodes := by
  have hmem := (h.2.2 x).1 hx
  obtain ⟨i, hi, rfl⟩ := List.getElem_of_mem hmem
  rw [h.2.1 i hi]
  exact ⟨hi, hmem⟩

theorem VarsAllocated_of_marked (st : MiterState) (cls : List (List Nat))
    (hinv : AllocInv st)
    (h : ∀ c ∈ cls, ∀ l ∈ c, ∃ x, st.fMarkA x = true ∧ lit_var l = st.pCopy x) :
    VarsAllocated st cls := by
  intro c hc l hl
  obtain ⟨x, hx, hv⟩ := h c hc l hl
  obtain ⟨hlt, hmem⟩ := AllocInv_var st hinv x hx
  rw [hv]
  exact ⟨hlt, x, hmem, rfl⟩

theorem VarsAllocated_mono (st st2 : MiterState) (cls : List (List Nat))
    (hinv : AllocInv st) (hext : Extends st st2) (h : VarsAllocated st cls) :
    VarsAllocated st2 cls := by
  intro c hc l hl
  obtain ⟨hlt, x, hx, hv⟩ := h c hc l hl
  obtain ⟨more, hmore⟩ := hext.2.2.1
  refine ⟨by rw [hmore, List.length_append]; omega, x, by rw [hmore]; simp [hx], ?_⟩
  rw [(hext.2.2.2 x ((hinv.2.2 x).2 hx)).2]
  exact hv

theorem VarsAllocated_append (st : MiterState) (c1 c2 : List (List Nat))
    (h1 : VarsAllocated st c1) (h2 : VarsAllocated st c2) : VarsAllocated st (c1 ++ c2) := by
  intro c hc
  rcases List.mem_append.1 hc with h | h
  · exact h1 c h
  · exact h2 c h

/-- Submissions that stop at the first failure put only clauses of the list into the
solver. -/
theorem sat_solver_addclauses_mem (cs : List (List Nat)) (pSat : sat_solver) :
    ∀ c ∈ newClauses pSat (sat_solver_addclauses cs pSat).2, c ∈ cs := by
  obtain ⟨k, _, hst, _⟩ := sat_solver_addclauses_store cs pSat
  rw [newClauses_of_store _ _ _ hst]
  intro c hc
  exact List.mem_of_mem_take hc

/-- The variables of the clauses of `Abc_NtkClauseAnd` are the stored variables of the
root and of the leaves. -/
theorem Abc_NtkClauseAnd_vars (pSat : sat_solver) (pCopy : Nat → Nat) (pNode : Nat)
    (vSuper : List Abc_Ref) :
    ∀ c ∈ newClauses pSat (Abc_NtkClauseAnd pSat pCopy pNode vSuper).2, ∀ l ∈ c,
      ∃ x, (x = pNode ∨ ∃ p ∈ vSuper, p.Id = x) ∧ lit_var l = pCopy x := by
  intro c hc l hl
  rw [Abc_NtkClauseAnd_eq_addclauses] at hc
  have hc2 := sat_solver_addclauses_mem _ _ c hc
  simp only [List.mem_append, List.mem_map, List.mem_singleton] at hc2
  rcases hc2 with ⟨p, hp, rfl⟩ | rfl
  · simp only [List.mem_cons, List.mem_singleton, List.not_mem_nil, or_false] at hl
    rcases hl with rfl | rfl
    · exact ⟨p.Id, Or.inr ⟨p, hp, rfl⟩, by simp [refLit, lit_var_toLitCond, Abc_ObjRegular]⟩
    · exact ⟨pNode, Or.inl rfl, lit_var_toLitCond _ _⟩
  · simp only [List.mem_append, List.mem_map, List.mem_singleton] at hl
    rcases hl with ⟨p, hp, rfl⟩ | rfl
    · exact ⟨p.Id, Or.inr ⟨p, hp, rfl⟩, by simp [lit_var_toLitCond, Abc_ObjRegular]⟩
    · exact ⟨pNode, Or.inl rfl, lit_var_toLitCond _ _⟩

/-- The variables of the clauses of `Abc_NtkClauseMux` are the stored variables of the
node and of its three operands. -/
theorem Abc_NtkClauseMux_vars (pSat : sat_solver) (pCopy : Nat → Nat) (pNode pNodeC : Nat)
    (pNodeT pNodeE : Abc_Ref) :
    ∀ c ∈ newClauses pSat (Abc_NtkClauseMux pSat pCopy pNode pNodeC pNodeT pNodeE).2,
      ∀ l ∈ c, ∃ x, (x = pNode ∨ x = pNodeC ∨ x = pNodeT.Id ∨ x = pNodeE.Id) ∧
        lit_var l = pCopy x := by
  intro c hc l hl
  rw [Abc_NtkClauseMux_eq_addclauses] at hc
  have hc2 := List.mem_of_mem_take (sat_solver_addclauses_mem _ _ c hc)
  simp only [muxClauses, List.mem_cons, List.mem_singleton, List.not_mem_nil, or_false] at hc2
  rcases hc2 with rfl | rfl | rfl | rfl | rfl | rfl <;>
    (simp only [List.mem_cons, List.mem_singleton, List.not_mem_nil, or_false] at hl
     rcases hl with rfl | rfl | rfl) <;>
    first
    | exact ⟨pNode, Or.inl rfl, lit_var_toLitCond _ _⟩
    | exact ⟨pNodeC, Or.inr (Or.inl rfl), lit_var_toLitCond _ _⟩
    | exact ⟨pNodeT.Id, Or.inr (Or.inr (Or.inl rfl)), lit_var_toLitCond _ _⟩
    | exact ⟨pNodeE.Id, Or.inr (Or.inr (Or.inr rfl)), lit_var_toLitCond _ _⟩

/-- One step of the main loop submits only clauses over variables of nodes that are in
`vNodes` when the clauses are submitted. -/
theorem Abc_NtkMiterSatCreateInt_node_vars (ntk : Abc_Ntk) (fUseMuxes : Bool)
    (st : MiterState) (pNode : Nat) (ok : Bool) (st1 : MiterState)
    (hinv : AllocInv st) (hmk : st.fMarkA pNode = true)
    (h : Abc_NtkMiterSatCreateInt_node ntk fUseMuxes st pNode = some (ok, st1)) :
    VarsAllocated st1 (newClauses st.pSat st1.pSat) := by
  have hinv1 := Abc_NtkMiterSatCreateInt_node_allocInv ntk fUseMuxes st pNode ok st1 h hinv
  apply VarsAllocated_of_marked st1 _ hinv1
  unfold Abc_NtkMiterSatCreateInt_node at h
  split_ifs at h with hmux
  · simp only [Option.some.injEq, Prod.mk.injEq] at h
    obtain ⟨_, rfl⟩ := h
    obtain ⟨hext, hps, _, _, hmarked, _⟩ := addVars_spec
      [{ Id := (Abc_NodeRecognizeMux ntk pNode).1, fCompl := false },
        (Abc_NodeRecognizeMux ntk pNode).2.1, (Abc_NodeRecognizeMux ntk pNode).2.2] st
    intro c hc l hl
    simp only at hc
    rw [← hps] at hc
    obtain ⟨x, hx, hv⟩ := Abc_NtkClauseMux_vars _ _ _ _ _ _ c hc l hl
    refine ⟨x, ?_, hv⟩
    rcases hx with rfl | rfl | rfl | rfl
    · exact (hext.2.2.2 _ hmk).1
    · exact hmarked { Id := (Abc_NodeRecognizeMux ntk pNode).1, fCompl := false } (by simp)
    · exact hmarked (Abc_NodeRecognizeMux ntk pNode).2.1 (by simp)
    · exact hmarked (Abc_NodeRecognizeMux ntk pNode).2.2 (by simp)
  · cases hsup : Abc_NtkCollectSupergate ntk { Id := pNode, fCompl := false } fUseMuxes
        st.fMarkB with
    | none => rw [hsup] at h; exact absurd h (by simp)
    | some sup =>
      rw [hsup] at h
      simp only at h
      obtain ⟨hext, hps, _, _, hmarked, _⟩ := addVars_spec sup.vSuper
        { st with fMarkB := sup.fMarkB }
      have hpn : (Abc_NtkMiterSatCreateInt_addVars { st with fMarkB := sup.fMarkB }
          sup.vSuper).fMarkA pNode = true := (hext.2.2.2 pNode hmk).1
      split_ifs at h with hlen
      · simp only [Option.some.injEq, Prod.mk.injEq] at h
        obtain ⟨_, rfl⟩ := h
        intro c hc l hl
        simp only [Abc_NtkClauseTriv, sat_solver_addclause, hps] at hc
        rw [newClauses_of_store _ _ [_] rfl] at hc
        simp only [List.mem_singleton] at hc
        subst hc
        simp only [List.mem_singleton] at hl
        subst hl
        exact ⟨pNode, hpn, lit_var_toLitCond _ _⟩
      · simp only [Option.some.injEq, Prod.mk.injEq] at h
        obtain ⟨_, rfl⟩ := h
        intro c hc l hl
        have key : ∀ X, newClauses st.pSat X = newClauses (Abc_NtkMiterSatCreateInt_addVars
            { st with fMarkB := sup.fMarkB } sup.vSuper).pSat X := fun X => by rw [hps]
        simp only at hc
        rw [key] at hc
        obtain ⟨x, hx, hv⟩ := Abc_NtkClauseAnd_vars _ _ _ _ c hc l hl
        refine ⟨x, ?_, hv⟩
        rcases hx with rfl | ⟨p, hp, rfl⟩
        · exact hpn
        · exact hmarked p hp

theorem newClauses_self (s : sat_solver) : newClauses s s = [] :=
  newClauses_of_store s s [] (by simp)

theorem newClauses_trans (s1 s2 s3 : sat_solver)
    (h12 : ∃ rest, s2.store = s1.store ++ rest) (h23 : ∃ rest, s3.store = s2.store ++ rest) :
    newClauses s1 s3 = newClauses s1 s2 ++ newClauses s2 s3 := by
  obtain ⟨r1, h1⟩ := h12
  obtain ⟨r2, h2⟩ := h23
  rw [newClauses_of_store s1 s2 r1 h1, newClauses_of_store s2 s3 r2 h2]
  exact newClauses_of_store s1 s3 (r1 ++ r2) (by rw [h2, h1, List.append_assoc])

/-- The main loop submits only clauses over variables of nodes of `vNodes`. -/
theorem Abc_NtkMiterSatCreateInt_loop_vars (ntk : Abc_Ntk) (fUseMuxes : Bool) :
    ∀ (fuel i : Nat) (st : MiterState) (r : Int) (st2 : MiterState),
      AllocInv st →
      Abc_NtkMiterSatCreateInt_loop ntk fUseMuxes fuel i st = some (r, st2) →
      VarsAllocated st2 (newClauses st.pSat st2.pSat) := by
  intro fuel
  induction fuel with
  | zero => intro i st r st2 _ h; exact absurd h (by simp [Abc_NtkMiterSatCreateInt_loop])
  | succ fuel ih =>
    intro i st r st2 hinv h
    unfold Abc_NtkMiterSatCreateInt_loop at h
    cases hget : st.vNodes.get? i with
    | none =>
      rw [hget] at h
      simp only [Option.some.injEq, Prod.mk.injEq] at h
      obtain ⟨_, rfl⟩ := h
      rw [newClauses_self]
      intro c hc
      exact absurd hc (List.not_mem_nil c)
    | some pNode =>
      rw [hget] at h
      simp only at h
      have hmem : pNode ∈ st.vNodes := List.mem_iff_get?.2 ⟨i, hget⟩
      by_cases hand : Abc_AigNodeIsAnd ntk pNode = true
      · simp only [hand, Bool.not_true, Bool.false_eq_true, if_false] at h
        cases hnode : Abc_NtkMiterSatCreateInt_node ntk fUseMuxes st pNode with
        | none => rw [hnode] at h; exact absurd h (by simp)
        | some res =>
          obtain ⟨ok, st1⟩ := res
          rw [hnode] at h
          have hv1 := Abc_NtkMiterSatCreateInt_node_vars ntk fUseMuxes st pNode ok st1 hinv
            ((hinv.2.2 pNode).2 hmem) hnode
          cases ok with
          | false =>
            simp only [Option.some.injEq, Prod.mk.injEq] at h
            obtain ⟨_, rfl⟩ := h
            exact hv1
          | true =>
            simp only at h
            have hinv1 := Abc_NtkMiterSatCreateInt_node_allocInv ntk fUseMuxes st pNode true
              st1 hnode hinv
            have hext1 := Abc_NtkMiterSatCreateInt_node_extends ntk fUseMuxes st pNode true
              st1 hnode
            have hext2 := Abc_NtkMiterSatCreateInt_loop_extends ntk fUseMuxes fuel (i + 1)
              st1 r st2 h
            rw [newClauses_trans st.pSat st1.pSat st2.pSat hext1.1 hext2.1]
            exact VarsAllocated_append st2 _ _
              (VarsAllocated_mono st1 st2 _ hinv1 hext2 hv1) (ih (i + 1) st1 r st2 hinv1 h)
      · simp only [hand, Bool.not_false, if_true] at h
        exact ih (i + 1) st r st2 hinv h

/-- The unit clause of the constant node is over variable 0, the variable of the only
node of `vNodes` at that moment. -/
theorem Abc_NtkMiterSatCreateInt_const_vars (ntk : Abc_Ntk) (pSat : sat_solver)
    (pCopy : Nat → Nat) (fMarkA fMarkB : Nat → Bool) :
    newClauses pSat (Abc_NtkMiterSatCreateInt_const ntk pSat pCopy fMarkA fMarkB).pSat =
      [[toLitCond 0 false]] ∧
    (Abc_NtkMiterSatCreateInt_const ntk pSat pCopy fMarkA fMarkB).vNodes =
      [Abc_AigConst1 ntk] ∧
    VarsAllocated (Abc_NtkMiterSatCreateInt_const ntk pSat pCopy fMarkA fMarkB)
      [[toLitCond 0 false]] := by
  refine ⟨?_, rfl, ?_⟩
  · apply newClauses_of_store
    simp [Abc_NtkMiterSatCreateInt_const, Abc_NtkClauseTriv, sat_solver_addclause, setCopy,
      Abc_ObjRegular, Abc_ObjIsComplement]
  · intro c hc l hl
    simp only [List.mem_singleton] at hc
    subst hc
    simp only [List.mem_singleton] at hl
    subst hl
    rw [lit_var_toLitCond]
    exact ⟨by simp [Abc_NtkMiterSatCreateInt_const], Abc_AigConst1 ntk,
      by simp [Abc_NtkMiterSatCreateInt_const],
      by simp [Abc_NtkMiterSatCreateInt_const, setCopy]⟩

/-- The top-level clause is over the variables of the output drivers, which are in
`vNodes` when the clause is submitted. -/
theorem Abc_NtkMiterSatCreateInt_top_vars (ntk : Abc_Ntk) (pSat : sat_solver)
    (pCopy : Nat → Nat) (fMarkA fMarkB : Nat → Bool) (hA : ∀ id, fMarkA id = false) :
    newClauses (Abc_NtkMiterSatCreateInt_const ntk pSat pCopy fMarkA fMarkB).pSat
        (Abc_NtkMiterSatCreateInt_top ntk pSat pCopy fMarkA fMarkB).2.pSat =
      [ntk.vCos.map fun co =>
          toLitCond ((Abc_NtkMiterSatCreateInt_top ntk pSat pCopy fMarkA fMarkB).2.pCopy
            (Abc_ObjFanin0 ntk co)) (Abc_NtkObj ntk co).fCompl0] ∧
    VarsAllocated (Abc_NtkMiterSatCreateInt_top ntk pSat pCopy fMarkA fMarkB).2
      (newClauses pSat (Abc_NtkMiterSatCreateInt_top ntk pSat pCopy fMarkA fMarkB).2.pSat) := by
  obtain ⟨hstore, _, _, hdrv, hcm, hc0, _⟩ :=
    Abc_NtkMiterSatCreateInt_top_shape ntk pSat pCopy fMarkA fMarkB
  have hinv := Abc_NtkMiterSatCreateInt_top_allocInv ntk pSat pCopy fMarkA fMarkB hA
  constructor
  · apply newClauses_of_store
    rw [hstore]
    simp [Abc_NtkMiterSatCreateInt_const, Abc_NtkClauseTriv, sat_solver_addclause, setCopy,
      Abc_ObjRegular, Abc_ObjIsComplement]
  · rw [newClauses_of_store _ _ _ hstore]
    apply VarsAllocated_of_marked _ _ hinv
    intro c hc l hl
    simp only [List.mem_cons, List.mem_singleton, List.not_mem_nil, or_false] at hc
    rcases hc with rfl | rfl
    · simp only [List.mem_singleton] at hl
      subst hl
      exact ⟨Abc_AigConst1 ntk, hcm, by rw [lit_var_toLitCond, hc0]⟩
    · simp only [List.mem_map] at hl
      obtain ⟨co, hco, rfl⟩ := hl
      exact ⟨Abc_ObjFanin0 ntk co, hdrv co hco, lit_var_toLitCond _ _⟩

/-- The whole pass submits only clauses over variables of nodes of `vNodes`. -/
theorem Abc_NtkMiterSatCreateInt_vars (ntk : Abc_Ntk) (pSat : sat_solver)
    (pCopy : Nat → Nat) (fMarkA fMarkB : Nat → Bool) (hA : ∀ id, fMarkA id = false)
    (r : Int) (st : MiterState)
    (h : Abc_NtkMiterSatCreateInt ntk pSat pCopy fMarkA fMarkB = some (r, st)) :
    VarsAllocated st (newClauses pSat st.pSat) := by
  obtain ⟨hstore, _⟩ := Abc_NtkMiterSatCreateInt_top_shape ntk pSat pCopy fMarkA fMarkB
  have hinv := Abc_NtkMiterSatCreateInt_top_allocInv ntk pSat pCopy fMarkA fMarkB hA
  have htop := (Abc_NtkMiterSatCreateInt_top_vars ntk pSat pCopy fMarkA fMarkB hA).2
  unfold Abc_NtkMiterSatCreateInt at h
  simp only at h
  split_ifs at h with ht
  · simp only [Option.some.injEq, Prod.mk.injEq] at h
    obtain ⟨_, rfl⟩ := h
    exact htop
  · have hext := Abc_NtkMiterSatCreateInt_loop_extends ntk true _ 0 _ r st h
    rw [newClauses_trans pSat (Abc_NtkMiterSatCreateInt_top ntk pSat pCopy fMarkA fMarkB).2.pSat
      st.pSat ⟨_, hstore⟩ hext.1]
    exact VarsAllocated_append st _ _ (VarsAllocated_mono _ st _ hinv hext htop)
      (Abc_NtkMiterSatCreateInt_loop_vars ntk true _ 0 _ r st hinv h)

/-- C22. In `Abc_NtkMiterSatCreateInt` entered with `fMarkA` clear on every node, every
variable of every submitted clause is the stored variable of a node that is in `vNodes`
when the clause is submitted, and so is smaller than the length of `vNodes` at that
moment: this holds of the unit clause of the constant node in the state in which it is
submitted (first part), of the top-level clause in the state after the allocation of the
output drivers (second part), of the clauses of a loop step (unit, AND or multiplexer
clauses) in the state after the allocation of the operands of the step, from any state of
the run (third part; the emitters do not change `vNodes`), and, since `vNodes` only grows
and a node keeps its variable, of all the clauses in the returned state (fourth part).
The pass returns on every network whose ids are in range (last part). -/
theorem C22_clause_vars_allocated (ntk : Abc_Ntk) (pSat : sat_solver) (pCopy : Nat → Nat)
    (fMarkA fMarkB : Nat → Bool) (hA : ∀ id, fMarkA id = false) :
    VarsAllocated (Abc_NtkMiterSatCreateInt_const ntk pSat pCopy fMarkA fMarkB)
      (newClauses pSat (Abc_NtkMiterSatCreateInt_const ntk pSat pCopy fMarkA fMarkB).pSat) ∧
    VarsAllocated (Abc_NtkMiterSatCreateInt_top ntk pSat pCopy fMarkA fMarkB).2
      (newClauses (Abc_NtkMiterSatCreateInt_const ntk pSat pCopy fMarkA fMarkB).pSat
        (Abc_NtkMiterSatCreateInt_top ntk pSat pCopy fMarkA fMarkB).2.pSat) ∧
    (∀ (st : MiterState) (pNode : Nat) (ok : Bool) (st1 : MiterState),
      AllocInv st → pNode ∈ st.vNodes →
      Abc_NtkMiterSatCreateInt_node ntk true st pNode = some (ok, st1) →
      ∀ c ∈ newClauses st.pSat st1.pSat, ∀ l ∈ c,
        lit_var l < st1.vNodes.length ∧ ∃ x ∈ st1.vNodes, st1.pCopy x = lit_var l) ∧
    (∀ r st, Abc_NtkMiterSatCreateInt ntk pSat pCopy fMarkA fMarkB = some (r, st) →
      AllocInv st ∧
      ∀ c ∈ newClauses pSat st.pSat, ∀ l ∈ c,
        lit_var l < st.vNodes.length ∧ ∃ x ∈ st.vNodes, st.pCopy x = lit_var l) ∧
    (Abc_NtkInRange ntk →
      ∃ r st, Abc_NtkMiterSatCreateInt ntk pSat pCopy fMarkA fMarkB = some (r, st)) := by
  obtain ⟨hc1, _, hc2⟩ := Abc_NtkMiterSatCreateInt_const_vars ntk pSat pCopy fMarkA fMarkB
  obtain ⟨ht1, ht2⟩ := Abc_NtkMiterSatCreateInt_top_vars ntk pSat pCopy fMarkA fMarkB hA
  obtain ⟨hstore, _⟩ := Abc_NtkMiterSatCreateInt_top_shape ntk pSat pCopy fMarkA fMarkB
  refine ⟨by rw [hc1]; exact hc2, ?_, ?_, ?_, ?_⟩
  · rw [newClauses_of_store _ _ _ hstore] at ht2
    rw [ht1]
    intro c hc
    exact ht2 c (by simp only [List.mem_singleton] at hc; subst hc; simp)
  · intro st pNode ok st1 hinv hmem hnode
    exact Abc_NtkMiterSatCreateInt_node_vars ntk true st pNode ok st1 hinv
      ((hinv.2.2 pNode).2 hmem) hnode
  · intro r st h
    exact ⟨Abc_NtkMiterSatCreateInt_allocInv ntk pSat pCopy fMarkA fMarkB hA r st h,
      Abc_NtkMiterSatCreateInt_vars ntk pSat pCopy fMarkA fMarkB hA r st h⟩
  · intro hwf
    obtain ⟨r, st, h, _⟩ := Abc_NtkMiterSatCreateInt_total ntk hwf pSat pCopy fMarkA fMarkB
    exact ⟨r, st, h⟩

/-- Witness of C22: the pass on `netShared` with clear marks returns, and every variable
of its clauses is smaller than the length of `vNodes`. -/
theorem C22_clause_vars_allocated_witness :
    ∃ r st, Abc_NtkMiterSatCreateInt netShared satAccept copyId noMarks noMarks = some (r, st) ∧
      ∀ c ∈ newClauses satAccept st.pSat, ∀ l ∈ c,
        lit_var l < st.vNodes.length ∧ ∃ x ∈ st.vNodes, st.pCopy x = lit_var l := by
  have hall := C22_clause_vars_allocated netShared satAccept copyId noMarks noMarks
    (fun _ => rfl)
  obtain ⟨r, st, h⟩ := hall.2.2.2.2
    (Abc_NtkInRange_of_check netShared (by decide) (fun _ => rfl))
  exact ⟨r, st, h, (hall.2.2.2.1 r st h).2⟩

/-! ### The inputs that the pass does not reach -/

theorem mem_take_succ_append (l more : List Nat) (i n : Nat)
    (h : n ∈ l.take i ∨ l.get? i = some n) : n ∈ (l ++ more).take (i + 1) := by
  rw [List.take_append_eq_append_take, List.take_succ]
  rcases h with h | h
  · simp [h]
  · rw [List.get?_eq_getElem?] at h
    simp [h]

theorem Reached_mono (ntk : Abc_Ntk) (enc enc2 : List Nat) (x : Nat)
    (hsub : ∀ n ∈ enc, n ∈ enc2) (h : Reached ntk enc x) : Reached ntk enc2 x := by
  rcases h with h | h | ⟨n, hn, hand, hx⟩
  · exact Or.inl h
  · exact Or.inr (Or.inl h)
  · exact Or.inr (Or.inr ⟨n, hsub n hn, hand, hx⟩)

/-- An allocation writes the `pCopy` of the allocated node only. -/
theorem addVar_frame (f : Nat → Nat) (st : MiterState) (x : Nat)
    (h : ∀ y, y ∉ st.vNodes → st.pCopy y = f y) :
    ∀ y, y ∉ (Abc_NtkMiterSatCreateInt_addVar st x).vNodes →
      (Abc_NtkMiterSatCreateInt_addVar st x).pCopy y = f y := by
  unfold Abc_NtkMiterSatCreateInt_addVar
  split_ifs with hx
  · intro y hy
    simp only [List.mem_append, List.mem_singleton, not_or] at hy
    simp only [setCopy, hy.2, if_false]
    exact h y hy.1
  · exact h

theorem addVar_mem (st : MiterState) (x : Nat) :
    ∀ y ∈ (Abc_NtkMiterSatCreateInt_addVar st x).vNodes, y ∈ st.vNodes ∨ y = x := by
  unfold Abc_NtkMiterSatCreateInt_addVar
  split_ifs with hx
  · intro y hy
    simpa using hy
  · intro y hy
    exact Or.inl hy

theorem addVars_frame (f : Nat → Nat) (vSuper : List Abc_Ref) :
    ∀ st : MiterState, (∀ y, y ∉ st.vNodes → st.pCopy y = f y) →
      ∀ y, y ∉ (Abc_NtkMiterSatCreateInt_addVars st vSuper).vNodes →
        (Abc_NtkMiterSatCreateInt_addVars st vSuper).pCopy y = f y := by
  induction vSuper with
  | nil => intro st h; exact h
  | cons q rest ih =>
    intro st h
    have := ih (Abc_NtkMiterSatCreateInt_addVar st (Abc_ObjRegular q)) (addVar_frame f st _ h)
    simpa only [Abc_NtkMiterSatCreateInt_addVars, List.foldl_cons] using this

theorem addVars_mem (vSuper : List Abc_Ref) :
    ∀ st : MiterState, ∀ y ∈ (Abc_NtkMiterSatCreateInt_addVars st vSuper).vNodes,
      y ∈ st.vNodes ∨ ∃ p ∈ vSuper, p.Id = y := by
  induction vSuper with
  | nil => intro st y hy; exact Or.inl hy
  | cons q rest ih =>
    intro st y hy
    have := ih (Abc_NtkMiterSatCreateInt_addVar st (Abc_ObjRegular q)) y
      (by simpa only [Abc_NtkMiterSatCreateInt_addVars, List.foldl_cons] using hy)
    rcases this with h | ⟨p, hp, rfl⟩
    · rcases addVar_mem st _ y h with h | h
      · exact Or.inl h
      · exact Or.inr ⟨q, by simp, by rw [h]; rfl⟩
    · exact Or.inr ⟨p, by simp [hp], rfl⟩

/-- One step of the main loop writes the `pCopy` of newly allocated nodes only. -/
theorem Abc_NtkMiterSatCreateInt_node_frame (f : Nat → Nat) (ntk : Abc_Ntk)
    (fUseMuxes : Bool) (st : MiterState) (pNode : Nat) (ok : Bool) (st1 : MiterState)
    (h : Abc_NtkMiterSatCreateInt_node ntk fUseMuxes st pNode = some (ok, st1))
    (hf : ∀ y, y ∉ st.vNodes → st.pCopy y = f y) :
    ∀ y, y ∉ st1.vNodes → st1.pCopy y = f y := by
  unfold Abc_NtkMiterSatCreateInt_node at h
  split_ifs at h with hmux
  · simp only [Option.some.injEq, Prod.mk.injEq] at h
    obtain ⟨_, rfl⟩ := h
    exact addVars_frame f _ st hf
  · cases hsup : Abc_NtkCollectSupergate ntk { Id := pNode, fCompl := false } fUseMuxes
        st.fMarkB with
    | none => rw [hsup] at h; exact absurd h (by simp)
    | some sup =>
      rw [hsup] at h
      simp only at h
      split_ifs at h with hlen <;>
      · simp only [Option.some.injEq, Prod.mk.injEq] at h
        obtain ⟨_, rfl⟩ := h
        exact addVars_frame f _ { st with fMarkB := sup.fMarkB } hf

/-- With `fMarkB` clear, one step of the main loop allocates operands of its node only. -/
theorem Abc_NtkMiterSatCreateInt_node_mem (ntk : Abc_Ntk) (st : MiterState) (pNode : Nat)
    (ok : Bool) (st1 : MiterState) (hB : ∀ id, st.fMarkB id = false)
    (h : Abc_NtkMiterSatCreateInt_node ntk true st pNode = some (ok, st1)) :
    ∀ y ∈ st1.vNodes, y ∈ st.vNodes ∨ y ∈ encOperands ntk pNode := by
  have hB2 : st.fMarkB = noMarks := funext hB
  unfold Abc_NtkMiterSatCreateInt_node at h
  by_cases hmux : Abc_NodeIsMuxType ntk pNode = true
  · simp only [hmux, Bool.and_self, if_true, Option.some.injEq, Prod.mk.injEq] at h
    obtain ⟨_, rfl⟩ := h
    intro y hy
    rcases addVars_mem _ st y hy with h | ⟨p, hp, rfl⟩
    · exact Or.inl h
    · right
      simp only [encOperands, hmux, if_true]
      simp only [List.mem_cons, List.mem_singleton, List.not_mem_nil, or_false] at hp
      rcases hp with rfl | rfl | rfl <;> simp
  · simp only [hmux, Bool.and_false, Bool.false_eq_true, if_false, hB2] at h
    cases hsup : Abc_NtkCollectSupergate ntk { Id := pNode, fCompl := false } true noMarks with
    | none => rw [hsup] at h; exact absurd h (by simp)
    | some sup =>
      rw [hsup] at h
      simp only at h
      have key : ∀ y ∈ (Abc_NtkMiterSatCreateInt_addVars
          { st with fMarkB := sup.fMarkB } sup.vSuper).vNodes,
          y ∈ st.vNodes ∨ y ∈ encOperands ntk pNode := by
        intro y hy
        rcases addVars_mem _ _ y hy with h | ⟨p, hp, rfl⟩
        · exact Or.inl h
        · right
          simp only [encOperands, hmux, Bool.false_eq_true, if_false, hsup]
          exact List.mem_map.2 ⟨p, hp, rfl⟩
      split_ifs at h with hlen <;>
      · simp only [Option.some.injEq, Prod.mk.injEq] at h
        obtain ⟨_, rfl⟩ := h
        exact key

/-- The main loop writes the `pCopy` of newly allocated nodes only. -/
theorem Abc_NtkMiterSatCreateInt_loop_frame (f : Nat → Nat) (ntk : Abc_Ntk)
    (fUseMuxes : Bool) :
    ∀ (fuel i : Nat) (st : MiterState) (r : Int) (st2 : MiterState),
      Abc_NtkMiterSatCreateInt_loop ntk fUseMuxes fuel i st = some (r, st2) →
      (∀ y, y ∉ st.vNodes → st.pCopy y = f y) →
      ∀ y, y ∉ st2.vNodes → st2.pCopy y = f y := by
  intro fuel
  induction fuel with
  | zero => intro i st r st2 h; exact absurd h (by simp [Abc_NtkMiterSatCreateInt_loop])
  | succ fuel ih =>
    intro i st r st2 h hf
    unfold Abc_NtkMiterSatCreateInt_loop at h
    cases hget : st.vNodes.get? i with
    | none =>
      rw [hget] at h
      simp only [Option.some.injEq, Prod.mk.injEq] at h
      obtain ⟨_, rfl⟩ := h
      exact hf
    | some pNode =>
      rw [hget] at h
      simp only at h
      by_cases hand : Abc_AigNodeIsAnd ntk pNode = true
      · simp only [hand, Bool.not_true, Bool.false_eq_true, if_false] at h
        cases hnode : Abc_NtkMiterSatCreateInt_node ntk fUseMuxes st pNode with
        | none => rw [hnode] at h; exact absurd h (by simp)
        | some res =>
          obtain ⟨ok, st1⟩ := res
          rw [hnode] at h
          have hf1 := Abc_NtkMiterSatCreateInt_node_frame f ntk fUseMuxes st pNode ok st1
            hnode hf
          cases ok with
          | false =>
            simp only [Option.some.injEq, Prod.mk.injEq] at h
            obtain ⟨_, rfl⟩ := h
            exact hf1
          | true => exact ih (i + 1) st1 r st2 h hf1
      · simp only [hand, Bool.not_false, if_true] at h
        exact ih (i + 1) st r st2 h hf

theorem mem_take_succ_cases (l more : List Nat) (i n p : Nat) (hp : l.get? i = some p)
    (h : n ∈ (l ++ more).take (i + 1)) : n ∈ l.take i ∨ n = p := by
  rw [List.get?_eq_getElem?] at hp
  have hilt : i < l.length := (List.getElem?_eq_some.1 hp).1
  rw [List.take_append_eq_append_take, List.take_succ, hp,
    show i + 1 - l.length = 0 by omega] at h
  simpa using h

/-- With `fMarkB` clear, one step of the main loop leaves every operand of its node
marked with `fMarkA`. -/
theorem Abc_NtkMiterSatCreateInt_node_operands (ntk : Abc_Ntk) (st : MiterState)
    (pNode : Nat) (ok : Bool) (st1 : MiterState) (hB : ∀ id, st.fMarkB id = false)
    (h : Abc_NtkMiterSatCreateInt_node ntk true st pNode = some (ok, st1)) :
    ∀ y ∈ encOperands ntk pNode, st1.fMarkA y = true := by
  have hB2 : st.fMarkB = noMarks := funext hB
  unfold Abc_NtkMiterSatCreateInt_node at h
  by_cases hmux : Abc_NodeIsMuxType ntk pNode = true
  · simp only [hmux, Bool.and_self, if_true, Option.some.injEq, Prod.mk.injEq] at h
    obtain ⟨_, rfl⟩ := h
    obtain ⟨_, _, _, _, hmarked, _⟩ := addVars_spec
      [{ Id := (Abc_NodeRecognizeMux ntk pNode).1, fCompl := false },
        (Abc_NodeRecognizeMux ntk pNode).2.1, (Abc_NodeRecognizeMux ntk pNode).2.2] st
    intro y hy
    simp only [encOperands, hmux, if_true, List.mem_cons, List.mem_singleton,
      List.not_mem_nil, or_false] at hy
    rcases hy with rfl | rfl | rfl
    · exact hmarked { Id := (Abc_NodeRecognizeMux ntk pNode).1, fCompl := false } (by simp)
    · exact hmarked (Abc_NodeRecognizeMux ntk pNode).2.1 (by simp)
    · exact hmarked (Abc_NodeRecognizeMux ntk pNode).2.2 (by simp)
  · simp only [hmux, Bool.and_false, Bool.false_eq_true, if_false, hB2] at h
    cases hsup : Abc_NtkCollectSupergate ntk { Id := pNode, fCompl := false } true noMarks with
    | none => rw [hsup] at h; exact absurd h (by simp)
    | some sup =>
      rw [hsup] at h
      simp only at h
      obtain ⟨_, _, _, _, hmarked, _⟩ := addVars_spec sup.vSuper
        { st with fMarkB := sup.fMarkB }
      have key : ∀ y ∈ encOperands ntk pNode, (Abc_NtkMiterSatCreateInt_addVars
          { st with fMarkB := sup.fMarkB } sup.vSuper).fMarkA y = true := by
        intro y hy
        simp only [encOperands, hmux, Bool.false_eq_true, if_false, hsup] at hy
        obtain ⟨p, hp, rfl⟩ := List.mem_map.1 hy
        exact hmarked p hp
      split_ifs at h with hlen <;>
      · simp only [Option.some.injEq, Prod.mk.injEq] at h
        obtain ⟨_, rfl⟩ := h
        exact key

/-- With `fMarkB` clear, the nodes of `vNodes` after the main loop are reached nodes,
and every reached node is marked with `fMarkA`: the encoded nodes are the first `k`
nodes of `vNodes`, all of them when the loop ran to the end. -/
theorem Abc_NtkMiterSatCreateInt_loop_reached (ntk : Abc_Ntk) :
    ∀ (fuel i : Nat) (st : MiterState) (r : Int) (st2 : MiterState),
      (∀ id, st.fMarkB id = false) →
      (∀ x ∈ st.vNodes, Reached ntk (st.vNodes.take i) x) →
      (∀ x, Reached ntk (st.vNodes.take i) x → st.fMarkA x = true) →
      Abc_NtkMiterSatCreateInt_loop ntk true fuel i st = some (r, st2) →
      ∃ k, k ≤ st2.vNodes.length ∧ (r = 1 → k = st2.vNodes.length) ∧
        (∀ x ∈ st2.vNodes, Reached ntk (st2.vNodes.take k) x) ∧
        (∀ x, Reached ntk (st2.vNodes.take k) x → st2.fMarkA x = true) := by
  intro fuel
  induction fuel with
  | zero => intro i st r st2 _ _ _ h; exact absurd h (by simp [Abc_NtkMiterSatCreateInt_loop])
  | succ fuel ih =>
    intro i st r st2 hB hR hM h
    unfold Abc_NtkMiterSatCreateInt_loop at h
    cases hget : st.vNodes.get? i with
    | none =>
      rw [hget] at h
      simp only [Option.some.injEq, Prod.mk.injEq] at h
      obtain ⟨_, rfl⟩ := h
      have hlen : st.vNodes.length ≤ i := by
        rw [List.get?_eq_getElem?] at hget
        exact List.getElem?_eq_none_iff.1 hget
      rw [List.take_of_length_le hlen] at hR hM
      refine ⟨st.vNodes.length, le_refl _, fun _ => rfl, ?_, ?_⟩
      · rw [List.take_length]; exact hR
      · rw [List.take_length]; exact hM
    | some pNode =>
      rw [hget] at h
      simp only at h
      by_cases hand : Abc_AigNodeIsAnd ntk pNode = true
      · simp only [hand, Bool.not_true, Bool.false_eq_true, if_false] at h
        cases hnode : Abc_NtkMiterSatCreateInt_node ntk true st pNode with
        | none => rw [hnode] at h; exact absurd h (by simp)
        | some res =>
          obtain ⟨ok, st1⟩ := res
          rw [hnode] at h
          have hext := Abc_NtkMiterSatCreateInt_node_extends ntk true st pNode ok st1 hnode
          obtain ⟨more, hmore⟩ := hext.2.2.1
          have hB1 : ∀ id, st1.fMarkB id = false := by
            intro id
            cases hb : st1.fMarkB id with
            | false => rfl
            | true =>
              have := Abc_NtkMiterSatCreateInt_node_markB ntk true st pNode ok st1 hnode id hb
              rw [hB id] at this
              exact Bool.noConfusion this
          have hR1 : ∀ x ∈ st1.vNodes, Reached ntk (st1.vNodes.take (i + 1)) x := by
            intro x hx
            rcases Abc_NtkMiterSatCreateInt_node_mem ntk st pNode ok st1 hB hnode x hx with
              hx | hx
            · refine Reached_mono ntk _ _ x ?_ (hR x hx)
              intro n hn
              rw [hmore]
              exact mem_take_succ_append _ _ _ _ (Or.inl hn)
            · refine Or.inr (Or.inr ⟨pNode, ?_, hand, hx⟩)
              rw [hmore]
              exact mem_take_succ_append _ _ _ _ (Or.inr hget)
          have hM1 : ∀ x, Reached ntk (st1.vNodes.take (i + 1)) x → st1.fMarkA x = true := by
            intro x hx
            rcases hx with hx | hx | ⟨n, hn, hnand, hx⟩
            · exact (hext.2.2.2 x (hM x (Or.inl hx))).1
            · exact (hext.2.2.2 x (hM x (Or.inr (Or.inl hx)))).1
            · rw [hmore] at hn
              rcases mem_take_succ_cases _ _ _ _ _ hget hn with hn | rfl
              · exact (hext.2.2.2 x (hM x (Or.inr (Or.inr ⟨n, hn, hnand, hx⟩)))).1
              · exact Abc_NtkMiterSatCreateInt_node_operands ntk st n ok st1 hB hnode x hx
          cases ok with
          | false =>
            simp only [Option.some.injEq, Prod.mk.injEq] at h
            obtain ⟨rfl, rfl⟩ := h
            have hilt : i < st.vNodes.length := by
              rw [List.get?_eq_getElem?] at hget
              exact (List.getElem?_eq_some.1 hget).1
            refine ⟨i + 1, ?_, fun h0 => absurd h0 (by decide), hR1, hM1⟩
            rw [hmore, List.length_append]
            omega
          | true => exact ih (i + 1) st1 r st2 hB1 hR1 hM1 h
      · simp only [hand, Bool.not_false, if_true] at h
        refine ih (i + 1) st r st2 hB ?_ ?_ h
        · intro x hx
          refine Reached_mono ntk _ _ x ?_ (hR x hx)
          intro n hn
          have := mem_take_succ_append st.vNodes [] i n (Or.inl hn)
          simpa using this
        · intro x hx
          rcases hx with hx | hx | ⟨n, hn, hnand, hx⟩
          · exact hM x (Or.inl hx)
          · exact hM x (Or.inr (Or.inl hx))
          · have hn2 : n ∈ (st.vNodes ++ []).take (i + 1) := by simpa using hn
            rcases mem_take_succ_cases _ _ _ _ _ hget hn2 with hn | rfl
            · exact hM x (Or.inr (Or.inr ⟨n, hn, hnand, hx⟩))
            · exact absurd hnand hand
/-- The pass writes the `pCopy` of the combinational inputs (cleared at the start) and of
the nodes that it puts into `vNodes` only. -/
theorem Abc_NtkMiterSatCreateInt_frame (ntk : Abc_Ntk) (pSat : sat_solver)
    (pCopy : Nat → Nat) (fMarkA fMarkB : Nat → Bool) (r : Int) (st : MiterState)
    (h : Abc_NtkMiterSatCreateInt ntk pSat pCopy fMarkA fMarkB = some (r, st)) :
    ∀ y, y ∉ st.vNodes → st.pCopy y = if y ∈ ntk.vCis then 0 else pCopy y := by
  have hconst : ∀ y, y ∉ (Abc_NtkMiterSatCreateInt_const ntk pSat pCopy fMarkA fMarkB).vNodes →
      (Abc_NtkMiterSatCreateInt_const ntk pSat pCopy fMarkA fMarkB).pCopy y =
        if y ∈ ntk.vCis then 0 else pCopy y := by
    intro y hy
    simp only [Abc_NtkMiterSatCreateInt_const, List.mem_singleton] at hy
    simp only [Abc_NtkMiterSatCreateInt_const, setCopy, hy, if_false]
  have htop : ∀ y, y ∉ (Abc_NtkMiterSatCreateInt_top ntk pSat pCopy fMarkA fMarkB).2.vNodes →
      (Abc_NtkMiterSatCreateInt_top ntk pSat pCopy fMarkA fMarkB).2.pCopy y =
        if y ∈ ntk.vCis then 0 else pCopy y := by
    rw [Abc_NtkMiterSatCreateInt_top_eq]
    exact addVars_frame _ _ _ hconst
  unfold Abc_NtkMiterSatCreateInt at h
  simp only at h
  split_ifs at h with ht
  · simp only [Option.some.injEq, Prod.mk.injEq] at h
    obtain ⟨_, rfl⟩ := h
    exact htop
  · exact Abc_NtkMiterSatCreateInt_loop_frame _ ntk true _ 0 _ r st h htop

/-- The constant node has variable 0 after the pass. -/
theorem Abc_NtkMiterSatCreateInt_const_var (ntk : Abc_Ntk) (pSat : sat_solver)
    (pCopy : Nat → Nat) (fMarkA fMarkB : Nat → Bool) (r : Int) (st : MiterState)
    (h : Abc_NtkMiterSatCreateInt ntk pSat pCopy fMarkA fMarkB = some (r, st)) :
    st.pCopy (Abc_AigConst1 ntk) = 0 ∧ st.vNodes.get? 0 = some (Abc_AigConst1 ntk) := by
  obtain ⟨_, _, _, _, hcm, hc0, _⟩ :=
    Abc_NtkMiterSatCreateInt_top_shape ntk pSat pCopy fMarkA fMarkB
  have hhead : (Abc_NtkMiterSatCreateInt_top ntk pSat pCopy fMarkA fMarkB).2.vNodes.get? 0 =
      some (Abc_AigConst1 ntk) := by
    rw [Abc_NtkMiterSatCreateInt_top_eq]
    obtain ⟨hext, _⟩ := addVars_spec (ntk.vCos.map fun pNode => Abc_ObjChild0 ntk pNode)
      (Abc_NtkMiterSatCreateInt_const ntk pSat pCopy fMarkA fMarkB)
    obtain ⟨more, hmore⟩ := hext.2.2.1
    simp only [hmore]
    simp [Abc_NtkMiterSatCreateInt_const]
  unfold Abc_NtkMiterSatCreateInt at h
  simp only at h
  split_ifs at h with ht
  · simp only [Option.some.injEq, Prod.mk.injEq] at h
    obtain ⟨_, rfl⟩ := h
    exact ⟨hc0, hhead⟩
  · have hext := Abc_NtkMiterSatCreateInt_loop_extends ntk true _ 0 _ r st h
    obtain ⟨more, hmore⟩ := hext.2.2.1
    refine ⟨by rw [(hext.2.2.2 _ hcm).2, hc0], ?_⟩
    rw [hmore, List.get?_eq_getElem?] at *
    cases hv : (Abc_NtkMiterSatCreateInt_top ntk pSat pCopy fMarkA fMarkB).2.vNodes with
    | nil => rw [hv] at hhead; simp at hhead
    | cons a rest => rw [hv] at hhead; simpa using hhead

/-- With `fMarkB` clear on entry, the nodes of `vNodes` after the pass are reached
nodes, and every reached node is marked with `fMarkA`. -/
theorem Abc_NtkMiterSatCreateInt_reached (ntk : Abc_Ntk) (pSat : sat_solver)
    (pCopy : Nat → Nat) (fMarkA fMarkB : Nat → Bool) (hB : ∀ id, fMarkB id = false)
    (r : Int) (st : MiterState)
    (h : Abc_NtkMiterSatCreateInt ntk pSat pCopy fMarkA fMarkB = some (r, st)) :
    ∃ k, k ≤ st.vNodes.length ∧ (r = 1 → k = st.vNodes.length) ∧
      (∀ x ∈ st.vNodes, Reached ntk (st.vNodes.take k) x) ∧
      (∀ x, Reached ntk (st.vNodes.take k) x → st.fMarkA x = true) := by
  obtain ⟨_, _, _, hdrv, hcm, _, hmb⟩ :=
    Abc_NtkMiterSatCreateInt_top_shape ntk pSat pCopy fMarkA fMarkB
  have htop : ∀ x ∈ (Abc_NtkMiterSatCreateInt_top ntk pSat pCopy fMarkA fMarkB).2.vNodes,
      Reached ntk [] x := by
    rw [Abc_NtkMiterSatCreateInt_top_eq]
    intro x hx
    rcases addVars_mem _ _ x hx with hx | ⟨p, hp, rfl⟩
    · left
      simpa [Abc_NtkMiterSatCreateInt_const] using hx
    · right; left
      obtain ⟨co, hco, rfl⟩ := List.mem_map.1 hp
      exact ⟨co, hco, rfl⟩
  have htopM : ∀ x, Reached ntk [] x →
      (Abc_NtkMiterSatCreateInt_top ntk pSat pCopy fMarkA fMarkB).2.fMarkA x = true := by
    intro x hx
    rcases hx with rfl | ⟨co, hco, rfl⟩ | ⟨n, hn, _⟩
    · exact hcm
    · exact hdrv co hco
    · exact absurd hn (List.not_mem_nil n)
  unfold Abc_NtkMiterSatCreateInt at h
  simp only at h
  split_ifs at h with ht
  · simp only [Option.some.injEq, Prod.mk.injEq] at h
    obtain ⟨rfl, rfl⟩ := h
    exact ⟨0, Nat.zero_le _, fun h0 => absurd h0 (by decide), by simpa using htop,
      by simpa using htopM⟩
  · exact Abc_NtkMiterSatCreateInt_loop_reached ntk _ 0 _ r st (by rw [hmb]; exact hB)
      (by simpa using htop) (by simpa using htopM) h

/-- C25. After `Abc_NtkMiterSatCreateInt` (which returns on every network whose ids are
in range, first part): the constant node has variable 0, the first submitted clause is
the unit clause of variable 0, so every assignment that satisfies the submitted clauses
makes variable 0 true; every combinational input that is not in `vNodes` has stored
variable 0, and `Abc_NtkGetCiSatVarNums` gives 0 at its position. With `fMarkB` clear on
entry, the nodes of `vNodes` are the constant node, the drivers of the outputs and the
operands (multiplexer operands or collected leaves) of the encoded AND nodes, which are
the first `k` nodes of `vNodes` (all of them when the pass returned 1); so every input
that is none of these has variable 0 and position value 0. With `fMarkA` clear on entry
as well, the reached nodes are exactly the nodes of `vNodes`, the stored variables of
reached nodes are pairwise different, a reached node other than the constant node has a
nonzero variable, and any two inputs that are not reached have the same variable: the map
from inputs to variables is injective on the reached inputs only. -/
theorem C25_unreached_inputs (ntk : Abc_Ntk) (pSat : sat_solver) (pCopy : Nat → Nat)
    (fMarkA fMarkB : Nat → Bool) :
    (Abc_NtkInRange ntk →
      ∃ r st, Abc_NtkMiterSatCreateInt ntk pSat pCopy fMarkA fMarkB = some (r, st)) ∧
    ∀ r st, Abc_NtkMiterSatCreateInt ntk pSat pCopy fMarkA fMarkB = some (r, st) →
      st.pCopy (Abc_AigConst1 ntk) = 0 ∧
      (∃ rest, newClauses pSat st.pSat = [toLitCond 0 false] :: rest) ∧
      (∀ a, cnfSat a (newClauses pSat st.pSat) = true → a 0 = true) ∧
      (∀ (i : Nat) (hi : i < ntk.vCis.length), ntk.vCis[i] ∉ st.vNodes →
        st.pCopy ntk.vCis[i] = 0 ∧ (Abc_NtkGetCiSatVarNums ntk st.pCopy)[i]? = some 0) ∧
      ((∀ id, fMarkB id = false) →
        ∃ k, k ≤ st.vNodes.length ∧ (r = 1 → k = st.vNodes.length) ∧
          (∀ x ∈ st.vNodes, Reached ntk (st.vNodes.take k) x) ∧
          (∀ (i : Nat) (hi : i < ntk.vCis.length),
            ¬ Reached ntk (st.vNodes.take k) ntk.vCis[i] →
            st.pCopy ntk.vCis[i] = 0 ∧
              (Abc_NtkGetCiSatVarNums ntk st.pCopy)[i]? = some 0) ∧
          ((∀ id, fMarkA id = false) →
            (∀ x, Reached ntk (st.vNodes.take k) x ↔ x ∈ st.vNodes) ∧
            (∀ x y, Reached ntk (st.vNodes.take k) x → Reached ntk (st.vNodes.take k) y →
              st.pCopy x = st.pCopy y → x = y) ∧
            (∀ x, Reached ntk (st.vNodes.take k) x → x ≠ Abc_AigConst1 ntk →
              st.pCopy x ≠ 0) ∧
            (∀ x ∈ ntk.vCis, ∀ y ∈ ntk.vCis, ¬ Reached ntk (st.vNodes.take k) x →
              ¬ Reached ntk (st.vNodes.take k) y → st.pCopy x = st.pCopy y))) := by
  constructor
  · intro hwf
    obtain ⟨r, st, h, _⟩ := Abc_NtkMiterSatCreateInt_total ntk hwf pSat pCopy fMarkA fMarkB
    exact ⟨r, st, h⟩
  intro r st h
  obtain ⟨hc0, hhead⟩ := Abc_NtkMiterSatCreateInt_const_var ntk pSat pCopy fMarkA fMarkB r st h
  obtain ⟨_, rest, hrest, _⟩ :=
    Abc_NtkMiterSatCreateInt_short_circuit ntk pSat pCopy fMarkA fMarkB r st h
  have hframe := Abc_NtkMiterSatCreateInt_frame ntk pSat pCopy fMarkA fMarkB r st h
  have hci : ∀ x ∈ ntk.vCis, x ∉ st.vNodes → st.pCopy x = 0 := by
    intro x hx hnot
    rw [hframe x hnot, if_pos hx]
  have hnum : ∀ (i : Nat) (hi : i < ntk.vCis.length), st.pCopy ntk.vCis[i] = 0 →
      (Abc_NtkGetCiSatVarNums ntk st.pCopy)[i]? = some 0 := by
    intro i hi h0
    simp [Abc_NtkGetCiSatVarNums_eq, hi, h0]
  refine ⟨hc0, ⟨rest, hrest⟩, ?_, ?_, ?_⟩
  · intro a ha
    rw [hrest] at ha
    have h1 : clauseSat a [toLitCond 0 false] = true := by
      simp only [cnfSat, List.all_cons, Bool.and_eq_true] at ha
      exact ha.1
    simpa [clauseSat, litVal_toLitCond] using h1
  · intro i hi hnot
    have h0 := hci _ (List.getElem_mem hi) hnot
    exact ⟨h0, hnum i hi h0⟩
  · intro hB
    obtain ⟨k, hk, hr, hR, hM⟩ :=
      Abc_NtkMiterSatCreateInt_reached ntk pSat pCopy fMarkA fMarkB hB r st h
    have hun : ∀ x ∈ ntk.vCis, ¬ Reached ntk (st.vNodes.take k) x → st.pCopy x = 0 :=
      fun x hx hnot => hci x hx (fun hmem => hnot (hR x hmem))
    refine ⟨k, hk, hr, hR, ?_, ?_⟩
    · intro i hi hnot
      have h0 := hun _ (List.getElem_mem hi) hnot
      exact ⟨h0, hnum i hi h0⟩
    · intro hA
      have hinv := Abc_NtkMiterSatCreateInt_allocInv ntk pSat pCopy fMarkA fMarkB hA r st h
      have hiff : ∀ x, Reached ntk (st.vNodes.take k) x ↔ x ∈ st.vNodes :=
        fun x => ⟨fun hx => (hinv.2.2 x).1 (hM x hx), hR x⟩
      refine ⟨hiff, ?_, ?_, ?_⟩
      · intro x y hx hy hxy
        exact AllocInv_injective st hinv x ((hiff x).1 hx) y ((hiff y).1 hy) hxy
      · intro x hx hne h0
        apply hne
        have hcmem : Abc_AigConst1 ntk ∈ st.vNodes := List.mem_iff_get?.2 ⟨0, hhead⟩
        exact AllocInv_injective st hinv x ((hiff x).1 hx) _ hcmem (by rw [h0, hc0])
      · intro x hx y hy hnx hny
        rw [hun x hx hnx, hun y hy hny]

/-- Witness of C25: on `netChain`, with clear marks, the pass returns 1 with the
allocation list `[0, 4]` (the constant node and the driver of the output, whose
supergate is contradictory): the inputs 1 and 2 are not reached, both have variable 0,
and `Abc_NtkGetCiSatVarNums` returns `[0, 0]`. -/
theorem C25_unreached_inputs_witness :
    ∃ r st, Abc_NtkMiterSatCreateInt netChain satAccept copyId noMarks noMarks = some (r, st) ∧
      st.vNodes = [0, 4] ∧
      ¬ Reached netChain st.vNodes 1 ∧ ¬ Reached netChain st.vNodes 2 ∧
      st.pCopy 1 = 0 ∧ st.pCopy 2 = 0 ∧ st.pCopy (Abc_AigConst1 netChain) = 0 ∧
      Abc_NtkGetCiSatVarNums netChain st.pCopy = [0, 0] := by
  have hall := C25_unreached_inputs netChain satAccept copyId noMarks noMarks
  cases h : Abc_NtkMiterSatCreateInt netChain satAccept copyId noMarks noMarks with
  | none =>
    have : (Abc_NtkMiterSatCreateInt netChain satAccept copyId noMarks noMarks).isSome
        = true := by decide
    simp [h] at this
  | some x =>
    obtain ⟨r, st⟩ := x
    have hv : st.vNodes = [0, 4] := by
      have := netChain_clauses
      rw [h] at this
      simp only [Option.map_some', Option.some.injEq, Prod.mk.injEq] at this
      exact this.2.1
    obtain ⟨hc0, _, _, hci, _⟩ := hall.2 r st h
    have h1 := hci 0 (by decide) (by rw [hv]; decide)
    have h2 := hci 1 (by decide) (by rw [hv]; decide)
    refine ⟨r, st, rfl, hv, ?_, ?_, h1.1, h2.1, hc0, ?_⟩
    · rw [hv]; unfold Reached; decide
    · rw [hv]; unfold Reached; decide
    · rw [Abc_NtkGetCiSatVarNums_eq]
      show [st.pCopy 1, st.pCopy 2] = [0, 0]
      rw [show st.pCopy 1 = 0 from h1.1, show st.pCopy 2 = 0 from h2.1]

end AbcSat
